import Mathlib

/-!
# json (JSON.hpp): a shallow embedding

The header keeps all of its state in globals (`_j`, `_i`, `_nodes_in_memory`) and in heap
objects linked by raw pointers. The embedding threads one `State` value through every routine:
the scanner globals, a heap of `Node` cells addressed by allocation index (a pointer is a
`Nat`), the live-node counter, the diagnostics written to `std::cerr` and the log of `delete`
calls.

Modelling assumptions, stated once:
* `char` is Lean's `Char`, `std::string` is `List Char`;
* `int` is `Int`: buffers are shorter than `2^31` characters, so `_i` never wraps; the only
  machine effect kept is the conversion of a negative `int` to `size_t` in `>=` comparisons
  (`geSize`);
* `double`: a `Double` records the sign and the decimal magnitude that `std::strtod`
  converted; the value the member holds is the IEEE 754 binary64 nearest to it (`binary64`:
  round to nearest, ties to even, `HUGE_VAL` on overflow), `strtod` and `printf("%f")` being
  correctly rounded, as they are in the C libraries in use;
* loops are recursions on a fuel counter that each wrapper sets from the buffer (or heap)
  size; running out of it is the model-only outcome `Exc.outOfFuel`.
-/

namespace json

/-! ## Data types -/

/-- The `enum Type` tag stored in every node. -/
inductive Type_ where
  | boolean | number | string | array | object | null
deriving DecidableEq, Repr

/-- A C++ `double` as this header produces one: the result of `std::strtod` on a text over
digits, `.` and `-`. `neg` is the sign bit and `mag` the decimal magnitude that was converted.
The member holds the binary64 nearest to that magnitude (`Double.stored`, defined with
`binary64` below), and every use of the member, `std::to_string` and the comparison of trees,
goes through that rounding. -/
structure Double where
  neg : Bool
  mag : ℚ
deriving DecidableEq

/-- The data members each subclass adds to `Node`. An `Object` holds its
`std::unordered_map<std::string, Node*>`, kept here as an association list with pairwise
distinct keys; the list order stands for the iteration order of the hash table, which C++
leaves unspecified (the embedding lists keys in order of first insertion). -/
inductive Payload where
  | Boolean (value : Bool)
  | Null
  | Number (value : Double)
  | String (value : List Char)
  | Object (map : List (List Char × Nat))
  | Array
deriving DecidableEq

/-- One heap cell: `class Node` (`parent`, `children`) with the members of its dynamic class. -/
structure Node where
  payload : Payload
  parent : Option Nat
  children : List Nat
deriving DecidableEq

/-- The `type` member, as each subclass constructor sets it. -/
def Node.type (n : Node) : Type_ :=
  match n.payload with
  | .Boolean _ => .boolean
  | .Null => .null
  | .Number _ => .number
  | .String _ => .string
  | .Object _ => .object
  | .Array => .array

/-- What a routine can throw. `unexpectedChar` and `unexpectedEOF` are the `std::exception`
objects built by `_unexpectedCharErr` and `_unexpectedEOF` (with the character and position
their message carries); `invalidNumber` is the `const char*` thrown by `_parseNumber`.
The last two are outcomes of the model, not exceptions of the program: `undefinedRead` marks an
unchecked `_j[_i]` outside `[0, size]`, `outOfFuel` an exhausted loop counter. -/
inductive Exc where
  | unexpectedChar (c : Char) (pos : Int)
  | unexpectedEOF (pos : Int)
  | invalidNumber
  | undefinedRead
  | outOfFuel
deriving DecidableEq, Repr

/-- Whether `catch (std::exception e)` matches the thrown object. -/
def Exc.isStdException : Exc → Bool
  | .unexpectedChar _ _ => true
  | .unexpectedEOF _ => true
  | _ => false

/-- The whole program state: scanner globals `_j`, `_i`; the heap; `_nodes_in_memory`; what
`parse` wrote to `std::cerr`; and the pointers passed to `delete`, oldest first. -/
structure State where
  _j : List Char
  _i : Int
  heap : List Node
  _nodes_in_memory : Int
  cerr : List Exc
  released : List Nat
deriving DecidableEq

/-- The state of a program that has not parsed anything yet. -/
def State.init : State := ⟨[], 0, [], 0, [], []⟩

/-- Outcome of a routine: a normal return or a thrown exception, each with the state left. -/
inductive Res (α : Type) where
  | ok (a : α) (s : State)
  | raise (e : Exc) (s : State)
deriving DecidableEq

/-- A routine of the header: a state transformer that may throw. -/
def M (α : Type) : Type := State → Res α

/-- Sequencing: an exception skips the rest. -/
def M.bind {α β : Type} (m : M α) (f : α → M β) : M β := fun s =>
  match m s with
  | .ok a s1 => f a s1
  | .raise e s1 => .raise e s1

instance : Monad M where
  pure a := fun s => .ok a s
  bind := M.bind

/-- The `throw` statement. -/
def raise {α : Type} (e : Exc) : M α := fun s => .raise e s

/-- The state after an outcome. -/
def Res.state {α : Type} : Res α → State
  | .ok _ s => s
  | .raise _ s => s

/-! ## Heap primitives -/

/-- Operator `new` followed by the `Node` constructor: a fresh cell with no parent and no
children; `_nodes_in_memory++`. -/
def newNode (p : Payload) : M Nat := fun s =>
  .ok s.heap.length
    { s with heap := s.heap ++ [⟨p, none, []⟩], _nodes_in_memory := s._nodes_in_memory + 1 }

/-- Reads a cell; a pointer outside the heap reads as a childless `Null` cell. -/
def deref (h : List Node) (p : Nat) : Node := h.getD p ⟨.Null, none, []⟩

/-- The body of `Node::~Node` on the cell `p`, which is also all that `delete n` runs for an
`n` of static type `Node*` (the destructor is not virtual): while `children` is not empty,
delete the last child and pop it; then `_nodes_in_memory--`. `Node.delete` is the `delete`
expression itself: it logs the pointer and runs the destructor. Deleting a pointer twice is
undefined in C++; here the second run sees the cell as the first one left it. -/
def Node.dtor : Nat → Nat → M Unit
  | 0, _ => raise .outOfFuel
  | fuel + 1, p => fun s =>
    match (deref s.heap p).children.getLast? with
    | none => .ok () { s with _nodes_in_memory := s._nodes_in_memory - 1 }
    | some n =>
      match Node.dtor fuel n { s with released := s.released ++ [n] } with
      | .raise e s1 => .raise e s1
      | .ok _ s1 =>
        Node.dtor fuel p
          { s1 with heap := s1.heap.modify (fun c => { c with children := c.children.dropLast }) p }

/-- The expression `delete n` for `n` of static type `Node*` (or `String*`). -/
def Node.delete (n : Nat) : M Unit := fun s =>
  Node.dtor (2 * s.heap.length + 1) n { s with released := s.released ++ [n] }

/-- Attaches `child` under `parent`: nothing for a null parent, otherwise
`parent->children.push_back(child); child->parent = parent`. -/
def _hPrt (parent : Option Nat) (child : Nat) : M Unit := fun s =>
  match parent with
  | none => .ok () s
  | some p =>
    let h1 := s.heap.modify (fun c => { c with children := c.children ++ [child] }) p
    let h2 := h1.modify (fun c => { c with parent := some p }) child
    .ok () { s with heap := h2 }

/-! ## Object and Array members -/

/-- The statement `(*map)[key] = val` on an association list: overwrite in place when the key
is present, add the pair otherwise. -/
def mapSet {α : Type} (key : List Char) (val : α) : List (List Char × α) → List (List Char × α)
  | [] => [(key, val)]
  | (k, v) :: m => if k = key then (k, val) :: m else (k, v) :: mapSet key val m

/-- Lookup in the key index. -/
def mapFind {α : Type} (key : List Char) : List (List Char × α) → Option α
  | [] => none
  | (k, v) :: m => if k = key then some v else mapFind key m

/-- The key index of the cell `o` (empty when `o` is not an `Object`). -/
def Object.map (h : List Node) (o : Nat) : List (List Char × Nat) :=
  match (deref h o).payload with
  | .Object m => m
  | _ => []

/-- The member `Object::size`: the number of keys. -/
def Object.size (h : List Node) (o : Nat) : Int := ((Object.map h o).length : Int)

/-- The member `Object::set(std::string, Node*)`: writes the key index only. -/
def Object.set (o : Nat) (key : List Char) (val : Nat) : M Unit := fun s =>
  let upd : Node → Node := fun c =>
    match c.payload with
    | .Object m => { c with payload := .Object (mapSet key val m) }
    | _ => c
  .ok () { s with heap := s.heap.modify upd o }

/-- The member `Object::set(String*, Node*)`: `set(s->value, v)`. -/
def Object.setS (o : Nat) (key : Nat) (val : Nat) : M Unit := fun s =>
  match (deref s.heap key).payload with
  | .String v => Object.set o v val s
  | _ => Object.set o [] val s

/-- The member `Object::get`: the mapped pointer, or `none` for `NULL`. -/
def Object.get (h : List Node) (o : Nat) (key : List Char) : Option Nat :=
  mapFind key (Object.map h o)

/-- The member `Array::size`: the number of children. -/
def Array.size (h : List Node) (a : Nat) : Int := ((deref h a).children.length : Int)

/-! ## Scanner -/

/-- The comparison `x >= _j.size()` for an `int` `x`: the `int` is converted to `size_t`, so a
negative `x` compares as a huge value. -/
def geSize (x : Int) (size : Nat) : Bool := decide (x < 0) || decide ((size : Int) ≤ x)

/-- The body `_i++; if (_i >= _j.size()) { _i = (int)_j.size() - 1; return true; } return false;` -/
def _iis : M Bool := fun s =>
  let s1 := { s with _i := s._i + 1 }
  if geSize s1._i s1._j.length then .ok true { s1 with _i := (s1._j.length : Int) - 1 }
  else .ok false s1

/-- The function `_unexpectedEOF`: the exception carrying the current position. -/
def _unexpectedEOF : M Exc := fun s => .ok (.unexpectedEOF s._i) s

/-- The body `_i++; if (_i >= _j.size()) throw _unexpectedEOF();` -/
def _ii : M Unit := fun s =>
  let s1 := { s with _i := s._i + 1 }
  if geSize s1._i s1._j.length then (_unexpectedEOF >>= raise) s1 else .ok () s1

/-- The unchecked read `_j[_i]`. At `_i = size` a `std::string` yields the terminator `'\0'`;
outside `[0, size]` the read is undefined. -/
def _c : M Char := fun s =>
  if 0 ≤ s._i ∧ s._i ≤ s._j.length then .ok (s._j.getD s._i.toNat '\x00') s
  else .raise .undefinedRead s

/-- Whether the current character is a space, tab, carriage return or line feed. -/
def _w : M Bool := do
  let c ← _c
  pure (c == ' ' || c == '\t' || c == '\r' || c == '\n')

/-- The checked read `_c(int i)`:
`if (i + _i >= _j.size()) throw _unexpectedEOF(); return _j[_i + i];` -/
def _cAt (i : Int) : M Char := fun s =>
  if geSize (i + s._i) s._j.length then (_unexpectedEOF >>= raise) s
  else .ok (s._j.getD (s._i + i).toNat '\x00') s

/-- The function `_unexpectedCharErr`: reads the current character (unchecked) for its message. -/
def _unexpectedCharErr : M Exc := do
  let c ← _c
  fun s => .ok (.unexpectedChar c s._i) s

/-- The loop of `_eq`, from index `i` on: `if (_c(i) != s[i]) return false;` -/
def _eq.loop : List Char → Int → M Bool
  | [], _ => pure true
  | ch :: rest, i => do
    let c ← _cAt i
    if c ≠ ch then pure false else _eq.loop rest (i + 1)

/-- Whether the upcoming characters equal `lit`; consumes nothing, throws at the end of input. -/
def _eq (lit : List Char) : M Bool := _eq.loop lit 0

/-- The loop of `_skipWhiteSpaces`:
`while (_w()) { if (!throwErr) if (_iis()) return; _ii(); }` -/
def _skipWhiteSpaces.loop (throwErr : Bool) : Nat → M Unit
  | 0 => raise .outOfFuel
  | fuel + 1 => do
    let w ← _w
    if w then
      let ended ← (if !throwErr then _iis else pure false)
      if ended then pure ()
      else
        _ii
        _skipWhiteSpaces.loop throwErr fuel
    else pure ()

/-- The routine `_skipWhiteSpaces(bool throwErr = true)`. -/
def _skipWhiteSpaces (throwErr : Bool) : M Unit := fun s =>
  _skipWhiteSpaces.loop throwErr (s._j.length + 1) s

/-! ## Parsing -/

/-- The statement `_i += k`. -/
def addI (k : Int) : M Unit := fun s => .ok () { s with _i := s._i + k }

/-- The loop of `_parseString`:
`while (_c() != c || _c(-1) == '\\') { val.push_back(_c()); _ii(); }` -/
def _parseString.loop (c : Char) : Nat → List Char → M (List Char)
  | 0, _ => raise .outOfFuel
  | fuel + 1, val => do
    let cur ← _c
    let go ← (if cur ≠ c then pure true else do
      let p ← _cAt (-1)
      pure (p == '\\'))
    if go then
      let ch ← _c
      _ii
      _parseString.loop c fuel (val ++ [ch])
    else pure val

/-- The routine `_parseString`: the characters between the opening quote and the first later
occurrence of it that no backslash precedes, copied verbatim into a new `String` node. -/
def _parseString (parent : Option Nat) : M Nat := do
  let c ← _c
  _ii
  let val ← fun s => _parseString.loop c (s._j.length + 1) [] s
  _ii
  let s ← newNode (.String val)
  _hPrt parent s
  pure s

/-- The loop condition of `_parseNumber`:
`c >= '0' && c <= '9' || c == '.' || c == '-'`. -/
def isNumChar (c : Char) : Bool := ('0' ≤ c && c ≤ '9') || c == '.' || c == '-'

/-- The loop of `_parseNumber`: `while (isNumChar(_c())) { str.push_back(_c()); _ii(); }` -/
def _parseNumber.loop : Nat → List Char → M (List Char)
  | 0, _ => raise .outOfFuel
  | fuel + 1, str => do
    let cur ← _c
    if isNumChar cur then
      let ch ← _c
      _ii
      _parseNumber.loop fuel (str ++ [ch])
    else pure str

/-- The number a run of decimal digits denotes. -/
def digitsValue (ds : List Char) : Nat :=
  ds.foldl (fun acc d => 10 * acc + (d.toNat - '0'.toNat)) 0

/-- The library call `std::strtod(str, &end)` in the "C" locale, on the texts `_parseNumber`
hands it (digits, `.` and `-` only): the longest prefix of the form `-`? digits (`.` digits)?
holding at least one digit is converted; the result is the value, given by its sign and the
decimal magnitude converted (see `Double`), and the offset of `end`.
When no such prefix exists nothing is converted: the value is `0` and `end` is the start. -/
def strtod (str : List Char) : Double × Nat :=
  let neg := decide (str.head? = some '-')
  let body := if neg then str.tail else str
  let ip := body.takeWhile Char.isDigit
  let rest := body.dropWhile Char.isDigit
  let hasDot := decide (rest.head? = some '.')
  let fp := if hasDot then rest.tail.takeWhile Char.isDigit else []
  if ip.isEmpty && fp.isEmpty then (⟨false, 0⟩, 0)
  else
    (⟨neg, (digitsValue (ip ++ fp) : ℚ) / 10 ^ fp.length⟩,
      (if neg then 1 else 0) + ip.length + (if hasDot then 1 + fp.length else 0))

/-- The routine `_parseNumber`: collects the run of number characters, converts it, and throws
the `const char*` when `*end != 0`, that is when the conversion stopped inside the run. -/
def _parseNumber (parent : Option Nat) : M Nat := do
  let str ← fun s => _parseNumber.loop (s._j.length + 1) [] s
  let r := strtod str
  if str.getD r.2 '\x00' ≠ '\x00' then raise .invalidNumber
  else
    let n ← newNode (.Number r.1)
    _hPrt parent n
    pure n

/-- The routine `_parseBoolean`. -/
def _parseBoolean (parent : Option Nat) : M Nat := do
  let t ← _eq "true".toList
  let b ← (if t then do
      let b ← newNode (.Boolean true)
      addI 4
      pure b
    else do
      let f ← _eq "false".toList
      if f then
        let b ← newNode (.Boolean false)
        addI 5
        pure b
      else _unexpectedCharErr >>= raise)
  _hPrt parent b
  pure b

/-- The routine `_parseNull`. -/
def _parseNull (parent : Option Nat) : M Nat := do
  let e ← _eq "null".toList
  if !e then _unexpectedCharErr >>= raise
  else
    addI 4
    let n ← newNode .Null
    _hPrt parent n
    pure n

mutual
/-- The routine `_parse`: skip whitespace, then dispatch on the current character. -/
def _parse : Nat → Option Nat → M Nat
  | 0, _ => raise .outOfFuel
  | fuel + 1, parent => do
    _skipWhiteSpaces true
    let c ← _c
    if c = 'n' then _parseNull parent
    else if c = 't' ∨ c = 'f' then _parseBoolean parent
    else if isNumChar c then _parseNumber parent
    else if c = '"' then _parseString parent
    else if c = '{' then _parseObject fuel parent
    else if c = '[' then _parseArray fuel parent
    else _unexpectedCharErr >>= raise
/-- The routine `_parseObject`. -/
def _parseObject : Nat → Option Nat → M Nat
  | 0, _ => raise .outOfFuel
  | fuel + 1, parent => do
    let o ← newNode (.Object [])
    _hPrt parent o
    _ii
    _parseObject.loop fuel o
    let _ ← _iis
    pure o
/-- The loop of `_parseObject`, `while (_c() != '}') { ... }`: one member per turn. -/
def _parseObject.loop : Nat → Nat → M Unit
  | 0, _ => raise .outOfFuel
  | fuel + 1, o => do
    let c ← _c
    if c ≠ '}' then
      _skipWhiteSpaces true
      let c1 ← _c
      if c1 ≠ '"' then _unexpectedCharErr >>= raise
      else
        let key ← _parseString none
        _skipWhiteSpaces true
        let c2 ← _c
        if c2 ≠ ':' then _unexpectedCharErr >>= raise
        else
          _ii
          let val ← _parse fuel (some o)
          _skipWhiteSpaces true
          let c3 ← _c
          if c3 ≠ ',' ∧ c3 ≠ '}' then _unexpectedCharErr >>= raise
          else
            (if c3 = ',' then _ii else pure ())
            Object.setS o key val
            Node.delete key
            _parseObject.loop fuel o
    else pure ()
/-- The routine `_parseArray`. -/
def _parseArray : Nat → Option Nat → M Nat
  | 0, _ => raise .outOfFuel
  | fuel + 1, parent => do
    let a ← newNode .Array
    _hPrt parent a
    _ii
    _parseArray.loop fuel a
    let _ ← _iis
    pure a
/-- The loop of `_parseArray`, `while (_c() != ']') { ... }`: one element per turn. -/
def _parseArray.loop : Nat → Nat → M Unit
  | 0, _ => raise .outOfFuel
  | fuel + 1, a => do
    let c ← _c
    if c ≠ ']' then
      _skipWhiteSpaces true
      let _ ← _parse fuel (some a)
      _skipWhiteSpaces true
      let c3 ← _c
      if c3 ≠ ',' ∧ c3 ≠ ']' then _unexpectedCharErr >>= raise
      else
        (if c3 = ',' then _ii else pure ())
        _parseArray.loop fuel a
    else pure ()
end

/-- The entry point `parse`, run in the program state `g`: load the buffer, reset the cursor,
parse one value with no parent; a `std::exception` is caught, written to `std::cerr`, and
`NULL` (`none`) is returned; anything else that was thrown leaves `parse`. -/
def parse (text : List Char) (g : State) : Res (Option Nat) :=
  match _parse (4 * text.length + 4) none { g with _j := text, _i := 0 } with
  | .ok n s => .ok (some n) s
  | .raise e s =>
    if e.isStdException then .ok none { s with cerr := s.cerr ++ [e] } else .raise e s

/-! ## Serialisation -/

/-- The last `width` decimal digits of `n`, most significant first. -/
def fixedDigits : Nat → Nat → List Char
  | 0, _ => []
  | width + 1, n => fixedDigits width (n / 10) ++ [Nat.digitChar (n % 10)]

/-! ## The binary64 format -/

/-- The power of two `2^k` for an integer exponent. -/
def pow2 (k : Int) : ℚ :=
  if 0 ≤ k then ((2 ^ k.toNat : Nat) : ℚ) else 1 / ((2 ^ (-k).toNat : Nat) : ℚ)

/-- Rounding of a non-negative rational to the nearest integer, a tie going to the even one. -/
def roundHalfEven (q : ℚ) : Nat :=
  let f := (Rat.floor q).toNat
  if q - f < 1 / 2 then f
  else if 1 / 2 < q - f then f + 1
  else if f % 2 = 0 then f else f + 1

/-- The number of binary digits of `n`, counted with at most `fuel` halvings. -/
def bitLen : Nat → Nat → Nat
  | 0, _ => 0
  | fuel + 1, n => if n = 0 then 0 else bitLen fuel (n / 2) + 1

/-- The position of the leading binary digit of a positive natural number. -/
def log2 (n : Nat) : Nat := bitLen n n - 1

/-- The exponent of a positive rational: the `e` with `2^e ≤ q < 2^(e+1)`. -/
def floorLog2 (q : ℚ) : Int :=
  let e0 : Int := (log2 q.num.toNat : Int) - (log2 q.den : Int)
  if pow2 e0 ≤ q then e0 else e0 - 1

/-- The binary64 value nearest to a non-negative rational, as `std::strtod` returns it: 53
significant bits (fewer below `2^-1022`), a tie going to the even significand; `none` is
`HUGE_VAL`, returned when the rounded value does not fit. -/
def binary64 (q : ℚ) : Option ℚ :=
  if q ≤ 0 then some 0
  else
    let k : Int := max (floorLog2 q - 52) (-1074)
    let r : ℚ := (roundHalfEven (q / pow2 k) : ℚ) * pow2 k
    if r < pow2 1024 then some r else none

/-- What the member `double value` of a `Number` holds: the sign bit and the binary64 nearest
to the magnitude that was converted, `none` standing for `HUGE_VAL`. -/
def Double.stored (v : Double) : Bool × Option ℚ := (v.neg, binary64 v.mag)

/-- The conversion did not overflow: the member holds a finite `double`. -/
def Double.finite (v : Double) : Prop := (binary64 v.mag).isSome = true

/-- The library call `std::to_string(double)`, that is `printf("%f")`, on the stored binary64:
sign, integer part, a point and exactly six decimals, the stored value being rounded to the
nearest millionth (a tie going to the even digit); `inf` for `HUGE_VAL`. -/
def to_string (v : Double) : List Char :=
  match binary64 v.mag with
  | none => (if v.neg then ['-'] else []) ++ ['i', 'n', 'f']
  | some x =>
    let n := roundHalfEven (x * 1000000)
    (if v.neg then ['-'] else []) ++ Nat.toDigits 10 (n / 1000000) ++ ['.'] ++
      fixedDigits 6 (n % 1000000)

/-- The step of the loop in `Array::toString`: `if (s.size() > 1) s += ","; s += t;` -/
def appendItem (s t : List Char) : List Char :=
  (if s.length > 1 then s ++ [','] else s) ++ t

/-- The virtual member `toString`, dispatched on the class of the cell `p`. `ord` is the
iteration order of `std::unordered_map`: it receives the key index and returns it in the order
the range-for of `Object::toString` visits it. The result is `none` when the fuel is exhausted
before the recursion ends. -/
def Node.toString (ord : List (List Char × Nat) → List (List Char × Nat)) :
    Nat → List Node → Nat → Option (List Char)
  | 0, _, _ => none
  | fuel + 1, h, p =>
    match (deref h p).payload with
    | .Boolean v => some (if v then "true".toList else "false".toList)
    | .Null => some "null".toList
    | .Number v => some (to_string v)
    | .String v => some (['"'] ++ v ++ ['"'])
    | .Array =>
      ((deref h p).children.foldlM
        (fun s n => (Node.toString ord fuel h n).map (fun t => appendItem s t)) ['[']).map
        (fun s => s ++ [']'])
    | .Object m =>
      ((ord m).foldlM
        (fun s a => (Node.toString ord fuel h a.2).map
          (fun t => appendItem s (['"'] ++ a.1 ++ ['"', ':']) ++ t)) ['{']).map
        (fun s => s ++ ['}'])

/-! ## Derived-class destructors -/

/-- The loop of `Array::~Array`: `for (i = 0; i < children.size(); i++) delete children[i];` -/
def Array.dtor.loop (a : Nat) : Nat → Nat → M Unit
  | 0, _ => raise .outOfFuel
  | fuel + 1, i => fun s =>
    let cs := (deref s.heap a).children
    if i < cs.length then
      match Node.delete (cs.getD i 0) s with
      | .raise e s1 => .raise e s1
      | .ok _ s1 => Array.dtor.loop a fuel (i + 1) s1
    else .ok () s

/-- Destroying the cell `a` as an `Array` (a `delete` through `Array*`, or an `Array` object
going out of scope): the body of `Array::~Array`, then the base destructor `Node::~Node`. -/
def Array.dtor (a : Nat) : M Unit := fun s =>
  match Array.dtor.loop a ((deref s.heap a).children.length + 1) 0 s with
  | .raise e s1 => .raise e s1
  | .ok _ s1 => Node.dtor (2 * s1.heap.length + 1) a s1

/-- The loop of `Object::~Object` over the pairs of the key index: `delete itr->second;` -/
def Object.dtor.loop : List (List Char × Nat) → M Unit
  | [] => pure ()
  | a :: m => fun s =>
    match Node.delete a.2 s with
    | .raise e s1 => .raise e s1
    | .ok _ s1 => Object.dtor.loop m s1

/-- Destroying the cell `o` as an `Object`: the body of `Object::~Object` (delete every mapped
node, then the map), then the base destructor `Node::~Node`. -/
def Object.dtor (ord : List (List Char × Nat) → List (List Char × Nat)) (o : Nat) : M Unit :=
  fun s =>
  match Object.dtor.loop (ord (Object.map s.heap o)) s with
  | .raise e s1 => .raise e s1
  | .ok _ s1 => Node.dtor (2 * s1.heap.length + 1) o s1

/-! ## Reference notions used in the statements -/

/-- A well-formed decimal: an optional single leading `-`, then digits with at most one `.`,
and at least one digit. -/
def wellFormedDecimal (r : List Char) : Bool :=
  let body := if r.head? = some '-' then r.tail else r
  body.all (fun c => c.isDigit || c == '.') && decide (body.count '.' ≤ 1) &&
    body.any Char.isDigit

/-- The decimal value of a well-formed decimal: its digits read as one natural number, divided
by ten to the number of digits after the point, with the sign of the leading `-`. -/
def decimalValue (r : List Char) : Double :=
  let body := if r.head? = some '-' then r.tail else r
  ⟨decide (r.head? = some '-'),
    (digitsValue (body.filter Char.isDigit) : ℚ) /
      10 ^ (body.dropWhile (fun c => c != '.')).tail.length⟩

/-- The texts of the two well-formed shapes: sign, integer digits, and optionally a point with
fraction digits. -/
def decimalShape (neg : Bool) (ip fp : List Char) (dot : Bool) : List Char :=
  (if neg then ['-'] else []) ++ ip ++ (if dot then '.' :: fp else [])

/-- The heap after `_hPrt(parent, child)`. -/
def attached (parent : Option Nat) (child : Nat) (h : List Node) : List Node :=
  match parent with
  | none => h
  | some p =>
    (h.modify (fun c => { c with children := c.children ++ [child] }) p).modify
      (fun c => { c with parent := some p }) child

/-- Applies `f` to every element; `none` as soon as one result is missing. -/
def allSome {α β : Type} (f : α → Option β) : List α → Option (List β)
  | [] => some []
  | a :: l =>
    match f a, allSome f l with
    | some b, some bs => some (b :: bs)
    | _, _ => none

/-- The compact reference rendering of the cell `p`: literals as their names, a string as its
raw value between double quotes, an array as `[`, the renderings of its children in order
joined by single commas, `]`, and an object as `{`, its `"key":value` pairs in the order `ord`
yields them joined by single commas, `}`. -/
def refRender (ord : List (List Char × Nat) → List (List Char × Nat)) :
    Nat → List Node → Nat → Option (List Char)
  | 0, _, _ => none
  | fuel + 1, h, p =>
    match (deref h p).payload with
    | .Boolean v => some (if v then "true".toList else "false".toList)
    | .Null => some "null".toList
    | .Number v => some (to_string v)
    | .String v => some (['"'] ++ v ++ ['"'])
    | .Array =>
      (allSome (refRender ord fuel h) (deref h p).children).map
        (fun ts => ['['] ++ List.intercalate [','] ts ++ [']'])
    | .Object m =>
      (allSome (fun a => (refRender ord fuel h a.2).map
          (fun t => ['"'] ++ a.1 ++ ['"', ':'] ++ t)) (ord m)).map
        (fun ts => ['{'] ++ List.intercalate [','] ts ++ ['}'])

/-- Whether the cells below `p` nest less than `fuel` deep (following children of arrays and
mapped nodes of objects). -/
def nestsWithin : Nat → List Node → Nat → Bool
  | 0, _, _ => false
  | fuel + 1, h, p =>
    match (deref h p).payload with
    | .Array => (deref h p).children.all (nestsWithin fuel h)
    | .Object m => m.all (fun a => nestsWithin fuel h a.2)
    | _ => true

/-- The four characters `_w` accepts. -/
def isWhite (c : Char) : Bool := c == ' ' || c == '\t' || c == '\r' || c == '\n'

/-- The literal a value starting with `n`, `t` or `f` has to spell. -/
def literalFor (c : Char) : List Char :=
  if c = 'n' then "null".toList else if c = 't' then "true".toList else "false".toList

/-! ## Value texts

The statements about whole documents quantify over the compact texts of a small syntax of
values, `Val`, and describe what parsing such a text leaves in the heap. -/

/-- The values whose compact text the statements range over: the three literals, a number given
by its text, a string given by its raw body, an array of values, and an object given by its
members in source order. -/
inductive Val where
  | null
  | bool (b : Bool)
  | num (text : List Char)
  | str (body : List Char)
  | arr (es : List Val)
  | obj (ms : List (List Char × Val))

/-- A string body that `_parseString` reads back whole: every `"` in it directly follows a
backslash, and it does not end with a backslash. `prev` is the character before the body
(for a whole body, the opening quote). -/
def strBodyOk (prev : Char) : List Char → Bool
  | [] => prev != '\\'
  | x :: r => (x != '"' || prev == '\\') && strBodyOk x r

mutual
/-- The compact text of a value: no whitespace, elements and members separated by one comma. -/
def Val.render : Val → List Char
  | .null => "null".toList
  | .bool b => if b then "true".toList else "false".toList
  | .num t => t
  | .str b => ['"'] ++ b ++ ['"']
  | .arr es => ['['] ++ Val.renderElems es ++ [']']
  | .obj ms => ['{'] ++ Val.renderMembers ms ++ ['}']
/-- The texts of the elements, comma-separated. -/
def Val.renderElems : List Val → List Char
  | [] => []
  | e :: es =>
    match es with
    | [] => e.render
    | _ :: _ => e.render ++ [','] ++ Val.renderElems es
/-- The texts `"key":value` of the members, comma-separated. -/
def Val.renderMembers : List (List Char × Val) → List Char
  | [] => []
  | (k, v) :: ms =>
    match ms with
    | [] => ['"'] ++ k ++ ['"', ':'] ++ v.render
    | _ :: _ => ['"'] ++ k ++ ['"', ':'] ++ v.render ++ [','] ++ Val.renderMembers ms
end

mutual
/-- Well-formed values: numbers are well-formed decimals, string bodies and keys satisfy
`strBodyOk`. -/
def Val.ok : Val → Bool
  | .null => true
  | .bool _ => true
  | .num t => wellFormedDecimal t
  | .str b => strBodyOk '"' b
  | .arr es => Val.okElems es
  | .obj ms => Val.okMembers ms
/-- Every element is well formed. -/
def Val.okElems : List Val → Bool
  | [] => true
  | e :: es => e.ok && Val.okElems es
/-- Every key and member value is well formed. -/
def Val.okMembers : List (List Char × Val) → Bool
  | [] => true
  | (k, v) :: ms => strBodyOk '"' k && v.ok && Val.okMembers ms
end

mutual
/-- A recursion budget that suffices for `_parse` on the text of a value. -/
def Val.need : Val → Nat
  | .arr es => Val.needElems es + 2
  | .obj ms => Val.needMembers ms + 2
  | _ => 1
/-- A budget that suffices for the array loop over these elements (one unit per turn, one for
the exit, and what each element needs). -/
def Val.needElems : List Val → Nat
  | [] => 1
  | e :: es => e.need + Val.needElems es + 1
/-- A budget that suffices for the object loop over these members. -/
def Val.needMembers : List (List Char × Val) → Nat
  | [] => 1
  | (_, v) :: ms => v.need + Val.needMembers ms + 1
end

/-- The state after `new` of a node with payload `p` and `_hPrt(parent, node)`. -/
def leaf (p : Payload) (parent : Option Nat) (s : State) : State :=
  { s with
    heap := attached parent s.heap.length (s.heap ++ [⟨p, none, []⟩])
    _nodes_in_memory := s._nodes_in_memory + 1 }

/-- The heap after `o->set(key, val)` for a key text `k`. -/
def heapSet (o : Nat) (k : List Char) (val : Nat) (h : List Node) : List Node :=
  h.modify (fun c =>
    match c.payload with
    | .Object m => { c with payload := .Object (mapSet k val m) }
    | _ => c) o

/-- The state after `o->set(key, val); delete key;` where `key` is a childless node. -/
def memberDone (o : Nat) (k : List Char) (key val : Nat) (s : State) : State :=
  { s with
    heap := heapSet o k val s.heap
    _nodes_in_memory := s._nodes_in_memory - 1
    released := s.released ++ [key] }

mutual
/-- What parsing the text of a value under `parent` does to the heap, the live-node counter
and the release log: the node of the value is allocated at the first free index, attached, and
then filled in source order. -/
def Val.build : Val → Option Nat → State → State
  | .null, parent, s => leaf .Null parent s
  | .bool b, parent, s => leaf (.Boolean b) parent s
  | .num t, parent, s => leaf (.Number (decimalValue t)) parent s
  | .str b, parent, s => leaf (.String b) parent s
  | .arr es, parent, s => Val.buildElems es s.heap.length (leaf .Array parent s)
  | .obj ms, parent, s => Val.buildMembers ms s.heap.length (leaf (.Object []) parent s)
/-- The elements are built one after the other as children of `a`. -/
def Val.buildElems : List Val → Nat → State → State
  | [], _, s => s
  | e :: es, a, s => Val.buildElems es a (e.build (some a) s)
/-- Each member allocates its key (a parentless `String`), builds its value as a child of `o`,
records the pair in the key index of `o` and deletes the key. -/
def Val.buildMembers : List (List Char × Val) → Nat → State → State
  | [], _, s => s
  | (k, v) :: ms, o, s =>
    Val.buildMembers ms o
      (memberDone o k s.heap.length (s.heap.length + 1)
        (v.build (some o) (leaf (.String k) none s)))
end

/-- What a routine that builds nodes under `parent` leaves untouched: the buffer, the error
log, and every cell that existed before other than the parent's. -/
def Frame (parent : Option Nat) (s s' : State) : Prop :=
  s'._j = s._j ∧ s'.cerr = s.cerr ∧ s.heap.length ≤ s'.heap.length ∧
  ∀ i, i < s.heap.length → parent ≠ some i → deref s'.heap i = deref s.heap i

/-- The text of a value is parsed to the state `build` describes, wherever it stands in the
buffer, provided a character that cannot continue a number follows it. -/
def ParseOK (v : Val) : Prop :=
  ∀ (fuel : Nat) (s : State) (parent : Option Nat) (pre post : List Char) (c : Char),
    v.need ≤ fuel → s._j = pre ++ v.render ++ c :: post → s._i = pre.length →
    isNumChar c = false →
    _parse fuel parent s =
      .ok s.heap.length { v.build parent s with _i := pre.length + v.render.length }

/-- The first character of a value text, as `_parse` dispatches on it. -/
def isStart (h : Char) : Prop :=
  h = 'n' ∨ h = 't' ∨ h = 'f' ∨ isNumChar h = true ∨ h = '"' ∨ h = '[' ∨ h = '{'


/-- The texts of the elements, each followed by a comma. -/
def Val.renderCommas : List Val → List Char
  | [] => []
  | e :: es => e.render ++ [','] ++ Val.renderCommas es

/-- The texts `"key":value` of the members, each followed by a comma. -/
def Val.renderMembersCommas : List (List Char × Val) → List Char
  | [] => []
  | kv :: ms => ['"'] ++ kv.1 ++ ['"', ':'] ++ kv.2.render ++ [','] ++ Val.renderMembersCommas ms

/-! ## Trees read off the heap -/

/-- A document tree as a value: what a node and everything below it hold, without addresses.
An object is given by its key index, in the order of the index. -/
inductive Tree where
  | Null
  | Boolean (value : Bool)
  | Number (value : Double)
  | String (value : List Char)
  | Array (children : List Tree)
  | Object (members : List (List Char × Tree))

/-- The tree below the cell `p`: an array through its `children`, an object through its key
index. `none` when the structure nests deeper than `fuel`. -/
def view : Nat → List Node → Nat → Option Tree
  | 0, _, _ => none
  | fuel + 1, h, p =>
    match (deref h p).payload with
    | .Null => some .Null
    | .Boolean v => some (.Boolean v)
    | .Number v => some (.Number v)
    | .String v => some (.String v)
    | .Array => (allSome (view fuel h) (deref h p).children).map .Array
    | .Object m =>
      (allSome (fun a => (view fuel h a.2).map (fun t => (a.1, t))) m).map .Object

mutual
/-- The tree a value text denotes. Members are entered into the key index in source order, a
repeated key overwriting the earlier entry in place. -/
def Val.tree : Val → Tree
  | .null => .Null
  | .bool b => .Boolean b
  | .num t => .Number (decimalValue t)
  | .str b => .String b
  | .arr es => .Array (Val.treeElems es)
  | .obj ms => .Object ((Val.treeMembers ms).foldl (fun m kv => mapSet kv.1 kv.2 m) [])
/-- The trees of the elements. -/
def Val.treeElems : List Val → List Tree
  | [] => []
  | e :: es => e.tree :: Val.treeElems es
/-- The keys with the trees of the member values, in source order. -/
def Val.treeMembers : List (List Char × Val) → List (List Char × Tree)
  | [] => []
  | (k, v) :: ms => (k, v.tree) :: Val.treeMembers ms
end

mutual
/-- The number of heap cells parsing a value text allocates (key strings included). -/
def Val.cells : Val → Nat
  | .arr es => Val.cellsElems es + 1
  | .obj ms => Val.cellsMembers ms + 1
  | _ => 1
/-- Cells of all the elements. -/
def Val.cellsElems : List Val → Nat
  | [] => 0
  | e :: es => e.cells + Val.cellsElems es
/-- Cells of all the members: one key string and the value each. -/
def Val.cellsMembers : List (List Char × Val) → Nat
  | [] => 0
  | (_, v) :: ms => 1 + v.cells + Val.cellsMembers ms
end

mutual
/-- Nesting depth of a value. -/
def Val.depth : Val → Nat
  | .arr es => Val.depthElems es + 1
  | .obj ms => Val.depthMembers ms + 1
  | _ => 0
/-- Largest depth among the elements. -/
def Val.depthElems : List Val → Nat
  | [] => 0
  | e :: es => max e.depth (Val.depthElems es)
/-- Largest depth among the member values. -/
def Val.depthMembers : List (List Char × Val) → Nat
  | [] => 0
  | (_, v) :: ms => max v.depth (Val.depthMembers ms)
end

/-- The addresses of the element nodes when the first one is allocated at `b`. -/
def elemPtrs : List Val → Nat → List Nat
  | [], _ => []
  | e :: es, b => b :: elemPtrs es (b + e.cells)

/-- The keys with the addresses of the member values when the first key string is allocated
at `b`. -/
def memberPtrs : List (List Char × Val) → Nat → List (List Char × Nat)
  | [], _ => []
  | kv :: ms, b => (kv.1, b + 1) :: memberPtrs ms (b + 1 + kv.2.cells)

/-- The cell of the node of a value once it is built at address `b` under `parent`. -/
def Val.rootCell (v : Val) (parent : Option Nat) (b : Nat) : Node :=
  match v with
  | .null => ⟨.Null, parent, []⟩
  | .bool x => ⟨.Boolean x, parent, []⟩
  | .num t => ⟨.Number (decimalValue t), parent, []⟩
  | .str x => ⟨.String x, parent, []⟩
  | .arr es => ⟨.Array, parent, elemPtrs es (b + 1)⟩
  | .obj ms =>
    ⟨.Object ((memberPtrs ms (b + 1)).foldl (fun m kp => mapSet kp.1 kp.2 m) []), parent,
      (memberPtrs ms (b + 1)).map (fun kp => kp.2)⟩

/-- What is proved of every value by induction: wherever it is built, any heap that agrees
with the result on the cells of the value shows the tree of the value at its address. -/
def ViewOK (v : Val) : Prop :=
  ∀ (parent : Option Nat) (s : State) (h' : List Node) (fuel : Nat),
    (∀ p, parent = some p → p < s.heap.length) →
    (∀ i, s.heap.length ≤ i → i < s.heap.length + v.cells →
      deref h' i = deref (v.build parent s).heap i) →
    v.depth < fuel → view fuel h' s.heap.length = some v.tree

/-- Texts that end where more input is mandatory: whitespace and then an opening brace or
bracket that ends the text, or `[` followed by one or more well-formed values each followed by
a comma, the last comma ending the text. -/
def NeedsMore (text : List Char) : Prop :=
  (∃ w b, (∀ x ∈ w, isWhite x = true) ∧ (b = '{' ∨ b = '[') ∧ text = w ++ [b]) ∨
  (∃ es, Val.okElems es = true ∧ es ≠ [] ∧ text = '[' :: Val.renderCommas es)

/-- The decimal converted has at most six decimal places: the magnitude is a whole number of
millionths. -/
def Double.sixDecimals (x : Double) : Prop := ∃ n : Nat, x.mag = (n : ℚ) / 1000000

/-! ## Round trip -/

/-- The value whose compact text `toString` writes for the cell `p`: numbers through
`std::to_string`, strings raw, members in the iteration order `ord` of the key index. -/
def valOf (ord : List (List Char × Nat) → List (List Char × Nat)) :
    Nat → List Node → Nat → Option Val
  | 0, _, _ => none
  | fuel + 1, h, p =>
    match (deref h p).payload with
    | .Boolean v => some (.bool v)
    | .Null => some .null
    | .Number v => some (.num (to_string v))
    | .String v => some (.str v)
    | .Array => (allSome (valOf ord fuel h) (deref h p).children).map .arr
    | .Object m =>
      (allSome (fun a => (valOf ord fuel h a.2).map (fun v => (a.1, v))) (ord m)).map .obj

/-- The trees the round trip is stated for, read at the cell `p`: the structure nests within
`fuel`; every number is a whole number of millionths that is converted to a finite `double`;
in every string and key each quote
follows a backslash and the last character is not a backslash (in particular strings without
quote or backslash); the keys of every key index are pairwise distinct, as in any
`std::unordered_map`. -/
def CleanAt : Nat → List Node → Nat → Prop
  | 0, _, _ => False
  | fuel + 1, h, p =>
    match (deref h p).payload with
    | .Number v => v.sixDecimals ∧ v.finite
    | .String v => strBodyOk '"' v = true
    | .Array => ∀ c ∈ (deref h p).children, CleanAt fuel h c
    | .Object m =>
      (m.map Prod.fst).Nodup ∧ ∀ a ∈ m, strBodyOk '"' a.1 = true ∧ CleanAt fuel h a.2
    | _ => True

mutual
/-- Structural equality of trees in which objects are compared by key and value, not by the
order of their members: numbers agree when they hold the same `double`; arrays agree child by
child; objects have equally many members and every member of the first has, under the same
key, a member of the second that agrees with it. -/
def Tree.sim : Tree → Tree → Prop
  | .Null, t => t = .Null
  | .Boolean b, t => t = .Boolean b
  | .Number v, t => ∃ v', t = .Number v' ∧ v.stored = v'.stored
  | .String s, t => t = .String s
  | .Array cs, t => ∃ cs', t = .Array cs' ∧ Tree.simList cs cs'
  | .Object ms, t => ∃ ms', t = .Object ms' ∧ ms.length = ms'.length ∧ Tree.simMembers ms ms'
/-- Child-by-child agreement. -/
def Tree.simList : List Tree → List Tree → Prop
  | [], ts => ts = []
  | c :: cs, ts => ∃ c' cs', ts = c' :: cs' ∧ Tree.sim c c' ∧ Tree.simList cs cs'
/-- Every member of the first list has a counterpart under the same key in the second. -/
def Tree.simMembers : List (List Char × Tree) → List (List Char × Tree) → Prop
  | [], _ => True
  | (k, t) :: ms, ms' => (∃ t', (k, t') ∈ ms' ∧ Tree.sim t t') ∧ Tree.simMembers ms ms'
end

/-- What the round trip needs of a cell: `valOf` reads a well-formed value there that nests
within the budget, and the tree of the cell agrees with the tree of that value. -/
def RoundAt (ord : List (List Char × Nat) → List (List Char × Nat)) (n : Nat) (h : List Node)
    (p : Nat) : Prop :=
  ∃ v T, valOf ord n h p = some v ∧ view n h p = some T ∧ v.ok = true ∧ v.depth ≤ n ∧
    Tree.sim T v.tree

/-- What holds of every cell the parser allocates, in a heap of `n` cells: its children and
mapped nodes were allocated after it; a `String` holds a body as `_parseString` reads them and
has no children; the keys of a key index are pairwise distinct. -/
def cellOK (n i : Nat) (c : Node) : Prop :=
  (∀ x ∈ c.children, i < x ∧ x < n) ∧
  match c.payload with
  | .String b => strBodyOk '"' b = true ∧ c.children = []
  | .Object m =>
    (m.map Prod.fst).Nodup ∧ ∀ a ∈ m, strBodyOk '"' a.1 = true ∧ i < a.2 ∧ a.2 < n
  | _ => True

/-- Every cell from address `B` on satisfies `cellOK`. -/
def Inv (B : Nat) (h : List Node) : Prop :=
  ∀ i, B ≤ i → i < h.length → cellOK h.length i (deref h i)

/-- The parent handed to a parsing routine is an existing cell that is not a `String`. -/
def ParentOK (parent : Option Nat) (s : State) : Prop :=
  ∀ p, parent = some p → p < s.heap.length ∧ (deref s.heap p).type ≠ .string

/-- What a parsing routine run on a heap satisfying `Inv B` leaves: the heap has only grown, no
cell has changed its type, and the cells from `B` on satisfy `cellOK`. -/
def Keep (B : Nat) (s s' : State) : Prop :=
  s.heap.length ≤ s'.heap.length ∧
  (∀ i, i < s.heap.length → (deref s'.heap i).type = (deref s.heap i).type) ∧
  Inv B s'.heap

/-- What a parsing routine that returns the node `n` leaves: `Keep`, and `n` is the first cell
allocated by the routine. -/
def Out (B : Nat) (s : State) (n : Nat) (s' : State) : Prop :=
  Keep B s s' ∧ n = s.heap.length ∧ n < s'.heap.length

/-! ## String bodies, in the words of the statements -/

/-- Every double quote of the body directly follows a backslash of the body. -/
def quotesEscaped (b : List Char) : Prop :=
  ∀ pre post, b = pre ++ '"' :: post → ∃ pre', pre = pre' ++ ['\\']

/-- The last character of the body is a backslash. -/
def endsWithBackslash (b : List Char) : Prop := ∃ pre, b = pre ++ ['\\']

/-- The string production on the text `"` body `"` ends at the added closing quote: wherever
that text stands in a buffer, the loop of `_parseString`, started after the opening quote,
returns exactly the body and stops on the closing quote. -/
def ReadBack (b : List Char) : Prop :=
  ∀ (pre rest : List Char) (s : State),
    s._j = pre ++ (['"'] ++ b ++ ['"']) ++ rest → s._i = pre.length + 1 →
    _parseString.loop '"' (s._j.length + 1) [] s =
      .ok b { s with _i := pre.length + 1 + b.length }

/-! ## Removing a member -/

mutual
/-- No object of the value, at any depth, repeats a key. -/
def Val.distinctKeys : Val → Bool
  | .arr es => Val.distinctKeysElems es
  | .obj ms => decide ((ms.map Prod.fst).Nodup) && Val.distinctKeysMembers ms
  | _ => true
/-- No object of the elements repeats a key. -/
def Val.distinctKeysElems : List Val → Bool
  | [] => true
  | e :: es => e.distinctKeys && Val.distinctKeysElems es
/-- No object of the member values repeats a key. -/
def Val.distinctKeysMembers : List (List Char × Val) → Bool
  | [] => true
  | (_, v) :: ms => v.distinctKeys && Val.distinctKeysMembers ms
end

/-- The text ends with one of the literals `null`, `true`, `false`. -/
def EndsLit (t : List Char) : Prop :=
  ∃ pre lit, t = pre ++ lit ∧
    (lit = "null".toList ∨ lit = "true".toList ∨ lit = "false".toList)

/-- The cursor is where an unchecked read is defined, and it is at the end of the buffer only
when the buffer is empty or ends with a literal. -/
def CursorOK (s : State) : Prop :=
  0 ≤ s._i ∧ s._i ≤ s._j.length ∧ (s._i = s._j.length → s._j = [] ∨ EndsLit s._j)

/-- What may be thrown, and where: never the undefined read; the cursor is within the buffer or
on its terminator; and `UnexpectedCharacter` is reported at the position of the terminator only
when the buffer is empty or ends with a literal. -/
def ExcOK (e : Exc) (s : State) : Prop :=
  e ≠ .undefinedRead ∧ 0 ≤ s._i ∧ s._i ≤ s._j.length ∧
  ∀ c pos, e = .unexpectedChar c pos → pos = s._j.length → s._j = [] ∨ EndsLit s._j

/-- The outcome of a routine run on the buffer `j`: the buffer is untouched; after a return the
cursor is fine and `Q` holds; after a throw the exception is one of those allowed. -/
def Fine {α : Type} (j : List Char) (Q : α → State → Prop) : Res α → Prop
  | .ok a s => s._j = j ∧ CursorOK s ∧ Q a s
  | .raise e s => s._j = j ∧ ExcOK e s

/-- The run was not cut short by a loop counter of the model, and `Q` holds when it returns. -/
def Runs {α : Type} (Q : α → State → Prop) : Res α → Prop
  | .ok a s => Q a s
  | .raise e _ => e ≠ .outOfFuel

/-- What a parsing routine needs of the state it starts in: a cursor that is fine, an existing
parent that is not a `String`, and a heap whose cells from `B` on satisfy `cellOK`. -/
def Ready (B : Nat) (parent : Option Nat) (s : State) : Prop :=
  CursorOK s ∧ ParentOK parent s ∧ B ≤ s.heap.length ∧ Inv B s.heap

/-! ## Theorems -/

/-! ### Sequencing and scanner steps -/

theorem bind_apply {α β : Type} (m : M α) (f : α → M β) (s : State) :
    (m >>= f) s = match m s with
      | .ok a s1 => f a s1
      | .raise e s1 => .raise e s1 := rfl

theorem pure_apply {α : Type} (a : α) (s : State) : (pure a : M α) s = .ok a s := rfl

theorem getD_mid (pre post : List Char) (c d : Char) :
    (pre ++ c :: post).getD pre.length d = c := by
  induction pre with
  | nil => rfl
  | cons x xs ih => simpa using ih

theorem _c_at (s : State) (pre post : List Char) (c : Char)
    (hj : s._j = pre ++ c :: post) (hi : s._i = pre.length) : _c s = .ok c s := by
  unfold _c
  have h1 : (0 : Int) ≤ s._i ∧ s._i ≤ (s._j.length : Int) := by
    rw [hi, hj]; simp; omega
  rw [if_pos h1, hi, hj, Int.toNat_ofNat, getD_mid]

theorem _ii_at (s : State) (pre post : List Char) (c d : Char)
    (hj : s._j = pre ++ c :: d :: post) (hi : s._i = pre.length) :
    _ii s = .ok () { s with _i := pre.length + 1 } := by
  unfold _ii
  simp [geSize, hi, hj]
  omega

theorem parseNumber_loop (r : List Char) :
    ∀ (fuel : Nat) (acc pre post : List Char) (c : Char) (s : State),
      s._j = pre ++ r ++ c :: post → s._i = pre.length →
      (∀ x ∈ r, isNumChar x = true) → isNumChar c = false → r.length < fuel →
      _parseNumber.loop fuel acc s = .ok (acc ++ r) { s with _i := pre.length + r.length } := by
  induction r with
  | nil =>
    intro fuel acc pre post c s hj hi _ hc hf
    obtain ⟨f, rfl⟩ : ∃ f, fuel = f + 1 := ⟨fuel - 1, by simp at hf; omega⟩
    have h := _c_at s pre post c (by simpa using hj) hi
    simp only [_parseNumber.loop, bind_apply, h, hc]
    simp [pure_apply, ← hi]
  | cons x r ih =>
    intro fuel acc pre post c s hj hi hr hc hf
    obtain ⟨f, rfl⟩ : ∃ f, fuel = f + 1 := ⟨fuel - 1, by simp at hf; omega⟩
    have hx : isNumChar x = true := hr x (by simp)
    have h := _c_at s pre (r ++ c :: post) x (by simpa using hj) hi
    have h2 : _ii s = .ok () { s with _i := pre.length + 1 } := by
      cases r with
      | nil => exact _ii_at s pre post x c (by simpa using hj) hi
      | cons y r => exact _ii_at s pre (r ++ c :: post) x y (by simpa using hj) hi
    simp only [_parseNumber.loop, bind_apply, h, hx, h2, if_true]
    rw [ih f (acc ++ [x]) (pre ++ [x]) post c _ (by simpa using hj) (by simp)
      (fun y hy => hr y (by simp [hy])) hc (by simp at hf; omega)]
    simp
    omega

theorem takeWhile_digits_append (ip rest : List Char) (h : ∀ c ∈ ip, c.isDigit = true)
    (hr : rest.head?.all (fun c => !c.isDigit) = true) :
    (ip ++ rest).takeWhile Char.isDigit = ip ∧ (ip ++ rest).dropWhile Char.isDigit = rest := by
  induction ip with
  | nil =>
    cases rest with
    | nil => simp
    | cons y t =>
      simp at hr
      simp [List.takeWhile, List.dropWhile, hr]
  | cons x xs ih =>
    have hx := h x (by simp)
    have := ih (fun c hc => h c (by simp [hc]))
    simp [List.takeWhile, List.dropWhile, hx, this]

theorem isDigit_ne_dot (c : Char) (h : c.isDigit = true) : c ≠ '.' := by
  rintro rfl; revert h; decide

theorem isDigit_ne_minus (c : Char) (h : c.isDigit = true) : c ≠ '-' := by
  rintro rfl; revert h; decide

/-- A body of digits and points with at most one point is a run of digits, or two runs of
digits around a point. -/
theorem body_decomp (body : List Char)
    (hall : ∀ c ∈ body, c.isDigit = true ∨ c = '.') (hcnt : body.count '.' ≤ 1) :
    (∀ c ∈ body, c.isDigit = true) ∨
    ∃ ip fp, body = ip ++ '.' :: fp ∧ (∀ c ∈ ip, c.isDigit = true) ∧
      (∀ c ∈ fp, c.isDigit = true) := by
  induction body with
  | nil => left; simp
  | cons x xs ih =>
    rcases hall x (by simp) with hx | hx
    · have hne : x ≠ '.' := isDigit_ne_dot x hx
      have hc : xs.count '.' ≤ 1 := by
        rw [List.count_cons_of_ne (Ne.symm hne)] at hcnt; exact hcnt
      rcases ih (fun c hc => hall c (by simp [hc])) hc with h | ⟨ip, fp, rfl, h1, h2⟩
      · left; intro c hc
        rcases List.mem_cons.1 hc with rfl | hc
        · exact hx
        · exact h c hc
      · right
        refine ⟨x :: ip, fp, by simp, ?_, h2⟩
        intro c hc
        rcases List.mem_cons.1 hc with rfl | hc
        · exact hx
        · exact h1 c hc
    · subst hx
      right
      refine ⟨[], xs, by simp, by simp, ?_⟩
      have hc : xs.count '.' = 0 := by
        rw [List.count_cons_self] at hcnt; omega
      intro c hcm
      rcases hall c (by simp [hcm]) with h | h
      · exact h
      · subst h
        exact absurd (List.count_pos_iff.2 hcm) (by omega)

theorem takeWhile_all_digits (ip : List Char) (h : ∀ c ∈ ip, c.isDigit = true) :
    ip.takeWhile Char.isDigit = ip ∧ ip.dropWhile Char.isDigit = [] := by
  have := takeWhile_digits_append ip [] h (by simp)
  simpa using this

theorem filter_digits (ip : List Char) (h : ∀ c ∈ ip, c.isDigit = true) :
    ip.filter Char.isDigit = ip := List.filter_eq_self.2 h

theorem dropWhile_ne_dot (ip rest : List Char) (h : ∀ c ∈ ip, c.isDigit = true) :
    (ip ++ rest).dropWhile (fun c => c != '.') = rest.dropWhile (fun c => c != '.') := by
  induction ip with
  | nil => rfl
  | cons x xs ih =>
    have hx : (x != '.') = true := by simpa using isDigit_ne_dot x (h x (by simp))
    simp [List.dropWhile, hx, ih (fun c hc => h c (by simp [hc]))]

/-- The two shapes `strtod` converts completely, with what it returns on them. -/
theorem strtod_body (neg : Bool) (ip fp : List Char) (dot : Bool)
    (h1 : ∀ c ∈ ip, c.isDigit = true) (h2 : ∀ c ∈ fp, c.isDigit = true)
    (hne : ip ≠ [] ∨ fp ≠ []) (hd : dot = false → fp = []) :
    strtod ((if neg then ['-'] else []) ++ ip ++ (if dot then '.' :: fp else [])) =
      (⟨neg, (digitsValue (ip ++ fp) : ℚ) / 10 ^ fp.length⟩,
        (if neg then 1 else 0) + ip.length + (if dot then 1 + fp.length else 0)) := by
  have hb : ∀ (b : List Char), b = ip ++ (if dot then '.' :: fp else []) →
      b.head? ≠ some '-' := by
    intro b hb
    subst hb
    cases ip with
    | nil =>
      cases dot with
      | true => simp
      | false => simp
    | cons x xs =>
      have := isDigit_ne_minus x (h1 x (by simp))
      simpa using this
  have hrest : (if dot then '.' :: fp else ([] : List Char)).head?.all (fun c => !c.isDigit) = true := by
    cases dot <;> simp
  obtain ⟨ht, hdw⟩ := takeWhile_digits_append ip (if dot then '.' :: fp else []) h1 hrest
  obtain ⟨ht2, _⟩ := takeWhile_all_digits fp h2
  have hbody := hb _ rfl
  cases neg with
  | true =>
    simp only [strtod, if_true, List.singleton_append, List.cons_append, List.head?_cons, List.tail_cons,
      decide_True, List.nil_append, ht, hdw]
    cases dot with
    | true =>
      simp [ht2]
      intro h3 h4
      rcases hne with h | h
      · exact absurd h3 h
      · exact absurd h4 h
    | false =>
      have hfp := hd rfl
      subst hfp
      simp
      intro h3
      rcases hne with h | h
      · exact absurd h3 h
      · exact absurd rfl h
  | false =>
    simp only [strtod, List.nil_append, if_false, Bool.false_eq_true, decide_eq_false hbody, ht, hdw]
    cases dot with
    | true =>
      simp [ht2]
      intro h3 h4
      rcases hne with h | h
      · exact absurd h3 h
      · exact absurd h4 h
    | false =>
      have hfp := hd rfl
      subst hfp
      simp
      intro h3
      rcases hne with h | h
      · exact absurd h3 h
      · exact absurd rfl h

theorem head_tail_shape (r : List Char) :
    r = (if decide (r.head? = some '-') then ['-'] else []) ++
      (if decide (r.head? = some '-') then r.tail else r) := by
  cases r with
  | nil => simp
  | cons x xs =>
    by_cases h : x = '-'
    · subst h; simp
    · simp [h]

theorem wf_shape (r : List Char) (h : wellFormedDecimal r = true) :
    ∃ neg ip fp dot, r = decimalShape neg ip fp dot ∧
      (∀ c ∈ ip, c.isDigit = true) ∧ (∀ c ∈ fp, c.isDigit = true) ∧
      (ip ≠ [] ∨ fp ≠ []) ∧ (dot = false → fp = []) := by
  unfold wellFormedDecimal at h
  simp only [Bool.and_eq_true, List.all_eq_true, Bool.or_eq_true, beq_iff_eq,
    decide_eq_true_eq, List.any_eq_true] at h
  obtain ⟨⟨hall, hcnt⟩, d, hd, hdd⟩ := h
  have hr := head_tail_shape r
  generalize hb : (if r.head? = some '-' then r.tail else r) = body at hall hcnt hd
  generalize hn : decide (r.head? = some '-') = neg at hr
  have hb2 : (if neg = true then r.tail else r) = body := by
    rw [← hb, ← hn]; simp
  rw [hb2] at hr
  rcases body_decomp body hall hcnt with hdig | ⟨ip, fp, rfl, h1, h2⟩
  · refine ⟨neg, body, [], false, ?_, hdig, by simp, Or.inl (List.ne_nil_of_mem hd), fun _ => rfl⟩
    simpa [decimalShape] using hr
  · refine ⟨neg, ip, fp, true, ?_, h1, h2, ?_, by simp⟩
    · simpa [decimalShape] using hr
    · rcases List.mem_append.1 hd with hm | hm
      · exact Or.inl (List.ne_nil_of_mem hm)
      · rcases List.mem_cons.1 hm with rfl | hm
        · exact absurd hdd (by decide)
        · exact Or.inr (List.ne_nil_of_mem hm)

theorem shape_head (neg : Bool) (ip fp : List Char) (dot : Bool)
    (h1 : ∀ c ∈ ip, c.isDigit = true) :
    decide ((decimalShape neg ip fp dot).head? = some '-') = neg ∧
    (if (decimalShape neg ip fp dot).head? = some '-' then (decimalShape neg ip fp dot).tail
      else decimalShape neg ip fp dot) = ip ++ (if dot then '.' :: fp else []) := by
  cases neg with
  | true => simp [decimalShape]
  | false =>
    have : (ip ++ (if dot then '.' :: fp else [])).head? ≠ some '-' := by
      cases ip with
      | nil => cases dot <;> simp
      | cons x xs => simpa using isDigit_ne_minus x (h1 x (by simp))
    have hs : decimalShape false ip fp dot = ip ++ (if dot then '.' :: fp else []) := by
      simp [decimalShape]
    rw [hs]
    exact ⟨decide_eq_false this, if_neg this⟩

theorem shape_wf (neg : Bool) (ip fp : List Char) (dot : Bool)
    (h1 : ∀ c ∈ ip, c.isDigit = true) (h2 : ∀ c ∈ fp, c.isDigit = true)
    (hne : ip ≠ [] ∨ fp ≠ []) (hd : dot = false → fp = []) :
    wellFormedDecimal (decimalShape neg ip fp dot) = true := by
  obtain ⟨_, hb⟩ := shape_head neg ip fp dot h1
  unfold wellFormedDecimal
  simp only [hb]
  have hc0 : ∀ l : List Char, (∀ c ∈ l, c.isDigit = true) → l.count '.' = 0 := by
    intro l hl
    apply List.count_eq_zero.2
    intro hm
    exact isDigit_ne_dot _ (hl _ hm) rfl
  cases dot with
  | false =>
    have := hd rfl
    subst this
    have hip : ip ≠ [] := by
      rcases hne with h | h
      · exact h
      · exact absurd rfl h
    obtain ⟨x, hx⟩ := List.exists_mem_of_ne_nil ip hip
    simp only [Bool.false_eq_true, if_false, List.append_nil, Bool.and_eq_true, List.all_eq_true,
      Bool.or_eq_true, beq_iff_eq, decide_eq_true_eq, List.any_eq_true]
    exact ⟨⟨fun c hc => Or.inl (h1 c hc), by rw [hc0 ip h1]; omega⟩, x, hx, h1 x hx⟩
  | true =>
    simp only [if_true, Bool.and_eq_true, List.all_eq_true,
      Bool.or_eq_true, beq_iff_eq, decide_eq_true_eq, List.any_eq_true]
    refine ⟨⟨?_, ?_⟩, ?_⟩
    · intro c hc
      rcases List.mem_append.1 hc with hm | hm
      · exact Or.inl (h1 c hm)
      · rcases List.mem_cons.1 hm with rfl | hm
        · exact Or.inr rfl
        · exact Or.inl (h2 c hm)
    · rw [List.count_append, List.count_cons_self, hc0 ip h1, hc0 fp h2]
    · rcases hne with h | h
      · obtain ⟨x, hx⟩ := List.exists_mem_of_ne_nil ip h
        exact ⟨x, by simp [hx], h1 x hx⟩
      · obtain ⟨x, hx⟩ := List.exists_mem_of_ne_nil fp h
        exact ⟨x, by simp [hx], h2 x hx⟩

theorem decimalValue_shape (neg : Bool) (ip fp : List Char) (dot : Bool)
    (h1 : ∀ c ∈ ip, c.isDigit = true) (h2 : ∀ c ∈ fp, c.isDigit = true)
    (hd : dot = false → fp = []) :
    decimalValue (decimalShape neg ip fp dot) =
      ⟨neg, (digitsValue (ip ++ fp) : ℚ) / 10 ^ fp.length⟩ := by
  obtain ⟨hn, hb⟩ := shape_head neg ip fp dot h1
  unfold decimalValue
  simp only [hb, hn]
  cases dot with
  | false =>
    have := hd rfl
    subst this
    have h3 := dropWhile_ne_dot ip [] h1
    simp only [List.append_nil] at h3
    simp [filter_digits ip h1, h3]
  | true =>
    have h3 := dropWhile_ne_dot ip ('.' :: fp) h1
    have h4 : (ip ++ '.' :: fp).filter Char.isDigit = ip ++ fp := by
      rw [List.filter_append, filter_digits ip h1, List.filter_cons_of_neg (by decide),
        filter_digits fp h2]
    simp [h3, h4, List.dropWhile]

/-- On a well-formed decimal `strtod` converts the whole text to its decimal value. -/
theorem strtod_wf (r : List Char) (h : wellFormedDecimal r = true) :
    strtod r = (decimalValue r, r.length) := by
  obtain ⟨neg, ip, fp, dot, rfl, h1, h2, hne, hd⟩ := wf_shape r h
  rw [decimalValue_shape neg ip fp dot h1 h2 hd]
  have := strtod_body neg ip fp dot h1 h2 hne hd
  unfold decimalShape
  rw [this]
  congr 1
  cases neg <;> cases dot <;> simp <;> omega

theorem takeWhile_length_eq (p : Char → Bool) (l : List Char)
    (h : (l.takeWhile p).length = l.length) : ∀ c ∈ l, p c = true := by
  induction l with
  | nil => simp
  | cons x xs ih =>
    by_cases hx : p x = true
    · simp [List.takeWhile, hx] at h
      intro c hc
      rcases List.mem_cons.1 hc with rfl | hc
      · exact hx
      · exact ih h c hc
    · simp [List.takeWhile, hx] at h

theorem length_takeWhile_le (p : Char → Bool) (l : List Char) :
    (l.takeWhile p).length ≤ l.length := (List.takeWhile_sublist p).length_le

theorem mem_takeWhile_digit (l : List Char) : ∀ c ∈ l.takeWhile Char.isDigit, c.isDigit = true :=
  fun _ hc => (List.mem_takeWhile_imp hc)

/-- When `strtod` stops at the end of a non-empty text, the text is a well-formed decimal. -/
theorem strtod_complete_wf (r : List Char) (hne : r ≠ [])
    (h : (strtod r).2 = r.length) : wellFormedDecimal r = true := by
  have hr := head_tail_shape r
  unfold strtod at h
  generalize hn : decide (r.head? = some '-') = neg at hr h
  simp only at h
  generalize hb : (if neg = true then r.tail else r) = body at hr h
  have hbody : body = body.takeWhile Char.isDigit ++ body.dropWhile Char.isDigit :=
    (List.takeWhile_append_dropWhile _ _).symm
  generalize hip : body.takeWhile Char.isDigit = ip at hbody h
  generalize hrest : body.dropWhile Char.isDigit = rest at hbody h
  have h1 : ∀ c ∈ ip, c.isDigit = true := by
    rw [← hip]; exact mem_takeWhile_digit body
  have hlen : r.length = (if neg then 1 else 0) + ip.length + rest.length := by
    rw [hr, hbody]; cases neg <;> simp <;> omega
  by_cases hdot : rest.head? = some '.'
  · obtain ⟨t, rfl⟩ : ∃ t, rest = '.' :: t := by
      cases rest with
      | nil => simp at hdot
      | cons y t => simp at hdot; exact ⟨t, by rw [hdot]⟩
    simp only [List.head?_cons, decide_True, if_true, List.tail_cons] at h
    by_cases hemp : (ip.isEmpty && (t.takeWhile Char.isDigit).isEmpty) = true
    · rw [if_pos hemp] at h
      simp only at h
      rw [hlen] at h
      simp at h
      omega
    · rw [if_neg hemp] at h
      simp only at h
      rw [hlen] at h
      have hle := length_takeWhile_le Char.isDigit t
      have ht : (t.takeWhile Char.isDigit).length = t.length := by
        simp at h; omega
      have h2 := takeWhile_length_eq _ t ht
      have hne2 : ip ≠ [] ∨ t ≠ [] := by
        by_contra hcon
        push_neg at hcon
        apply hemp
        simp [hcon.1, hcon.2]
      have := shape_wf neg ip t true h1 h2 hne2 (by simp)
      rw [hr, hbody]
      simpa [decimalShape] using this
  · have hd : decide (rest.head? = some '.') = false := decide_eq_false hdot
    simp only [hd, Bool.false_eq_true, if_false, List.isEmpty_nil, Bool.and_true] at h
    by_cases hemp : ip.isEmpty = true
    · rw [if_pos hemp] at h
      simp only at h
      have : r.length ≠ 0 := by simpa using hne
      omega
    · rw [if_neg hemp] at h
      simp only at h
      rw [hlen] at h
      have hr0 : rest = [] := by
        apply List.eq_nil_of_length_eq_zero
        omega
      subst hr0
      have hne2 : ip ≠ [] := by simpa using hemp
      have := shape_wf neg ip [] false h1 (by simp) (Or.inl hne2) (fun _ => rfl)
      rw [hr, hbody]
      simpa [decimalShape] using this

theorem strtod_end_le (r : List Char) : (strtod r).2 ≤ r.length := by
  have hr := head_tail_shape r
  unfold strtod
  generalize hn : decide (r.head? = some '-') = neg at hr
  simp only
  generalize hb : (if neg = true then r.tail else r) = body at hr
  have hbody : body = body.takeWhile Char.isDigit ++ body.dropWhile Char.isDigit :=
    (List.takeWhile_append_dropWhile _ _).symm
  generalize hip : body.takeWhile Char.isDigit = ip at hbody
  generalize hrest : body.dropWhile Char.isDigit = rest at hbody
  have hlen : r.length = (if neg then 1 else 0) + ip.length + rest.length := by
    rw [hr, hbody]; cases neg <;> simp <;> omega
  rw [hlen]
  cases rest with
  | nil =>
    simp only [List.head?_nil, reduceCtorEq, decide_False, Bool.false_eq_true, if_false]
    split_ifs <;> simp
  | cons y t =>
    have hle := length_takeWhile_le Char.isDigit t
    by_cases hy : y = '.'
    · subst hy
      simp only [List.head?_cons, decide_True, if_true, List.tail_cons]
      split_ifs <;> simp only [List.length_cons] <;> omega
    · have hd : decide ((y :: t).head? = some '.') = false := by simp [hy]
      simp only [hd, Bool.false_eq_true, if_false]
      split_ifs <;> simp

/-! ### Claims -/

/-- C2: on the text `[1-2]` the run `1-2` is rejected by `_parseNumber`, which throws a
`const char*`; `catch (std::exception e)` does not match it, so the failure leaves `parse`
instead of being turned into the absent result (nothing is written to `std::cerr`). -/
theorem parse_invalidNumber_escapes :
    parse "[1-2]".toList State.init =
      .raise .invalidNumber
        ⟨"[1-2]".toList, 4, [⟨.Array, none, []⟩], 1, [], []⟩ := by
  decide!

/-- C3: a document that is a single number or a single string ending the input is refused:
`parse("42")` and `parse("\"abc\"")` both return `NULL` after logging `UnexpectedEndOfInput`,
and no node is built. -/
theorem parse_lone_scalar_absent :
    parse "42".toList State.init =
      .ok none ⟨"42".toList, 2, [], 0, [.unexpectedEOF 2], []⟩ ∧
    parse "\"abc\"".toList State.init =
      .ok none ⟨"\"abc\"".toList, 5, [], 0, [.unexpectedEOF 5], []⟩ := by
  decide!

theorem _hPrt_eq (parent : Option Nat) (child : Nat) (s : State) :
    _hPrt parent child s = .ok () { s with heap := attached parent child s.heap } := by
  cases parent <;> rfl

theorem isNumChar_of_isDigit (c : Char) (h : c.isDigit = true) : isNumChar c = true := by
  simp only [Char.isDigit, Bool.and_eq_true, decide_eq_true_eq] at h
  simp only [isNumChar, Bool.or_eq_true, Bool.and_eq_true, decide_eq_true_eq, beq_iff_eq]
  left; left
  constructor
  · show (48 : UInt32) ≤ c.val
    exact h.1
  · show c.val ≤ (57 : UInt32)
    exact h.2

theorem getD_end (pre : List Char) (d : Char) : pre.getD pre.length d = d := by
  induction pre with
  | nil => rfl
  | cons x xs ih => simpa using ih

theorem getD_mem_of_lt (r : List Char) (e : Nat) (d : Char) (h : e < r.length) :
    r.getD e d ∈ r := by
  rw [List.getD_eq_getElem _ _ h]
  exact List.getElem_mem h

/-- C10: a run `r` of number characters at the cursor, followed by a character `c` outside the
set, is consumed whole; when `r` is a well-formed decimal a `Number` holding its decimal value
is built (and attached to `parent`), otherwise the routine throws `invalidNumber` and builds
nothing. -/
theorem parseNumber_run (s : State) (parent : Option Nat) (pre r post : List Char) (c : Char)
    (hj : s._j = pre ++ r ++ c :: post) (hi : s._i = pre.length)
    (hne : r ≠ []) (hr : ∀ x ∈ r, isNumChar x = true) (hc : isNumChar c = false) :
    (wellFormedDecimal r = true →
      _parseNumber parent s = .ok s.heap.length
        { s with
          _i := pre.length + r.length
          heap := attached parent s.heap.length
            (s.heap ++ [⟨.Number (decimalValue r), none, []⟩])
          _nodes_in_memory := s._nodes_in_memory + 1 }) ∧
    (wellFormedDecimal r = false →
      _parseNumber parent s = .raise .invalidNumber { s with _i := pre.length + r.length }) := by
  have hloop := parseNumber_loop r (s._j.length + 1) [] pre post c s hj hi hr hc
    (by rw [hj]; simp; omega)
  constructor
  · intro hwf
    simp only [_parseNumber, bind_apply, hloop, List.nil_append, strtod_wf r hwf,
      getD_end, ne_eq, not_true_eq_false, if_false, newNode, _hPrt_eq, pure_apply]
  · intro hwf
    have hlt : (strtod r).2 < r.length := by
      have h1 := strtod_end_le r
      have h2 : (strtod r).2 ≠ r.length := by
        intro h
        rw [strtod_complete_wf r hne h] at hwf
        exact absurd hwf (by decide)
      omega
    have hch : r.getD (strtod r).2 '\x00' ≠ '\x00' := by
      intro h
      have := hr _ (getD_mem_of_lt r _ '\x00' hlt)
      rw [h] at this
      exact absurd this (by decide)
    simp only [_parseNumber, bind_apply, hloop, List.nil_append, ne_eq, hch, not_false_eq_true,
      if_true, raise]



/-- Witness for `parseNumber_run`: the runs `12.5` and `1-2`, each followed by a comma. -/
theorem parseNumber_run_witness :
    _parseNumber none ⟨"12.5,".toList, 0, [], 0, [], []⟩ =
      .ok 0 ⟨"12.5,".toList, 4, [⟨.Number ⟨false, 25 / 2⟩, none, []⟩], 1, [], []⟩ ∧
    _parseNumber none ⟨"1-2,".toList, 0, [], 0, [], []⟩ =
      .raise .invalidNumber ⟨"1-2,".toList, 3, [], 0, [], []⟩ :=
  ⟨(parseNumber_run ⟨"12.5,".toList, 0, [], 0, [], []⟩ none [] "12.5".toList [] ','
      (by decide) (by decide) (by decide) (by decide) (by decide)).1 (by decide) |>.trans
      (by decide!),
   (parseNumber_run ⟨"1-2,".toList, 0, [], 0, [], []⟩ none [] "1-2".toList [] ','
      (by decide) (by decide) (by decide) (by decide) (by decide)).2 (by decide)⟩

theorem intercalate_cons_cons (sep t u : List Char) (ts : List (List Char)) :
    List.intercalate sep (t :: u :: ts) = t ++ sep ++ List.intercalate sep (u :: ts) := by
  simp [List.intercalate, List.intersperse]

/-- Once the accumulator is longer than one character every item is preceded by a comma. -/
theorem foldlM_appendItem_long {α : Type} (f : α → Option (List Char)) (l : List α) :
    ∀ s : List Char, 1 < s.length →
      l.foldlM (fun s n => (f n).map (fun t => appendItem s t)) s =
        (allSome f l).map (fun ts => s ++ (ts.map (fun t => ',' :: t)).join) := by
  induction l with
  | nil => intro s _; simp [allSome]
  | cons n l ih =>
    intro s hs
    cases hf : f n with
    | none => simp [hf, allSome]
    | some t =>
      have hlen : 1 < (appendItem s t).length := by
        simp [appendItem, hs]; omega
      simp only [List.foldlM_cons, hf, Option.map_some', Option.bind_eq_bind, Option.some_bind,
        ih _ hlen, allSome]
      cases hm : allSome f l with
      | none => simp
      | some ts => simp [appendItem, hs]

theorem join_commas (t : List Char) (ts : List (List Char)) :
    t ++ (ts.map (fun t => ',' :: t)).join = List.intercalate [','] (t :: ts) := by
  induction ts generalizing t with
  | nil => simp [List.intercalate]
  | cons u ts ih =>
    rw [intercalate_cons_cons, ← ih u]
    simp

/-- The accumulate-with-size-check loop of `toString` is a plain comma join, provided no item
is empty. -/
theorem foldlM_appendItem {α : Type} (f : α → Option (List Char)) (l : List α) (b : Char)
    (hne : ∀ n t, f n = some t → t ≠ []) :
    l.foldlM (fun s n => (f n).map (fun t => appendItem s t)) [b] =
      (allSome f l).map (fun ts => [b] ++ List.intercalate [','] ts) := by
  cases l with
  | nil => simp [List.intercalate, allSome]
  | cons n l =>
    cases hf : f n with
    | none => simp [hf, allSome]
    | some t =>
      have ht := hne n t hf
      have hlen : 1 < (appendItem [b] t).length := by
        cases t with
        | nil => exact absurd rfl ht
        | cons x xs => simp [appendItem]
      simp only [List.foldlM_cons, hf, Option.map_some', Option.bind_eq_bind, Option.some_bind,
        foldlM_appendItem_long f l _ hlen, allSome]
      cases hm : allSome f l with
      | none => simp
      | some ts =>
        simp only [Option.map_some', Option.some_bind, Option.pure_def]
        rw [← join_commas]
        simp [appendItem]




theorem to_string_ne_nil (v : Double) : to_string v ≠ [] := by
  unfold to_string
  cases binary64 v.mag <;> simp

theorem toString_ne_nil (ord : List (List Char × Nat) → List (List Char × Nat)) (fuel : Nat)
    (h : List Node) (p : Nat) (t : List Char)
    (ht : Node.toString ord fuel h p = some t) : t ≠ [] := by
  cases fuel with
  | zero => simp [Node.toString] at ht
  | succ fuel =>
    unfold Node.toString at ht
    split at ht
    · simp only [Option.some.injEq] at ht; subst ht; split <;> simp
    · simp only [Option.some.injEq] at ht; subst ht; simp
    · simp only [Option.some.injEq] at ht; subst ht; exact to_string_ne_nil _
    · simp only [Option.some.injEq] at ht; subst ht; simp
    · simp only [Option.map_eq_some'] at ht
      obtain ⟨s, _, rfl⟩ := ht
      simp
    · simp only [Option.map_eq_some'] at ht
      obtain ⟨s, _, rfl⟩ := ht
      simp

theorem appendItem_assoc (s a t : List Char) : appendItem s a ++ t = appendItem s (a ++ t) := by
  simp [appendItem]

theorem allSome_isSome {α β : Type} (f : α → Option β) (l : List α)
    (h : ∀ a ∈ l, (f a).isSome = true) : (allSome f l).isSome = true := by
  induction l with
  | nil => rfl
  | cons a l ih =>
    have h1 := h a (by simp)
    have h2 := ih (fun b hb => h b (by simp [hb]))
    obtain ⟨b, hb⟩ := Option.isSome_iff_exists.1 h1
    obtain ⟨bs, hbs⟩ := Option.isSome_iff_exists.1 h2
    simp [allSome, hb, hbs]

theorem toString_eq_aux (ord : List (List Char × Nat) → List (List Char × Nat)) (fuel : Nat)
    (h : List Node) : ∀ p, Node.toString ord fuel h p = refRender ord fuel h p := by
  induction fuel with
  | zero => intro p; rfl
  | succ fuel ih =>
    intro p
    have ih1 : Node.toString ord fuel h = refRender ord fuel h := funext ih
    unfold Node.toString refRender
    split
    · rfl
    · rfl
    · rfl
    · rfl
    · rw [foldlM_appendItem (Node.toString ord fuel h) _ '['
        (fun n t => toString_ne_nil ord fuel h n t), ih1]
      cases allSome (refRender ord fuel h) (deref h p).children <;> simp
    · rename_i m _
      have hfun : (fun (s : List Char) (a : List Char × Nat) =>
          (Node.toString ord fuel h a.2).map
            (fun t => appendItem s (['"'] ++ a.1 ++ ['"', ':']) ++ t)) =
          (fun s a => ((fun (a : List Char × Nat) => (refRender ord fuel h a.2).map
            (fun t => ['"'] ++ a.1 ++ ['"', ':'] ++ t)) a).map (fun t => appendItem s t)) := by
        funext s a
        rw [ih1]
        cases hq : refRender ord fuel h a.2 <;> simp [hq, appendItem_assoc]
      rw [hfun, foldlM_appendItem _ _ '{' (by
        intro a t hat
        simp only [Option.map_eq_some'] at hat
        obtain ⟨u, _, rfl⟩ := hat
        simp)]
      cases allSome _ (ord m) <;> simp

theorem refRender_isSome (ord : List (List Char × Nat) → List (List Char × Nat))
    (hord : ∀ m a, a ∈ ord m → a ∈ m) (fuel : Nat) (h : List Node) :
    ∀ p, nestsWithin fuel h p = true → (refRender ord fuel h p).isSome = true := by
  induction fuel with
  | zero => intro p hn; simp [nestsWithin] at hn
  | succ fuel ih =>
    intro p hn
    unfold nestsWithin at hn
    unfold refRender
    split at hn
    · rename_i hp
      simp only [hp, Option.isSome_map']
      apply allSome_isSome
      intro a ha
      exact ih a (List.all_eq_true.1 hn a ha)
    · rename_i m hp
      simp only [hp, Option.isSome_map']
      apply allSome_isSome
      intro a ha
      rw [Option.isSome_map']
      exact ih a.2 (List.all_eq_true.1 hn a (hord m a ha))
    · rename_i hna hno
      split
      · rfl
      · rfl
      · rfl
      · rfl
      · rename_i hp; exact absurd hp hna
      · rename_i m hp; exact absurd hp (hno m)

/-- C9: `toString` is the compact reference rendering, for every heap, cell and depth budget
(whatever order `ord` the key index is iterated in); and it does return a text on every cell
whose structure nests within the budget. -/
theorem toString_eq_refRender (ord : List (List Char × Nat) → List (List Char × Nat))
    (hord : ∀ m a, a ∈ ord m → a ∈ m) (fuel : Nat) (h : List Node) (p : Nat) :
    Node.toString ord fuel h p = refRender ord fuel h p ∧
    (nestsWithin fuel h p = true → (Node.toString ord fuel h p).isSome = true) :=
  ⟨toString_eq_aux ord fuel h p, fun hn => by
    rw [toString_eq_aux]; exact refRender_isSome ord hord fuel h p hn⟩

/-- Witness for `toString_eq_refRender`: the tree of `{"a":1,"b":[true,null]}` with the key
index iterated backwards. -/
theorem toString_eq_refRender_witness :
    Node.toString List.reverse 3
      [⟨.Object [(['a'], 1), (['b'], 2)], none, [1, 2]⟩, ⟨.Number ⟨false, 1⟩, some 0, []⟩,
        ⟨.Array, some 0, [3, 4]⟩, ⟨.Boolean true, some 2, []⟩, ⟨.Null, some 2, []⟩] 0 =
      some "\x7b\"b\":[true,null],\"a\":1.000000\x7d".toList :=
  ((toString_eq_refRender List.reverse (fun _ _ ha => List.mem_reverse.1 ha) 3
      [⟨.Object [(['a'], 1), (['b'], 2)], none, [1, 2]⟩, ⟨.Number ⟨false, 1⟩, some 0, []⟩,
        ⟨.Array, some 0, [3, 4]⟩, ⟨.Boolean true, some 2, []⟩, ⟨.Null, some 2, []⟩] 0).1).trans
    (by decide!)

theorem _w_at (s : State) (pre post : List Char) (c : Char)
    (hj : s._j = pre ++ c :: post) (hi : s._i = pre.length) : _w s = .ok (isWhite c) s := by
  simp only [_w, bind_apply, _c_at s pre post c hj hi, pure_apply, isWhite]

/-- The routine `_skipWhiteSpaces(true)` over a run `w` of whitespace followed by another
character stops on that character. -/
theorem skipWhiteSpaces_loop (w : List Char) :
    ∀ (fuel : Nat) (pre post : List Char) (c : Char) (s : State),
      s._j = pre ++ w ++ c :: post → s._i = pre.length →
      (∀ x ∈ w, isWhite x = true) → isWhite c = false → w.length < fuel →
      _skipWhiteSpaces.loop true fuel s = .ok () { s with _i := pre.length + w.length } := by
  induction w with
  | nil =>
    intro fuel pre post c s hj hi _ hc hf
    obtain ⟨f, rfl⟩ : ∃ f, fuel = f + 1 := ⟨fuel - 1, by simp at hf; omega⟩
    have h := _w_at s pre post c (by simpa using hj) hi
    simp only [_skipWhiteSpaces.loop, bind_apply, h, hc]
    simp [pure_apply, ← hi]
  | cons x w ih =>
    intro fuel pre post c s hj hi hw hc hf
    obtain ⟨f, rfl⟩ : ∃ f, fuel = f + 1 := ⟨fuel - 1, by simp at hf; omega⟩
    have hx : isWhite x = true := hw x (by simp)
    have h := _w_at s pre (w ++ c :: post) x (by simpa using hj) hi
    have h2 : _ii s = .ok () { s with _i := pre.length + 1 } := by
      cases w with
      | nil => exact _ii_at s pre post x c (by simpa using hj) hi
      | cons y w => exact _ii_at s pre (w ++ c :: post) x y (by simpa using hj) hi
    simp only [_skipWhiteSpaces.loop, bind_apply, h, hx, if_true, Bool.not_true,
      Bool.false_eq_true, if_false, pure_apply, h2]
    rw [ih f (pre ++ [x]) post c _ (by simpa using hj) (by simp)
      (fun y hy => hw y (by simp [hy])) hc (by simp at hf; omega)]
    simp
    omega

theorem skipWhiteSpaces_run (s : State) (pre w post : List Char) (c : Char)
    (hj : s._j = pre ++ w ++ c :: post) (hi : s._i = pre.length)
    (hw : ∀ x ∈ w, isWhite x = true) (hc : isWhite c = false) :
    _skipWhiteSpaces true s = .ok () { s with _i := pre.length + w.length } :=
  skipWhiteSpaces_loop w _ pre post c s hj hi hw hc (by rw [hj]; simp; omega)

/-- At the end of the buffer the cursor reads the terminator, which is not whitespace. -/
theorem _c_end (s : State) (hi : s._i = s._j.length) : _c s = .ok '\x00' s := by
  unfold _c
  have h1 : (0 : Int) ≤ s._i ∧ s._i ≤ (s._j.length : Int) := by rw [hi]; omega
  rw [if_pos h1, hi, Int.toNat_ofNat, getD_end]

theorem _cAt_at (s : State) (pre mid post : List Char) (c : Char)
    (hj : s._j = pre ++ mid ++ c :: post) (hi : s._i = pre.length) :
    _cAt mid.length s = .ok c s := by
  unfold _cAt
  have h1 : geSize ((mid.length : Int) + s._i) s._j.length = false := by
    simp [geSize, hi, hj]; omega
  have h2 : (s._i + (mid.length : Int)).toNat = (pre ++ mid).length := by
    rw [hi]; simp; omega
  rw [h1, h2, hj, getD_mid]
  rfl

theorem _cAt_eof (s : State) (pre mid : List Char)
    (hj : s._j = pre ++ mid) (hi : s._i = pre.length) :
    _cAt mid.length s = .raise (.unexpectedEOF s._i) s := by
  unfold _cAt
  have h1 : geSize ((mid.length : Int) + s._i) s._j.length = true := by
    simp [geSize, hi, hj]; omega
  rw [h1]
  rfl

/-- What `_eq` answers at offset `|done|`: true when the literal is a prefix of the remaining
text, the end-of-input exception when the text ends inside the literal, false otherwise. -/
theorem _eq_loop (lit : List Char) :
    ∀ (pre done rem : List Char) (s : State),
      s._j = pre ++ done ++ rem → s._i = pre.length →
      _eq.loop lit done.length s =
        if lit.isPrefixOf rem then .ok true s
        else if rem.isPrefixOf lit then .raise (.unexpectedEOF s._i) s
        else .ok false s := by
  induction lit with
  | nil => intro pre done rem s _ _; simp [_eq.loop, pure_apply]
  | cons ch lit ih =>
    intro pre done rem s hj hi
    cases rem with
    | nil =>
      have := _cAt_eof s pre done (by simpa using hj) hi
      simp [_eq.loop, bind_apply, this]
    | cons x rem =>
      have := _cAt_at s pre done rem x hj hi
      by_cases hx : x = ch
      · subst hx
        have h3 := ih pre (done ++ [x]) rem s (by simpa using hj) hi
        simp only [List.length_append, List.length_singleton, Nat.cast_add, Nat.cast_one] at h3
        simp [_eq.loop, bind_apply, this, h3]
      · have hx2 : ch ≠ x := fun h => hx h.symm
        simp [_eq.loop, bind_apply, this, hx, hx2, pure_apply]

theorem _eq_at (lit pre rem : List Char) (s : State)
    (hj : s._j = pre ++ rem) (hi : s._i = pre.length) :
    _eq lit s =
      if lit.isPrefixOf rem then .ok true s
      else if rem.isPrefixOf lit then .raise (.unexpectedEOF s._i) s
      else .ok false s := by
  have := _eq_loop lit pre [] rem s (by simpa using hj) hi
  simpa [_eq] using this




theorem _unexpectedCharErr_at (s : State) (pre post : List Char) (c : Char)
    (hj : s._j = pre ++ c :: post) (hi : s._i = pre.length) :
    _unexpectedCharErr s = .ok (.unexpectedChar c s._i) s := by
  simp only [_unexpectedCharErr, bind_apply, _c_at s pre post c hj hi]

theorem raise_apply {α : Type} (e : Exc) (s : State) : (raise e : M α) s = .raise e s := rfl

/-- How `_parse` fails on a value that starts with `n`, `t` or `f` and does not spell its
literal. -/
theorem _parse_bad_literal (fuel : Nat) (parent : Option Nat) (s : State)
    (w rest : List Char) (c0 : Char)
    (hj : s._j = w ++ c0 :: rest) (hi : s._i = 0)
    (hw : ∀ x ∈ w, isWhite x = true) (h0 : c0 = 'n' ∨ c0 = 't' ∨ c0 = 'f')
    (hL : (literalFor c0).isPrefixOf (c0 :: rest) = false) :
    _parse (fuel + 1) parent s =
      .raise (if (c0 :: rest).isPrefixOf (literalFor c0) then .unexpectedEOF w.length
        else .unexpectedChar c0 w.length) { s with _i := w.length } := by
  have hc0 : isWhite c0 = false := by
    rcases h0 with rfl | rfl | rfl <;> decide
  have hskip := skipWhiteSpaces_run s [] w rest c0 (by simpa using hj) (by simpa using hi) hw hc0
  simp only [List.length_nil, Nat.cast_zero, zero_add] at hskip
  have hj1 : ({ s with _i := (w.length : Int) } : State)._j = w ++ c0 :: rest := hj
  have hc := _c_at { s with _i := (w.length : Int) } w rest c0 hj1 rfl
  have herr := _unexpectedCharErr_at { s with _i := (w.length : Int) } w rest c0 hj1 rfl
  have heq := fun lit => _eq_at lit w (c0 :: rest) { s with _i := (w.length : Int) } hj1 rfl
  rcases h0 with rfl | rfl | rfl
  · simp only [literalFor, if_true] at hL ⊢
    simp only [_parse, bind_apply, hskip, hc, if_true, _parseNull, heq, hL]
    by_cases hp : ('n' :: rest).isPrefixOf "null".toList = true
    · simp only [hp, bind_apply, heq, hL, herr, raise_apply, if_true, if_false, Bool.false_eq_true, Bool.not_false, Bool.not_true, not_true_eq_false, not_false_eq_true]
    · simp only [hp, bind_apply, heq, hL, herr, raise_apply, if_true, if_false, Bool.false_eq_true, Bool.not_false, Bool.not_true, not_true_eq_false, not_false_eq_true]
  · have hne : ('t' : Char) ≠ 'n' := by decide
    simp only [literalFor, if_neg hne, if_true] at hL ⊢
    simp only [_parse, bind_apply, hskip, hc, if_neg hne, true_or, if_true, _parseBoolean, heq, hL]
    by_cases hp : ('t' :: rest).isPrefixOf "true".toList = true
    · simp only [hp, bind_apply, heq, hL, herr, raise_apply, if_true, if_false, Bool.false_eq_true, Bool.not_false, Bool.not_true, not_true_eq_false, not_false_eq_true]
    · have h1 : "false".toList.isPrefixOf ('t' :: rest) = false := by
        simp [List.isPrefixOf]
      have h2 : ('t' :: rest).isPrefixOf "false".toList = false := by
        simp [List.isPrefixOf]
      simp only [hp, h1, h2, bind_apply, heq, hL, herr, raise_apply, if_true, if_false, Bool.false_eq_true, Bool.not_false, Bool.not_true, not_true_eq_false, not_false_eq_true]
  · have hne : ('f' : Char) ≠ 'n' := by decide
    have hne2 : ('f' : Char) ≠ 't' := by decide
    simp only [literalFor, if_neg hne, if_neg hne2] at hL ⊢
    have h1 : "true".toList.isPrefixOf ('f' :: rest) = false := by
      simp [List.isPrefixOf]
    have h2 : ('f' :: rest).isPrefixOf "true".toList = false := by
      simp [List.isPrefixOf]
    simp only [_parse, bind_apply, hskip, hc, if_neg hne, or_true, if_true, _parseBoolean, heq,
      hL, h1, h2]
    by_cases hp : ('f' :: rest).isPrefixOf "false".toList = true
    · simp only [hp, bind_apply, heq, hL, herr, raise_apply, if_true, if_false, Bool.false_eq_true, Bool.not_false, Bool.not_true, not_true_eq_false, not_false_eq_true]
    · simp only [hp, bind_apply, heq, hL, herr, raise_apply, if_true, if_false, Bool.false_eq_true, Bool.not_false, Bool.not_true, not_true_eq_false, not_false_eq_true]




/-- C7 (counterexample): `parse("tru")` does not fail with `UnexpectedCharacter`: `_eq` reads
past the end through the checked `_c(3)`, so the error logged is `UnexpectedEndOfInput`. -/
theorem parse_tru_unexpectedEOF :
    parse "tru".toList State.init =
      .ok none ⟨"tru".toList, 0, [], 0, [.unexpectedEOF 0], []⟩ := by
  decide!

/-- C7 (amended): a text whose first non-whitespace character is `n`, `t` or `f` and which does
not continue with the literal of that character makes `parse` return `NULL`, building nothing,
after logging `UnexpectedCharacter` (with that first character and its position) when a
character differing from the literal occurs before the text ends, and `UnexpectedEndOfInput`
when the text ends inside the literal. -/
theorem parse_bad_literal (g : State) (w rest : List Char) (c0 : Char)
    (hw : ∀ x ∈ w, isWhite x = true) (h0 : c0 = 'n' ∨ c0 = 't' ∨ c0 = 'f')
    (hL : (literalFor c0).isPrefixOf (c0 :: rest) = false) :
    parse (w ++ c0 :: rest) g =
      .ok none { g with
        _j := w ++ c0 :: rest
        _i := w.length
        cerr := g.cerr ++
          [if (c0 :: rest).isPrefixOf (literalFor c0) then .unexpectedEOF w.length
            else .unexpectedChar c0 w.length] } := by
  have h := _parse_bad_literal (4 * (w ++ c0 :: rest).length + 3) none
    { g with _j := w ++ c0 :: rest, _i := 0 } w rest c0 rfl rfl hw h0 hL
  unfold parse
  rw [show 4 * (w ++ c0 :: rest).length + 4 = 4 * (w ++ c0 :: rest).length + 3 + 1 from rfl, h]
  by_cases hp : (c0 :: rest).isPrefixOf (literalFor c0) = true
  · simp only [hp, if_true, Exc.isStdException]
  · simp only [hp, if_false, Exc.isStdException, Bool.false_eq_true, if_true]

/-- Witness for `parse_bad_literal`: ` tru` ends inside `true`, `nul1` departs from `null`. -/
theorem parse_bad_literal_witness :
    parse " tru".toList State.init =
      .ok none ⟨" tru".toList, 1, [], 0, [.unexpectedEOF 1], []⟩ ∧
    parse "nul1".toList State.init =
      .ok none ⟨"nul1".toList, 0, [], 0, [.unexpectedChar 'n' 0], []⟩ :=
  ⟨parse_bad_literal State.init " ".toList "ru".toList 't' (by decide) (by decide) (by decide),
   parse_bad_literal State.init [] "ul1".toList 'n' (by decide) (by decide) (by decide)⟩

theorem _ii_eof (s : State) (pre : List Char) (c : Char)
    (hj : s._j = pre ++ [c]) (hi : s._i = pre.length) :
    _ii s = .raise (.unexpectedEOF (pre.length + 1)) { s with _i := pre.length + 1 } := by
  unfold _ii
  simp [geSize, hi, hj, bind_apply, _unexpectedEOF, raise_apply]

theorem _iis_at (s : State) (pre post : List Char) (c d : Char)
    (hj : s._j = pre ++ c :: d :: post) (hi : s._i = pre.length) :
    _iis s = .ok false { s with _i := pre.length + 1 } := by
  unfold _iis
  simp [geSize, hi, hj]
  omega

theorem _iis_last (s : State) (pre : List Char) (c : Char)
    (hj : s._j = pre ++ [c]) (hi : s._i = pre.length) :
    _iis s = .ok true { s with _i := pre.length } := by
  unfold _iis
  simp [geSize, hi, hj]

theorem _cAt_prev (s : State) (pre post : List Char) (p : Char)
    (hj : s._j = pre ++ p :: post) (hi : s._i = pre.length + 1) :
    _cAt (-1) s = .ok p s := by
  unfold _cAt
  have h1 : geSize (-1 + s._i) s._j.length = false := by
    simp [geSize, hi, hj]
  have h2 : (s._i + -1).toNat = pre.length := by
    rw [hi]; simp
  rw [h1, h2, hj, getD_mid]
  rfl

/-- The loop of `_parseString` copies a body satisfying `strBodyOk` and stops on the closing
quote. -/
theorem parseString_loop (b : List Char) :
    ∀ (fuel : Nat) (acc pre rest : List Char) (prev : Char) (s : State),
      s._j = pre ++ prev :: b ++ '"' :: rest → s._i = pre.length + 1 →
      strBodyOk prev b = true → b.length < fuel →
      _parseString.loop '"' fuel acc s =
        .ok (acc ++ b) { s with _i := pre.length + 1 + b.length } := by
  induction b with
  | nil =>
    intro fuel acc pre rest prev s hj hi hok hf
    obtain ⟨f, rfl⟩ : ∃ f, fuel = f + 1 := ⟨fuel - 1, by simp at hf; omega⟩
    have hc := _c_at s (pre ++ [prev]) rest '"' (by simpa using hj) (by simpa using hi)
    have hp := _cAt_prev s pre ('"' :: rest) prev (by simpa using hj) hi
    have hne : (prev == '\\') = false := by
      simpa [strBodyOk] using hok
    simp only [_parseString.loop, bind_apply, hc, ne_eq, not_true_eq_false, if_false, hp,
      pure_apply, hne, Bool.false_eq_true]
    simp [← hi]
  | cons x r ih =>
    intro fuel acc pre rest prev s hj hi hok hf
    obtain ⟨f, rfl⟩ : ∃ f, fuel = f + 1 := ⟨fuel - 1, by simp at hf; omega⟩
    have hc := _c_at s (pre ++ [prev]) (r ++ '"' :: rest) x (by simpa using hj)
      (by simpa using hi)
    have hp := _cAt_prev s pre (x :: r ++ '"' :: rest) prev (by simpa using hj) hi
    simp only [strBodyOk, Bool.and_eq_true, Bool.or_eq_true, bne_iff_ne, ne_eq,
      beq_iff_eq] at hok
    obtain ⟨hx, hr⟩ := hok
    have h2 : _ii s = .ok () { s with _i := (pre ++ [prev]).length + 1 } := by
      cases r with
      | nil => exact _ii_at s (pre ++ [prev]) rest x '"' (by simpa using hj) (by simpa using hi)
      | cons y r =>
        exact _ii_at s (pre ++ [prev]) (r ++ '"' :: rest) x y (by simpa using hj)
          (by simpa using hi)
    have hgo : (if x ≠ '"' then (pure true : M Bool) else do
        let p ← _cAt (-1)
        pure (p == '\\')) s = .ok true s := by
      by_cases hxq : x = '"'
      · have hprev : prev = '\\' := by
          rcases hx with h | h
          · exact absurd hxq h
          · exact h
        simp only [hxq, ne_eq, not_true_eq_false, if_false, bind_apply, hp, pure_apply, hprev,
          beq_self_eq_true]
      · simp only [ne_eq, hxq, not_false_eq_true, if_true, pure_apply]
    simp only [_parseString.loop, bind_apply, hc, hgo, if_true, h2]
    rw [ih f (acc ++ [x]) (pre ++ [prev]) rest x _ (by simpa using hj) (by simp) hr
      (by simp at hf; omega)]
    simp
    omega




theorem parseString_ok (s : State) (parent : Option Nat) (pre b post : List Char) (c : Char)
    (hj : s._j = pre ++ '"' :: b ++ '"' :: c :: post) (hi : s._i = pre.length)
    (hb : strBodyOk '"' b = true) :
    _parseString parent s = .ok s.heap.length
      { leaf (.String b) parent s with _i := pre.length + (b.length + 2) } := by
  have hc := _c_at s pre (b ++ '"' :: c :: post) '"' (by simpa using hj) hi
  have h1 : _ii s = .ok () { s with _i := pre.length + 1 } := by
    cases b with
    | nil => exact _ii_at s pre (c :: post) '"' '"' (by simpa using hj) hi
    | cons y r => exact _ii_at s pre (r ++ '"' :: c :: post) '"' y (by simpa using hj) hi
  have hloop := parseString_loop b (s._j.length + 1) [] pre (c :: post) '"'
    { s with _i := pre.length + 1 } hj rfl hb (by rw [hj]; simp; omega)
  have h2 := _ii_at { s with _i := (pre.length : Int) + 1 + b.length } (pre ++ '"' :: b) post '"' c
    (by simpa using hj) (by simp; omega)
  simp only [_parseString, bind_apply, hc, h1, hloop, List.nil_append, h2, newNode, _hPrt_eq,
    pure_apply, leaf]
  simp
  omega

theorem parseNull_ok (s : State) (parent : Option Nat) (pre post : List Char)
    (hj : s._j = pre ++ "null".toList ++ post) (hi : s._i = pre.length) :
    _parseNull parent s = .ok s.heap.length
      { leaf .Null parent s with _i := pre.length + 4 } := by
  have he := _eq_at "null".toList pre ("null".toList ++ post) s (by simpa using hj) hi
  have hp : "null".toList.isPrefixOf ("null".toList ++ post) = true := by
    simp [List.isPrefixOf]
  simp only [_parseNull, bind_apply, he, hp, if_true, Bool.not_true, Bool.false_eq_true, if_false,
    addI, newNode, _hPrt_eq, pure_apply, leaf, hi]

theorem parseBoolean_ok (s : State) (parent : Option Nat) (pre post : List Char) (b : Bool)
    (hj : s._j = pre ++ (if b then "true".toList else "false".toList) ++ post)
    (hi : s._i = pre.length) :
    _parseBoolean parent s = .ok s.heap.length
      { leaf (.Boolean b) parent s with
        _i := pre.length + (if b then "true".toList else "false".toList).length } := by
  cases b with
  | true =>
    have he := _eq_at "true".toList pre ("true".toList ++ post) s (by simpa using hj) hi
    have hp : "true".toList.isPrefixOf ("true".toList ++ post) = true := by
      simp [List.isPrefixOf]
    simp only [_parseBoolean, bind_apply, he, hp, if_true, addI, newNode, _hPrt_eq, pure_apply,
      leaf, hi]
    simp
  | false =>
    have he := fun lit => _eq_at lit pre ("false".toList ++ post) s (by simpa using hj) hi
    have hp : "false".toList.isPrefixOf ("false".toList ++ post) = true := by
      simp [List.isPrefixOf]
    have hp1 : "true".toList.isPrefixOf ("false".toList ++ post) = false := by
      simp [List.isPrefixOf]
    have hp2 : ("false".toList ++ post).isPrefixOf "true".toList = false := by
      simp [List.isPrefixOf]
    simp only [_parseBoolean, bind_apply, he, hp, hp1, hp2, if_true, if_false,
      Bool.false_eq_true, addI, newNode, _hPrt_eq, pure_apply, leaf, hi]
    simp

theorem wf_numChars (t : List Char) (h : wellFormedDecimal t = true) :
    t ≠ [] ∧ ∀ x ∈ t, isNumChar x = true := by
  obtain ⟨neg, ip, fp, dot, rfl, h1, h2, hne, hd⟩ := wf_shape t h
  constructor
  · rcases hne with hip | hfp
    · cases ip with
      | nil => exact absurd rfl hip
      | cons x xs => cases neg <;> simp [decimalShape]
    · cases dot with
      | false => exact absurd (hd rfl) hfp
      | true => cases neg <;> simp [decimalShape]
  · intro x hx
    simp only [decimalShape, List.mem_append] at hx
    rcases hx with (hx | hx) | hx
    · cases neg with
      | true => simp at hx; subst hx; decide
      | false => simp at hx
    · exact isNumChar_of_isDigit x (h1 x hx)
    · cases dot with
      | true =>
        simp at hx
        rcases hx with rfl | hx
        · decide
        · exact isNumChar_of_isDigit x (h2 x hx)
      | false => simp at hx

theorem parseNumber_ok (s : State) (parent : Option Nat) (pre t post : List Char) (c : Char)
    (hj : s._j = pre ++ t ++ c :: post) (hi : s._i = pre.length)
    (ht : wellFormedDecimal t = true) (hc : isNumChar c = false) :
    _parseNumber parent s = .ok s.heap.length
      { leaf (.Number (decimalValue t)) parent s with _i := pre.length + t.length } := by
  obtain ⟨hne, hall⟩ := wf_numChars t ht
  exact (parseNumber_run s parent pre t post c hj hi hne hall hc).1 ht

mutual
theorem Val.induction_aux {P : Val → Prop} (hnull : P .null) (hbool : ∀ b, P (.bool b))
    (hnum : ∀ t, P (.num t)) (hstr : ∀ b, P (.str b))
    (harr : ∀ es, (∀ e ∈ es, P e) → P (.arr es))
    (hobj : ∀ ms, (∀ kv ∈ ms, P kv.2) → P (.obj ms)) : ∀ v, P v
  | .null => hnull
  | .bool b => hbool b
  | .num t => hnum t
  | .str b => hstr b
  | .arr es => harr es (Val.induction_elems hnull hbool hnum hstr harr hobj es)
  | .obj ms => hobj ms (Val.induction_members hnull hbool hnum hstr harr hobj ms)
theorem Val.induction_elems {P : Val → Prop} (hnull : P .null) (hbool : ∀ b, P (.bool b))
    (hnum : ∀ t, P (.num t)) (hstr : ∀ b, P (.str b))
    (harr : ∀ es, (∀ e ∈ es, P e) → P (.arr es))
    (hobj : ∀ ms, (∀ kv ∈ ms, P kv.2) → P (.obj ms)) : ∀ es : List Val, ∀ e ∈ es, P e
  | [] => fun _ h => absurd h (List.not_mem_nil _)
  | x :: xs => fun e h =>
    (List.mem_cons.1 h).elim (fun he => he ▸ Val.induction_aux hnull hbool hnum hstr harr hobj x)
      (fun he => Val.induction_elems hnull hbool hnum hstr harr hobj xs e he)
theorem Val.induction_members {P : Val → Prop} (hnull : P .null) (hbool : ∀ b, P (.bool b))
    (hnum : ∀ t, P (.num t)) (hstr : ∀ b, P (.str b))
    (harr : ∀ es, (∀ e ∈ es, P e) → P (.arr es))
    (hobj : ∀ ms, (∀ kv ∈ ms, P kv.2) → P (.obj ms)) :
    ∀ ms : List (List Char × Val), ∀ kv ∈ ms, P kv.2
  | [] => fun _ h => absurd h (List.not_mem_nil _)
  | (k, x) :: xs => fun kv h =>
    (List.mem_cons.1 h).elim
      (fun he => he ▸ Val.induction_aux hnull hbool hnum hstr harr hobj x)
      (fun he => Val.induction_members hnull hbool hnum hstr harr hobj xs kv he)
end

theorem deref_modify_ne (h : List Node) (f : Node → Node) (i j : Nat) (hij : i ≠ j) :
    deref (h.modify f j) i = deref h i := by
  unfold deref
  rw [List.getD_eq_getElem?_getD, List.getD_eq_getElem?_getD, List.getElem?_modify]
  simp [Ne.symm hij]

theorem deref_modify_self (h : List Node) (f : Node → Node) (i : Nat) (hi : i < h.length) :
    deref (h.modify f i) i = f (deref h i) := by
  unfold deref
  rw [List.getD_eq_getElem?_getD, List.getD_eq_getElem?_getD, List.getElem?_modify]
  simp [List.getElem?_eq_getElem hi]

theorem deref_append_left (h h' : List Node) (i : Nat) (hi : i < h.length) :
    deref (h ++ h') i = deref h i := by
  unfold deref
  rw [List.getD_eq_getElem?_getD, List.getD_eq_getElem?_getD, List.getElem?_append_left hi]

theorem deref_append_new (h : List Node) (c : Node) : deref (h ++ [c]) h.length = c := by
  unfold deref
  rw [List.getD_eq_getElem?_getD]
  simp

theorem attached_length (parent : Option Nat) (child : Nat) (h : List Node) :
    (attached parent child h).length = h.length := by
  cases parent <;> simp [attached]

theorem deref_attached_ne (parent : Option Nat) (child : Nat) (h : List Node) (i : Nat)
    (hp : parent ≠ some i) (hc : i ≠ child) :
    deref (attached parent child h) i = deref h i := by
  cases parent with
  | none => rfl
  | some p =>
    have hip : i ≠ p := fun e => hp (by rw [e])
    simp only [attached]
    rw [deref_modify_ne _ _ _ _ hc, deref_modify_ne _ _ _ _ hip]

theorem leaf_heap_length (p : Payload) (parent : Option Nat) (s : State) :
    (leaf p parent s).heap.length = s.heap.length + 1 := by
  simp [leaf, attached_length]

theorem Frame.refl (parent : Option Nat) (s : State) : Frame parent s s :=
  ⟨rfl, rfl, Nat.le_refl _, fun _ _ _ => rfl⟩

theorem Frame.of_leaf (p : Payload) (parent : Option Nat) (s : State) :
    Frame parent s (leaf p parent s) := by
  refine ⟨rfl, rfl, by rw [leaf_heap_length]; omega, ?_⟩
  intro i hi hp
  simp only [leaf]
  rw [deref_attached_ne _ _ _ _ hp (by omega), deref_append_left _ _ _ hi]

/-- A frame under a parent allocated later than `s` composes into a frame from `s`. -/
theorem Frame.trans_inner (parent : Option Nat) (a : Nat) (s s1 s2 : State)
    (h1 : Frame parent s s1) (ha : s.heap.length ≤ a) (h2 : Frame (some a) s1 s2) :
    Frame parent s s2 := by
  obtain ⟨j1, c1, l1, d1⟩ := h1
  obtain ⟨j2, c2, l2, d2⟩ := h2
  refine ⟨j2.trans j1, c2.trans c1, by omega, ?_⟩
  intro i hi hp
  rw [d2 i (by omega) (by intro e; injection e with e; omega), d1 i hi hp]

theorem heapSet_length (o : Nat) (k : List Char) (val : Nat) (h : List Node) :
    (heapSet o k val h).length = h.length := by
  simp [heapSet]

theorem Frame.of_memberDone (o : Nat) (k : List Char) (key val : Nat) (s : State) :
    Frame (some o) s (memberDone o k key val s) := by
  refine ⟨rfl, rfl, by simp [memberDone, heapSet_length], ?_⟩
  intro i _ hp
  simp only [memberDone, heapSet]
  exact deref_modify_ne _ _ _ _ (fun e => hp (by rw [e]))

theorem Frame.trans (parent : Option Nat) (s s1 s2 : State)
    (h1 : Frame parent s s1) (h2 : Frame parent s1 s2) : Frame parent s s2 := by
  obtain ⟨j1, c1, l1, d1⟩ := h1
  obtain ⟨j2, c2, l2, d2⟩ := h2
  refine ⟨j2.trans j1, c2.trans c1, by omega, ?_⟩
  intro i hi hp
  rw [d2 i (by omega) hp, d1 i hi hp]

theorem Frame.weaken (parent : Option Nat) (s s' : State) (h : Frame none s s') :
    Frame parent s s' := by
  obtain ⟨j1, c1, l1, d1⟩ := h
  exact ⟨j1, c1, l1, fun i hi _ => d1 i hi (by simp)⟩

theorem buildElems_frame (es : List Val)
    (ih : ∀ e ∈ es, ∀ p s, Frame p s (e.build p s)) :
    ∀ a s, Frame (some a) s (Val.buildElems es a s) := by
  induction es with
  | nil => intro a s; exact Frame.refl _ _
  | cons e es ih2 =>
    intro a s
    rw [Val.buildElems]
    exact Frame.trans _ _ _ _ (ih e (by simp) (some a) s)
      (ih2 (fun x hx => ih x (by simp [hx])) a _)

theorem buildMembers_frame (ms : List (List Char × Val))
    (ih : ∀ kv ∈ ms, ∀ p s, Frame p s (kv.2.build p s)) :
    ∀ o s, Frame (some o) s (Val.buildMembers ms o s) := by
  induction ms with
  | nil => intro o s; exact Frame.refl _ _
  | cons kv ms ih2 =>
    intro o s
    obtain ⟨k, v⟩ := kv
    rw [Val.buildMembers]
    refine Frame.trans _ _ _ _ ?_ (ih2 (fun x hx => ih x (by simp [hx])) o _)
    refine Frame.trans _ _ _ _ (Frame.weaken _ _ _ (Frame.of_leaf (.String k) none s)) ?_
    exact Frame.trans _ _ _ _ (ih (k, v) (by simp) (some o) _) (Frame.of_memberDone _ _ _ _ _)

/-- Building a value leaves the buffer, the log and the older cells (the parent's apart) as
they were. -/
theorem build_frame (v : Val) : ∀ p s, Frame p s (v.build p s) := by
  induction v using Val.induction_aux with
  | hnull => intro p s; exact Frame.of_leaf _ _ _
  | hbool b => intro p s; exact Frame.of_leaf _ _ _
  | hnum t => intro p s; exact Frame.of_leaf _ _ _
  | hstr b => intro p s; exact Frame.of_leaf _ _ _
  | harr es ih =>
    intro p s
    rw [Val.build]
    exact Frame.trans_inner p s.heap.length s _ _ (Frame.of_leaf _ _ _) (Nat.le_refl _)
      (buildElems_frame es ih _ _)
  | hobj ms ih =>
    intro p s
    rw [Val.build]
    exact Frame.trans_inner p s.heap.length s _ _ (Frame.of_leaf _ _ _) (Nat.le_refl _)
      (buildMembers_frame ms ih _ _)




theorem isWhite_cases (h : Char) (hw : isWhite h = true) :
    h = ' ' ∨ h = '\t' ∨ h = '\r' ∨ h = '\n' := by
  simpa [isWhite, or_assoc] using hw

theorem isStart_facts (h : Char) (hs : isStart h) :
    isWhite h = false ∧ h ≠ ']' ∧ h ≠ '}' := by
  rcases hs with rfl | rfl | rfl | hn | rfl | rfl | rfl
  · decide
  · decide
  · decide
  · refine ⟨?_, ?_, ?_⟩
    · cases hw : isWhite h with
      | false => rfl
      | true =>
        rcases isWhite_cases h hw with rfl | rfl | rfl | rfl <;> exact absurd hn (by decide)
    · rintro rfl; exact absurd hn (by decide)
    · rintro rfl; exact absurd hn (by decide)
  · decide
  · decide
  · decide

theorem render_head (v : Val) (hok : v.ok = true) :
    ∃ h t, v.render = h :: t ∧ isStart h := by
  cases v with
  | null => exact ⟨'n', "ull".toList, rfl, Or.inl rfl⟩
  | bool b =>
    cases b with
    | true => exact ⟨'t', "rue".toList, rfl, Or.inr (Or.inl rfl)⟩
    | false => exact ⟨'f', "alse".toList, rfl, Or.inr (Or.inr (Or.inl rfl))⟩
  | num t =>
    simp only [Val.ok] at hok
    obtain ⟨hne, hall⟩ := wf_numChars t hok
    cases t with
    | nil => exact absurd rfl hne
    | cons x xs =>
      exact ⟨x, xs, by simp [Val.render], Or.inr (Or.inr (Or.inr (Or.inl (hall x (by simp)))))⟩
  | str b => exact ⟨'"', b ++ ['"'], by simp [Val.render], by simp [isStart]⟩
  | arr es => exact ⟨'[', Val.renderElems es ++ [']'], by simp [Val.render], by simp [isStart]⟩
  | obj ms => exact ⟨'{', Val.renderMembers ms ++ ['}'], by simp [Val.render], by simp [isStart]⟩

theorem skipWhiteSpaces_none (s : State) (pre post : List Char) (c : Char)
    (hj : s._j = pre ++ c :: post) (hi : s._i = pre.length) (hc : isWhite c = false) :
    _skipWhiteSpaces true s = .ok () s := by
  have := skipWhiteSpaces_run s pre [] post c (by simpa using hj) hi (by simp) hc
  rw [this]
  simp [← hi]

theorem build_j (v : Val) (p : Option Nat) (s : State) : (v.build p s)._j = s._j :=
  (build_frame v p s).1

/-- One turn of the array loop on an element followed by `,` or `]`: the element is parsed as
a child of `a`, and a comma is stepped over. -/
theorem arrayLoop_step (e : Val) (hok : e.ok = true) (hP : ParseOK e) (f a : Nat) (s : State)
    (pre rest : List Char) (c : Char) (hf : e.need ≤ f)
    (hj : s._j = pre ++ e.render ++ c :: rest) (hi : s._i = pre.length)
    (hc : c = ',' ∨ c = ']') :
    _parseArray.loop (f + 1) a s =
      ((if c = ',' then _ii else pure ()) >>= fun _ => _parseArray.loop f a)
        { e.build (some a) s with _i := pre.length + e.render.length } := by
  obtain ⟨h, t, hr, hs⟩ := render_head e hok
  obtain ⟨hw, hb, _⟩ := isStart_facts h hs
  have hj0 : s._j = pre ++ h :: (t ++ c :: rest) := by rw [hj, hr]; simp
  have hc0 := _c_at s pre _ h hj0 hi
  have hsk0 := skipWhiteSpaces_none s pre _ h hj0 hi hw
  have hcn : isNumChar c = false := by rcases hc with rfl | rfl <;> decide
  have hcw : isWhite c = false := by rcases hc with rfl | rfl <;> decide
  have hp := hP f s (some a) pre rest c hf hj hi hcn
  have hj1 : ({ e.build (some a) s with _i := (pre.length : Int) + e.render.length } : State)._j =
      (pre ++ e.render) ++ c :: rest := by
    show (e.build (some a) s)._j = _
    rw [build_j, hj]
  have hi1 : ({ e.build (some a) s with _i := (pre.length : Int) + e.render.length } : State)._i =
      ((pre ++ e.render).length : Int) := by
    simp
  have hc1 := _c_at _ _ _ c hj1 hi1
  have hsk1 := skipWhiteSpaces_none _ _ _ c hj1 hi1 hcw
  have hcond : ¬ (c ≠ ',' ∧ c ≠ ']') := by
    rcases hc with rfl | rfl <;> simp
  simp only [_parseArray.loop, bind_apply, hc0, ne_eq, hb, not_false_eq_true, if_true, hsk0, hp,
    hsk1, hc1, hcond, if_false]




theorem renderElems_cons_cons (x y : Val) (ys : List Val) :
    Val.renderElems (x :: y :: ys) = x.render ++ [','] ++ Val.renderElems (y :: ys) := by
  simp [Val.renderElems]

theorem renderElems_concat (es : List Val) (e : Val) :
    Val.renderElems (es ++ [e]) = Val.renderCommas es ++ e.render := by
  induction es with
  | nil => simp [Val.renderElems, Val.renderCommas]
  | cons x xs ih =>
    cases xs with
    | nil => simp [Val.renderElems, Val.renderCommas]
    | cons y ys =>
      simp only [List.cons_append] at ih ⊢
      rw [renderElems_cons_cons, ih]
      simp [Val.renderCommas]

theorem leaf_seti (p : Payload) (parent : Option Nat) (s : State) (k : Int) :
    leaf p parent { s with _i := k } = { leaf p parent s with _i := k } := rfl

theorem memberDone_seti (o : Nat) (key : List Char) (kp vp : Nat) (s : State) (k : Int) :
    memberDone o key kp vp { s with _i := k } = { memberDone o key kp vp s with _i := k } := rfl

theorem buildElems_seti (es : List Val)
    (ih : ∀ e ∈ es, ∀ p s k, e.build p { s with _i := k } = { e.build p s with _i := k }) :
    ∀ a s k, Val.buildElems es a { s with _i := k } = { Val.buildElems es a s with _i := k } := by
  induction es with
  | nil => intro a s k; rfl
  | cons e es ih2 =>
    intro a s k
    rw [Val.buildElems, ih e (by simp), ih2 (fun x hx => ih x (by simp [hx]))]
    rfl

theorem buildMembers_seti (ms : List (List Char × Val))
    (ih : ∀ kv ∈ ms, ∀ p s k, kv.2.build p { s with _i := k } = { kv.2.build p s with _i := k }) :
    ∀ o s k, Val.buildMembers ms o { s with _i := k } =
      { Val.buildMembers ms o s with _i := k } := by
  induction ms with
  | nil => intro o s k; rfl
  | cons kv ms ih2 =>
    intro o s k
    obtain ⟨key, v⟩ := kv
    rw [Val.buildMembers, leaf_seti, ih (key, v) (by simp), memberDone_seti,
      ih2 (fun x hx => ih x (by simp [hx]))]
    rfl

/-- Building does not read the cursor. -/
theorem build_seti (v : Val) :
    ∀ p s k, v.build p { s with _i := k } = { v.build p s with _i := k } := by
  induction v using Val.induction_aux with
  | hnull => intro p s k; rfl
  | hbool b => intro p s k; rfl
  | hnum t => intro p s k; rfl
  | hstr b => intro p s k; rfl
  | harr es ih =>
    intro p s k
    rw [Val.build, leaf_seti, buildElems_seti es ih]
    rfl
  | hobj ms ih =>
    intro p s k
    rw [Val.build, leaf_seti, buildMembers_seti ms ih]
    rfl

theorem buildElems_seti' (es : List Val) (a : Nat) (s : State) (k : Int) :
    Val.buildElems es a { s with _i := k } = { Val.buildElems es a s with _i := k } :=
  buildElems_seti es (fun e _ => build_seti e) a s k

theorem buildElems_concat (es : List Val) (e : Val) (a : Nat) (s : State) :
    Val.buildElems (es ++ [e]) a s = e.build (some a) (Val.buildElems es a s) := by
  induction es generalizing s with
  | nil => simp [Val.buildElems]
  | cons x xs ih => simp [Val.buildElems, ih]

theorem needElems_concat (es : List Val) (e : Val) :
    Val.needElems es ≤ Val.needElems (es ++ [e]) ∧
    e.need + es.length + 2 ≤ Val.needElems (es ++ [e]) := by
  induction es with
  | nil => simp [Val.needElems]
  | cons x xs ih =>
    have h1 : Val.needElems (x :: (xs ++ [e])) = x.need + Val.needElems (xs ++ [e]) + 1 := by
      simp [Val.needElems]
    have h2 : Val.needElems (x :: xs) = x.need + Val.needElems xs + 1 := by
      simp [Val.needElems]
    rw [List.cons_append, h1, h2, List.length_cons]
    omega

theorem needElems_length (es : List Val) : es.length + 1 ≤ Val.needElems es := by
  induction es with
  | nil => simp [Val.needElems]
  | cons x xs ih => simp only [Val.needElems, List.length_cons]; omega

theorem buildElems_j (es : List Val) (a : Nat) (s : State) :
    (Val.buildElems es a s)._j = s._j :=
  (buildElems_frame es (fun e _ => build_frame e) a s).1

/-- The array loop over elements that are each followed by a comma, with more text behind. -/
theorem arrayLoop_commas (a : Nat) (es : List Val) :
    (∀ e ∈ es, e.ok = true ∧ ParseOK e) →
    ∀ (fuel : Nat) (s : State) (pre tail : List Char),
      Val.needElems es ≤ fuel → s._j = pre ++ Val.renderCommas es ++ tail →
      s._i = pre.length → tail ≠ [] →
      _parseArray.loop fuel a s = _parseArray.loop (fuel - es.length) a
        { Val.buildElems es a s with _i := pre.length + (Val.renderCommas es).length } := by
  induction es with
  | nil =>
    intro _ fuel s pre tail _ _ hi _
    simp [Val.buildElems, Val.renderCommas, ← hi]
  | cons e es ih =>
    intro hall fuel s pre tail hf hj hi ht
    obtain ⟨f, rfl⟩ : ∃ f, fuel = f + 1 :=
      ⟨fuel - 1, by simp only [Val.needElems] at hf; omega⟩
    simp only [Val.needElems] at hf
    obtain ⟨hok, hP⟩ := hall e (by simp)
    have hstep := arrayLoop_step e hok hP f a s pre (Val.renderCommas es ++ tail) ','
      (by omega) (by simpa [Val.renderCommas] using hj) hi (Or.inl rfl)
    obtain ⟨d, tl, htl⟩ : ∃ d tl, Val.renderCommas es ++ tail = d :: tl := by
      cases h : Val.renderCommas es ++ tail with
      | nil => simp at h; exact absurd h.2 ht
      | cons d tl => exact ⟨d, tl, rfl⟩
    have hii := _ii_at { e.build (some a) s with _i := (pre.length : Int) + e.render.length }
      (pre ++ e.render) tl ',' d
      (by show (e.build (some a) s)._j = _; rw [build_j, hj, ← htl]; simp [Val.renderCommas])
      (by simp)
    rw [hstep]
    simp only [if_true, bind_apply, hii]
    rw [ih (fun x hx => hall x (by simp [hx])) f _ (pre ++ e.render ++ [',']) tail (by omega)
      (by show (e.build (some a) s)._j = _; rw [build_j, hj]; simp [Val.renderCommas])
      (by simp; omega) ht]
    have hfu : f + 1 - (e :: es).length = f - es.length := by simp
    rw [hfu]
    congr 1
    simp only [Val.buildElems, Val.renderCommas, buildElems_seti']
    simp
    omega

theorem arrayLoop_exit (a f : Nat) (s : State) (pre post : List Char)
    (hj : s._j = pre ++ ']' :: post) (hi : s._i = pre.length) :
    _parseArray.loop (f + 1) a s = .ok () s := by
  simp only [_parseArray.loop, bind_apply, _c_at s pre post ']' hj hi, ne_eq, not_true_eq_false,
    if_false, pure_apply]

/-- The array loop over a whole element list that is closed by `]`: it stops with the cursor on
the bracket. -/
theorem arrayLoop_all (a : Nat) (es : List Val) (hall : ∀ e ∈ es, e.ok = true ∧ ParseOK e)
    (fuel : Nat) (s : State) (pre post : List Char)
    (hf : Val.needElems es ≤ fuel) (hj : s._j = pre ++ Val.renderElems es ++ ']' :: post)
    (hi : s._i = pre.length) :
    _parseArray.loop fuel a s = .ok ()
      { Val.buildElems es a s with _i := pre.length + (Val.renderElems es).length } := by
  rcases List.eq_nil_or_concat es with rfl | ⟨es', e, rfl⟩
  on_goal 2 => rw [List.concat_eq_append] at hall hf hj ⊢
  · obtain ⟨f, rfl⟩ : ∃ f, fuel = f + 1 := ⟨fuel - 1, by simp only [Val.needElems] at hf; omega⟩
    rw [arrayLoop_exit a f s pre post (by simpa [Val.renderElems] using hj) hi]
    simp [Val.buildElems, Val.renderElems, ← hi]
  · obtain ⟨hn1, hn2⟩ := needElems_concat es' e
    rw [renderElems_concat] at hj ⊢
    rw [arrayLoop_commas a es' (fun x hx => hall x (by simp [hx])) fuel s pre
      (e.render ++ ']' :: post) (by omega) (by simpa using hj) hi (by simp)]
    obtain ⟨f, hfe⟩ : ∃ f, fuel - es'.length = f + 1 := ⟨fuel - es'.length - 1, by omega⟩
    obtain ⟨f2, hfe2⟩ : ∃ f2, f = f2 + 1 := ⟨f - 1, by omega⟩
    obtain ⟨hok, hP⟩ := hall e (by simp)
    rw [hfe, arrayLoop_step e hok hP f a _ (pre ++ Val.renderCommas es') post ']' (by omega)
      (by simp only [buildElems_j, hj]; simp)
      (by simp) (Or.inr rfl)]
    simp only [Char.reduceEq, if_false, bind_apply, pure_apply]
    rw [hfe2, arrayLoop_exit a f2 _ (pre ++ Val.renderCommas es' ++ e.render) post
      (by simp only [build_j, buildElems_j, hj]; simp)
      (by simp; omega)]
    rw [buildElems_concat]
    simp only [buildElems_seti', build_seti]
    simp
    omega




theorem delete_leaf (key : Nat) (s : State) (h : (deref s.heap key).children = []) :
    Node.delete key s = .ok ()
      { s with
        _nodes_in_memory := s._nodes_in_memory - 1
        released := s.released ++ [key] } := by
  simp only [Node.delete, Node.dtor, h, List.getLast?_nil]

theorem setS_string (o key val : Nat) (k : List Char) (s : State)
    (h : (deref s.heap key).payload = .String k) :
    Object.setS o key val s = .ok () { s with heap := heapSet o k val s.heap } := by
  simp only [Object.setS, h, Object.set, heapSet]

/-- The statements `o->set(key, val); delete key;` on a key node that is a childless string
other than `o`. -/
theorem set_delete (o key val : Nat) (k : List Char) (s : State) (hne : key ≠ o)
    (h : deref s.heap key = ⟨.String k, none, []⟩) {α : Type} (m : M α) :
    (Object.setS o key val >>= fun _ => Node.delete key >>= fun _ => m) s =
      m (memberDone o k key val s) := by
  have h1 := setS_string o key val k s (by rw [h])
  have h2 := delete_leaf key { s with heap := heapSet o k val s.heap } (by
    show (deref (heapSet o k val s.heap) key).children = []
    rw [heapSet, deref_modify_ne _ _ _ _ hne, h])
  simp only [bind_apply, h1, h2, memberDone]

theorem leaf_key_cell (k : List Char) (s : State) :
    deref (leaf (.String k) none s).heap s.heap.length = ⟨.String k, none, []⟩ := by
  simp only [leaf, attached]
  exact deref_append_new _ _

/-- One turn of the object loop on a member followed by `,` or `}`. -/
theorem objectLoop_step (k : List Char) (v : Val) (hk : strBodyOk '"' k = true)
    (hok : v.ok = true) (hP : ParseOK v) (f o : Nat) (s : State)
    (pre rest : List Char) (c : Char) (hf : v.need ≤ f) (ho : o < s.heap.length)
    (hj : s._j = pre ++ (['"'] ++ k ++ ['"', ':'] ++ v.render) ++ c :: rest)
    (hi : s._i = pre.length) (hc : c = ',' ∨ c = '}') :
    _parseObject.loop (f + 1) o s =
      ((if c = ',' then _ii else pure ()) >>= fun _ =>
        Object.setS o s.heap.length (s.heap.length + 1) >>= fun _ =>
        Node.delete s.heap.length >>= fun _ => _parseObject.loop f o)
        { v.build (some o) (leaf (.String k) none s) with
          _i := pre.length + (['"'] ++ k ++ ['"', ':'] ++ v.render).length } := by
  obtain ⟨h, t, hr, hs⟩ := render_head v hok
  have hj0 : s._j = pre ++ '"' :: k ++ '"' :: ':' :: (v.render ++ c :: rest) := by
    rw [hj]; simp
  have hc0 := _c_at s pre _ '"' (by simpa using hj0) hi
  have hsk0 := skipWhiteSpaces_none s pre _ '"' (by simpa using hj0) hi (by decide)
  have hkey := parseString_ok s none pre k (v.render ++ c :: rest) ':' hj0 hi hk
  have hj1 : ({ leaf (.String k) none s with _i := (pre.length : Int) + (k.length + 2) } : State)._j
      = (pre ++ '"' :: k ++ ['"']) ++ ':' :: h :: (t ++ c :: rest) := by
    show s._j = _
    rw [hj, hr]; simp
  have hi1 : ({ leaf (.String k) none s with _i := (pre.length : Int) + (k.length + 2) } : State)._i
      = ((pre ++ '"' :: k ++ ['"']).length : Int) := by
    simp; omega
  have hc1 := _c_at _ _ _ ':' hj1 hi1
  have hsk1 := skipWhiteSpaces_none _ _ _ ':' hj1 hi1 (by decide)
  have hii := _ii_at _ _ _ ':' h hj1 hi1
  have hcn : isNumChar c = false := by rcases hc with rfl | rfl <;> decide
  have hcw : isWhite c = false := by rcases hc with rfl | rfl <;> decide
  have hp := hP f { leaf (.String k) none s with
      _i := ((pre ++ '"' :: k ++ ['"']).length : Int) + 1 } (some o)
    (pre ++ '"' :: k ++ ['"', ':']) rest c hf (by show s._j = _; rw [hj]; simp)
    (by simp; omega) hcn
  have hlen : ({ leaf (.String k) none s with
      _i := ((pre ++ '"' :: k ++ ['"']).length : Int) + 1 } : State).heap.length =
      s.heap.length + 1 := by
    show (leaf (.String k) none s).heap.length = _
    exact leaf_heap_length _ _ _
  rw [hlen, build_seti] at hp
  have hj2 : ({ v.build (some o) (leaf (.String k) none s) with
      _i := (pre.length : Int) + (['"'] ++ k ++ ['"', ':'] ++ v.render).length } : State)._j =
      (pre ++ (['"'] ++ k ++ ['"', ':'] ++ v.render)) ++ c :: rest := by
    show (v.build (some o) (leaf (.String k) none s))._j = _
    rw [build_j]
    show s._j = _
    rw [hj]
  have hi2 : ({ v.build (some o) (leaf (.String k) none s) with
      _i := (pre.length : Int) + (['"'] ++ k ++ ['"', ':'] ++ v.render).length } : State)._i =
      ((pre ++ (['"'] ++ k ++ ['"', ':'] ++ v.render)).length : Int) := by
    simp
  have hc2 := _c_at _ _ _ c hj2 hi2
  have hsk2 := skipWhiteSpaces_none _ _ _ c hj2 hi2 hcw
  have hcond : ¬ (c ≠ ',' ∧ c ≠ '}') := by
    rcases hc with rfl | rfl <;> simp
  have hst : ({ v.build (some o) (leaf (.String k) none s) with
      _i := ((pre ++ '"' :: k ++ ['"', ':']).length : Int) + v.render.length } : State) =
      { v.build (some o) (leaf (.String k) none s) with
      _i := (pre.length : Int) + (['"'] ++ k ++ ['"', ':'] ++ v.render).length } := by
    congr 1
    simp; omega
  rw [hst] at hp
  simp only [_parseObject.loop, bind_apply, hc0, ne_eq, Char.reduceEq, not_false_eq_true, if_true,
    hsk0, not_true_eq_false, if_false, hkey, hsk1, hc1, hii, hp, hsk2, hc2, hcond]




theorem member_finish (k : List Char) (v : Val) (o : Nat) (s : State) (i' : Int)
    (ho : o < s.heap.length) {α : Type} (m : M α) :
    (Object.setS o s.heap.length (s.heap.length + 1) >>= fun _ =>
      Node.delete s.heap.length >>= fun _ => m)
      { v.build (some o) (leaf (.String k) none s) with _i := i' } =
    m { memberDone o k s.heap.length (s.heap.length + 1)
        (v.build (some o) (leaf (.String k) none s)) with _i := i' } := by
  have hcell : deref (v.build (some o) (leaf (.String k) none s)).heap s.heap.length =
      ⟨.String k, none, []⟩ := by
    rw [(build_frame v (some o) (leaf (.String k) none s)).2.2.2 s.heap.length
      (by rw [leaf_heap_length]; omega) (by intro e; injection e with e; omega)]
    exact leaf_key_cell k s
  have := set_delete o s.heap.length (s.heap.length + 1) k
    { v.build (some o) (leaf (.String k) none s) with _i := i' } (by omega) hcell m
  rw [this]
  rfl

theorem renderMembers_cons_cons (x y : List Char × Val) (ys : List (List Char × Val)) :
    Val.renderMembers (x :: y :: ys) =
      ['"'] ++ x.1 ++ ['"', ':'] ++ x.2.render ++ [','] ++ Val.renderMembers (y :: ys) := by
  obtain ⟨k, v⟩ := x
  simp [Val.renderMembers]

theorem renderMembers_concat (ms : List (List Char × Val)) (kv : List Char × Val) :
    Val.renderMembers (ms ++ [kv]) =
      Val.renderMembersCommas ms ++ (['"'] ++ kv.1 ++ ['"', ':'] ++ kv.2.render) := by
  induction ms with
  | nil =>
    obtain ⟨k, v⟩ := kv
    simp [Val.renderMembers, Val.renderMembersCommas]
  | cons x xs ih =>
    cases xs with
    | nil =>
      obtain ⟨k, v⟩ := kv
      obtain ⟨k1, v1⟩ := x
      simp [Val.renderMembers, Val.renderMembersCommas]
    | cons y ys =>
      simp only [List.cons_append] at ih ⊢
      rw [renderMembers_cons_cons, ih]
      simp [Val.renderMembersCommas]

theorem buildMembers_cons (k : List Char) (v : Val) (ms : List (List Char × Val)) (o : Nat)
    (s : State) :
    Val.buildMembers ((k, v) :: ms) o s =
      Val.buildMembers ms o (memberDone o k s.heap.length (s.heap.length + 1)
        (v.build (some o) (leaf (.String k) none s))) := by
  simp [Val.buildMembers]

theorem buildMembers_concat (ms : List (List Char × Val)) (k : List Char) (v : Val) (o : Nat)
    (s : State) :
    Val.buildMembers (ms ++ [(k, v)]) o s =
      memberDone o k (Val.buildMembers ms o s).heap.length
        ((Val.buildMembers ms o s).heap.length + 1)
        (v.build (some o) (leaf (.String k) none (Val.buildMembers ms o s))) := by
  induction ms generalizing s with
  | nil => simp [Val.buildMembers]
  | cons x xs ih =>
    obtain ⟨k1, v1⟩ := x
    simp only [List.cons_append, buildMembers_cons, ih]

theorem needMembers_cons (k : List Char) (v : Val) (ms : List (List Char × Val)) :
    Val.needMembers ((k, v) :: ms) = v.need + Val.needMembers ms + 1 := by
  simp [Val.needMembers]

theorem needMembers_concat (ms : List (List Char × Val)) (kv : List Char × Val) :
    Val.needMembers ms ≤ Val.needMembers (ms ++ [kv]) ∧
    kv.2.need + ms.length + 2 ≤ Val.needMembers (ms ++ [kv]) := by
  induction ms with
  | nil => obtain ⟨k, v⟩ := kv; simp [Val.needMembers]
  | cons x xs ih =>
    obtain ⟨k1, v1⟩ := x
    rw [List.cons_append, needMembers_cons, needMembers_cons, List.length_cons]
    omega

theorem buildMembers_seti' (ms : List (List Char × Val)) (o : Nat) (s : State) (k : Int) :
    Val.buildMembers ms o { s with _i := k } = { Val.buildMembers ms o s with _i := k } :=
  buildMembers_seti ms (fun kv _ => build_seti kv.2) o s k

theorem buildMembers_j (ms : List (List Char × Val)) (o : Nat) (s : State) :
    (Val.buildMembers ms o s)._j = s._j :=
  (buildMembers_frame ms (fun kv _ => build_frame kv.2) o s).1

theorem buildMembers_length (ms : List (List Char × Val)) (o : Nat) (s : State) :
    s.heap.length ≤ (Val.buildMembers ms o s).heap.length :=
  (buildMembers_frame ms (fun kv _ => build_frame kv.2) o s).2.2.1

/-- The object loop over members that are each followed by a comma, with more text behind. -/
theorem objectLoop_commas (o : Nat) (ms : List (List Char × Val)) :
    (∀ kv ∈ ms, strBodyOk '"' kv.1 = true ∧ kv.2.ok = true ∧ ParseOK kv.2) →
    ∀ (fuel : Nat) (s : State) (pre tail : List Char),
      Val.needMembers ms ≤ fuel → o < s.heap.length →
      s._j = pre ++ Val.renderMembersCommas ms ++ tail →
      s._i = pre.length → tail ≠ [] →
      _parseObject.loop fuel o s = _parseObject.loop (fuel - ms.length) o
        { Val.buildMembers ms o s with
          _i := pre.length + (Val.renderMembersCommas ms).length } := by
  induction ms with
  | nil =>
    intro _ fuel s pre tail _ _ _ hi _
    simp [Val.buildMembers, Val.renderMembersCommas, ← hi]
  | cons kv ms ih =>
    intro hall fuel s pre tail hf ho hj hi ht
    obtain ⟨k, v⟩ := kv
    rw [needMembers_cons] at hf
    obtain ⟨f, rfl⟩ : ∃ f, fuel = f + 1 := ⟨fuel - 1, by omega⟩
    obtain ⟨hk, hok, hP⟩ := hall (k, v) (by simp)
    have hstep := objectLoop_step k v hk hok hP f o s pre (Val.renderMembersCommas ms ++ tail) ','
      (by omega) ho (by simpa [Val.renderMembersCommas] using hj) hi (Or.inl rfl)
    obtain ⟨d, tl, htl⟩ : ∃ d tl, Val.renderMembersCommas ms ++ tail = d :: tl := by
      cases h : Val.renderMembersCommas ms ++ tail with
      | nil => simp at h; exact absurd h.2 ht
      | cons d tl => exact ⟨d, tl, rfl⟩
    have hii := _ii_at { v.build (some o) (leaf (.String k) none s) with
        _i := (pre.length : Int) + (['"'] ++ k ++ ['"', ':'] ++ v.render).length }
      (pre ++ (['"'] ++ k ++ ['"', ':'] ++ v.render)) tl ',' d
      (by simp only [build_j]; show s._j = _
          rw [hj, ← htl]; simp [Val.renderMembersCommas])
      (by simp)
    rw [hstep, bind_apply]
    simp only [if_true, hii]
    rw [member_finish k v o s _ ho]
    rw [ih (fun x hx => hall x (by simp [hx])) f _
      (pre ++ (['"'] ++ k ++ ['"', ':'] ++ v.render) ++ [',']) tail (by omega)
      (by
        have h1 := (Frame.of_memberDone o k s.heap.length (s.heap.length + 1)
          (v.build (some o) (leaf (.String k) none s))).2.2.1
        have h2 := (build_frame v (some o) (leaf (.String k) none s)).2.2.1
        have h3 := leaf_heap_length (.String k) none s
        show o < (memberDone o k s.heap.length (s.heap.length + 1)
          (v.build (some o) (leaf (.String k) none s))).heap.length
        omega)
      (by show (memberDone o k s.heap.length (s.heap.length + 1)
            (v.build (some o) (leaf (.String k) none s)))._j = _
          show (v.build (some o) (leaf (.String k) none s))._j = _
          rw [build_j]; show s._j = _
          rw [hj]; simp [Val.renderMembersCommas])
      (by simp; omega) ht]
    have hfu : f + 1 - ((k, v) :: ms).length = f - ms.length := by simp
    rw [hfu]
    congr 1
    simp only [buildMembers_cons, Val.renderMembersCommas, buildMembers_seti']
    simp
    omega

theorem objectLoop_exit (o f : Nat) (s : State) (pre post : List Char)
    (hj : s._j = pre ++ '}' :: post) (hi : s._i = pre.length) :
    _parseObject.loop (f + 1) o s = .ok () s := by
  simp only [_parseObject.loop, bind_apply, _c_at s pre post '}' hj hi, ne_eq, not_true_eq_false,
    if_false, pure_apply]

/-- The object loop over a whole member list that is closed by `}`: it stops with the cursor on
the brace. -/
theorem objectLoop_all (o : Nat) (ms : List (List Char × Val))
    (hall : ∀ kv ∈ ms, strBodyOk '"' kv.1 = true ∧ kv.2.ok = true ∧ ParseOK kv.2)
    (fuel : Nat) (s : State) (pre post : List Char)
    (hf : Val.needMembers ms ≤ fuel) (ho : o < s.heap.length)
    (hj : s._j = pre ++ Val.renderMembers ms ++ '}' :: post)
    (hi : s._i = pre.length) :
    _parseObject.loop fuel o s = .ok ()
      { Val.buildMembers ms o s with _i := pre.length + (Val.renderMembers ms).length } := by
  rcases List.eq_nil_or_concat ms with rfl | ⟨ms', kv, rfl⟩
  on_goal 2 => rw [List.concat_eq_append] at hall hf hj ⊢
  · obtain ⟨f, rfl⟩ : ∃ f, fuel = f + 1 :=
      ⟨fuel - 1, by simp only [Val.needMembers] at hf; omega⟩
    rw [objectLoop_exit o f s pre post (by simpa [Val.renderMembers] using hj) hi]
    simp [Val.buildMembers, Val.renderMembers, ← hi]
  · obtain ⟨k, v⟩ := kv
    obtain ⟨hn1, hn2⟩ := needMembers_concat ms' (k, v)
    rw [renderMembers_concat] at hj ⊢
    rw [objectLoop_commas o ms' (fun x hx => hall x (by simp [hx])) fuel s pre
      ((['"'] ++ k ++ ['"', ':'] ++ v.render) ++ '}' :: post) (by omega) ho
      (by simpa using hj) hi (by simp)]
    obtain ⟨f, hfe⟩ : ∃ f, fuel - ms'.length = f + 1 := ⟨fuel - ms'.length - 1, by omega⟩
    obtain ⟨f2, hfe2⟩ : ∃ f2, f = f2 + 1 := ⟨f - 1, by simp at hn2; omega⟩
    obtain ⟨hk, hok, hP⟩ := hall (k, v) (by simp)
    have ho' : o < ({ Val.buildMembers ms' o s with
        _i := (pre.length : Int) + (Val.renderMembersCommas ms').length } : State).heap.length := by
      have := buildMembers_length ms' o s
      show o < (Val.buildMembers ms' o s).heap.length
      omega
    rw [hfe, objectLoop_step k v hk hok hP f o _ (pre ++ Val.renderMembersCommas ms') post '}'
      (by simp at hn2; omega) ho'
      (by simp only [buildMembers_j, hj]; simp)
      (by simp) (Or.inr rfl)]
    rw [bind_apply]
    simp only [Char.reduceEq, if_false, pure_apply]
    rw [member_finish k v o _ _ ho']
    rw [hfe2, objectLoop_exit o f2 _
      (pre ++ Val.renderMembersCommas ms' ++ (['"'] ++ k ++ ['"', ':'] ++ v.render)) post
      (by simp only [memberDone, build_j, leaf, buildMembers_j, hj]; simp)
      (by simp; omega)]
    rw [buildMembers_concat]
    simp only [buildMembers_seti', build_seti, leaf_seti, memberDone_seti]
    simp
    omega




theorem _parse_dispatch (f : Nat) (parent : Option Nat) (s : State) (pre post : List Char)
    (h : Char) (hj : s._j = pre ++ h :: post) (hi : s._i = pre.length)
    (hw : isWhite h = false) :
    _parse (f + 1) parent s =
      (if h = 'n' then _parseNull parent
        else if h = 't' ∨ h = 'f' then _parseBoolean parent
        else if isNumChar h then _parseNumber parent
        else if h = '"' then _parseString parent
        else if h = '{' then _parseObject f parent
        else if h = '[' then _parseArray f parent
        else _unexpectedCharErr >>= raise) s := by
  simp only [_parse, bind_apply, skipWhiteSpaces_none s pre post h hj hi hw, _c_at s pre post h hj hi]

theorem newNode_hPrt (p : Payload) (parent : Option Nat) (s : State) {α : Type}
    (m : Nat → M α) :
    (newNode p >>= fun n => _hPrt parent n >>= fun _ => m n) s =
      m s.heap.length (leaf p parent s) := by
  simp only [bind_apply, newNode, _hPrt_eq, leaf]

/-- The routine `_parseArray` on the text of an array: the tree is built and the cursor moves
past the closing bracket, or stays on it when the bracket ends the buffer. -/
theorem parseArray_ok (es : List Val) (hall : ∀ e ∈ es, e.ok = true ∧ ParseOK e)
    (fuel : Nat) (parent : Option Nat) (s : State) (pre post : List Char)
    (hf : Val.needElems es + 1 ≤ fuel)
    (hj : s._j = pre ++ (Val.arr es).render ++ post) (hi : s._i = pre.length) :
    _parseArray fuel parent s = .ok s.heap.length
      { (Val.arr es).build parent s with
        _i := pre.length + (Val.arr es).render.length - (if post = [] then 1 else 0) } := by
  obtain ⟨f, rfl⟩ : ∃ f, fuel = f + 1 := ⟨fuel - 1, by omega⟩
  have hj' : s._j = pre ++ '[' :: (Val.renderElems es ++ ']' :: post) := by
    rw [hj]; simp [Val.render]
  obtain ⟨d, tl, hd⟩ : ∃ d tl, Val.renderElems es ++ ']' :: post = d :: tl := by
    cases h : Val.renderElems es ++ ']' :: post with
    | nil => simp at h
    | cons d tl => exact ⟨d, tl, rfl⟩
  have hii : _ii (leaf .Array parent s) =
      .ok () { leaf .Array parent s with _i := (pre.length : Int) + 1 } :=
    _ii_at (leaf .Array parent s) pre tl '[' d (by show s._j = _; rw [hj', hd])
      (by show s._i = _; exact hi)
  have hloop := arrayLoop_all s.heap.length es hall f
    { leaf .Array parent s with _i := (pre.length : Int) + 1 } (pre ++ ['[']) post (by omega)
    (by show s._j = _; rw [hj']; simp) (by simp)
  rw [_parseArray]
  have hbind := newNode_hPrt .Array parent s (fun a => _ii >>= fun _ =>
    _parseArray.loop f a >>= fun _ => _iis >>= fun _ => pure a)
  simp only [bind_assoc] at hbind ⊢
  rw [hbind]
  simp only [bind_apply, hii, hloop]
  by_cases hp : post = []
  · subst hp
    rw [_iis_last _ (pre ++ ['['] ++ Val.renderElems es) ']'
      (by simp only [buildElems_j]; show s._j = _; rw [hj']; simp) (by simp; omega)]
    simp only [pure_apply, Val.build, buildElems_seti', leaf_seti, if_true]
    simp [Val.render]
    omega
  · obtain ⟨d2, tl2, rfl⟩ : ∃ d2 tl2, post = d2 :: tl2 := by
      cases post with
      | nil => exact absurd rfl hp
      | cons d2 tl2 => exact ⟨d2, tl2, rfl⟩
    rw [_iis_at _ (pre ++ ['['] ++ Val.renderElems es) tl2 ']' d2
      (by simp only [buildElems_j]; show s._j = _; rw [hj']; simp) (by simp; omega)]
    simp only [pure_apply, Val.build, buildElems_seti', leaf_seti, hp, if_false]
    simp [Val.render]
    omega




/-- The routine `_parseObject` on the text of an object: the tree is built and the cursor moves
past the closing brace, or stays on it when the brace ends the buffer. -/
theorem parseObject_ok (ms : List (List Char × Val))
    (hall : ∀ kv ∈ ms, strBodyOk '"' kv.1 = true ∧ kv.2.ok = true ∧ ParseOK kv.2)
    (fuel : Nat) (parent : Option Nat) (s : State) (pre post : List Char)
    (hf : Val.needMembers ms + 1 ≤ fuel)
    (hj : s._j = pre ++ (Val.obj ms).render ++ post) (hi : s._i = pre.length) :
    _parseObject fuel parent s = .ok s.heap.length
      { (Val.obj ms).build parent s with
        _i := pre.length + (Val.obj ms).render.length - (if post = [] then 1 else 0) } := by
  obtain ⟨f, rfl⟩ : ∃ f, fuel = f + 1 := ⟨fuel - 1, by omega⟩
  have hj' : s._j = pre ++ '{' :: (Val.renderMembers ms ++ '}' :: post) := by
    rw [hj]; simp [Val.render]
  obtain ⟨d, tl, hd⟩ : ∃ d tl, Val.renderMembers ms ++ '}' :: post = d :: tl := by
    cases h : Val.renderMembers ms ++ '}' :: post with
    | nil => simp at h
    | cons d tl => exact ⟨d, tl, rfl⟩
  have hii : _ii (leaf (.Object []) parent s) =
      .ok () { leaf (.Object []) parent s with _i := (pre.length : Int) + 1 } :=
    _ii_at (leaf (.Object []) parent s) pre tl '{' d (by show s._j = _; rw [hj', hd])
      (by show s._i = _; exact hi)
  have hloop := objectLoop_all s.heap.length ms hall f
    { leaf (.Object []) parent s with _i := (pre.length : Int) + 1 } (pre ++ ['{']) post
    (by omega) (by show s.heap.length < (leaf (.Object []) parent s).heap.length
                   rw [leaf_heap_length]; omega)
    (by show s._j = _; rw [hj']; simp) (by simp)
  rw [_parseObject]
  have hbind := newNode_hPrt (.Object []) parent s (fun o => _ii >>= fun _ =>
    _parseObject.loop f o >>= fun _ => _iis >>= fun _ => pure o)
  simp only [bind_assoc] at hbind ⊢
  rw [hbind]
  simp only [bind_apply, hii, hloop]
  by_cases hp : post = []
  · subst hp
    rw [_iis_last _ (pre ++ ['{'] ++ Val.renderMembers ms) '}'
      (by simp only [buildMembers_j]; show s._j = _; rw [hj']; simp) (by simp; omega)]
    simp only [pure_apply, Val.build, buildMembers_seti', leaf_seti, if_true]
    simp [Val.render]
    omega
  · obtain ⟨d2, tl2, rfl⟩ : ∃ d2 tl2, post = d2 :: tl2 := by
      cases post with
      | nil => exact absurd rfl hp
      | cons d2 tl2 => exact ⟨d2, tl2, rfl⟩
    rw [_iis_at _ (pre ++ ['{'] ++ Val.renderMembers ms) tl2 '}' d2
      (by simp only [buildMembers_j]; show s._j = _; rw [hj']; simp) (by simp; omega)]
    simp only [pure_apply, Val.build, buildMembers_seti', leaf_seti, hp, if_false]
    simp [Val.render]
    omega

theorem okElems_mem (es : List Val) (h : Val.okElems es = true) : ∀ e ∈ es, e.ok = true := by
  induction es with
  | nil => simp
  | cons x xs ih =>
    simp only [Val.okElems, Bool.and_eq_true] at h
    intro e he
    rcases List.mem_cons.1 he with rfl | he
    · exact h.1
    · exact ih h.2 e he

theorem okMembers_mem (ms : List (List Char × Val)) (h : Val.okMembers ms = true) :
    ∀ kv ∈ ms, strBodyOk '"' kv.1 = true ∧ kv.2.ok = true := by
  induction ms with
  | nil => simp
  | cons x xs ih =>
    obtain ⟨k, v⟩ := x
    simp only [Val.okMembers, Bool.and_eq_true] at h
    intro e he
    rcases List.mem_cons.1 he with rfl | he
    · exact h.1
    · exact ih h.2 e he

theorem isNumChar_not_ntf (x : Char) (hx : isNumChar x = true) :
    x ≠ 'n' ∧ ¬ (x = 't' ∨ x = 'f') := by
  refine ⟨?_, ?_⟩
  · rintro rfl; exact absurd hx (by decide)
  · rintro (rfl | rfl) <;> exact absurd hx (by decide)

/-- Every well-formed value text is parsed to the state `build` describes. -/
theorem parseOK_all (v : Val) : v.ok = true → ParseOK v := by
  induction v using Val.induction_aux with
  | hnull =>
    intro _ fuel s parent pre post c hf hj hi _
    obtain ⟨f, rfl⟩ : ∃ f, fuel = f + 1 := ⟨fuel - 1, by simp [Val.need] at hf; omega⟩
    rw [_parse_dispatch f parent s pre ("ull".toList ++ c :: post) 'n'
      (by rw [hj]; simp [Val.render]) hi (by decide)]
    simp only [if_true]
    rw [parseNull_ok s parent pre (c :: post) (by rw [hj]; simp [Val.render]) hi]
    simp [Val.build, Val.render]
  | hbool b =>
    intro _ fuel s parent pre post c hf hj hi _
    obtain ⟨f, rfl⟩ : ∃ f, fuel = f + 1 := ⟨fuel - 1, by simp [Val.need] at hf; omega⟩
    have hb := parseBoolean_ok s parent pre (c :: post) b (by rw [hj]; simp [Val.render]) hi
    cases b with
    | true =>
      rw [_parse_dispatch f parent s pre ("rue".toList ++ c :: post) 't'
        (by rw [hj]; simp [Val.render]) hi (by decide)]
      simp only [Char.reduceEq, if_false, true_or, if_true]
      rw [hb]
      simp [Val.build, Val.render]
    | false =>
      rw [_parse_dispatch f parent s pre ("alse".toList ++ c :: post) 'f'
        (by rw [hj]; simp [Val.render]) hi (by decide)]
      simp only [Char.reduceEq, if_false, or_true, if_true]
      rw [hb]
      simp [Val.build, Val.render]
  | hnum t =>
    intro hok fuel s parent pre post c hf hj hi hc
    obtain ⟨f, rfl⟩ : ∃ f, fuel = f + 1 := ⟨fuel - 1, by simp [Val.need] at hf; omega⟩
    simp only [Val.ok] at hok
    obtain ⟨hne, hall⟩ := wf_numChars t hok
    obtain ⟨x, xs, rfl⟩ : ∃ x xs, t = x :: xs := by
      cases t with
      | nil => exact absurd rfl hne
      | cons x xs => exact ⟨x, xs, rfl⟩
    have hx := hall x (by simp)
    obtain ⟨h1, h2⟩ := isNumChar_not_ntf x hx
    have hw : isWhite x = false :=
      (isStart_facts x (Or.inr (Or.inr (Or.inr (Or.inl hx))))).1
    rw [_parse_dispatch f parent s pre (xs ++ c :: post) x
      (by rw [hj]; simp [Val.render]) hi hw]
    simp only [h1, h2, if_false, hx, if_true]
    rw [parseNumber_ok s parent pre (x :: xs) post c (by rw [hj]; simp [Val.render]) hi hok hc]
    simp [Val.build, Val.render]
  | hstr b =>
    intro hok fuel s parent pre post c hf hj hi _
    obtain ⟨f, rfl⟩ : ∃ f, fuel = f + 1 := ⟨fuel - 1, by simp [Val.need] at hf; omega⟩
    simp only [Val.ok] at hok
    rw [_parse_dispatch f parent s pre (b ++ '"' :: c :: post) '"'
      (by rw [hj]; simp [Val.render]) hi (by decide)]
    have hnc : isNumChar '"' = false := by decide
    simp only [Char.reduceEq, if_false, false_or, hnc, Bool.false_eq_true, if_true]
    rw [parseString_ok s parent pre b post c (by rw [hj]; simp [Val.render]) hi hok]
    simp [Val.build, Val.render]
    omega
  | harr es ih =>
    intro hok fuel s parent pre post c hf hj hi _
    simp only [Val.ok] at hok
    have hmem := okElems_mem es hok
    obtain ⟨f, rfl⟩ : ∃ f, fuel = f + 1 := ⟨fuel - 1, by simp [Val.need] at hf; omega⟩
    rw [_parse_dispatch f parent s pre (Val.renderElems es ++ ']' :: c :: post) '['
      (by rw [hj]; simp [Val.render]) hi (by decide)]
    have hnc : isNumChar '[' = false := by decide
    simp only [Char.reduceEq, if_false, false_or, hnc, Bool.false_eq_true, if_true]
    rw [parseArray_ok es (fun e he => ⟨hmem e he, ih e he (hmem e he)⟩) f parent s pre (c :: post)
      (by simp [Val.need] at hf; omega) hj hi]
    simp
  | hobj ms ih =>
    intro hok fuel s parent pre post c hf hj hi _
    simp only [Val.ok] at hok
    have hmem := okMembers_mem ms hok
    obtain ⟨f, rfl⟩ : ∃ f, fuel = f + 1 := ⟨fuel - 1, by simp [Val.need] at hf; omega⟩
    rw [_parse_dispatch f parent s pre (Val.renderMembers ms ++ '}' :: c :: post) '{'
      (by rw [hj]; simp [Val.render]) hi (by decide)]
    have hnc : isNumChar '{' = false := by decide
    simp only [Char.reduceEq, if_false, false_or, hnc, Bool.false_eq_true, if_true]
    rw [parseObject_ok ms (fun kv hkv => ⟨(hmem kv hkv).1, (hmem kv hkv).2,
        ih kv hkv (hmem kv hkv).2⟩) f parent s pre (c :: post)
      (by simp [Val.need] at hf; omega) hj hi]
    simp

theorem cellsElems_cons (e : Val) (es : List Val) :
    Val.cellsElems (e :: es) = e.cells + Val.cellsElems es := by
  simp [Val.cellsElems]

theorem cellsMembers_cons (k : List Char) (v : Val) (ms : List (List Char × Val)) :
    Val.cellsMembers ((k, v) :: ms) = 1 + v.cells + Val.cellsMembers ms := by
  simp [Val.cellsMembers]

theorem buildElems_cons (e : Val) (es : List Val) (a : Nat) (s : State) :
    Val.buildElems (e :: es) a s = Val.buildElems es a (e.build (some a) s) := by
  simp [Val.buildElems]

theorem memberDone_heap_length (o : Nat) (k : List Char) (key val : Nat) (s : State) :
    (memberDone o k key val s).heap.length = s.heap.length := by
  simp [memberDone, heapSet_length]

theorem buildElems_cells (es : List Val)
    (ih : ∀ e ∈ es, ∀ p s, (e.build p s).heap.length = s.heap.length + e.cells) :
    ∀ a s, (Val.buildElems es a s).heap.length = s.heap.length + Val.cellsElems es := by
  induction es with
  | nil => intro a s; simp [Val.buildElems, Val.cellsElems]
  | cons e es ih2 =>
    intro a s
    rw [buildElems_cons, ih2 (fun x hx => ih x (by simp [hx])), ih e (by simp), cellsElems_cons]
    omega

theorem buildMembers_cells (ms : List (List Char × Val))
    (ih : ∀ kv ∈ ms, ∀ p s, (kv.2.build p s).heap.length = s.heap.length + kv.2.cells) :
    ∀ o s, (Val.buildMembers ms o s).heap.length = s.heap.length + Val.cellsMembers ms := by
  induction ms with
  | nil => intro o s; simp [Val.buildMembers, Val.cellsMembers]
  | cons kv ms ih2 =>
    intro o s
    obtain ⟨k, v⟩ := kv
    have hv : ∀ p s, (v.build p s).heap.length = s.heap.length + v.cells := ih (k, v) (by simp)
    rw [buildMembers_cons, ih2 (fun x hx => ih x (by simp [hx])), memberDone_heap_length,
      hv, leaf_heap_length, cellsMembers_cons]
    omega

/-- Building a value allocates exactly `cells` cells. -/
theorem build_cells (v : Val) :
    ∀ p s, (v.build p s).heap.length = s.heap.length + v.cells := by
  induction v using Val.induction_aux with
  | hnull => intro p s; simp [Val.build, leaf_heap_length, Val.cells]
  | hbool b => intro p s; simp [Val.build, leaf_heap_length, Val.cells]
  | hnum t => intro p s; simp [Val.build, leaf_heap_length, Val.cells]
  | hstr b => intro p s; simp [Val.build, leaf_heap_length, Val.cells]
  | harr es ih =>
    intro p s
    have hc : (Val.arr es).cells = Val.cellsElems es + 1 := by simp [Val.cells]
    rw [Val.build, buildElems_cells es ih, leaf_heap_length, hc]
    omega
  | hobj ms ih =>
    intro p s
    have hc : (Val.obj ms).cells = Val.cellsMembers ms + 1 := by simp [Val.cells]
    rw [Val.build, buildMembers_cells ms ih, leaf_heap_length, hc]
    omega

theorem buildElems_cells' (es : List Val) (a : Nat) (s : State) :
    (Val.buildElems es a s).heap.length = s.heap.length + Val.cellsElems es :=
  buildElems_cells es (fun e _ => build_cells e) a s

theorem buildMembers_cells' (ms : List (List Char × Val)) (o : Nat) (s : State) :
    (Val.buildMembers ms o s).heap.length = s.heap.length + Val.cellsMembers ms :=
  buildMembers_cells ms (fun kv _ => build_cells kv.2) o s

/-- The cell of the parent after a leaf is attached: one more child. -/
theorem leaf_parent_cell (pl : Payload) (p : Nat) (s : State) (hp : p < s.heap.length) :
    deref (leaf pl (some p) s).heap p =
      { deref s.heap p with children := (deref s.heap p).children ++ [s.heap.length] } := by
  simp only [leaf, attached]
  rw [deref_modify_ne _ _ _ _ (by omega), deref_modify_self _ _ _ (by simp; omega),
    deref_append_left _ _ _ hp]

/-- The new cell of a leaf: its payload, the parent it was attached to, no children. -/
theorem leaf_new_cell (pl : Payload) (parent : Option Nat) (s : State)
    (hp : ∀ p, parent = some p → p < s.heap.length) :
    deref (leaf pl parent s).heap s.heap.length = ⟨pl, parent, []⟩ := by
  cases parent with
  | none => simp only [leaf, attached]; exact deref_append_new _ _
  | some p =>
    have := hp p rfl
    simp only [leaf, attached]
    rw [deref_modify_self _ _ _ (by simp), deref_modify_ne _ _ _ _ (by omega),
      deref_append_new]




/-- Building a value under the parent `p` appends the new node to the children of `p` and
changes nothing else in that cell. -/
theorem build_parent_cell (v : Val) (p : Nat) (s : State) (hp : p < s.heap.length) :
    deref (v.build (some p) s).heap p =
      { deref s.heap p with children := (deref s.heap p).children ++ [s.heap.length] } := by
  have hl := leaf_heap_length
  cases v with
  | null => exact leaf_parent_cell _ p s hp
  | bool b => exact leaf_parent_cell _ p s hp
  | num t => exact leaf_parent_cell _ p s hp
  | str b => exact leaf_parent_cell _ p s hp
  | arr es =>
    rw [Val.build, (buildElems_frame es (fun e _ => build_frame e) s.heap.length
      (leaf .Array (some p) s)).2.2.2 p (by rw [hl]; omega)
      (by intro e; injection e with e; omega)]
    exact leaf_parent_cell _ p s hp
  | obj ms =>
    rw [Val.build, (buildMembers_frame ms (fun kv _ => build_frame kv.2) s.heap.length
      (leaf (.Object []) (some p) s)).2.2.2 p (by rw [hl]; omega)
      (by intro e; injection e with e; omega)]
    exact leaf_parent_cell _ p s hp

/-- The cell of an array after its elements are built: their addresses are appended to its
children, in order. -/
theorem buildElems_cell (es : List Val) :
    ∀ (a : Nat) (s : State), a < s.heap.length →
      deref (Val.buildElems es a s).heap a =
        { deref s.heap a with
          children := (deref s.heap a).children ++ elemPtrs es s.heap.length } := by
  induction es with
  | nil => intro a s _; simp [Val.buildElems, elemPtrs]
  | cons e es ih =>
    intro a s ha
    rw [buildElems_cons, ih a _ (by rw [build_cells]; omega), build_parent_cell e a s ha,
      build_cells]
    simp [elemPtrs]

/-- The cell of an object after its members are built: the value addresses are appended to its
children and entered under their keys into its key index. -/
theorem buildMembers_cell (ms : List (List Char × Val)) :
    ∀ (o : Nat) (s : State) (m : List (List Char × Nat)), o < s.heap.length →
      (deref s.heap o).payload = .Object m →
      deref (Val.buildMembers ms o s).heap o =
        ⟨.Object ((memberPtrs ms s.heap.length).foldl (fun m kp => mapSet kp.1 kp.2 m) m),
          (deref s.heap o).parent,
          (deref s.heap o).children ++ (memberPtrs ms s.heap.length).map (fun kp => kp.2)⟩ := by
  induction ms with
  | nil =>
    intro o s m _ hm
    simp [Val.buildMembers, memberPtrs, ← hm]
  | cons kv ms ih =>
    intro o s m ho hm
    obtain ⟨k, v⟩ := kv
    have hl := leaf_heap_length (.String k) none s
    have hkey : deref (leaf (.String k) none s).heap o = deref s.heap o :=
      (Frame.of_leaf (.String k) none s).2.2.2 o ho (by simp)
    have hval := build_parent_cell v o (leaf (.String k) none s) (by rw [hl]; omega)
    rw [hkey, hl] at hval
    have hlen : (v.build (some o) (leaf (.String k) none s)).heap.length =
        s.heap.length + 1 + v.cells := by
      rw [build_cells, hl]
    have hdone : deref (memberDone o k s.heap.length (s.heap.length + 1)
        (v.build (some o) (leaf (.String k) none s))).heap o =
        ⟨.Object (mapSet k (s.heap.length + 1) m), (deref s.heap o).parent,
          (deref s.heap o).children ++ [s.heap.length + 1]⟩ := by
      simp only [memberDone, heapSet]
      rw [deref_modify_self _ _ _ (by rw [hlen]; omega), hval]
      simp [hm]
    rw [buildMembers_cons, ih o _ (mapSet k (s.heap.length + 1) m)
      (by rw [memberDone_heap_length, hlen]; omega) (by rw [hdone]), hdone,
      memberDone_heap_length, hlen]
    simp [memberPtrs]




/-- The cell of the node of a value after the value is built. -/
theorem build_root_cell (v : Val) (parent : Option Nat) (s : State)
    (hp : ∀ p, parent = some p → p < s.heap.length) :
    deref (v.build parent s).heap s.heap.length = v.rootCell parent s.heap.length := by
  have hl := leaf_heap_length
  cases v with
  | null => exact leaf_new_cell _ parent s hp
  | bool b => exact leaf_new_cell _ parent s hp
  | num t => exact leaf_new_cell _ parent s hp
  | str b => exact leaf_new_cell _ parent s hp
  | arr es =>
    rw [Val.build, buildElems_cell es _ _ (by rw [hl]; omega), leaf_new_cell _ parent s hp, hl]
    simp [Val.rootCell]
  | obj ms =>
    rw [Val.build, buildMembers_cell ms _ _ [] (by rw [hl]; omega)
      (by rw [leaf_new_cell _ parent s hp]), leaf_new_cell _ parent s hp, hl]
    simp [Val.rootCell]

theorem depthElems_mem (es : List Val) (e : Val) (he : e ∈ es) :
    e.depth ≤ Val.depthElems es := by
  induction es with
  | nil => simp at he
  | cons x xs ih =>
    have hd : Val.depthElems (x :: xs) = max x.depth (Val.depthElems xs) := by
      simp [Val.depthElems]
    rw [hd]
    rcases List.mem_cons.1 he with rfl | he
    · exact le_max_left _ _
    · exact le_trans (ih he) (le_max_right _ _)

theorem depthMembers_mem (ms : List (List Char × Val)) (kv : List Char × Val) (he : kv ∈ ms) :
    kv.2.depth ≤ Val.depthMembers ms := by
  induction ms with
  | nil => simp at he
  | cons x xs ih =>
    obtain ⟨k, v⟩ := x
    have hd : Val.depthMembers ((k, v) :: xs) = max v.depth (Val.depthMembers xs) := by
      simp [Val.depthMembers]
    rw [hd]
    rcases List.mem_cons.1 he with rfl | he
    · exact le_max_left _ _
    · exact le_trans (ih he) (le_max_right _ _)

theorem treeElems_cons (e : Val) (es : List Val) :
    Val.treeElems (e :: es) = e.tree :: Val.treeElems es := by
  simp [Val.treeElems]

theorem treeMembers_cons (k : List Char) (v : Val) (ms : List (List Char × Val)) :
    Val.treeMembers ((k, v) :: ms) = (k, v.tree) :: Val.treeMembers ms := by
  simp [Val.treeMembers]

theorem viewElems (es : List Val) (ih : ∀ e ∈ es, ViewOK e) :
    ∀ (a : Nat) (s : State) (h' : List Node) (f : Nat), a < s.heap.length →
      (∀ i, s.heap.length ≤ i → i < s.heap.length + Val.cellsElems es →
        deref h' i = deref (Val.buildElems es a s).heap i) →
      (∀ e ∈ es, e.depth < f) →
      allSome (view f h') (elemPtrs es s.heap.length) = some (Val.treeElems es) := by
  induction es with
  | nil => intro a s h' f _ _ _; simp [elemPtrs, allSome, Val.treeElems]
  | cons e es ih2 =>
    intro a s h' f ha hag hd
    rw [cellsElems_cons] at hag
    have hlen := build_cells e (some a) s
    have h1 : view f h' s.heap.length = some e.tree := by
      apply ih e (by simp) (some a) s h' f (by intro p hp; injection hp with hp; omega) _
        (hd e (by simp))
      intro i hi1 hi2
      rw [hag i hi1 (by omega), buildElems_cons]
      exact (buildElems_frame es (fun e _ => build_frame e) a (e.build (some a) s)).2.2.2 i
        (by rw [hlen]; omega) (by intro e; injection e with e; omega)
    have h2 := ih2 (fun x hx => ih x (by simp [hx])) a (e.build (some a) s) h' f
      (by rw [hlen]; omega)
      (by
        intro i hi1 hi2
        rw [hlen] at hi1 hi2
        rw [hag i (by omega) (by omega), buildElems_cons])
      (fun x hx => hd x (by simp [hx]))
    rw [hlen] at h2
    simp only [elemPtrs, allSome, h1, h2, treeElems_cons]




theorem viewMembers (ms : List (List Char × Val)) (ih : ∀ kv ∈ ms, ViewOK kv.2) :
    ∀ (o : Nat) (s : State) (h' : List Node) (f : Nat), o < s.heap.length →
      (∀ i, s.heap.length ≤ i → i < s.heap.length + Val.cellsMembers ms →
        deref h' i = deref (Val.buildMembers ms o s).heap i) →
      (∀ kv ∈ ms, kv.2.depth < f) →
      allSome (fun a => (view f h' a.2).map (fun t => (a.1, t)))
        (memberPtrs ms s.heap.length) = some (Val.treeMembers ms) := by
  induction ms with
  | nil => intro o s h' f _ _ _; simp [memberPtrs, allSome, Val.treeMembers]
  | cons kv ms ih2 =>
    intro o s h' f ho hag hd
    obtain ⟨k, v⟩ := kv
    rw [cellsMembers_cons] at hag
    have hl := leaf_heap_length (.String k) none s
    have hlen : (v.build (some o) (leaf (.String k) none s)).heap.length =
        s.heap.length + 1 + v.cells := by
      rw [build_cells, hl]
    have hlen2 := memberDone_heap_length o k s.heap.length (s.heap.length + 1)
      (v.build (some o) (leaf (.String k) none s))
    have h1 : view f h' (s.heap.length + 1) = some v.tree := by
      have := ih (k, v) (by simp) (some o) (leaf (.String k) none s) h' f
        (by intro p hp; injection hp with hp; rw [hl]; omega)
      rw [hl] at this
      apply this _ (hd (k, v) (by simp))
      intro i hi1 hi2
      have hi2' : i < s.heap.length + 1 + v.cells := hi2
      rw [hag i (by omega) (by omega), buildMembers_cons]
      rw [(buildMembers_frame ms (fun kv _ => build_frame kv.2) o _).2.2.2 i
        (by rw [hlen2, hlen]; omega) (by intro e; injection e with e; omega)]
      exact (Frame.of_memberDone o k _ _ _).2.2.2 i (by rw [hlen]; omega)
        (by intro e; injection e with e; omega)
    have h2 := ih2 (fun x hx => ih x (by simp [hx])) o
      (memberDone o k s.heap.length (s.heap.length + 1)
        (v.build (some o) (leaf (.String k) none s))) h' f
      (by rw [hlen2, hlen]; omega)
      (by
        intro i hi1 hi2
        rw [hlen2, hlen] at hi1 hi2
        rw [hag i (by omega) (by omega), buildMembers_cons])
      (fun x hx => hd x (by simp [hx]))
    rw [hlen2, hlen] at h2
    simp only [memberPtrs, allSome, h1, h2, treeMembers_cons, Option.map_some']

/-- Entering a pair into the key index commutes with reading the index as trees. -/
theorem allSome_mapSet {α β : Type} (f : α → Option β) (k : List Char) (p : α) (x : β)
    (hp : f p = some x) :
    ∀ (m : List (List Char × α)) (t : List (List Char × β)),
      allSome (fun a => (f a.2).map (fun y => (a.1, y))) m = some t →
      allSome (fun a => (f a.2).map (fun y => (a.1, y))) (mapSet k p m) =
        some (mapSet k x t) := by
  intro m
  induction m with
  | nil =>
    intro t ht
    simp only [allSome, Option.some.injEq] at ht
    subst ht
    simp [mapSet, allSome, hp]
  | cons a m ih =>
    intro t ht
    obtain ⟨k1, p1⟩ := a
    simp only [allSome] at ht
    cases h1 : f p1 with
    | none => simp [h1] at ht
    | some y1 =>
      cases h2 : allSome (fun a => (f a.2).map (fun y => (a.1, y))) m with
      | none => simp [h1, h2] at ht
      | some t1 =>
        simp only [h1, h2, Option.map_some', Option.some.injEq] at ht
        subst ht
        by_cases hk : k1 = k
        · simp [mapSet, hk, allSome, hp, h2]
        · simp [mapSet, hk, allSome, h1, ih t1 h2]

theorem allSome_foldl_mapSet {α β : Type} (f : α → Option β) :
    ∀ (ps : List (List Char × α)) (ts : List (List Char × β))
      (m : List (List Char × α)) (t : List (List Char × β)),
      allSome (fun a => (f a.2).map (fun y => (a.1, y))) ps = some ts →
      allSome (fun a => (f a.2).map (fun y => (a.1, y))) m = some t →
      allSome (fun a => (f a.2).map (fun y => (a.1, y)))
        (ps.foldl (fun m kp => mapSet kp.1 kp.2 m) m) =
        some (ts.foldl (fun m kp => mapSet kp.1 kp.2 m) t) := by
  intro ps
  induction ps with
  | nil =>
    intro ts m t hps hm
    simp only [allSome, Option.some.injEq] at hps
    subst hps
    simpa using hm
  | cons a ps ih =>
    intro ts m t hps hm
    obtain ⟨k1, p1⟩ := a
    simp only [allSome] at hps
    cases h1 : f p1 with
    | none => simp [h1] at hps
    | some y1 =>
      cases h2 : allSome (fun a => (f a.2).map (fun y => (a.1, y))) ps with
      | none => simp [h1, h2] at hps
      | some t1 =>
        simp only [h1, h2, Option.map_some', Option.some.injEq] at hps
        subst hps
        simp only [List.foldl_cons]
        exact ih t1 _ _ h2 (allSome_mapSet f k1 p1 y1 h1 m t hm)

/-- After a value is built, any heap that agrees with the result on the cells of the value
shows the tree of the value at its address. -/
theorem build_view (v : Val) : ViewOK v := by
  induction v using Val.induction_aux with
  | hnull =>
    intro parent s h' fuel hp hag hd
    obtain ⟨f, rfl⟩ : ∃ f, fuel = f + 1 := ⟨fuel - 1, by omega⟩
    have := hag s.heap.length (Nat.le_refl _) (by simp [Val.cells])
    rw [build_root_cell _ parent s hp] at this
    simp [view, this, Val.rootCell, Val.tree]
  | hbool b =>
    intro parent s h' fuel hp hag hd
    obtain ⟨f, rfl⟩ : ∃ f, fuel = f + 1 := ⟨fuel - 1, by omega⟩
    have := hag s.heap.length (Nat.le_refl _) (by simp [Val.cells])
    rw [build_root_cell _ parent s hp] at this
    simp [view, this, Val.rootCell, Val.tree]
  | hnum t =>
    intro parent s h' fuel hp hag hd
    obtain ⟨f, rfl⟩ : ∃ f, fuel = f + 1 := ⟨fuel - 1, by omega⟩
    have := hag s.heap.length (Nat.le_refl _) (by simp [Val.cells])
    rw [build_root_cell _ parent s hp] at this
    simp [view, this, Val.rootCell, Val.tree]
  | hstr b =>
    intro parent s h' fuel hp hag hd
    obtain ⟨f, rfl⟩ : ∃ f, fuel = f + 1 := ⟨fuel - 1, by omega⟩
    have := hag s.heap.length (Nat.le_refl _) (by simp [Val.cells])
    rw [build_root_cell _ parent s hp] at this
    simp [view, this, Val.rootCell, Val.tree]
  | harr es ih =>
    intro parent s h' fuel hp hag hd
    have hdep : (Val.arr es).depth = Val.depthElems es + 1 := by simp [Val.depth]
    have hcel : (Val.arr es).cells = Val.cellsElems es + 1 := by simp [Val.cells]
    rw [hdep] at hd
    rw [hcel] at hag
    obtain ⟨f, rfl⟩ : ∃ f, fuel = f + 1 := ⟨fuel - 1, by omega⟩
    have hroot := hag s.heap.length (Nat.le_refl _) (by omega)
    rw [build_root_cell _ parent s hp] at hroot
    have hl := leaf_heap_length .Array parent s
    have hel := viewElems es ih s.heap.length (leaf .Array parent s) h' f (by rw [hl]; omega)
      (by
        intro i hi1 hi2
        rw [hl] at hi1 hi2
        rw [hag i (by omega) (by omega), Val.build])
      (fun e he => by have := depthElems_mem es e he; omega)
    rw [hl] at hel
    simp [view, hroot, Val.rootCell, hel, Val.tree]
  | hobj ms ih =>
    intro parent s h' fuel hp hag hd
    have hdep : (Val.obj ms).depth = Val.depthMembers ms + 1 := by simp [Val.depth]
    have hcel : (Val.obj ms).cells = Val.cellsMembers ms + 1 := by simp [Val.cells]
    rw [hdep] at hd
    rw [hcel] at hag
    obtain ⟨f, rfl⟩ : ∃ f, fuel = f + 1 := ⟨fuel - 1, by omega⟩
    have hroot := hag s.heap.length (Nat.le_refl _) (by omega)
    rw [build_root_cell _ parent s hp] at hroot
    have hl := leaf_heap_length (.Object []) parent s
    have hel := viewMembers ms ih s.heap.length (leaf (.Object []) parent s) h' f
      (by rw [hl]; omega)
      (by
        intro i hi1 hi2
        rw [hl] at hi1 hi2
        rw [hag i (by omega) (by omega), Val.build])
      (fun kv he => by have := depthMembers_mem ms kv he; omega)
    rw [hl] at hel
    have hfold := allSome_foldl_mapSet (view f h') _ _ [] [] hel (by simp [allSome])
    simp [view, hroot, Val.rootCell, hfold, Val.tree]

theorem needElems_cons (e : Val) (es : List Val) :
    Val.needElems (e :: es) = e.need + Val.needElems es + 1 := by
  simp [Val.needElems]

theorem needElems_bound (es : List Val) (ih : ∀ e ∈ es, e.need ≤ 3 * e.render.length + 1) :
    Val.needElems es ≤ 3 * (Val.renderElems es).length + 4 := by
  induction es with
  | nil => simp [Val.needElems]
  | cons x xs ih2 =>
    have hx := ih x (by simp)
    have hxs := ih2 (fun e he => ih e (by simp [he]))
    rw [needElems_cons]
    cases xs with
    | nil => simp [Val.renderElems, Val.needElems]; omega
    | cons y ys =>
      rw [renderElems_cons_cons]
      simp only [List.length_append, List.length_singleton]
      omega

theorem needMembers_bound (ms : List (List Char × Val))
    (ih : ∀ kv ∈ ms, kv.2.need ≤ 3 * kv.2.render.length + 1) :
    Val.needMembers ms ≤ 3 * (Val.renderMembers ms).length + 4 := by
  induction ms with
  | nil => simp [Val.needMembers]
  | cons x xs ih2 =>
    obtain ⟨k, v⟩ := x
    have hx : v.need ≤ 3 * v.render.length + 1 := ih (k, v) (by simp)
    have hxs := ih2 (fun e he => ih e (by simp [he]))
    rw [needMembers_cons]
    cases xs with
    | nil => simp [Val.renderMembers, Val.needMembers]; omega
    | cons y ys =>
      rw [renderMembers_cons_cons]
      simp only [List.length_append, List.length_singleton, List.length_cons, List.length_nil]
      omega

/-- The budget a value needs is linear in the length of its text. -/
theorem need_bound (v : Val) : v.need ≤ 3 * v.render.length + 1 := by
  induction v using Val.induction_aux with
  | hnull => simp [Val.need]
  | hbool b => simp [Val.need]
  | hnum t => simp [Val.need]
  | hstr b => simp [Val.need]
  | harr es ih =>
    have := needElems_bound es ih
    simp only [Val.need, Val.render, List.length_append, List.length_singleton]
    omega
  | hobj ms ih =>
    have := needMembers_bound ms ih
    simp only [Val.need, Val.render, List.length_append, List.length_singleton]
    omega

/-- The entry point on a text that starts with the text of an array (anything may follow):
it returns the array, built as `build` describes, with the cursor past the closing bracket
(on it when the bracket ends the text). -/
theorem parse_arr (es : List Val) (hok : Val.okElems es = true) (g : State)
    (post : List Char) :
    parse ((Val.arr es).render ++ post) g = .ok (some g.heap.length)
      { (Val.arr es).build none { g with _j := (Val.arr es).render ++ post, _i := 0 } with
        _i := (Val.arr es).render.length - (if post = [] then 1 else 0) } := by
  have hmem := okElems_mem es hok
  have hb := need_bound (Val.arr es)
  have hn : (Val.arr es).need = Val.needElems es + 2 := by simp [Val.need]
  have hr : (Val.arr es).render = '[' :: (Val.renderElems es ++ [']']) := by simp [Val.render]
  unfold parse
  rw [show 4 * ((Val.arr es).render ++ post).length + 4 =
    (4 * ((Val.arr es).render ++ post).length + 3) + 1 from rfl]
  rw [_parse_dispatch _ none { g with _j := (Val.arr es).render ++ post, _i := 0 } []
    (Val.renderElems es ++ [']'] ++ post) '[' (by simp [hr]) rfl (by decide)]
  have hnc : isNumChar '[' = false := by decide
  simp only [Char.reduceEq, if_false, false_or, hnc, Bool.false_eq_true, if_true]
  rw [parseArray_ok es (fun e he => ⟨hmem e he, parseOK_all e (hmem e he)⟩) _ none _ [] post
    (by simp only [List.length_append]; omega) (by simp) rfl]
  simp

/-- The entry point on a text that starts with the text of an object. -/
theorem parse_obj (ms : List (List Char × Val)) (hok : Val.okMembers ms = true) (g : State)
    (post : List Char) :
    parse ((Val.obj ms).render ++ post) g = .ok (some g.heap.length)
      { (Val.obj ms).build none { g with _j := (Val.obj ms).render ++ post, _i := 0 } with
        _i := (Val.obj ms).render.length - (if post = [] then 1 else 0) } := by
  have hmem := okMembers_mem ms hok
  have hb := need_bound (Val.obj ms)
  have hn : (Val.obj ms).need = Val.needMembers ms + 2 := by simp [Val.need]
  have hr : (Val.obj ms).render = '{' :: (Val.renderMembers ms ++ ['}']) := by
    simp [Val.render]
  unfold parse
  rw [show 4 * ((Val.obj ms).render ++ post).length + 4 =
    (4 * ((Val.obj ms).render ++ post).length + 3) + 1 from rfl]
  rw [_parse_dispatch _ none { g with _j := (Val.obj ms).render ++ post, _i := 0 } []
    (Val.renderMembers ms ++ ['}'] ++ post) '{' (by simp [hr]) rfl (by decide)]
  have hnc : isNumChar '{' = false := by decide
  simp only [Char.reduceEq, if_false, false_or, hnc, Bool.false_eq_true, if_true]
  rw [parseObject_ok ms (fun kv hkv => ⟨(hmem kv hkv).1, (hmem kv hkv).2,
      parseOK_all kv.2 (hmem kv hkv).2⟩) _ none _ [] post
    (by simp only [List.length_append]; omega) (by simp) rfl]
  simp




theorem cells_pos (v : Val) : 1 ≤ v.cells := by
  cases v <;> simp [Val.cells]

/-- After the elements are built, the `i`-th address holds a node whose parent is the array
and whose tree is the tree of the `i`-th element. -/
theorem elems_final (es : List Val) :
    ∀ (a : Nat) (s : State), a < s.heap.length →
      ∀ (i : Nat) (e : Val), es[i]? = some e →
        ∃ p, (elemPtrs es s.heap.length)[i]? = some p ∧
          (deref (Val.buildElems es a s).heap p).parent = some a ∧
          view (e.depth + 1) (Val.buildElems es a s).heap p = some e.tree := by
  induction es with
  | nil => intro a s _ i e he; simp at he
  | cons x xs ih =>
    intro a s ha i e he
    have hlen := build_cells x (some a) s
    cases i with
    | zero =>
      simp only [List.getElem?_cons_zero, Option.some.injEq] at he
      subst he
      refine ⟨s.heap.length, by simp [elemPtrs], ?_, ?_⟩
      · rw [buildElems_cons, (buildElems_frame xs (fun e _ => build_frame e) a _).2.2.2
          s.heap.length (by rw [hlen]; have := cells_pos x; omega)
          (by intro e; injection e with e; omega),
          build_root_cell x (some a) s (by intro p hp; injection hp with hp; omega)]
        cases x <;> rfl
      · apply build_view x (some a) s _ _ (by intro p hp; injection hp with hp; omega) _
          (Nat.lt_succ_self _)
        intro j hj1 hj2
        rw [buildElems_cons]
        exact (buildElems_frame xs (fun e _ => build_frame e) a _).2.2.2 j
          (by rw [hlen]; omega) (by intro e; injection e with e; omega)
    | succ i =>
      simp only [List.getElem?_cons_succ] at he
      obtain ⟨p, hp1, hp2, hp3⟩ := ih a (x.build (some a) s) (by rw [hlen]; omega) i e he
      rw [hlen] at hp1
      exact ⟨p, by simpa [elemPtrs] using hp1, by rw [buildElems_cons]; exact hp2,
        by rw [buildElems_cons]; exact hp3⟩

theorem elemPtrs_length (es : List Val) (b : Nat) : (elemPtrs es b).length = es.length := by
  induction es generalizing b with
  | nil => rfl
  | cons x xs ih => simp [elemPtrs, ih]

/-- C5: for every list of well-formed element values, `parse` of the array text
`[e1,...,ek]` returns an `Array` node with no parent whose `size()` is `k` and whose `i`-th
child, for every `i`, has the array as its parent and is the tree of `ei`. -/
theorem parse_array_children (es : List Val) (hok : Val.okElems es = true) (g : State) :
    ∃ s', parse (Val.arr es).render g = .ok (some g.heap.length) s' ∧
      (deref s'.heap g.heap.length).payload = .Array ∧
      (deref s'.heap g.heap.length).parent = none ∧
      Array.size s'.heap g.heap.length = es.length ∧
      ∀ (i : Nat) (e : Val), es[i]? = some e →
        ∃ p, (deref s'.heap g.heap.length).children[i]? = some p ∧
          (deref s'.heap p).parent = some g.heap.length ∧
          view (e.depth + 1) s'.heap p = some e.tree := by
  have hp := parse_arr es hok g []
  rw [List.append_nil] at hp
  refine ⟨_, hp, ?_⟩
  have hroot := build_root_cell (Val.arr es) none
    { g with _j := (Val.arr es).render, _i := 0 } (by simp)
  have hroot' : deref ((Val.arr es).build none
      { g with _j := (Val.arr es).render, _i := 0 }).heap g.heap.length =
      ⟨.Array, none, elemPtrs es (g.heap.length + 1)⟩ := hroot
  refine ⟨by show (deref _ g.heap.length).payload = _; rw [hroot'],
    by show (deref _ g.heap.length).parent = _; rw [hroot'], ?_, ?_⟩
  · show Array.size _ g.heap.length = _
    rw [Array.size, hroot']
    simp [elemPtrs_length]
  · intro i e he
    have hl := leaf_heap_length .Array none { g with _j := (Val.arr es).render, _i := 0 }
    obtain ⟨p, hp1, hp2, hp3⟩ := elems_final es g.heap.length
      (leaf .Array none { g with _j := (Val.arr es).render, _i := 0 })
      (by rw [hl]; show g.heap.length < g.heap.length + 1; omega) i e he
    rw [hl] at hp1
    refine ⟨p, ?_, ?_, ?_⟩
    · show (deref _ g.heap.length).children[i]? = _
      rw [hroot']
      exact hp1
    · exact hp2
    · exact hp3

/-- Witness for `parse_array_children`: the text `[1,2,3]`. -/
theorem parse_array_children_witness :
    ∃ s', parse "[1,2,3]".toList State.init = .ok (some 0) s' ∧
      (deref s'.heap 0).payload = .Array ∧
      (deref s'.heap 0).parent = none ∧
      Array.size s'.heap 0 = 3 ∧
      ∀ (i : Nat) (e : Val),
        [Val.num ['1'], Val.num ['2'], Val.num ['3']][i]? = some e →
        ∃ p, (deref s'.heap 0).children[i]? = some p ∧
          (deref s'.heap p).parent = some 0 ∧
          view (e.depth + 1) s'.heap p = some e.tree :=
  parse_array_children [.num ['1'], .num ['2'], .num ['3']] (by decide) State.init




theorem memberPtrs_keys (ms : List (List Char × Val)) (b : Nat) :
    (memberPtrs ms b).map Prod.fst = ms.map Prod.fst := by
  induction ms generalizing b with
  | nil => rfl
  | cons x xs ih => simp [memberPtrs, ih]

theorem memberPtrs_length (ms : List (List Char × Val)) (b : Nat) :
    (memberPtrs ms b).length = ms.length := by
  induction ms generalizing b with
  | nil => rfl
  | cons x xs ih => simp [memberPtrs, ih]

theorem mapSet_absent {α : Type} (k : List Char) (p : α) (m : List (List Char × α))
    (h : k ∉ m.map Prod.fst) : mapSet k p m = m ++ [(k, p)] := by
  induction m with
  | nil => rfl
  | cons a m ih =>
    obtain ⟨k1, p1⟩ := a
    simp only [List.map_cons, List.mem_cons, not_or] at h
    have hne : ¬ k1 = k := fun e => h.1 e.symm
    simp [mapSet, hne, ih h.2]

/-- With pairwise distinct keys the key index lists the pairs in insertion order. -/
theorem foldl_mapSet_nodup {α : Type} (ps : List (List Char × α)) :
    ∀ m : List (List Char × α), ((m ++ ps).map Prod.fst).Nodup →
      ps.foldl (fun m kp => mapSet kp.1 kp.2 m) m = m ++ ps := by
  induction ps with
  | nil => intro m _; simp
  | cons a ps ih =>
    intro m hnd
    obtain ⟨k, p⟩ := a
    have hk : k ∉ m.map Prod.fst := by
      intro hmem
      rw [List.map_append, List.nodup_append] at hnd
      have hd : List.Disjoint (m.map Prod.fst) (k :: ps.map Prod.fst) := hnd.2.2
      exact hd hmem (List.mem_cons_self _ _)
    rw [List.foldl_cons, mapSet_absent k p m hk, ih (m ++ [(k, p)]) (by simpa using hnd)]
    simp

theorem mapFind_absent {α : Type} (k : List Char) (m : List (List Char × α))
    (h : k ∉ m.map Prod.fst) : mapFind k m = none := by
  induction m with
  | nil => rfl
  | cons a m ih =>
    obtain ⟨k1, p1⟩ := a
    simp only [List.map_cons, List.mem_cons, not_or] at h
    have hne : ¬ k1 = k := fun e => h.1 e.symm
    simp [mapFind, hne, ih h.2]

theorem mapFind_mem {α : Type} (k : List Char) (p : α) (m : List (List Char × α))
    (hnd : (m.map Prod.fst).Nodup) (h : (k, p) ∈ m) : mapFind k m = some p := by
  induction m with
  | nil => simp at h
  | cons a m ih =>
    obtain ⟨k1, p1⟩ := a
    simp only [List.map_cons, List.nodup_cons] at hnd
    rcases List.mem_cons.1 h with he | he
    · injection he with h1 h2
      subst h1 h2
      simp [mapFind]
    · have hne : ¬ k1 = k := by
        intro e
        subst e
        exact hnd.1 (List.mem_map.2 ⟨(k1, p), he, rfl⟩)
      simp [mapFind, hne, ih hnd.2 he]

/-- After the members are built, the `i`-th entry of `memberPtrs` pairs the `i`-th key with
the address of a node whose parent is the object and whose tree is that of the `i`-th member
value. -/
theorem members_final (ms : List (List Char × Val)) :
    ∀ (o : Nat) (s : State), o < s.heap.length →
      ∀ (i : Nat) (kv : List Char × Val), ms[i]? = some kv →
        ∃ p, (memberPtrs ms s.heap.length)[i]? = some (kv.1, p) ∧
          (deref (Val.buildMembers ms o s).heap p).parent = some o ∧
          view (kv.2.depth + 1) (Val.buildMembers ms o s).heap p = some kv.2.tree := by
  induction ms with
  | nil => intro o s _ i kv he; simp at he
  | cons x xs ih =>
    intro o s ho i kv he
    obtain ⟨k, v⟩ := x
    have hl := leaf_heap_length (.String k) none s
    have hlen : (v.build (some o) (leaf (.String k) none s)).heap.length =
        s.heap.length + 1 + v.cells := by
      rw [build_cells, hl]
    have hlen2 := memberDone_heap_length o k s.heap.length (s.heap.length + 1)
      (v.build (some o) (leaf (.String k) none s))
    have hfr : ∀ j, j < s.heap.length + 1 + v.cells → j ≠ o →
        deref (Val.buildMembers ((k, v) :: xs) o s).heap j =
          deref (v.build (some o) (leaf (.String k) none s)).heap j := by
      intro j hj hjo
      rw [buildMembers_cons, (buildMembers_frame xs (fun kv _ => build_frame kv.2) o _).2.2.2 j
        (by rw [hlen2, hlen]; exact hj) (by intro e; injection e with e; omega)]
      exact (Frame.of_memberDone o k _ _ _).2.2.2 j (by rw [hlen]; exact hj)
        (by intro e; injection e with e; omega)
    cases i with
    | zero =>
      simp only [List.getElem?_cons_zero, Option.some.injEq] at he
      subst he
      have hc := cells_pos v
      refine ⟨s.heap.length + 1, by simp [memberPtrs], ?_, ?_⟩
      · rw [hfr _ (by omega) (by omega)]
        have := build_root_cell v (some o) (leaf (.String k) none s)
          (by intro p hp; injection hp with hp; rw [hl]; omega)
        rw [hl] at this
        rw [this]
        cases v <;> rfl
      · have := build_view v (some o) (leaf (.String k) none s)
          (Val.buildMembers ((k, v) :: xs) o s).heap (v.depth + 1)
          (by intro p hp; injection hp with hp; rw [hl]; omega)
        rw [hl] at this
        apply this _ (Nat.lt_succ_self _)
        intro j hj1 hj2
        exact hfr j hj2 (by omega)
    | succ i =>
      simp only [List.getElem?_cons_succ] at he
      obtain ⟨p, hp1, hp2, hp3⟩ := ih o _ (by rw [hlen2, hlen]; omega) i kv he
      rw [hlen2, hlen] at hp1
      exact ⟨p, by simpa [memberPtrs] using hp1, by rw [buildMembers_cons]; exact hp2,
        by rw [buildMembers_cons]; exact hp3⟩

/-- C4: for every list of members with pairwise distinct, well-formed keys and well-formed
values, `parse` of the object text `{"k1":v1,...,"kn":vn}` returns an `Object` whose `size()`
is `n`, whose `get(ki)` is a node that is the tree of `vi`, and whose `get(k)` is `NULL` for
every other key. -/
theorem parse_object_members (ms : List (List Char × Val)) (hok : Val.okMembers ms = true)
    (hnd : (ms.map Prod.fst).Nodup) (g : State) :
    ∃ s', parse (Val.obj ms).render g = .ok (some g.heap.length) s' ∧
      Object.size s'.heap g.heap.length = ms.length ∧
      (∀ kv ∈ ms, ∃ p, Object.get s'.heap g.heap.length kv.1 = some p ∧
        view (kv.2.depth + 1) s'.heap p = some kv.2.tree) ∧
      (∀ k, k ∉ ms.map Prod.fst → Object.get s'.heap g.heap.length k = none) := by
  have hp := parse_obj ms hok g []
  rw [List.append_nil] at hp
  refine ⟨_, hp, ?_⟩
  have hroot := build_root_cell (Val.obj ms) none
    { g with _j := (Val.obj ms).render, _i := 0 } (by simp)
  have hps : ((memberPtrs ms (g.heap.length + 1)).map Prod.fst).Nodup := by
    rw [memberPtrs_keys]; exact hnd
  have hmap : Object.map ((Val.obj ms).build none
      { g with _j := (Val.obj ms).render, _i := 0 }).heap g.heap.length =
      memberPtrs ms (g.heap.length + 1) := by
    rw [Object.map, hroot]
    simp only [Val.rootCell]
    rw [foldl_mapSet_nodup _ [] (by simpa using hps)]
    simp
  refine ⟨?_, ?_, ?_⟩
  · show Object.size _ g.heap.length = _
    rw [Object.size, hmap, memberPtrs_length]
  · intro kv hkv
    obtain ⟨i, hi⟩ := List.mem_iff_getElem?.1 hkv
    have hl := leaf_heap_length (.Object []) none { g with _j := (Val.obj ms).render, _i := 0 }
    obtain ⟨p, hp1, _, hp3⟩ := members_final ms g.heap.length
      (leaf (.Object []) none { g with _j := (Val.obj ms).render, _i := 0 })
      (by rw [hl]; show g.heap.length < g.heap.length + 1; omega) i kv hi
    rw [hl] at hp1
    refine ⟨p, ?_, hp3⟩
    show Object.get _ g.heap.length kv.1 = _
    rw [Object.get, hmap]
    exact mapFind_mem kv.1 p _ hps (List.mem_iff_getElem?.2 ⟨i, hp1⟩)
  · intro k hk
    show Object.get _ g.heap.length k = _
    rw [Object.get, hmap]
    exact mapFind_absent k _ (by rw [memberPtrs_keys]; exact hk)




/-- Witness for `parse_object_members`: the text `{"a":1,"b":[true,null]}`. -/
theorem parse_object_members_witness :
    ∃ s', parse "\x7b\"a\":1,\"b\":[true,null]\x7d".toList State.init = .ok (some 0) s' ∧
      Object.size s'.heap 0 = 2 ∧
      (∀ kv ∈ [(['a'], Val.num ['1']), (['b'], Val.arr [.bool true, .null])],
        ∃ p, Object.get s'.heap 0 kv.1 = some p ∧
          view (kv.2.depth + 1) s'.heap p = some kv.2.tree) ∧
      (∀ k, k ∉ [['a'], ['b']] → Object.get s'.heap 0 k = none) :=
  parse_object_members [(['a'], .num ['1']), (['b'], .arr [.bool true, .null])]
    (by decide) (by decide) State.init

theorem _parse_dispatch_ws (f : Nat) (parent : Option Nat) (s : State) (pre w post : List Char)
    (h : Char) (hj : s._j = pre ++ w ++ h :: post) (hi : s._i = pre.length)
    (hws : ∀ x ∈ w, isWhite x = true) (hw : isWhite h = false) :
    _parse (f + 1) parent s =
      (if h = 'n' then _parseNull parent
        else if h = 't' ∨ h = 'f' then _parseBoolean parent
        else if isNumChar h then _parseNumber parent
        else if h = '"' then _parseString parent
        else if h = '{' then _parseObject f parent
        else if h = '[' then _parseArray f parent
        else _unexpectedCharErr >>= raise) { s with _i := pre.length + w.length } := by
  have hc := _c_at { s with _i := (pre.length : Int) + w.length } (pre ++ w) post h hj (by simp)
  simp only [_parse, bind_apply, skipWhiteSpaces_run s pre w post h hj hi hws hw, hc]

/-- An opening bracket or brace that ends the text: the node is allocated, then `_ii` throws. -/
theorem parse_open_eof (g : State) (w : List Char) (hws : ∀ x ∈ w, isWhite x = true)
    (b : Char) (hb : b = '{' ∨ b = '[') :
    parse (w ++ [b]) g = .ok none
      { g with
        _j := w ++ [b]
        _i := w.length + 1
        heap := g.heap ++ [⟨if b = '{' then .Object [] else .Array, none, []⟩]
        _nodes_in_memory := g._nodes_in_memory + 1
        cerr := g.cerr ++ [.unexpectedEOF (w.length + 1)] } := by
  have hw : isWhite b = false := by rcases hb with rfl | rfl <;> decide
  unfold parse
  rw [show 4 * (w ++ [b]).length + 4 = (4 * (w ++ [b]).length + 2 + 1) + 1 from rfl,
    _parse_dispatch_ws _ none { g with _j := w ++ [b], _i := 0 } [] w [] b (by simp) rfl hws hw]
  rcases hb with rfl | rfl
  · have hnc : isNumChar '{' = false := by decide
    simp only [Char.reduceEq, if_false, false_or, hnc, Bool.false_eq_true, if_true, _parseObject]
    have hbind := newNode_hPrt (.Object []) none
      { g with _j := w ++ ['{'], _i := (([] : List Char).length : Int) + w.length }
      (fun o => _ii >>= fun _ =>
        _parseObject.loop (4 * (w ++ ['{']).length + 2) o >>= fun _ => _iis >>= fun _ => pure o)
    simp only [bind_assoc] at hbind ⊢
    rw [hbind, bind_apply, _ii_eof _ w '{' rfl (by simp [leaf])]
    simp [Exc.isStdException, leaf, attached]
  · have hnc : isNumChar '[' = false := by decide
    simp only [Char.reduceEq, if_false, false_or, hnc, Bool.false_eq_true, if_true, _parseArray]
    have hbind := newNode_hPrt .Array none
      { g with _j := w ++ ['['], _i := (([] : List Char).length : Int) + w.length }
      (fun o => _ii >>= fun _ =>
        _parseArray.loop (4 * (w ++ ['[']).length + 2) o >>= fun _ => _iis >>= fun _ => pure o)
    simp only [bind_assoc] at hbind ⊢
    rw [hbind, bind_apply, _ii_eof _ w '[' rfl (by simp [leaf])]
    simp [Exc.isStdException, leaf, attached]

theorem needElems_bound_commas (es : List Val) :
    Val.needElems es ≤ 3 * (Val.renderCommas es).length + 1 := by
  induction es with
  | nil => simp [Val.needElems]
  | cons x xs ih =>
    have hx := need_bound x
    rw [needElems_cons]
    simp only [Val.renderCommas, List.length_append, List.length_singleton]
    omega

theorem build_cerr (v : Val) (p : Option Nat) (s : State) : (v.build p s).cerr = s.cerr :=
  (build_frame v p s).2.1

theorem buildElems_cerr (es : List Val) (a : Nat) (s : State) :
    (Val.buildElems es a s).cerr = s.cerr :=
  (buildElems_frame es (fun e _ => build_frame e) a s).2.1

theorem renderCommas_concat (es : List Val) (e : Val) :
    Val.renderCommas (es ++ [e]) = Val.renderCommas es ++ (e.render ++ [',']) := by
  induction es with
  | nil => simp [Val.renderCommas]
  | cons x xs ih => simp [Val.renderCommas, ih]

/-- An array text that stops after a comma: the elements read so far are built, then the `_ii`
stepping over the last comma throws. -/
theorem parse_comma_eof (g : State) (es : List Val) (hok : Val.okElems es = true)
    (hne : es ≠ []) :
    parse ('[' :: Val.renderCommas es) g = .ok none
      { Val.buildElems es g.heap.length
          (leaf .Array none { g with _j := '[' :: Val.renderCommas es, _i := 0 }) with
        _i := (Val.renderCommas es).length + 1
        cerr := g.cerr ++ [.unexpectedEOF ((Val.renderCommas es).length + 1)] } := by
  have hmem := okElems_mem es hok
  rcases List.eq_nil_or_concat es with rfl | ⟨es', e, rfl⟩
  · exact absurd rfl hne
  rw [List.concat_eq_append] at hmem hne hok ⊢
  have hrc := renderCommas_concat es' e
  have hbnd := needElems_bound_commas (es' ++ [e])
  obtain ⟨hn1, hn2⟩ := needElems_concat es' e
  unfold parse
  generalize hT : ('[' :: Val.renderCommas (es' ++ [e])) = text at *
  have hlenT : text.length = (Val.renderCommas (es' ++ [e])).length + 1 := by
    rw [← hT]; simp
  rw [show 4 * text.length + 4 = (4 * text.length + 2 + 1) + 1 from rfl,
    _parse_dispatch _ none { g with _j := text, _i := 0 } [] (Val.renderCommas (es' ++ [e])) '['
      (by simp [hT]) rfl (by decide)]
  have hnc : isNumChar '[' = false := by decide
  simp only [Char.reduceEq, if_false, false_or, hnc, Bool.false_eq_true, if_true, _parseArray]
  have hbind := newNode_hPrt .Array none { g with _j := text, _i := 0 }
    (fun o => _ii >>= fun _ =>
      _parseArray.loop (4 * text.length + 2) o >>= fun _ => _iis >>= fun _ => pure o)
  simp only [bind_assoc] at hbind ⊢
  rw [hbind]
  obtain ⟨d, tl, hd⟩ : ∃ d tl, Val.renderCommas (es' ++ [e]) = d :: tl := by
    rw [hrc]
    cases h : Val.renderCommas es' ++ (e.render ++ [',']) with
    | nil => simp at h
    | cons d tl => exact ⟨d, tl, rfl⟩
  have hii : _ii (leaf .Array none { g with _j := text, _i := 0 }) =
      .ok () { leaf .Array none { g with _j := text, _i := 0 } with _i := 1 } := by
    have := _ii_at (leaf .Array none { g with _j := text, _i := 0 }) [] tl '[' d
      (by show text = _; rw [← hT, hd]; rfl) rfl
    simpa using this
  have hcom := arrayLoop_commas g.heap.length es' (fun x hx => ⟨hmem x (by simp [hx]),
      parseOK_all x (hmem x (by simp [hx]))⟩) (4 * text.length + 2)
    { leaf .Array none { g with _j := text, _i := 0 } with _i := 1 } ['[']
    (e.render ++ [',']) (by omega) (by show text = _; rw [← hT, hrc]; simp) (by simp) (by simp)
  obtain ⟨f, hfe⟩ : ∃ f, 4 * text.length + 2 - es'.length = f + 1 :=
    ⟨4 * text.length + 2 - es'.length - 1, by omega⟩
  have hstep := arrayLoop_step e (hmem e (by simp)) (parseOK_all e (hmem e (by simp))) f
    g.heap.length
    { Val.buildElems es' g.heap.length
        { leaf .Array none { g with _j := text, _i := 0 } with _i := 1 } with
      _i := ((['['] : List Char).length : Int) + (Val.renderCommas es').length }
    ('[' :: Val.renderCommas es') [] ',' (by omega)
    (by simp only [buildElems_j]; show text = _; rw [← hT, hrc]; simp) (by simp; omega)
    (Or.inl rfl)
  simp only [bind_apply, hii, hcom, hfe, hstep, if_true]
  rw [_ii_eof _ ('[' :: Val.renderCommas es' ++ e.render) ','
    (by simp only [build_j, buildElems_j]; show text = _; rw [← hT, hrc]; simp)
    (by simp; omega)]
  simp only [Exc.isStdException, if_true, buildElems_concat, buildElems_seti', build_seti]
  simp only [hrc, build_cerr, buildElems_cerr]
  simp [leaf]
  omega




/-- C6: on every text that ends where more input is mandatory (right after an opening `{` or
`[`, or after the comma that follows the last of one or more array elements) `parse` logs
`UnexpectedEndOfInput`, at the position of the end of the text, and returns `NULL`. -/
theorem parse_needs_more (g : State) (text : List Char) (h : NeedsMore text) :
    ∃ s', parse text g = .ok none s' ∧
      s'.cerr = g.cerr ++ [.unexpectedEOF text.length] := by
  rcases h with ⟨w, b, hws, hb, rfl⟩ | ⟨es, hok, hne, rfl⟩
  · exact ⟨_, parse_open_eof g w hws b hb, by simp⟩
  · exact ⟨_, parse_comma_eof g es hok hne, by simp⟩

/-- Witness for `parse_needs_more`: the texts `{` and `[1,2,`. -/
theorem parse_needs_more_witness :
    (∃ s', parse "\x7b".toList State.init = .ok none s' ∧ s'.cerr = [.unexpectedEOF 1]) ∧
    (∃ s', parse "[1,2,".toList State.init = .ok none s' ∧ s'.cerr = [.unexpectedEOF 5]) :=
  ⟨parse_needs_more State.init "\x7b".toList (Or.inl ⟨[], '{', by simp, Or.inl rfl, rfl⟩),
   parse_needs_more State.init "[1,2,".toList
    (Or.inr ⟨[.num ['1'], .num ['2']], by decide, by simp, by decide⟩)⟩

/-- C8: destroying the array built from `[1]` through `Array::~Array` releases its child twice:
the loop of `~Array` deletes `children[0]`, and the base destructor `~Node`, which runs next
on the same unchanged `children` vector, deletes it again. The live-node counter, `2` after
the parse and `0` before it, ends at `-1`. The same happens with `Object::~Object` on the
object built from `{"a":1}`, whose key index and `children` hold the same node. (Only the
base destructor alone, as run by `delete` through a `Node*`, releases each node once.) -/
theorem dtor_releases_child_twice :
    parse "[1]".toList State.init =
      .ok (some 0)
        ⟨"[1]".toList, 2, [⟨.Array, none, [1]⟩, ⟨.Number ⟨false, 1⟩, some 0, []⟩], 2, [], []⟩ ∧
    Array.dtor 0
        ⟨"[1]".toList, 2, [⟨.Array, none, [1]⟩, ⟨.Number ⟨false, 1⟩, some 0, []⟩], 2, [], []⟩ =
      .ok ()
        ⟨"[1]".toList, 2, [⟨.Array, none, []⟩, ⟨.Number ⟨false, 1⟩, some 0, []⟩], -1, [],
          [1, 1]⟩ ∧
    Node.delete 0
        ⟨"[1]".toList, 2, [⟨.Array, none, [1]⟩, ⟨.Number ⟨false, 1⟩, some 0, []⟩], 2, [], []⟩ =
      .ok ()
        ⟨"[1]".toList, 2, [⟨.Array, none, []⟩, ⟨.Number ⟨false, 1⟩, some 0, []⟩], 0, [],
          [0, 1]⟩ ∧
    parse "\x7b\"a\":1\x7d".toList State.init =
      .ok (some 0)
        ⟨"\x7b\"a\":1\x7d".toList, 6,
          [⟨.Object [(['a'], 2)], none, [2]⟩, ⟨.String ['a'], none, []⟩,
            ⟨.Number ⟨false, 1⟩, some 0, []⟩], 2, [], [1]⟩ ∧
    Object.dtor id 0
        ⟨"\x7b\"a\":1\x7d".toList, 6,
          [⟨.Object [(['a'], 2)], none, [2]⟩, ⟨.String ['a'], none, []⟩,
            ⟨.Number ⟨false, 1⟩, some 0, []⟩], 2, [], [1]⟩ =
      .ok ()
        ⟨"\x7b\"a\":1\x7d".toList, 6,
          [⟨.Object [(['a'], 2)], none, []⟩, ⟨.String ['a'], none, []⟩,
            ⟨.Number ⟨false, 1⟩, some 0, []⟩], -1, [], [1, 2, 2]⟩ := by
  decide!

/-! ### Round trip: `std::to_string` read back by `strtod` -/

theorem digitChar_isDigit (k : Nat) (hk : k < 10) :
    (Nat.digitChar k).isDigit = true ∧ (Nat.digitChar k).toNat - '0'.toNat = k := by
  interval_cases k <;> decide

theorem digitsValue_append (a b : List Char) :
    digitsValue (a ++ b) = digitsValue a * 10 ^ b.length + digitsValue b := by
  unfold digitsValue
  induction b using List.reverseRecOn with
  | nil => simp
  | append_singleton b x ih =>
    rw [← List.append_assoc, List.foldl_concat, ih, List.foldl_concat, List.length_append,
      List.length_singleton, pow_succ]
    ring

theorem digitsValue_singleton (c : Char) : digitsValue [c] = c.toNat - '0'.toNat := by
  simp [digitsValue]

theorem digitsValue_cons (c : Char) (ds : List Char) :
    digitsValue (c :: ds) = (c.toNat - '0'.toNat) * 10 ^ ds.length + digitsValue ds := by
  have := digitsValue_append [c] ds
  rw [digitsValue_singleton] at this
  simpa using this

theorem toDigitsCore_spec (f : Nat) :
    ∀ (n : Nat) (acc : List Char), n < f →
      (∀ c ∈ acc, c.isDigit = true) →
      (∀ c ∈ Nat.toDigitsCore 10 f n acc, c.isDigit = true) ∧
      digitsValue (Nat.toDigitsCore 10 f n acc) = n * 10 ^ acc.length + digitsValue acc ∧
      Nat.toDigitsCore 10 f n acc ≠ [] := by
  induction f with
  | zero => intro n acc h; omega
  | succ f ih =>
    intro n acc hn hacc
    have hd := digitChar_isDigit (n % 10) (Nat.mod_lt _ (by decide))
    have hacc' : ∀ c ∈ Nat.digitChar (n % 10) :: acc, c.isDigit = true := by
      intro c hc
      rcases List.mem_cons.1 hc with rfl | hc
      · exact hd.1
      · exact hacc c hc
    simp only [Nat.toDigitsCore]
    by_cases h0 : n / 10 = 0
    · simp only [h0, if_true]
      refine ⟨hacc', ?_, by simp⟩
      rw [digitsValue_cons, hd.2]
      have : n % 10 = n := by omega
      rw [this]
    · simp only [h0, if_false]
      obtain ⟨h1, h2, h3⟩ := ih (n / 10) (Nat.digitChar (n % 10) :: acc) (by omega) hacc'
      refine ⟨h1, ?_, h3⟩
      rw [h2, digitsValue_cons, hd.2, List.length_cons, pow_succ]
      have hn' : n = 10 * (n / 10) + n % 10 := (Nat.div_add_mod n 10).symm
      generalize n / 10 = q at hn' ⊢
      generalize n % 10 = r at hn' ⊢
      subst hn'
      ring

theorem toDigits_spec (n : Nat) :
    (∀ c ∈ Nat.toDigits 10 n, c.isDigit = true) ∧ digitsValue (Nat.toDigits 10 n) = n ∧
    Nat.toDigits 10 n ≠ [] := by
  have := toDigitsCore_spec (n + 1) n [] (by omega) (by simp)
  simpa [Nat.toDigits, digitsValue] using this

theorem fixedDigits_spec (w : Nat) :
    ∀ n, (∀ c ∈ fixedDigits w n, c.isDigit = true) ∧ (fixedDigits w n).length = w ∧
      digitsValue (fixedDigits w n) = n % 10 ^ w := by
  induction w with
  | zero => intro n; simp [fixedDigits, digitsValue, Nat.mod_one]
  | succ w ih =>
    intro n
    obtain ⟨h1, h2, h3⟩ := ih (n / 10)
    have hd := digitChar_isDigit (n % 10) (Nat.mod_lt _ (by decide))
    refine ⟨?_, ?_, ?_⟩
    · intro c hc
      simp only [fixedDigits, List.mem_append, List.mem_singleton] at hc
      rcases hc with hc | rfl
      · exact h1 c hc
      · exact hd.1
    · simp [fixedDigits, h2]
    · rw [fixedDigits, digitsValue_append, digitsValue_singleton, hd.2, h3]
      simp only [List.length_singleton, pow_one]
      rw [pow_succ]
      have h4 : n % (10 ^ w * 10) = n % 10 + 10 * (n / 10 % 10 ^ w) := by
        rw [mul_comm (10 ^ w) 10, Nat.mod_mul]
      omega




theorem floor_add_half (N : Nat) : (Rat.floor ((N : ℚ) + 1 / 2)).toNat = N := by
  have h : Rat.floor ((N : ℚ) + 1 / 2) = (N : Int) := by
    show ⌊(N : ℚ) + 1 / 2⌋ = (N : Int)
    rw [Int.floor_eq_iff]
    constructor
    · push_cast; linarith
    · push_cast; linarith
  rw [h]
  simp

/-! ### Round trip: rounding to binary64 -/

theorem pow2_eq (k : Int) : pow2 k = (2 : ℚ) ^ k := by
  unfold pow2
  split
  · rename_i h
    obtain ⟨n, rfl⟩ := Int.eq_ofNat_of_zero_le h
    simp
  · rename_i h
    have h' : 0 ≤ -k := by omega
    obtain ⟨n, hn⟩ := Int.eq_ofNat_of_zero_le h'
    have hk : k = -(n : Int) := by omega
    subst hk
    simp

theorem pow2_pos (k : Int) : 0 < pow2 k := by
  rw [pow2_eq]; positivity

theorem pow2_add (a b : Int) : pow2 (a + b) = pow2 a * pow2 b := by
  rw [pow2_eq, pow2_eq, pow2_eq, zpow_add₀ (by norm_num)]

theorem pow2_le (a b : Int) (h : a ≤ b) : pow2 a ≤ pow2 b := by
  rw [pow2_eq, pow2_eq]
  exact zpow_le_zpow_right₀ (by norm_num) h

theorem pow2_lt (a b : Int) (h : a < b) : pow2 a < pow2 b := by
  rw [pow2_eq, pow2_eq]
  exact zpow_lt_zpow_right₀ (by norm_num) h

theorem pow2_lt_iff (a b : Int) : pow2 a < pow2 b ↔ a < b := by
  constructor
  · intro h
    by_contra hn
    have := pow2_le b a (by omega)
    linarith
  · exact pow2_lt a b

theorem pow2_succ (a : Int) : pow2 (a + 1) = 2 * pow2 a := by
  rw [pow2_add, mul_comm]
  congr 1

theorem pow2_nat (n : Nat) : pow2 (n : Int) = ((2 ^ n : Nat) : ℚ) := by
  rw [pow2_eq]; simp

/-- The value `roundHalfEven` returns is within one half of its argument. -/
theorem roundHalfEven_near (q : ℚ) (hq : 0 ≤ q) :
    |(roundHalfEven q : ℚ) - q| ≤ 1 / 2 := by
  have hf0 : 0 ≤ Rat.floor q := by
    show 0 ≤ ⌊q⌋
    exact Int.floor_nonneg.2 hq
  have hcast : ((Rat.floor q).toNat : ℚ) = ((Rat.floor q : Int) : ℚ) := by
    have : ((Rat.floor q).toNat : Int) = Rat.floor q := Int.toNat_of_nonneg hf0
    exact_mod_cast congrArg (fun z : Int => (z : ℚ)) this
  have h1 : ((Rat.floor q : Int) : ℚ) ≤ q := Int.floor_le q
  have h2 : q < ((Rat.floor q : Int) : ℚ) + 1 := Int.lt_floor_add_one q
  unfold roundHalfEven
  simp only
  split
  · rename_i h
    rw [hcast] at h ⊢
    rw [abs_le]; constructor <;> linarith
  · rename_i h
    split
    · rename_i h'
      push_cast
      rw [hcast] at h' ⊢
      rw [abs_le]; constructor <;> linarith
    · rename_i h'
      have he : q - ((Rat.floor q).toNat : ℚ) = 1 / 2 := le_antisymm (not_lt.1 h') (not_lt.1 h)
      split
      · rw [abs_le]; constructor <;> linarith
      · push_cast
        rw [abs_le]; constructor <;> linarith

/-- A non-negative rational strictly within one half of a natural number is rounded to it. -/
theorem roundHalfEven_eq (q : ℚ) (n : Nat) (hq : 0 ≤ q) (h : |q - n| < 1 / 2) :
    roundHalfEven q = n := by
  rw [abs_lt] at h
  by_cases hlo : (n : ℚ) ≤ q
  · have hfl : Rat.floor q = (n : Int) := by
      show ⌊q⌋ = (n : Int)
      rw [Int.floor_eq_iff]
      constructor
      · exact_mod_cast hlo
      · push_cast; linarith
    unfold roundHalfEven
    simp only [hfl, Int.toNat_ofNat]
    rw [if_pos (by linarith)]
  · have hlo' : q < n := not_le.1 hlo
    have hn : n ≠ 0 := by
      rintro rfl
      simp at hlo'
      linarith
    obtain ⟨p, rfl⟩ := Nat.exists_eq_succ_of_ne_zero hn
    have hfl : Rat.floor q = (p : Int) := by
      show ⌊q⌋ = (p : Int)
      rw [Int.floor_eq_iff]
      push_cast at h hlo' ⊢
      constructor <;> linarith
    unfold roundHalfEven
    simp only [hfl, Int.toNat_ofNat]
    push_cast at h hlo'
    rw [if_neg (by linarith), if_pos (by linarith)]

theorem roundHalfEven_nat (n : Nat) : roundHalfEven (n : ℚ) = n :=
  roundHalfEven_eq _ n (by positivity) (by simp)


theorem pow2_sub (a b : Int) : pow2 (a - b) = pow2 a / pow2 b := by
  rw [pow2_eq, pow2_eq, pow2_eq, zpow_sub₀ (by norm_num)]

theorem bitLen_spec (f : Nat) : ∀ n, n < 2 ^ f → n ≠ 0 →
    1 ≤ bitLen f n ∧ 2 ^ (bitLen f n - 1) ≤ n ∧ n < 2 ^ bitLen f n := by
  induction f with
  | zero =>
    intro n h hn
    simp at h
    exact absurd h hn
  | succ f ih =>
    intro n h hn
    rw [bitLen, if_neg hn]
    have h2 : n / 2 < 2 ^ f := by
      rw [pow_succ] at h
      omega
    by_cases h0 : n / 2 = 0
    · have hb : bitLen f (n / 2) = 0 := by
        rw [h0]
        cases f <;> simp [bitLen]
      rw [hb]
      have : n = 1 := by omega
      subst this
      simp
    · obtain ⟨b1, b2, b3⟩ := ih (n / 2) h2 h0
      refine ⟨by omega, ?_, ?_⟩
      · have e : bitLen f (n / 2) + 1 - 1 = (bitLen f (n / 2) - 1) + 1 := by omega
        rw [e, pow_succ]
        omega
      · rw [pow_succ]
        omega

theorem nat_log2_spec (a : Nat) (ha : a ≠ 0) : 2 ^ log2 a ≤ a ∧ a < 2 ^ (log2 a + 1) := by
  obtain ⟨b1, b2, b3⟩ := bitLen_spec a a (Nat.lt_two_pow a) ha
  unfold log2
  have e : bitLen a a - 1 + 1 = bitLen a a := by omega
  rw [e]
  exact ⟨b2, b3⟩

theorem log2_bracket (a b : Nat) (ha0 : a ≠ 0) (hb0 : b ≠ 0) :
    pow2 ((log2 a : Int) - (log2 b : Int) - 1) ≤ (a : ℚ) / (b : ℚ) ∧
    (a : ℚ) / (b : ℚ) < pow2 ((log2 a : Int) - (log2 b : Int) + 1) := by
  obtain ⟨a1, a2⟩ := nat_log2_spec a ha0
  obtain ⟨b1, b2⟩ := nat_log2_spec b hb0
  have hbpos : (0 : ℚ) < b := by exact_mod_cast Nat.pos_of_ne_zero hb0
  have A1 : pow2 (log2 a : Int) ≤ (a : ℚ) := by rw [pow2_nat]; exact_mod_cast a1
  have A2 : (a : ℚ) < pow2 ((log2 a : Int) + 1) := by
    have : ((log2 a : Int) + 1) = ((log2 a + 1 : Nat) : Int) := by push_cast; rfl
    rw [this, pow2_nat]; exact_mod_cast a2
  have B1 : pow2 (log2 b : Int) ≤ (b : ℚ) := by rw [pow2_nat]; exact_mod_cast b1
  have B2 : (b : ℚ) < pow2 ((log2 b : Int) + 1) := by
    have : ((log2 b : Int) + 1) = ((log2 b + 1 : Nat) : Int) := by push_cast; rfl
    rw [this, pow2_nat]; exact_mod_cast b2
  have hPb := pow2_pos (log2 b : Int)
  constructor
  · have e : (log2 a : Int) - (log2 b : Int) - 1 = (log2 a : Int) - ((log2 b : Int) + 1) := by
      ring
    rw [e, pow2_sub, div_le_div_iff (pow2_pos _) hbpos]
    calc pow2 (log2 a : Int) * (b : ℚ) ≤ (a : ℚ) * (b : ℚ) :=
          mul_le_mul_of_nonneg_right A1 (le_of_lt hbpos)
      _ ≤ (a : ℚ) * pow2 ((log2 b : Int) + 1) :=
          mul_le_mul_of_nonneg_left (le_of_lt B2) (by positivity)
  · have e : (log2 a : Int) - (log2 b : Int) + 1 = ((log2 a : Int) + 1) - (log2 b : Int) := by
      ring
    rw [e, pow2_sub, div_lt_div_iff hbpos hPb]
    calc (a : ℚ) * pow2 (log2 b : Int) < pow2 ((log2 a : Int) + 1) * pow2 (log2 b : Int) :=
          mul_lt_mul_of_pos_right A2 hPb
      _ ≤ pow2 ((log2 a : Int) + 1) * (b : ℚ) :=
          mul_le_mul_of_nonneg_left B1 (le_of_lt (pow2_pos _))

/-- The exponent `floorLog2` returns brackets its argument. -/
theorem floorLog2_spec (q : ℚ) (hq : 0 < q) :
    pow2 (floorLog2 q) ≤ q ∧ q < pow2 (floorLog2 q + 1) := by
  have hnum : 0 < q.num := Rat.num_pos.2 hq
  obtain ⟨a, ha⟩ := Int.eq_ofNat_of_zero_le (le_of_lt hnum)
  have ha0 : a ≠ 0 := by
    rintro rfl
    rw [ha] at hnum
    simp at hnum
  have hqab : (a : ℚ) / (q.den : ℚ) = q := by
    have : ((a : Int) : ℚ) / (q.den : ℚ) = q := by rw [← ha]; exact Rat.num_div_den q
    simpa using this
  obtain ⟨hlo, hup⟩ := log2_bracket a q.den ha0 q.den_nz
  rw [hqab] at hlo hup
  have hnat : q.num.toNat = a := by rw [ha]; simp
  unfold floorLog2
  simp only [hnat]
  split
  · rename_i h
    exact ⟨h, hup⟩
  · rename_i h
    refine ⟨hlo, ?_⟩
    rw [sub_add_cancel]
    exact not_le.1 h

/-- The exponent is determined by the bracket. -/
theorem floorLog2_unique (q : ℚ) (e : Int) (h1 : pow2 e ≤ q) (h2 : q < pow2 (e + 1)) :
    floorLog2 q = e := by
  have hq : 0 < q := lt_of_lt_of_le (pow2_pos e) h1
  obtain ⟨s1, s2⟩ := floorLog2_spec q hq
  have c1 : floorLog2 q < e + 1 := (pow2_lt_iff _ _).1 (lt_of_le_of_lt s1 h2)
  have c2 : e < floorLog2 q + 1 := (pow2_lt_iff _ _).1 (lt_of_le_of_lt h1 s2)
  omega

theorem binary64_pos (q : ℚ) (hq : 0 < q) :
    binary64 q =
      if (roundHalfEven (q / pow2 (max (floorLog2 q - 52) (-1074))) : ℚ) *
          pow2 (max (floorLog2 q - 52) (-1074)) < pow2 1024
      then some ((roundHalfEven (q / pow2 (max (floorLog2 q - 52) (-1074))) : ℚ) *
          pow2 (max (floorLog2 q - 52) (-1074)))
      else none := by
  unfold binary64
  rw [if_neg (not_le.2 hq)]

theorem pow2_of_nonneg (j : Int) (hj : 0 ≤ j) : pow2 j = ((2 ^ j.toNat : Nat) : ℚ) := by
  unfold pow2
  rw [if_pos hj]


theorem pow2_52 : pow2 52 = 4503599627370496 := by rw [pow2_eq]; norm_num

theorem pow2_53 : pow2 53 = 9007199254740992 := by rw [pow2_eq]; norm_num

theorem pow2_m19 : pow2 (-19) = 1 / 524288 := by rw [pow2_eq]; norm_num

theorem pow2_m20 : pow2 (-20) = 1 / 1048576 := by rw [pow2_eq]; norm_num

/-- A rational in the binade of `M * 2^j` and within half a unit in the last place of it is
converted to it. -/
theorem binary64_near (M : Nat) (j : Int) (d : ℚ) (hj : -1074 ≤ j)
    (hfin : (M : ℚ) * pow2 j < pow2 1024)
    (hlo : pow2 (j + 52) ≤ d) (hhi : d < pow2 (j + 53))
    (hd : |d - (M : ℚ) * pow2 j| < pow2 j / 2) :
    binary64 d = some ((M : ℚ) * pow2 j) := by
  have hP := pow2_pos j
  have hdpos : 0 < d := lt_of_lt_of_le (pow2_pos _) hlo
  have he : floorLog2 d = j + 52 :=
    floorLog2_unique d (j + 52) hlo (by
      have : j + 52 + 1 = j + 53 := by ring
      rw [this]; exact hhi)
  have hk : max (floorLog2 d - 52) (-1074) = j := by rw [he]; omega
  have hr : roundHalfEven (d / pow2 j) = M := by
    apply roundHalfEven_eq _ _ (div_nonneg (le_of_lt hdpos) (le_of_lt hP))
    have e1 : d / pow2 j - (M : ℚ) = (d - (M : ℚ) * pow2 j) / pow2 j := by
      field_simp
      ring
    rw [e1, abs_div, abs_of_pos hP, div_lt_iff hP]
    linarith
  rw [binary64_pos d hdpos, hk, hr, if_pos hfin]

theorem print_nat (X : Nat) : (roundHalfEven ((X : ℚ) * 1000000) : ℚ) / 1000000 = X := by
  have : ((X : ℚ) * 1000000) = ((X * 1000000 : Nat) : ℚ) := by push_cast; ring
  rw [this, roundHalfEven_nat]
  push_cast
  field_simp

/-- Printing the binary64 nearest to a whole number of millionths with six decimals, and
converting what was printed, gives the same binary64 again. -/
theorem binary64_print (N : Nat) (x : ℚ) (hx : binary64 ((N : ℚ) / 1000000) = some x) :
    0 ≤ x ∧ binary64 ((roundHalfEven (x * 1000000) : ℚ) / 1000000) = some x := by
  by_cases hN : N = 0
  · subst hN
    have h0 : binary64 (((0 : Nat) : ℚ) / 1000000) = some 0 := by
      unfold binary64
      rw [if_pos (by simp)]
    rw [h0] at hx
    injection hx with hx
    subst hx
    refine ⟨le_refl _, ?_⟩
    have := print_nat 0
    simp only [Nat.cast_zero] at this
    rw [this]
    unfold binary64
    rw [if_pos (le_refl _)]
  have hNpos : (0 : ℚ) < N := by exact_mod_cast Nat.pos_of_ne_zero hN
  have hq : (0 : ℚ) < (N : ℚ) / 1000000 := by positivity
  have hx0 := hx
  rw [binary64_pos _ hq] at hx
  generalize hk : max (floorLog2 ((N : ℚ) / 1000000) - 52) (-1074) = k at hx
  generalize hm : roundHalfEven ((N : ℚ) / 1000000 / pow2 k) = m at hx
  by_cases hfin : (m : ℚ) * pow2 k < pow2 1024
  case neg =>
    rw [if_neg hfin] at hx
    cases hx
  rw [if_pos hfin] at hx
  injection hx with hx
  have hP := pow2_pos k
  have hxnn : 0 ≤ x := by rw [← hx]; exact mul_nonneg (Nat.cast_nonneg _) (le_of_lt hP)
  refine ⟨hxnn, ?_⟩
  have hnear := roundHalfEven_near ((N : ℚ) / 1000000 / pow2 k)
    (div_nonneg (le_of_lt hq) (le_of_lt hP))
  rw [hm, abs_le] at hnear
  have hqP : (N : ℚ) / 1000000 / pow2 k * pow2 k = (N : ℚ) / 1000000 :=
    div_mul_cancel₀ _ (ne_of_gt hP)
  have hx1 : x - (N : ℚ) / 1000000 ≤ pow2 k / 2 := by
    have := mul_le_mul_of_nonneg_right hnear.2 (le_of_lt hP)
    rw [sub_mul, hqP, hx] at this
    linarith
  have hx2 : -(pow2 k / 2) ≤ x - (N : ℚ) / 1000000 := by
    have := mul_le_mul_of_nonneg_right hnear.1 (le_of_lt hP)
    rw [sub_mul, hqP, hx] at this
    linarith
  by_cases hA : k ≤ -20
  · have hPle : pow2 k ≤ 1 / 1048576 := by rw [← pow2_m20]; exact pow2_le _ _ hA
    have hr : roundHalfEven (x * 1000000) = N := by
      apply roundHalfEven_eq _ _ (mul_nonneg hxnn (by norm_num))
      rw [abs_lt]
      constructor <;> linarith
    rw [hr]
    exact hx0
  · have hk19 : -19 ≤ k := by omega
    have he : floorLog2 ((N : ℚ) / 1000000) = k + 52 := by omega
    obtain ⟨s1, s2⟩ := floorLog2_spec _ hq
    rw [he] at s1 s2
    have e1 : pow2 (k + 52) = pow2 k * 4503599627370496 := by rw [pow2_add, pow2_52]
    have e2 : pow2 (k + 52 + 1) = pow2 k * 9007199254740992 := by
      have : k + 52 + 1 = k + 53 := by ring
      rw [this, pow2_add, pow2_53]
    have e3 : pow2 (k + 53) = pow2 k * 9007199254740992 := by rw [pow2_add, pow2_53]
    rw [e1] at s1
    rw [e2] at s2
    have hPge : 1 / 524288 ≤ pow2 k := by rw [← pow2_m19]; exact pow2_le _ _ hk19
    -- bounds on the significand
    have hmlo : (4503599627370496 : ℚ) - 1 / 2 ≤ m := by
      have : (4503599627370496 : ℚ) ≤ (N : ℚ) / 1000000 / pow2 k := by
        rw [le_div_iff hP]; linarith
      linarith [hnear.1]
    have hmhi : (m : ℚ) < 9007199254740992 + 1 / 2 := by
      have : (N : ℚ) / 1000000 / pow2 k < 9007199254740992 := by
        rw [div_lt_iff hP]; linarith
      linarith [hnear.2]
    have hm1 : 4503599627370496 ≤ m := by
      by_contra hc
      have : m ≤ 4503599627370495 := by omega
      have : (m : ℚ) ≤ 4503599627370495 := by exact_mod_cast this
      linarith
    have hm2 : m ≤ 9007199254740992 := by
      by_contra hc
      have : 9007199254740993 ≤ m := by omega
      have : (9007199254740993 : ℚ) ≤ m := by exact_mod_cast this
      linarith
    have hdnear := roundHalfEven_near (x * 1000000) (mul_nonneg hxnn (by norm_num))
    rw [abs_le] at hdnear
    by_cases hmtop : m = 9007199254740992
    · -- the significand was carried to the next binade
      have hxp : x = pow2 (k + 53) := by rw [← hx, hmtop, e3]; push_cast; ring
      have hxnat : x = ((2 ^ (k + 53).toNat : Nat) : ℚ) := by
        rw [hxp, pow2_of_nonneg _ (by omega)]
      have hdx : (roundHalfEven (x * 1000000) : ℚ) / 1000000 = x := by
        rw [hxnat]; exact print_nat _
      rw [hdx]
      have hx' : x = ((4503599627370496 : Nat) : ℚ) * pow2 (k + 1) := by
        rw [hxp]
        have : k + 53 = (k + 1) + 52 := by ring
        rw [this, pow2_add, pow2_52]
        push_cast; ring
      have hfin' : ((4503599627370496 : Nat) : ℚ) * pow2 (k + 1) < pow2 1024 := by
        rw [← hx', ← hx]; exact hfin
      have := binary64_near 4503599627370496 (k + 1) x (by omega)
        hfin'
        (by
          have : k + 1 + 52 = k + 53 := by ring
          rw [this, hxp])
        (by
          have : k + 1 + 53 = (k + 53) + 1 := by ring
          rw [this, hxp]; exact pow2_lt _ _ (by omega))
        (by
          rw [← hx', sub_self, abs_zero]
          have := pow2_pos (k + 1)
          linarith)
      rw [this, ← hx']
    · have hm3 : m < 9007199254740992 := by omega
      have hm3q : (m : ℚ) ≤ 9007199254740991 := by
        have : m ≤ 9007199254740991 := by omega
        exact_mod_cast this
      have hfin' : (m : ℚ) * pow2 k < pow2 1024 := hfin
      by_cases hmbot : m = 4503599627370496
      · have hxp : x = pow2 (k + 52) := by rw [← hx, hmbot, e1]; push_cast; ring
        have hxnat : x = ((2 ^ (k + 52).toNat : Nat) : ℚ) := by
          rw [hxp, pow2_of_nonneg _ (by omega)]
        have hdx : (roundHalfEven (x * 1000000) : ℚ) / 1000000 = x := by
          rw [hxnat]; exact print_nat _
        rw [hdx]
        have := binary64_near m k x (by omega) hfin'
          (by rw [hxp])
          (by rw [hxp]; exact pow2_lt _ _ (by omega))
          (by rw [hx, sub_self, abs_zero]; linarith)
        rw [this, hx]
      · have hm4q : (4503599627370497 : ℚ) ≤ m := by
          have : 4503599627370497 ≤ m := by omega
          exact_mod_cast this
        have hxP : x = (m : ℚ) * pow2 k := hx.symm
        have := binary64_near m k ((roundHalfEven (x * 1000000) : ℚ) / 1000000)
          (by omega) hfin'
          (by
            rw [e1, le_div_iff (by norm_num)]
            have : pow2 k * 4503599627370497 ≤ x := by
              rw [hxP, mul_comm]; exact mul_le_mul_of_nonneg_right hm4q (le_of_lt hP)
            linarith [hdnear.1])
          (by
            rw [e3, div_lt_iff (by norm_num)]
            have : x ≤ pow2 k * 9007199254740991 := by
              rw [hxP, mul_comm]; exact mul_le_mul_of_nonneg_left hm3q (le_of_lt hP)
            linarith [hdnear.2])
          (by
            rw [← hxP, abs_lt]
            constructor
            · have : (x * 1000000 - 1 / 2) / 1000000 ≤
                  (roundHalfEven (x * 1000000) : ℚ) / 1000000 := by
                apply div_le_div_of_nonneg_right _ (by norm_num)
                linarith [hdnear.1]
              have e : (x * 1000000 - 1 / 2) / 1000000 = x - 1 / 2000000 := by ring
              rw [e] at this
              linarith
            · have : (roundHalfEven (x * 1000000) : ℚ) / 1000000 ≤
                  (x * 1000000 + 1 / 2) / 1000000 := by
                apply div_le_div_of_nonneg_right _ (by norm_num)
                linarith [hdnear.2]
              have e : (x * 1000000 + 1 / 2) / 1000000 = x + 1 / 2000000 := by ring
              rw [e] at this
              linarith)
        rw [this, hxP]

/-- What `std::to_string` prints for the `double` converted from a whole number of millionths
is a well-formed decimal that `std::strtod` converts to the same `double` again. -/
theorem to_string_roundtrip (x : Double) (hx : x.sixDecimals) (hf : x.finite) :
    wellFormedDecimal (to_string x) = true ∧
      (decimalValue (to_string x)).stored = x.stored := by
  obtain ⟨N, hN⟩ := hx
  unfold Double.finite at hf
  cases hb : binary64 x.mag with
  | none => rw [hb] at hf; cases hf
  | some y =>
    have hb' := hb
    rw [hN] at hb'
    obtain ⟨_, hprint⟩ := binary64_print N y hb'
    obtain ⟨i1, i2, i3⟩ := toDigits_spec (roundHalfEven (y * 1000000) / 1000000)
    obtain ⟨f1, f2, f3⟩ := fixedDigits_spec 6 (roundHalfEven (y * 1000000) % 1000000)
    have hs : to_string x =
        decimalShape x.neg (Nat.toDigits 10 (roundHalfEven (y * 1000000) / 1000000))
          (fixedDigits 6 (roundHalfEven (y * 1000000) % 1000000)) true := by
      simp only [to_string, hb, decimalShape, if_true]
      simp
    rw [hs]
    refine ⟨shape_wf _ _ _ _ i1 f1 (Or.inl i3) (by simp), ?_⟩
    rw [decimalValue_shape _ _ _ _ i1 f1 (by simp), digitsValue_append, i2, f2, f3]
    have hval : roundHalfEven (y * 1000000) / 1000000 * 10 ^ 6 +
        roundHalfEven (y * 1000000) % 1000000 % 10 ^ 6 = roundHalfEven (y * 1000000) := by
      have := Nat.div_add_mod (roundHalfEven (y * 1000000)) 1000000
      norm_num
      omega
    rw [hval]
    simp only [Double.stored, hb]
    have e : ((roundHalfEven (y * 1000000) : ℚ)) / 10 ^ 6 =
        (roundHalfEven (y * 1000000) : ℚ) / 1000000 := by norm_num
    rw [e, hprint]

/-! ### Round trip: clean trees -/

theorem allSome_map_map {α β γ : Type} (f : α → Option β) (r : β → γ) (l : List α) :
    allSome (fun a => (f a).map r) l = (allSome f l).map (List.map r) := by
  induction l with
  | nil => rfl
  | cons a l ih =>
    simp only [allSome, ih]
    cases f a <;> cases allSome f l <;> rfl

theorem renderElems_eq (es : List Val) :
    Val.renderElems es = List.intercalate [','] (es.map Val.render) := by
  induction es with
  | nil => simp [Val.renderElems, List.intercalate]
  | cons e es ih =>
    cases es with
    | nil => simp [Val.renderElems, List.intercalate]
    | cons x xs =>
      rw [Val.renderElems, ih]
      simp [List.intercalate, List.intersperse]

theorem renderMembers_eq (ms : List (List Char × Val)) :
    Val.renderMembers ms = List.intercalate [',']
      (ms.map (fun kv => ['"'] ++ kv.1 ++ ['"', ':'] ++ kv.2.render)) := by
  induction ms with
  | nil => simp [Val.renderMembers, List.intercalate]
  | cons e es ih =>
    obtain ⟨k, v⟩ := e
    cases es with
    | nil => simp [Val.renderMembers, List.intercalate]
    | cons x xs =>
      rw [Val.renderMembers, ih]
      simp [List.intercalate, List.intersperse]

/-- The reference rendering of a cell is the compact text of the value `valOf` reads there. -/
theorem refRender_valOf (ord : List (List Char × Nat) → List (List Char × Nat)) (fuel : Nat)
    (h : List Node) : ∀ p, refRender ord fuel h p = (valOf ord fuel h p).map Val.render := by
  induction fuel with
  | zero => intro p; rfl
  | succ n ih =>
    intro p
    have ih' : refRender ord n h = fun q => (valOf ord n h q).map Val.render := funext ih
    simp only [refRender, valOf]
    cases hp : (deref h p).payload with
    | Boolean v => simp [Val.render]
    | Null => simp [Val.render]
    | Number v => simp [Val.render]
    | String v => simp [Val.render]
    | Array =>
      simp only [ih', allSome_map_map, Option.map_map]
      congr 1
      funext es
      simp [Val.render, renderElems_eq]
    | Object m =>
      have : (fun a : List Char × Nat => (refRender ord n h a.2).map
          (fun t => ['"'] ++ a.1 ++ ['"', ':'] ++ t)) =
          (fun a => ((valOf ord n h a.2).map (fun v => (a.1, v))).map
            (fun kv : List Char × Val => ['"'] ++ kv.1 ++ ['"', ':'] ++ kv.2.render)) := by
        funext a
        rw [ih a.2]
        cases valOf ord n h a.2 <;> rfl
      have e := allSome_map_map
        (fun a : List Char × Nat => (valOf ord n h a.2).map (fun v => (a.1, v)))
        (fun kv : List Char × Val => ['"'] ++ kv.1 ++ ['"', ':'] ++ kv.2.render) (ord m)
      simp only [this, e]
      cases allSome (fun a : List Char × Nat =>
        (valOf ord n h a.2).map (fun v => (a.1, v))) (ord m) <;>
        simp [Val.render, renderMembers_eq]

theorem treeMembers_keys (ms : List (List Char × Val)) :
    (Val.treeMembers ms).map Prod.fst = ms.map Prod.fst := by
  induction ms with
  | nil => rfl
  | cons x xs ih => obtain ⟨k, v⟩ := x; simp [treeMembers_cons, ih]

theorem simMembers_of_forall (ms ms' : List (List Char × Tree))
    (h : ∀ kt ∈ ms, ∃ t', (kt.1, t') ∈ ms' ∧ Tree.sim kt.2 t') : Tree.simMembers ms ms' := by
  induction ms with
  | nil => simp [Tree.simMembers]
  | cons x xs ih =>
    obtain ⟨k, t⟩ := x
    rw [Tree.simMembers]
    exact ⟨h (k, t) (List.mem_cons_self _ _), ih (fun kt hkt => h kt (List.mem_cons_of_mem _ hkt))⟩

theorem round_elems (ord : List (List Char × Nat) → List (List Char × Nat)) (n : Nat)
    (h : List Node) (cs : List Nat) (hc : ∀ c ∈ cs, RoundAt ord n h c) :
    ∃ vs Ts, allSome (valOf ord n h) cs = some vs ∧ allSome (view n h) cs = some Ts ∧
      Val.okElems vs = true ∧ Val.depthElems vs ≤ n ∧ Tree.simList Ts (Val.treeElems vs) := by
  induction cs with
  | nil => exact ⟨[], [], rfl, rfl, rfl, by simp [Val.depthElems], by simp [Tree.simList, Val.treeElems]⟩
  | cons c cs ih =>
    obtain ⟨v, T, h1, h2, h3, h4, h5⟩ := hc c (List.mem_cons_self _ _)
    obtain ⟨vs, Ts, g1, g2, g3, g4, g5⟩ := ih (fun c hc' => hc c (List.mem_cons_of_mem _ hc'))
    refine ⟨v :: vs, T :: Ts, by simp [allSome, h1, g1], by simp [allSome, h2, g2],
      by simp [Val.okElems, h3, g3], by simp [Val.depthElems, h4, g4], ?_⟩
    simp only [Val.treeElems, Tree.simList]
    exact ⟨_, _, rfl, h5, g5⟩

theorem round_members (ord : List (List Char × Nat) → List (List Char × Nat)) (n : Nat)
    (h : List Node) (l : List (List Char × Nat))
    (hc : ∀ a ∈ l, strBodyOk '"' a.1 = true ∧ RoundAt ord n h a.2) :
    ∃ ms, allSome (fun a => (valOf ord n h a.2).map (fun v => (a.1, v))) l = some ms ∧
      Val.okMembers ms = true ∧ Val.depthMembers ms ≤ n ∧ ms.map Prod.fst = l.map Prod.fst ∧
      ∀ a ∈ l, ∀ T, view n h a.2 = some T →
        ∃ t', (a.1, t') ∈ Val.treeMembers ms ∧ Tree.sim T t' := by
  induction l with
  | nil =>
    exact ⟨[], rfl, rfl, by simp [Val.depthMembers], rfl, by simp⟩
  | cons c cs ih =>
    obtain ⟨hk, v, T, h1, h2, h3, h4, h5⟩ := hc c (List.mem_cons_self _ _)
    obtain ⟨ms, g1, g3, g4, g5, g6⟩ := ih (fun c hc' => hc c (List.mem_cons_of_mem _ hc'))
    refine ⟨(c.1, v) :: ms, by simp [allSome, h1, g1], by simp [Val.okMembers, hk, h3, g3],
      by simp [Val.depthMembers, h4, g4], by simp [g5], ?_⟩
    intro a ha T' hT'
    rw [treeMembers_cons]
    rcases List.mem_cons.1 ha with rfl | ha
    · rw [h2] at hT'
      injection hT' with hT'
      subst hT'
      exact ⟨v.tree, List.mem_cons_self _ _, h5⟩
    · obtain ⟨t', m1, m2⟩ := g6 a ha T' hT'
      exact ⟨t', List.mem_cons_of_mem _ m1, m2⟩

theorem view_members (n : Nat) (h : List Node) (l : List (List Char × Nat))
    (hc : ∀ a ∈ l, ∃ T, view n h a.2 = some T) :
    ∃ Tm, allSome (fun a => (view n h a.2).map (fun t => (a.1, t))) l = some Tm ∧
      Tm.length = l.length ∧
      ∀ kt ∈ Tm, ∃ a ∈ l, a.1 = kt.1 ∧ view n h a.2 = some kt.2 := by
  induction l with
  | nil => exact ⟨[], rfl, rfl, by simp⟩
  | cons c cs ih =>
    obtain ⟨T, h2⟩ := hc c (List.mem_cons_self _ _)
    obtain ⟨Tm, g1, g2, g3⟩ := ih (fun c hc' => hc c (List.mem_cons_of_mem _ hc'))
    refine ⟨(c.1, T) :: Tm, by simp [allSome, h2, g1], by simp [g2], ?_⟩
    intro kt hkt
    rcases List.mem_cons.1 hkt with rfl | hkt
    · exact ⟨c, List.mem_cons_self _ _, rfl, h2⟩
    · obtain ⟨a, a1, a2, a3⟩ := g3 kt hkt
      exact ⟨a, List.mem_cons_of_mem _ a1, a2, a3⟩

/-- Every clean cell is read by `valOf` as a well-formed value whose tree agrees with the tree
of the cell. -/
theorem clean_round (ord : List (List Char × Nat) → List (List Char × Nat))
    (hord : ∀ m, (ord m).Perm m) (fuel : Nat) (h : List Node) :
    ∀ p, CleanAt fuel h p → RoundAt ord fuel h p := by
  induction fuel with
  | zero => intro p hp; exact hp.elim
  | succ n ih =>
    intro p hp
    simp only [CleanAt] at hp
    simp only [RoundAt, valOf, view]
    cases hpl : (deref h p).payload with
    | Boolean b => exact ⟨_, _, rfl, rfl, rfl, by simp [Val.depth], by simp [Val.tree, Tree.sim]⟩
    | Null => exact ⟨_, _, rfl, rfl, rfl, by simp [Val.depth], by simp [Val.tree, Tree.sim]⟩
    | Number x =>
      rw [hpl] at hp
      have hx := to_string_roundtrip x hp.1 hp.2
      exact ⟨_, _, rfl, rfl, by simpa [Val.ok] using hx.1, by simp [Val.depth],
        by simp only [Val.tree, Tree.sim]; exact ⟨_, rfl, hx.2.symm⟩⟩
    | String b =>
      rw [hpl] at hp
      exact ⟨_, _, rfl, rfl, by simpa [Val.ok] using hp, by simp [Val.depth],
        by simp [Val.tree, Tree.sim]⟩
    | Array =>
      rw [hpl] at hp
      obtain ⟨vs, Ts, g1, g2, g3, g4, g5⟩ :=
        round_elems ord n h (deref h p).children (fun c hc => ih c (hp c hc))
      refine ⟨.arr vs, .Array Ts, by simp [g1], by simp [g2], by simpa [Val.ok] using g3,
        by simp [Val.depth, g4], ?_⟩
      simp only [Val.tree, Tree.sim]
      exact ⟨_, rfl, g5⟩
    | Object m =>
      rw [hpl] at hp
      obtain ⟨hnd, hm⟩ := hp
      have hmem : ∀ a, a ∈ ord m ↔ a ∈ m := fun a => (hord m).mem_iff
      obtain ⟨ms, g1, g3, g4, g5, g6⟩ := round_members ord n h (ord m)
        (fun a ha => ⟨(hm a ((hmem a).1 ha)).1, ih a.2 (hm a ((hmem a).1 ha)).2⟩)
      obtain ⟨Tm, v1, v2, v3⟩ := view_members n h m (fun a ha => by
        obtain ⟨v, T, _, hT, _⟩ := ih a.2 (hm a ha).2
        exact ⟨T, hT⟩)
      refine ⟨.obj ms, .Object Tm, by simp [g1], by simp [v1], by simpa [Val.ok] using g3,
        by simp [Val.depth, g4], ?_⟩
      have hkeys : ((Val.treeMembers ms).map Prod.fst).Nodup := by
        rw [treeMembers_keys, g5]
        exact ((hord m).map Prod.fst).nodup_iff.2 hnd
      have hfold := foldl_mapSet_nodup (Val.treeMembers ms) [] (by simpa using hkeys)
      simp only [Val.tree, Tree.sim, hfold, List.nil_append]
      refine ⟨_, rfl, ?_, ?_⟩
      · have e1 : (Val.treeMembers ms).length = ms.length := by
          rw [← List.length_map (Val.treeMembers ms) Prod.fst, treeMembers_keys, List.length_map]
        have e2 : ms.length = (ord m).length := by
          rw [← List.length_map ms Prod.fst, g5, List.length_map]
        rw [v2, e1, e2, (hord m).length_eq]
      · apply simMembers_of_forall
        intro kt hkt
        obtain ⟨a, a1, a2, a3⟩ := v3 kt hkt
        obtain ⟨t', m1, m2⟩ := g6 a ((hmem a).2 a1) kt.2 a3
        exact ⟨t', by rw [← a2]; exact m1, m2⟩

/-- The entry point on the compact text of a well-formed value other than a number or a string:
it returns the node of the value, built as `build` describes. -/
theorem parse_root (v : Val) (hok : v.ok = true) (hn : ∀ t, v ≠ .num t) (hs : ∀ b, v ≠ .str b)
    (g : State) :
    ∃ s', parse v.render g = .ok (some g.heap.length) s' ∧
      s'.heap = (v.build none { g with _j := v.render, _i := 0 }).heap := by
  cases v with
  | null =>
    refine ⟨{ leaf .Null none { g with _j := Val.null.render, _i := 0 } with _i := 4 }, ?_, rfl⟩
    unfold parse
    rw [show 4 * Val.null.render.length + 4 = (4 * Val.null.render.length + 3) + 1 from rfl]
    rw [_parse_dispatch _ none { g with _j := Val.null.render, _i := 0 } []
      "ull".toList 'n' rfl rfl (by decide)]
    simp only [if_true]
    rw [parseNull_ok _ none [] [] rfl rfl]
    rfl
  | bool b =>
    refine ⟨{ leaf (.Boolean b) none { g with _j := (Val.bool b).render, _i := 0 } with
      _i := (if b then "true".toList else "false".toList).length }, ?_, rfl⟩
    unfold parse
    rw [show 4 * (Val.bool b).render.length + 4 = (4 * (Val.bool b).render.length + 3) + 1
      from rfl]
    cases b with
    | true =>
      rw [_parse_dispatch _ none { g with _j := (Val.bool true).render, _i := 0 } []
        "rue".toList 't' rfl rfl (by decide)]
      simp only [Char.reduceEq, if_false, true_or, if_true]
      rw [parseBoolean_ok _ none [] [] true rfl rfl]
      rfl
    | false =>
      rw [_parse_dispatch _ none { g with _j := (Val.bool false).render, _i := 0 } []
        "alse".toList 'f' rfl rfl (by decide)]
      simp only [Char.reduceEq, if_false, or_true, if_true]
      rw [parseBoolean_ok _ none [] [] false rfl rfl]
      rfl
  | num t => exact absurd rfl (hn t)
  | str b => exact absurd rfl (hs b)
  | arr es =>
    have hp := parse_arr es (by simpa [Val.ok] using hok) g []
    rw [List.append_nil] at hp
    exact ⟨_, hp, rfl⟩
  | obj ms =>
    have hp := parse_obj ms (by simpa [Val.ok] using hok) g []
    rw [List.append_nil] at hp
    exact ⟨_, hp, rfl⟩

/-- The value `valOf` reads at a cell is a number or a string only when the cell is one. -/
theorem valOf_kind (ord : List (List Char × Nat) → List (List Char × Nat)) (fuel : Nat)
    (h : List Node) (p : Nat) (v : Val) (hv : valOf ord fuel h p = some v)
    (hn : (deref h p).type ≠ .number) (hs : (deref h p).type ≠ .string) :
    (∀ t, v ≠ .num t) ∧ (∀ b, v ≠ .str b) := by
  cases fuel with
  | zero => simp [valOf] at hv
  | succ n =>
    simp only [valOf] at hv
    simp only [Node.type] at hn hs
    cases hpl : (deref h p).payload with
    | Boolean b => rw [hpl] at hv; simp at hv; subst hv; simp
    | Null => rw [hpl] at hv; simp at hv; subst hv; simp
    | Number x => rw [hpl] at hn; simp at hn
    | String b => rw [hpl] at hs; simp at hs
    | Array =>
      rw [hpl] at hv
      simp only [Option.map_eq_some'] at hv
      obtain ⟨es, _, rfl⟩ := hv
      simp
    | Object m =>
      rw [hpl] at hv
      simp only [Option.map_eq_some'] at hv
      obtain ⟨es, _, rfl⟩ := hv
      simp

/-- Serialise, then parse. For every tree whose root is an array, an object or a
literal, whose numbers are whole numbers of millionths converted to finite `double`s, whose
strings and keys have every
quote after a backslash and no final backslash, and whose key indexes have pairwise distinct
keys, `toString` returns a text on which `parse` returns a node, and the tree of that node
agrees with the original tree up to the order of object members (whatever order the key index
is iterated in). -/
theorem roundtrip_clean (ord : List (List Char × Nat) → List (List Char × Nat))
    (hord : ∀ m, (ord m).Perm m) (fuel : Nat) (h : List Node) (p : Nat)
    (hclean : CleanAt fuel h p)
    (hn : (deref h p).type ≠ .number) (hs : (deref h p).type ≠ .string) (g : State) :
    ∃ text s' T T', Node.toString ord fuel h p = some text ∧
      parse text g = .ok (some g.heap.length) s' ∧
      view fuel h p = some T ∧ view (fuel + 1) s'.heap g.heap.length = some T' ∧
      Tree.sim T T' := by
  obtain ⟨v, T, h1, h2, h3, h4, h5⟩ := clean_round ord hord fuel h p hclean
  obtain ⟨k1, k2⟩ := valOf_kind ord fuel h p v h1 hn hs
  obtain ⟨s', p1, p2⟩ := parse_root v h3 k1 k2 g
  refine ⟨v.render, s', T, v.tree, ?_, p1, h2, ?_, h5⟩
  · rw [toString_eq_aux, refRender_valOf, h1]; rfl
  · have hv := build_view v none { g with _j := v.render, _i := 0 } s'.heap (fuel + 1)
      (by intro q hq; cases hq) (by intro i _ _; rw [p2]) (by omega)
    exact hv

/-! ### Round trip: what every successful parse leaves in the heap -/

theorem bind_ok {α β : Type} (m : M α) (f : α → M β) (s : State) (b : β) (s' : State)
    (h : (m >>= f) s = .ok b s') : ∃ a s1, m s = .ok a s1 ∧ f a s1 = .ok b s' := by
  rw [bind_apply] at h
  cases hm : m s with
  | ok a s1 => rw [hm] at h; exact ⟨a, s1, rfl, h⟩
  | raise e s1 => rw [hm] at h; cases h

theorem Keep.unchanged (B : Nat) (s s' : State) (hI : Inv B s.heap) (h : s'.heap = s.heap) :
    Keep B s s' := by
  unfold Keep; rw [h]; exact ⟨le_refl _, fun _ _ => rfl, hI⟩

theorem Keep.comp {B : Nat} {s s1 s2 : State} (h1 : Keep B s s1) (h2 : Keep B s1 s2) :
    Keep B s s2 :=
  ⟨le_trans h1.1 h2.1,
    fun i hi => by rw [h2.2.1 i (lt_of_lt_of_le hi h1.1), h1.2.1 i hi],
    h2.2.2⟩

theorem Keep.same_heap {B : Nat} {s s1 s2 : State} (h1 : Keep B s s1) (h : s2.heap = s1.heap) :
    Keep B s s2 := by
  unfold Keep at h1 ⊢; rw [h]; exact h1

theorem ParentOK.keep {B : Nat} {parent : Option Nat} {s s1 : State} (h : ParentOK parent s)
    (hk : Keep B s s1) : ParentOK parent s1 := by
  intro p hp
  obtain ⟨h1, h2⟩ := h p hp
  exact ⟨lt_of_lt_of_le h1 hk.1, by rw [hk.2.1 p h1]; exact h2⟩

theorem ParentOK.of_heap {parent : Option Nat} {s s1 : State} (h : ParentOK parent s)
    (hk : s1.heap = s.heap) : ParentOK parent s1 := by
  unfold ParentOK; rw [hk]; exact h

theorem _c_ok (s : State) (c : Char) (s' : State) (h : _c s = .ok c s') :
    s' = s ∧ 0 ≤ s._i ∧ c = s._j.getD s._i.toNat '\x00' := by
  unfold _c at h
  split at h
  · injection h with h1 h2; exact ⟨h2.symm, by omega, h1.symm⟩
  · cases h

theorem _ii_ok (s : State) (u : Unit) (s' : State) (h : _ii s = .ok u s') :
    s' = { s with _i := s._i + 1 } := by
  simp only [_ii] at h
  split at h
  · cases h
  · injection h with h1 h2; exact h2.symm

theorem _iis_heap (s : State) (b : Bool) (s' : State) (h : _iis s = .ok b s') :
    s'.heap = s.heap := by
  simp only [_iis] at h
  split at h <;> (injection h with h1 h2; rw [← h2])

theorem _cAt_ok (i : Int) (s : State) (c : Char) (s' : State) (h : _cAt i s = .ok c s') :
    s' = s ∧ c = s._j.getD (s._i + i).toNat '\x00' := by
  unfold _cAt at h
  split at h
  · cases h
  · injection h with h1 h2; exact ⟨h2.symm, h1.symm⟩

theorem _eq_loop_ok (lit : List Char) : ∀ (i : Int) (s : State) (b : Bool) (s' : State),
    _eq.loop lit i s = .ok b s' → s' = s := by
  induction lit with
  | nil => intro i s b s' h; injection h with h1 h2; exact h2.symm
  | cons ch rest ih =>
    intro i s b s' h
    rw [_eq.loop] at h
    obtain ⟨c, s1, h1, h2⟩ := bind_ok _ _ _ _ _ h
    obtain ⟨e1, _⟩ := _cAt_ok _ _ _ _ h1
    subst e1
    split at h2
    · injection h2 with h3 h4; exact h4.symm
    · exact ih _ _ _ _ h2

theorem _eq_ok (lit : List Char) (s : State) (b : Bool) (s' : State)
    (h : _eq lit s = .ok b s') : s' = s := _eq_loop_ok lit 0 s b s' h

theorem _w_ok (s : State) (b : Bool) (s' : State) (h : _w s = .ok b s') : s' = s := by
  unfold _w at h
  obtain ⟨c, s1, h1, h2⟩ := bind_ok _ _ _ _ _ h
  obtain ⟨e1, _⟩ := _c_ok _ _ _ h1
  subst e1
  injection h2 with h3 h4; exact h4.symm

theorem skipWhiteSpaces_loop_heap (t : Bool) (fuel : Nat) : ∀ (s : State) (u : Unit)
    (s' : State), _skipWhiteSpaces.loop t fuel s = .ok u s' → s'.heap = s.heap := by
  induction fuel with
  | zero => intro s u s' h; cases h
  | succ n ih =>
    intro s u s' h
    rw [_skipWhiteSpaces.loop] at h
    obtain ⟨w, s1, h1, h2⟩ := bind_ok _ _ _ _ _ h
    have e1 := _w_ok _ _ _ h1
    subst e1
    split at h2
    · obtain ⟨ended, s2, h3, h4⟩ := bind_ok _ _ _ _ _ h2
      have e2 : s2.heap = s1.heap := by
        split at h3
        · exact _iis_heap _ _ _ h3
        · injection h3 with h5 h6; rw [← h6]
      split at h4
      · injection h4 with h5 h6; rw [← h6, e2]
      · obtain ⟨_, s3, h5, h6⟩ := bind_ok _ _ _ _ _ h4
        have e3 := _ii_ok _ _ _ h5
        rw [ih _ _ _ h6, e3, ← e2]
    · injection h2 with h3 h4; rw [← h4]

theorem skipWhiteSpaces_heap (t : Bool) (s : State) (u : Unit) (s' : State)
    (h : _skipWhiteSpaces t s = .ok u s') : s'.heap = s.heap :=
  skipWhiteSpaces_loop_heap t _ s u s' h

theorem cellOK_mono (n n' i : Nat) (c : Node) (h : cellOK n i c) (hn : n ≤ n') :
    cellOK n' i c := by
  obtain ⟨h1, h2⟩ := h
  refine ⟨fun x hx => ⟨(h1 x hx).1, lt_of_lt_of_le (h1 x hx).2 hn⟩, ?_⟩
  cases hp : c.payload with
  | String b => rw [hp] at h2; exact h2
  | Object m =>
    rw [hp] at h2
    exact ⟨h2.1, fun a ha => ⟨(h2.2 a ha).1, (h2.2 a ha).2.1,
      lt_of_lt_of_le (h2.2 a ha).2.2 hn⟩⟩
  | Boolean b => trivial
  | Null => trivial
  | Number x => trivial
  | Array => trivial

/-- Allocating a cell and attaching it keeps the invariant. -/
theorem leaf_keep (B : Nat) (pl : Payload) (parent : Option Nat) (s : State)
    (hpar : ParentOK parent s) (hI : Inv B s.heap)
    (hpl : cellOK (s.heap.length + 1) s.heap.length ⟨pl, parent, []⟩) :
    Keep B s (leaf pl parent s) := by
  have hlen := leaf_heap_length pl parent s
  have hframe : ∀ i, i < s.heap.length → parent ≠ some i →
      deref (leaf pl parent s).heap i = deref s.heap i := by
    intro i hi hp
    simp only [leaf]
    rw [deref_attached_ne _ _ _ _ hp (by omega), deref_append_left _ _ _ hi]
  refine ⟨by rw [hlen]; omega, ?_, ?_⟩
  · intro i hi
    by_cases hp : parent = some i
    · subst hp
      rw [leaf_parent_cell pl i s hi]
      rfl
    · rw [hframe i hi hp]
  · intro i hB hi
    rw [hlen] at hi ⊢
    by_cases hnew : i = s.heap.length
    · subst hnew
      rw [leaf_new_cell pl parent s (fun p hp => (hpar p hp).1)]
      exact hpl
    · have hi' : i < s.heap.length := by omega
      by_cases hp : parent = some i
      · subst hp
        rw [leaf_parent_cell pl i s hi']
        obtain ⟨c1, c2⟩ := hI i hB hi'
        have hty := (hpar i rfl).2
        refine ⟨?_, ?_⟩
        · intro x hx
          simp only [List.mem_append, List.mem_singleton] at hx
          rcases hx with hx | hx
          · exact ⟨(c1 x hx).1, by have := (c1 x hx).2; omega⟩
          · subst hx; exact ⟨hi', by omega⟩
        · show match (deref s.heap i).payload with
            | .String b => strBodyOk '"' b = true ∧
                (deref s.heap i).children ++ [s.heap.length] = []
            | .Object m => (m.map Prod.fst).Nodup ∧
                ∀ a ∈ m, strBodyOk '"' a.1 = true ∧ i < a.2 ∧ a.2 < s.heap.length + 1
            | _ => True
          cases hpay : (deref s.heap i).payload with
          | String b => simp [Node.type, hpay] at hty
          | Object m =>
            rw [hpay] at c2
            exact ⟨c2.1, fun a ha => ⟨(c2.2 a ha).1, (c2.2 a ha).2.1,
              by have := (c2.2 a ha).2.2; omega⟩⟩
          | Boolean b => trivial
          | Null => trivial
          | Number x => trivial
          | Array => trivial
      · rw [hframe i hi' hp]
        exact cellOK_mono _ _ _ _ (hI i hB hi') (by omega)

theorem leaf_ok (pl : Payload) (parent : Option Nat) (s : State) (n : Nat)
    (s' : State)
    (h : (newNode pl >>= fun n => _hPrt parent n >>= fun _ => pure n) s = .ok n s') :
    n = s.heap.length ∧ s' = leaf pl parent s := by
  simp only [bind_apply, newNode, _hPrt_eq, pure_apply] at h
  injection h with h1 h2
  exact ⟨h1.symm, h2.symm⟩

theorem mapSet_mem {α : Type} (k : List Char) (p : α) (m : List (List Char × α))
    (a : List Char × α) (ha : a ∈ mapSet k p m) : a = (k, p) ∨ a ∈ m := by
  induction m with
  | nil => simp [mapSet] at ha; exact Or.inl ha
  | cons x xs ih =>
    obtain ⟨k1, p1⟩ := x
    simp only [mapSet] at ha
    split at ha
    · rename_i hk
      rcases List.mem_cons.1 ha with h | h
      · left; rw [h, hk]
      · right; exact List.mem_cons_of_mem _ h
    · rcases List.mem_cons.1 ha with h | h
      · right; rw [h]; exact List.mem_cons_self _ _
      · rcases ih h with h | h
        · exact Or.inl h
        · exact Or.inr (List.mem_cons_of_mem _ h)

theorem mapSet_keys {α : Type} (k : List Char) (p : α) (m : List (List Char × α)) :
    (mapSet k p m).map Prod.fst =
      if k ∈ m.map Prod.fst then m.map Prod.fst else m.map Prod.fst ++ [k] := by
  induction m with
  | nil => simp [mapSet]
  | cons x xs ih =>
    obtain ⟨k1, p1⟩ := x
    simp only [mapSet]
    by_cases hk : k1 = k
    · subst hk
      simp only [if_true, List.map_cons, List.mem_cons, true_or]
    · have hk' : ¬ k = k1 := fun e => hk e.symm
      simp only [hk, if_false, List.map_cons, ih, List.mem_cons, hk', false_or]
      split <;> simp

theorem mapSet_nodup {α : Type} (k : List Char) (p : α) (m : List (List Char × α))
    (h : (m.map Prod.fst).Nodup) : ((mapSet k p m).map Prod.fst).Nodup := by
  rw [mapSet_keys]
  split
  · exact h
  · rename_i hk
    rw [List.nodup_append]
    exact ⟨h, List.nodup_singleton _, by
      intro a ha hb
      simp only [List.mem_singleton] at hb
      subst hb
      exact hk ha⟩

theorem heapSet_keep (B o val : Nat) (k : List Char) (s : State) (hI : Inv B s.heap)
    (hov : o < val) (hval : val < s.heap.length) (hk : strBodyOk '"' k = true) :
    Keep B s { s with heap := heapSet o k val s.heap } := by
  have hlen := heapSet_length o k val s.heap
  have hne : ∀ i, i ≠ o → deref (heapSet o k val s.heap) i = deref s.heap i :=
    fun i hi => deref_modify_ne _ _ _ _ hi
  have ho : o < s.heap.length := by omega
  have hself : deref (heapSet o k val s.heap) o =
      match (deref s.heap o).payload with
      | .Object m => { deref s.heap o with payload := .Object (mapSet k val m) }
      | _ => deref s.heap o := deref_modify_self _ _ _ ho
  refine ⟨by show s.heap.length ≤ (heapSet o k val s.heap).length; rw [hlen], ?_, ?_⟩
  · intro i _
    show (deref (heapSet o k val s.heap) i).type = _
    by_cases hio : i = o
    · subst hio
      rw [hself]
      cases hp : (deref s.heap i).payload <;> simp [Node.type, hp]
    · rw [hne i hio]
  · intro i hB hi
    show cellOK (heapSet o k val s.heap).length i (deref (heapSet o k val s.heap) i)
    rw [hlen] at hi ⊢
    by_cases hio : i = o
    · subst hio
      rw [hself]
      obtain ⟨c1, c2⟩ := hI i hB hi
      cases hp : (deref s.heap i).payload with
      | Object m =>
        rw [hp] at c2
        refine ⟨c1, ?_⟩
        show (List.map Prod.fst (mapSet k val m)).Nodup ∧ ∀ a ∈ mapSet k val m, _
        refine ⟨mapSet_nodup k val m c2.1, fun a ha => ?_⟩
        rcases mapSet_mem k val m a ha with h | h
        · rw [h]; exact ⟨hk, hov, hval⟩
        · exact c2.2 a h
      | String b => exact hI i hB hi
      | Boolean b => exact hI i hB hi
      | Null => exact hI i hB hi
      | Number x => exact hI i hB hi
      | Array => exact hI i hB hi
    · rw [hne i hio]
      exact hI i hB hi

theorem setS_keep (B o key val : Nat) (s : State) (u : Unit) (s' : State)
    (h : Object.setS o key val s = .ok u s') (hI : Inv B s.heap)
    (hov : o < val) (hval : val < s.heap.length)
    (hk : ∀ b, (deref s.heap key).payload = .String b → strBodyOk '"' b = true) :
    Keep B s s' := by
  unfold Object.setS at h
  cases hp : (deref s.heap key).payload with
  | String b =>
    rw [hp] at h
    injection h with h1 h2
    rw [← h2]
    exact heapSet_keep B o val b s hI hov hval (hk b hp)
  | Object m =>
    rw [hp] at h; injection h with h1 h2; rw [← h2]
    exact heapSet_keep B o val [] s hI hov hval (by decide)
  | Boolean b =>
    rw [hp] at h; injection h with h1 h2; rw [← h2]
    exact heapSet_keep B o val [] s hI hov hval (by decide)
  | Null =>
    rw [hp] at h; injection h with h1 h2; rw [← h2]
    exact heapSet_keep B o val [] s hI hov hval (by decide)
  | Number x =>
    rw [hp] at h; injection h with h1 h2; rw [← h2]
    exact heapSet_keep B o val [] s hI hov hval (by decide)
  | Array =>
    rw [hp] at h; injection h with h1 h2; rw [← h2]
    exact heapSet_keep B o val [] s hI hov hval (by decide)

theorem delete_childless (key : Nat) (s : State) (u : Unit) (s' : State)
    (h : Node.delete key s = .ok u s') (hc : (deref s.heap key).children = []) :
    s'.heap = s.heap := by
  unfold Node.delete at h
  rw [show 2 * s.heap.length + 1 = (2 * s.heap.length) + 1 from rfl, Node.dtor] at h
  simp only [hc, List.getLast?_nil] at h
  injection h with h1 h2
  rw [← h2]

/-- The loop of `_parseString` for the double quote reads a body that `strBodyOk` accepts after
the character before the cursor, and leaves the heap alone. -/
theorem parseString_loop_body (fuel : Nat) : ∀ (val : List Char) (s : State) (out : List Char)
    (s' : State), _parseString.loop '"' fuel val s = .ok out s' →
    s'.heap = s.heap ∧
      ∃ body, out = val ++ body ∧ strBodyOk (s._j.getD (s._i + -1).toNat '\x00') body = true := by
  induction fuel with
  | zero => intro val s out s' h; cases h
  | succ n ih =>
    intro val s out s' h
    rw [_parseString.loop] at h
    obtain ⟨cur, s1, h1, h2⟩ := bind_ok _ _ _ _ _ h
    obtain ⟨e1, hi0, hcur⟩ := _c_ok _ _ _ h1
    subst e1
    obtain ⟨go, s2, h3, h4⟩ := bind_ok _ _ _ _ _ h2
    have hgo : s2 = s1 ∧ (go = true → (cur != '"' || s1._j.getD (s1._i + -1).toNat '\x00' == '\\') = true) ∧
        (go = false → (s1._j.getD (s1._i + -1).toNat '\x00' != '\\') = true) := by
      split at h3
      · rename_i hne
        injection h3 with h5 h6
        refine ⟨h6.symm, fun _ => by simp [hne], fun hg => ?_⟩
        rw [← h5] at hg; cases hg
      · obtain ⟨p, s3, h5, h6⟩ := bind_ok _ _ _ _ _ h3
        obtain ⟨e3, hp⟩ := _cAt_ok _ _ _ _ h5
        subst e3
        injection h6 with h7 h8
        refine ⟨h8.symm, fun hg => ?_, fun hg => ?_⟩
        · rw [← h7, hp] at hg; rw [hg, Bool.or_true]
        · rw [← h7, hp] at hg; rw [bne, hg]; rfl
    obtain ⟨e2, g1, g2⟩ := hgo
    subst e2
    split at h4
    · rename_i hg
      obtain ⟨ch, s3, h5, h6⟩ := bind_ok _ _ _ _ _ h4
      obtain ⟨e3, _, hch⟩ := _c_ok _ _ _ h5
      subst e3
      obtain ⟨_, s4, h7, h8⟩ := bind_ok _ _ _ _ _ h6
      have e4 := _ii_ok _ _ _ h7
      subst e4
      obtain ⟨k1, body, k2, k3⟩ := ih _ _ _ _ h8
      refine ⟨k1, ch :: body, by rw [k2]; simp, ?_⟩
      have hprev : ∀ t : State, ({ t with _i := t._i + 1 } : State)._j.getD
          (({ t with _i := t._i + 1 } : State)._i + -1).toNat '\x00' =
          t._j.getD t._i.toNat '\x00' := by
        intro t
        show t._j.getD (t._i + 1 + -1).toNat '\x00' = _
        congr 2; omega
      rw [hprev, ← hch] at k3
      rw [strBodyOk, k3, Bool.and_true, hch, ← hcur]
      exact g1 hg
    · rename_i hg
      injection h4 with h5 h6
      refine ⟨by rw [← h6], [], by rw [← h5]; simp, ?_⟩
      rw [strBodyOk]
      exact g2 (by simpa using hg)

/-- A routine whose heap effect is to allocate and attach one cell. -/
theorem leaf_out (B : Nat) (pl : Payload) (parent : Option Nat) (s s0 s' : State)
    (hpar : ParentOK parent s) (hI : Inv B s.heap) (h0 : s0.heap = s.heap)
    (hpl : cellOK (s.heap.length + 1) s.heap.length ⟨pl, parent, []⟩)
    (hs : s'.heap = (leaf pl parent s0).heap) :
    Out B s s0.heap.length s' ∧ (deref s'.heap s.heap.length).payload = pl := by
  have e : (leaf pl parent s0).heap = (leaf pl parent s).heap := by
    simp only [leaf, h0]
  rw [e] at hs
  have hk := leaf_keep B pl parent s hpar hI hpl
  have hl := leaf_heap_length pl parent s
  refine ⟨⟨Keep.same_heap hk hs, by rw [h0], by rw [hs, hl, h0]; omega⟩, ?_⟩
  rw [hs, leaf_new_cell pl parent s (fun p hp => (hpar p hp).1)]

theorem parseNumber_loop_heap (fuel : Nat) : ∀ (str : List Char) (s : State)
    (out : List Char) (s' : State), _parseNumber.loop fuel str s = .ok out s' →
    s'.heap = s.heap := by
  induction fuel with
  | zero => intro str s out s' h; cases h
  | succ n ih =>
    intro str s out s' h
    rw [_parseNumber.loop] at h
    obtain ⟨cur, s1, h1, h2⟩ := bind_ok _ _ _ _ _ h
    obtain ⟨e1, _, _⟩ := _c_ok _ _ _ h1
    split at h2
    · obtain ⟨ch, s2, h3, h4⟩ := bind_ok _ _ _ _ _ h2
      obtain ⟨e2, _, _⟩ := _c_ok _ _ _ h3
      obtain ⟨_, s3, h5, h6⟩ := bind_ok _ _ _ _ _ h4
      have e3 := _ii_ok _ _ _ h5
      rw [ih _ _ _ _ h6, e3, e2, e1]
    · injection h2 with h3 h4
      rw [← h4, e1]

theorem parseString_good (B : Nat) (parent : Option Nat) (s : State) (n : Nat) (s' : State)
    (h : _parseString parent s = .ok n s') (hq : _c s = .ok '"' s)
    (hpar : ParentOK parent s) (hI : Inv B s.heap) :
    Out B s n s' ∧ (deref s'.heap n).type = .string := by
  unfold _parseString at h
  obtain ⟨c, s1, h1, h2⟩ := bind_ok _ _ _ _ _ h
  rw [hq] at h1
  injection h1 with e1 e2
  obtain ⟨_, s2, h3, h4⟩ := bind_ok _ _ _ _ _ h2
  have e3 := _ii_ok _ _ _ h3
  obtain ⟨val, s3, h5, h6⟩ := bind_ok _ _ _ _ _ h4
  rw [← e1] at h5
  obtain ⟨k1, body, k2, k3⟩ := parseString_loop_body _ _ _ _ _ h5
  obtain ⟨_, s4, h7, h8⟩ := bind_ok _ _ _ _ _ h6
  have e4 := _ii_ok _ _ _ h7
  obtain ⟨e5, e6⟩ := leaf_ok _ _ _ _ _ h8
  obtain ⟨_, _, hq'⟩ := _c_ok _ _ _ hq
  have hprev : s2._j.getD (s2._i + -1).toNat '\x00' = '"' := by
    rw [e3, ← e2, hq']
    show s._j.getD (s._i + 1 + -1).toNat '\x00' = _
    congr 2; omega
  rw [hprev] at k3
  simp only [List.nil_append] at k2
  have h40 : s4.heap = s.heap := by rw [e4, k1, e3, ← e2]
  have := leaf_out B (.String val) parent s s4 s' hpar hI h40
    (by rw [k2]; exact ⟨by simp, k3, rfl⟩) (by rw [e6])
  rw [e5]
  refine ⟨this.1, ?_⟩
  rw [h40, Node.type, this.2]

theorem parseNumber_good (B : Nat) (parent : Option Nat) (s : State) (n : Nat) (s' : State)
    (h : _parseNumber parent s = .ok n s')
    (hpar : ParentOK parent s) (hI : Inv B s.heap) : Out B s n s' := by
  unfold _parseNumber at h
  obtain ⟨str, s1, h1, h2⟩ := bind_ok _ _ _ _ _ h
  have e1 := parseNumber_loop_heap _ _ _ _ _ h1
  simp only at h2
  split at h2
  · cases h2
  · obtain ⟨e5, e6⟩ := leaf_ok _ _ _ _ _ h2
    have := leaf_out B (.Number (strtod str).1) parent s s1 s' hpar hI e1
      ⟨by simp, trivial⟩ (by rw [e6])
    rw [e5]
    exact this.1

theorem parseNull_good (B : Nat) (parent : Option Nat) (s : State) (n : Nat) (s' : State)
    (h : _parseNull parent s = .ok n s')
    (hpar : ParentOK parent s) (hI : Inv B s.heap) : Out B s n s' := by
  unfold _parseNull at h
  obtain ⟨e, s1, h1, h2⟩ := bind_ok _ _ _ _ _ h
  have e1 := _eq_ok _ _ _ _ h1
  split at h2
  · obtain ⟨x, s2, h3, h4⟩ := bind_ok _ _ _ _ _ h2
    cases h4
  · obtain ⟨_, s2, h3, h4⟩ := bind_ok _ _ _ _ _ h2
    have e2 : s2.heap = s.heap := by
      simp only [addI] at h3; injection h3 with _ h3; rw [← h3, e1]
    obtain ⟨e5, e6⟩ := leaf_ok _ _ _ _ _ h4
    have := leaf_out B .Null parent s s2 s' hpar hI e2 ⟨by simp, trivial⟩ (by rw [e6])
    rw [e5]
    exact this.1

theorem parseBoolean_good (B : Nat) (parent : Option Nat) (s : State) (n : Nat) (s' : State)
    (h : _parseBoolean parent s = .ok n s')
    (hpar : ParentOK parent s) (hI : Inv B s.heap) : Out B s n s' := by
  unfold _parseBoolean at h
  obtain ⟨t, s1, h1, h2⟩ := bind_ok _ _ _ _ _ h
  have e1 := _eq_ok _ _ _ _ h1
  obtain ⟨b, s2, h3, h4⟩ := bind_ok _ _ _ _ _ h2
  rw [e1] at h3
  have key : ∃ v, b = s.heap.length ∧
      s'.heap = (leaf (.Boolean v) parent s).heap := by
    split at h3
    · simp only [bind_apply, newNode, addI, pure_apply] at h3
      injection h3 with h5 h6
      simp only [bind_apply, _hPrt_eq, pure_apply] at h4
      injection h4 with h7 h8
      refine ⟨true, h5.symm, ?_⟩
      rw [← h8, ← h6, ← h5]; rfl
    · obtain ⟨f, s3, h5, h6⟩ := bind_ok _ _ _ _ _ h3
      have e3 := _eq_ok _ _ _ _ h5
      rw [e3] at h6
      split at h6
      · simp only [bind_apply, newNode, addI, pure_apply] at h6
        injection h6 with h7 h8
        simp only [bind_apply, _hPrt_eq, pure_apply] at h4
        injection h4 with h9 h10
        refine ⟨false, h7.symm, ?_⟩
        rw [← h10, ← h8, ← h7]; rfl
      · obtain ⟨x, s4, h7, h8⟩ := bind_ok _ _ _ _ _ h6
        cases h8
  obtain ⟨v, k1, k2⟩ := key
  have hn : n = b := by
    simp only [bind_apply, _hPrt_eq, pure_apply] at h4
    injection h4 with h7 h8
    exact h7.symm
  have := leaf_out B (.Boolean v) parent s s s' hpar hI rfl ⟨by simp, trivial⟩ k2
  rw [hn, k1]
  exact this.1

theorem newNode_hPrt_ok (pl : Payload) (parent : Option Nat) (s : State) (a : Nat)
    (s1 : State) (u : Unit) (s2 : State) (h1 : newNode pl s = .ok a s1)
    (h2 : _hPrt parent a s1 = .ok u s2) : a = s.heap.length ∧ s2 = leaf pl parent s := by
  simp only [newNode] at h1
  injection h1 with e1 e2
  rw [_hPrt_eq] at h2
  injection h2 with e3 e4
  refine ⟨e1.symm, ?_⟩
  rw [← e4, ← e2, ← e1]; rfl

theorem string_cell (B : Nat) (h : List Node) (i : Nat) (hI : Inv B h) (hB : B ≤ i)
    (hi : i < h.length) :
    (∀ b, (deref h i).payload = .String b → strBodyOk '"' b = true) ∧
    ((deref h i).type = .string → (deref h i).children = []) := by
  obtain ⟨_, c2⟩ := hI i hB hi
  refine ⟨fun b hb => by rw [hb] at c2; exact c2.1, fun ht => ?_⟩
  cases hp : (deref h i).payload with
  | String b => rw [hp] at c2; exact c2.2
  | Object m => simp [Node.type, hp] at ht
  | Boolean b => simp [Node.type, hp] at ht
  | Null => simp [Node.type, hp] at ht
  | Number x => simp [Node.type, hp] at ht
  | Array => simp [Node.type, hp] at ht

theorem comma_step_heap (c3 : Char) (s : State) (u : Unit) (s' : State)
    (h : (if c3 = ',' then _ii else pure ()) s = .ok u s') : s'.heap = s.heap := by
  split at h
  · rw [_ii_ok _ _ _ h]
  · injection h with _ h; rw [← h]

/-- One turn of the array loop, given the specification of `_parse` and of the rest of the
loop. -/
theorem arrayLoop_good_step (B fuel : Nat)
    (ihp : ∀ parent s n s', _parse fuel parent s = .ok n s' → ParentOK parent s →
      B ≤ s.heap.length → Inv B s.heap → Out B s n s')
    (ihl : ∀ a s u s', _parseArray.loop fuel a s = .ok u s' → ParentOK (some a) s →
      B ≤ s.heap.length → Inv B s.heap → Keep B s s')
    (a : Nat) (s : State) (u : Unit) (s' : State)
    (h : _parseArray.loop (fuel + 1) a s = .ok u s') (hpar : ParentOK (some a) s)
    (hB : B ≤ s.heap.length) (hI : Inv B s.heap) : Keep B s s' := by
  rw [_parseArray.loop] at h
  obtain ⟨c, s0, h0, h⟩ := bind_ok _ _ _ _ _ h
  obtain ⟨e0, _, _⟩ := _c_ok _ _ _ h0
  rw [e0] at h
  split at h
  · obtain ⟨_, s1, h1, h⟩ := bind_ok _ _ _ _ _ h
    have e1 := skipWhiteSpaces_heap _ _ _ _ h1
    obtain ⟨n, s2, h2, h⟩ := bind_ok _ _ _ _ _ h
    have k2 := ihp _ _ _ _ h2 (hpar.of_heap e1) (by rw [e1]; exact hB) (by rw [e1]; exact hI)
    obtain ⟨_, s3, h3, h⟩ := bind_ok _ _ _ _ _ h
    have e3 := skipWhiteSpaces_heap _ _ _ _ h3
    obtain ⟨c3, s3', h3', h⟩ := bind_ok _ _ _ _ _ h
    obtain ⟨e3', _, _⟩ := _c_ok _ _ _ h3'
    rw [e3'] at h
    split at h
    · obtain ⟨x, sx, _, hx⟩ := bind_ok _ _ _ _ _ h
      cases hx
    · obtain ⟨_, s4, h4, h⟩ := bind_ok _ _ _ _ _ h
      have e4 := comma_step_heap _ _ _ _ h4
      have k1 : Keep B s s1 := Keep.unchanged B s s1 hI e1
      have k4 : Keep B s s4 := Keep.same_heap (k1.comp k2.1) (e4.trans e3)
      exact k4.comp (ihl _ _ _ _ h (hpar.keep k4) (le_trans hB k4.1) k4.2.2)
  · injection h with _ h
    exact Keep.unchanged B s s' hI (by rw [← h])

/-- One turn of the object loop. -/
theorem objectLoop_good_step (B fuel : Nat)
    (ihp : ∀ parent s n s', _parse fuel parent s = .ok n s' → ParentOK parent s →
      B ≤ s.heap.length → Inv B s.heap → Out B s n s')
    (ihl : ∀ o s u s', _parseObject.loop fuel o s = .ok u s' → ParentOK (some o) s →
      B ≤ s.heap.length → Inv B s.heap → Keep B s s')
    (o : Nat) (s : State) (u : Unit) (s' : State)
    (h : _parseObject.loop (fuel + 1) o s = .ok u s') (hpar : ParentOK (some o) s)
    (hB : B ≤ s.heap.length) (hI : Inv B s.heap) : Keep B s s' := by
  rw [_parseObject.loop] at h
  obtain ⟨c, s0, h0, h⟩ := bind_ok _ _ _ _ _ h
  obtain ⟨e0, _, _⟩ := _c_ok _ _ _ h0
  rw [e0] at h
  split at h
  · obtain ⟨_, s1, h1, h⟩ := bind_ok _ _ _ _ _ h
    have e1 := skipWhiteSpaces_heap _ _ _ _ h1
    have k1 : Keep B s s1 := Keep.unchanged B s s1 hI e1
    obtain ⟨c1, s1', h1', h⟩ := bind_ok _ _ _ _ _ h
    obtain ⟨e1', _, _⟩ := _c_ok _ _ _ h1'
    rw [e1'] at h h1'
    split at h
    · obtain ⟨x, sx, _, hx⟩ := bind_ok _ _ _ _ _ h
      cases hx
    · rename_i hq
      have hq' : c1 = '"' := by simpa using hq
      rw [hq'] at h1'
      obtain ⟨key, s2, h2, h⟩ := bind_ok _ _ _ _ _ h
      obtain ⟨⟨k2, key1, key2⟩, key3⟩ := parseString_good B none s1 key s2 h2 h1'
        (by intro p hp; cases hp) k1.2.2
      have hkB : B ≤ key := by rw [key1, e1]; exact hB
      obtain ⟨_, s3, h3, h⟩ := bind_ok _ _ _ _ _ h
      have e3 := skipWhiteSpaces_heap _ _ _ _ h3
      obtain ⟨c2, s3', h3', h⟩ := bind_ok _ _ _ _ _ h
      obtain ⟨e3', _, _⟩ := _c_ok _ _ _ h3'
      rw [e3'] at h
      split at h
      · obtain ⟨x, sx, _, hx⟩ := bind_ok _ _ _ _ _ h
        cases hx
      · obtain ⟨_, s4, h4, h⟩ := bind_ok _ _ _ _ _ h
        have e4 : s4.heap = s3.heap := by rw [_ii_ok _ _ _ h4]
        have k4 : Keep B s s4 := Keep.same_heap (k1.comp k2) (e4.trans e3)
        obtain ⟨val, s5, h5, h⟩ := bind_ok _ _ _ _ _ h
        obtain ⟨k5, val1, val2⟩ := ihp _ _ _ _ h5 (hpar.keep k4) (le_trans hB k4.1) k4.2.2
        obtain ⟨_, s6, h6, h⟩ := bind_ok _ _ _ _ _ h
        have e6 := skipWhiteSpaces_heap _ _ _ _ h6
        obtain ⟨c3, s6', h6', h⟩ := bind_ok _ _ _ _ _ h
        obtain ⟨e6', _, _⟩ := _c_ok _ _ _ h6'
        rw [e6'] at h
        split at h
        · obtain ⟨x, sx, _, hx⟩ := bind_ok _ _ _ _ _ h
          cases hx
        · obtain ⟨_, s7, h7, h⟩ := bind_ok _ _ _ _ _ h
          have e7 := comma_step_heap _ _ _ _ h7
          have k7 : Keep B s4 s7 := Keep.same_heap k5 (e7.trans e6)
          have k07 : Keep B s s7 := k4.comp k7
          have hkey4 : key < s4.heap.length := by rw [e4, e3]; exact key2
          have hkey7 : key < s7.heap.length := lt_of_lt_of_le hkey4 k7.1
          obtain ⟨_, s8, h8, h⟩ := bind_ok _ _ _ _ _ h
          have k8 : Keep B s7 s8 := setS_keep B o key val s7 _ s8 h8 k7.2.2
            (by rw [val1]; exact lt_of_lt_of_le (hpar o rfl).1 k4.1)
            (by rw [e7, e6]; exact val2)
            (string_cell B s7.heap key k7.2.2 hkB hkey7).1
          obtain ⟨_, s9, h9, h⟩ := bind_ok _ _ _ _ _ h
          have hty : (deref s8.heap key).type = .string := by
            rw [k8.2.1 key hkey7, k7.2.1 key hkey4, e4, e3]
            exact key3
          have e9 := delete_childless key s8 _ s9 h9
            ((string_cell B s8.heap key k8.2.2 hkB (lt_of_lt_of_le hkey7 k8.1)).2 hty)
          have k9 : Keep B s s9 := Keep.same_heap (k07.comp k8) e9
          exact k9.comp (ihl _ _ _ _ h (hpar.keep k9) (le_trans hB k9.1) k9.2.2)
  · injection h with _ h
    exact Keep.unchanged B s s' hI (by rw [← h])

/-- A container routine, given the specification of its loop: the container cell is allocated
first and the loop runs under it. -/
theorem container_good (B : Nat) (pl : Payload) (hpl : pl = .Array ∨ pl = .Object [])
    (loop : Nat → M Unit)
    (ihl : ∀ a s u s', loop a s = .ok u s' → ParentOK (some a) s →
      B ≤ s.heap.length → Inv B s.heap → Keep B s s')
    (parent : Option Nat) (s : State) (n : Nat) (s' : State)
    (h : (do
      let a ← newNode pl
      _hPrt parent a
      _ii
      loop a
      let _ ← _iis
      pure a : M Nat) s = .ok n s')
    (hpar : ParentOK parent s) (hB : B ≤ s.heap.length) (hI : Inv B s.heap) :
    Out B s n s' := by
  obtain ⟨a, s1, h1, h⟩ := bind_ok _ _ _ _ _ h
  obtain ⟨_, s2, h2, h⟩ := bind_ok _ _ _ _ _ h
  obtain ⟨ea, e2⟩ := newNode_hPrt_ok _ _ _ _ _ _ _ h1 h2
  obtain ⟨_, s3, h3, h⟩ := bind_ok _ _ _ _ _ h
  have e3 : s3.heap = s2.heap := by rw [_ii_ok _ _ _ h3]
  obtain ⟨_, s4, h4, h⟩ := bind_ok _ _ _ _ _ h
  obtain ⟨_, s5, h5, h⟩ := bind_ok _ _ _ _ _ h
  have e5 := _iis_heap _ _ _ h5
  injection h with hn hs
  have hcell : cellOK (s.heap.length + 1) s.heap.length ⟨pl, parent, []⟩ := by
    rcases hpl with e | e <;> subst e <;> simp [cellOK]
  have k2 : Keep B s s2 := by rw [e2]; exact leaf_keep B pl parent s hpar hI hcell
  have k3 : Keep B s s3 := Keep.same_heap k2 e3
  have hl : s3.heap.length = s.heap.length + 1 := by
    rw [e3, e2, leaf_heap_length]
  have hty : (deref s3.heap a).type ≠ .string := by
    rw [e3, e2, ea, leaf_new_cell pl parent s (fun p hp => (hpar p hp).1)]
    rcases hpl with e | e <;> subst e <;> simp [Node.type]
  have k4 := ihl a s3 _ s4 h4 (by
      intro p hp
      injection hp with hp
      subst hp
      exact ⟨by rw [hl, ea]; omega, hty⟩) (le_trans hB k3.1) k3.2.2
  have k5 : Keep B s s5 := Keep.same_heap (k3.comp k4) e5
  rw [← hs, ← hn]
  exact ⟨k5, ea, by rw [ea]; have := k4.1; have := k5.1; rw [e5]; omega⟩

/-- Every parsing routine, on any input: when it returns, the heap has only grown, the cells
it allocated satisfy `cellOK`, and the node returned is the first cell it allocated. -/
theorem parse_good (B : Nat) (fuel : Nat) :
    (∀ parent s n s', _parse fuel parent s = .ok n s' → ParentOK parent s →
      B ≤ s.heap.length → Inv B s.heap → Out B s n s') ∧
    (∀ parent s n s', _parseArray fuel parent s = .ok n s' → ParentOK parent s →
      B ≤ s.heap.length → Inv B s.heap → Out B s n s') ∧
    (∀ parent s n s', _parseObject fuel parent s = .ok n s' → ParentOK parent s →
      B ≤ s.heap.length → Inv B s.heap → Out B s n s') ∧
    (∀ a s u s', _parseArray.loop fuel a s = .ok u s' → ParentOK (some a) s →
      B ≤ s.heap.length → Inv B s.heap → Keep B s s') ∧
    (∀ o s u s', _parseObject.loop fuel o s = .ok u s' → ParentOK (some o) s →
      B ≤ s.heap.length → Inv B s.heap → Keep B s s') := by
  induction fuel with
  | zero =>
    refine ⟨?_, ?_, ?_, ?_, ?_⟩ <;> (intro a s u s' h; cases h)
  | succ f ih =>
    obtain ⟨ihp, ihA, ihO, iha, iho⟩ := ih
    refine ⟨?_, ?_, ?_, arrayLoop_good_step B f ihp iha, objectLoop_good_step B f ihp iho⟩
    · intro parent s n s' h hpar hB hI
      rw [_parse] at h
      obtain ⟨_, s1, h1, h⟩ := bind_ok _ _ _ _ _ h
      have e1 := skipWhiteSpaces_heap _ _ _ _ h1
      obtain ⟨c, s1', h1', h⟩ := bind_ok _ _ _ _ _ h
      obtain ⟨e1', _, _⟩ := _c_ok _ _ _ h1'
      rw [e1'] at h h1'
      have hpar1 : ParentOK parent s1 := hpar.of_heap e1
      have hI1 : Inv B s1.heap := by rw [e1]; exact hI
      have hB1 : B ≤ s1.heap.length := by rw [e1]; exact hB
      have back : ∀ n s', Out B s1 n s' → Out B s n s' := by
        intro n s' ⟨k, e, l⟩
        exact ⟨(Keep.unchanged B s s1 hI e1).comp k, by rw [e, e1], l⟩
      apply back
      split at h
      · exact parseNull_good B parent s1 n s' h hpar1 hI1
      split at h
      · exact parseBoolean_good B parent s1 n s' h hpar1 hI1
      split at h
      · exact parseNumber_good B parent s1 n s' h hpar1 hI1
      split at h
      · rename_i hq
        rw [hq] at h1'
        exact (parseString_good B parent s1 n s' h h1' hpar1 hI1).1
      split at h
      · exact ihO parent s1 n s' h hpar1 hB1 hI1
      split at h
      · exact ihA parent s1 n s' h hpar1 hB1 hI1
      · obtain ⟨x, sx, _, hx⟩ := bind_ok _ _ _ _ _ h
        cases hx
    · intro parent s n s' h hpar hB hI
      rw [_parseArray] at h
      exact container_good B .Array (Or.inl rfl) (_parseArray.loop f) iha parent s n s' h
        hpar hB hI
    · intro parent s n s' h hpar hB hI
      rw [_parseObject] at h
      exact container_good B (.Object []) (Or.inr rfl) (_parseObject.loop f) iho parent s n s'
        h hpar hB hI

/-- What `parse` returns when it returns a node: the first cell it allocated, in a heap whose new
cells satisfy `cellOK`. -/
theorem parse_inv (text : List Char) (g : State) (r : Nat) (s0 : State)
    (h : parse text g = .ok (some r) s0) :
    Inv g.heap.length s0.heap ∧ r = g.heap.length ∧ r < s0.heap.length := by
  unfold parse at h
  cases hp : _parse (4 * text.length + 4) none { g with _j := text, _i := 0 } with
  | ok n s =>
    rw [hp] at h
    injection h with h1 h2
    injection h1 with h1
    subst h1 h2
    obtain ⟨k, e, l⟩ := (parse_good g.heap.length _).1 none _ _ _ hp
      (by intro p hp; cases hp) (le_refl _) (by intro i hB hi; exact absurd hi (by
        show ¬ i < g.heap.length
        omega))
    exact ⟨k.2.2, e, l⟩
  | raise e s =>
    rw [hp] at h
    simp only at h
    split at h
    · injection h with h1 h2; cases h1
    · cases h

/-- A heap whose cells from `B` on satisfy `cellOK` and hold only numbers that are whole numbers
of millionths converted to finite `double`s is clean at every such cell, within any budget
that reaches the end of the heap. -/
theorem inv_clean (B : Nat) (h : List Node) (hI : Inv B h)
    (hnum : ∀ i x, B ≤ i → (deref h i).payload = .Number x →
      x.sixDecimals ∧ x.finite) :
    ∀ (k p : Nat), B ≤ p → p < h.length → h.length ≤ p + k → CleanAt k h p := by
  intro k
  induction k with
  | zero => intro p _ h1 h2; omega
  | succ k ih =>
    intro p hB hp hk
    obtain ⟨c1, c2⟩ := hI p hB hp
    simp only [CleanAt]
    cases hpl : (deref h p).payload with
    | Boolean b => trivial
    | Null => trivial
    | Number x => exact hnum p x hB hpl
    | String b => rw [hpl] at c2; exact c2.1
    | Array =>
      intro c hc
      have := c1 c hc
      exact ih c (by omega) this.2 (by omega)
    | Object m =>
      rw [hpl] at c2
      refine ⟨c2.1, fun a ha => ⟨(c2.2 a ha).1, ?_⟩⟩
      have := (c2.2 a ha).2
      exact ih a.2 (by omega) this.2 (by omega)

/-- C1 (amended): parse, serialise, parse again. For every text on which `parse` returns a node
that is an array, an object or a literal, and in which every number has at most six decimal
places and is converted to a finite `double`, `toString` of that node (in whatever order the
key indexes are iterated) returns a text on which `parse` again returns a node, and the tree
of the second node agrees with the tree of the first: numbers hold the same `double`, and
objects are compared by key and value and not by the order of their members. -/
theorem parse_toString_parse (ord : List (List Char × Nat) → List (List Char × Nat))
    (hord : ∀ m, (ord m).Perm m) (text : List Char) (g : State) (r : Nat) (s0 : State)
    (hparse : parse text g = .ok (some r) s0)
    (hn : (deref s0.heap r).type ≠ .number) (hs : (deref s0.heap r).type ≠ .string)
    (hnum : ∀ i x, g.heap.length ≤ i → (deref s0.heap i).payload = .Number x →
      x.sixDecimals ∧ x.finite)
    (fuel : Nat) (hfuel : s0.heap.length ≤ fuel) (g' : State) :
    ∃ out s1 T T', Node.toString ord fuel s0.heap r = some out ∧
      parse out g' = .ok (some g'.heap.length) s1 ∧
      view fuel s0.heap r = some T ∧ view (fuel + 1) s1.heap g'.heap.length = some T' ∧
      Tree.sim T T' := by
  obtain ⟨hI, hr, hlt⟩ := parse_inv text g r s0 hparse
  have hclean := inv_clean g.heap.length s0.heap hI hnum fuel r (by omega) hlt (by omega)
  exact roundtrip_clean ord hord fuel s0.heap r hclean hn hs g'

/-- C1 (counterexample): the text `[0.0000001]` is parsed to an array holding the number
`0.0000001`; `toString` of that array is `[0.000000]`, because `std::to_string` prints six
decimals; parsing that text gives an array holding `0`, which is not the tree parsed first. -/
theorem roundtrip_loses_seventh_decimal :
    parse "[0.0000001]".toList State.init =
      .ok (some 0) ⟨"[0.0000001]".toList, 10,
        [⟨.Array, none, [1]⟩, ⟨.Number ⟨false, 1 / 10000000⟩, some 0, []⟩], 2, [], []⟩ ∧
    Node.toString id 2
        [⟨.Array, none, [1]⟩, ⟨.Number ⟨false, 1 / 10000000⟩, some 0, []⟩] 0 =
      some "[0.000000]".toList ∧
    parse "[0.000000]".toList ⟨"[0.0000001]".toList, 10,
        [⟨.Array, none, [1]⟩, ⟨.Number ⟨false, 1 / 10000000⟩, some 0, []⟩], 2, [], []⟩ =
      .ok (some 2) ⟨"[0.000000]".toList, 9,
        [⟨.Array, none, [1]⟩, ⟨.Number ⟨false, 1 / 10000000⟩, some 0, []⟩,
          ⟨.Array, none, [3]⟩, ⟨.Number ⟨false, 0⟩, some 2, []⟩], 4, [], []⟩ ∧
    view 2 [⟨.Array, none, [1]⟩, ⟨.Number ⟨false, 1 / 10000000⟩, some 0, []⟩] 0 =
      some (.Array [.Number ⟨false, 1 / 10000000⟩]) ∧
    view 2 [⟨.Array, none, [1]⟩, ⟨.Number ⟨false, 1 / 10000000⟩, some 0, []⟩,
        ⟨.Array, none, [3]⟩, ⟨.Number ⟨false, 0⟩, some 2, []⟩] 2 =
      some (.Array [.Number ⟨false, 0⟩]) ∧
    ¬ Tree.sim (.Array [.Number ⟨false, 1 / 10000000⟩]) (.Array [.Number ⟨false, 0⟩]) := by
  refine ⟨by decide!, by decide!, by decide!, rfl, rfl, ?_⟩
  have hne : (⟨false, 1 / 10000000⟩ : Double).stored ≠ (⟨false, 0⟩ : Double).stored := by
    decide!
  simpa [Tree.sim, Tree.simList] using hne

/-- The round trip of a number too large for a `double`: the array holding the number written
with 400 nines is parsed, the number has no decimals at all, but `std::strtod` returns
`HUGE_VAL` for it; `toString` of the array is `[inf]`, and on that text `parse` reports the
unexpected character `i` and returns `NULL`. -/
theorem roundtrip_overflows :
    parse ('[' :: (List.replicate 400 '9' ++ [']'])) State.init =
      .ok (some 0) ⟨'[' :: (List.replicate 400 '9' ++ [']']), 401,
        [⟨.Array, none, [1]⟩, ⟨.Number ⟨false, 10 ^ 400 - 1⟩, some 0, []⟩], 2, [], []⟩ ∧
    (⟨false, 10 ^ 400 - 1⟩ : Double).sixDecimals ∧
    ¬ (⟨false, 10 ^ 400 - 1⟩ : Double).finite ∧
    Node.toString id 2
        [⟨.Array, none, [1]⟩, ⟨.Number ⟨false, 10 ^ 400 - 1⟩, some 0, []⟩] 0 =
      some "[inf]".toList ∧
    parse "[inf]".toList ⟨'[' :: (List.replicate 400 '9' ++ [']']), 401,
        [⟨.Array, none, [1]⟩, ⟨.Number ⟨false, 10 ^ 400 - 1⟩, some 0, []⟩], 2, [], []⟩ =
      .ok none ⟨"[inf]".toList, 1,
        [⟨.Array, none, [1]⟩, ⟨.Number ⟨false, 10 ^ 400 - 1⟩, some 0, []⟩,
          ⟨.Array, none, []⟩], 3, [.unexpectedChar 'i' 1], []⟩ := by
  refine ⟨by decide!, ⟨(10 ^ 400 - 1) * 1000000, ?_⟩, ?_, by decide!, by decide!⟩
  · show ((10 : ℚ) ^ 400 - 1) = (((10 ^ 400 - 1) * 1000000 : Nat) : ℚ) / 1000000
    rw [Nat.cast_mul, Nat.cast_sub (Nat.one_le_pow _ _ (by norm_num))]
    push_cast
    field_simp
  · show ¬ (binary64 (10 ^ 400 - 1)).isSome = true
    decide!

/-- The round trip of a document whose root is a number: `42 ` is parsed to the number `42`,
serialised as `42.000000`, and on that text `_parseNumber` runs into the end of the input, so
the second `parse` logs `UnexpectedEndOfInput` and returns `NULL`. -/
theorem number_root_not_reparsed :
    parse "42 ".toList State.init =
      .ok (some 0) ⟨"42 ".toList, 2, [⟨.Number ⟨false, 42⟩, none, []⟩], 1, [], []⟩ ∧
    Node.toString id 1 [⟨.Number ⟨false, 42⟩, none, []⟩] 0 = some "42.000000".toList ∧
    parse "42.000000".toList ⟨"42 ".toList, 2, [⟨.Number ⟨false, 42⟩, none, []⟩], 1, [], []⟩ =
      .ok none ⟨"42.000000".toList, 9, [⟨.Number ⟨false, 42⟩, none, []⟩], 1,
        [.unexpectedEOF 9], []⟩ := by
  refine ⟨by decide!, by decide!, by decide!⟩

/-- Witness for `parse_toString_parse`: the text `{"a":[0.1,"x",true,null]}`, whose number is
not a binary fraction, serialised with the key index iterated backwards. -/
theorem parse_toString_parse_witness :
    parse "\x7b\"a\":[0.1,\"x\",true,null]\x7d".toList State.init =
      .ok (some 0) ⟨"\x7b\"a\":[0.1,\"x\",true,null]\x7d".toList, 24,
        [⟨.Object [(['a'], 2)], none, [2]⟩, ⟨.String ['a'], none, []⟩,
          ⟨.Array, some 0, [3, 4, 5, 6]⟩, ⟨.Number ⟨false, 1 / 10⟩, some 2, []⟩,
          ⟨.String ['x'], some 2, []⟩, ⟨.Boolean true, some 2, []⟩, ⟨.Null, some 2, []⟩],
        6, [], [1]⟩ ∧
    ∃ out s1 T T', Node.toString List.reverse 7
        [⟨.Object [(['a'], 2)], none, [2]⟩, ⟨.String ['a'], none, []⟩,
          ⟨.Array, some 0, [3, 4, 5, 6]⟩, ⟨.Number ⟨false, 1 / 10⟩, some 2, []⟩,
          ⟨.String ['x'], some 2, []⟩, ⟨.Boolean true, some 2, []⟩, ⟨.Null, some 2, []⟩] 0 =
        some out ∧
      parse out State.init = .ok (some 0) s1 ∧
      view 7
        [⟨.Object [(['a'], 2)], none, [2]⟩, ⟨.String ['a'], none, []⟩,
          ⟨.Array, some 0, [3, 4, 5, 6]⟩, ⟨.Number ⟨false, 1 / 10⟩, some 2, []⟩,
          ⟨.String ['x'], some 2, []⟩, ⟨.Boolean true, some 2, []⟩, ⟨.Null, some 2, []⟩] 0 =
        some T ∧
      view 8 s1.heap 0 = some T' ∧ Tree.sim T T' :=
  ⟨by decide!,
    parse_toString_parse List.reverse (fun m => List.reverse_perm m)
      "\x7b\"a\":[0.1,\"x\",true,null]\x7d".toList State.init 0
      ⟨"\x7b\"a\":[0.1,\"x\",true,null]\x7d".toList, 24,
        [⟨.Object [(['a'], 2)], none, [2]⟩, ⟨.String ['a'], none, []⟩,
          ⟨.Array, some 0, [3, 4, 5, 6]⟩, ⟨.Number ⟨false, 1 / 10⟩, some 2, []⟩,
          ⟨.String ['x'], some 2, []⟩, ⟨.Boolean true, some 2, []⟩, ⟨.Null, some 2, []⟩],
        6, [], [1]⟩
      (by decide!) (by decide!) (by decide!)
      (by
        intro i x _ hx
        rcases i with _ | _ | _ | _ | _ | _ | _ | i <;> simp [deref] at hx
        subst hx
        exact ⟨⟨100000, by norm_num⟩, by unfold Double.finite; decide!⟩)
      7 (by decide) State.init⟩

/-! ### String bodies -/

theorem strBodyOk_spec (b : List Char) : ∀ prev : Char,
    strBodyOk prev b = true ↔
      (∀ pre post, b = pre ++ '"' :: post → (prev :: pre).getLast? = some '\\') ∧
      (prev :: b).getLast? ≠ some '\\' := by
  induction b with
  | nil =>
    intro prev
    simp [strBodyOk]
  | cons x r ih =>
    intro prev
    rw [strBodyOk, Bool.and_eq_true, ih x]
    constructor
    · rintro ⟨h1, h2, h3⟩
      refine ⟨?_, ?_⟩
      · intro pre post hb
        cases pre with
        | nil =>
          simp only [List.nil_append, List.cons.injEq] at hb
          have hx := hb.1
          subst hx
          simpa using h1
        | cons y pre2 =>
          simp only [List.cons_append, List.cons.injEq] at hb
          obtain ⟨hy, hr⟩ := hb
          subst hy
          have := h2 pre2 post hr
          simpa [List.getLast?_cons_cons] using this
      · simpa [List.getLast?_cons_cons] using h3
    · rintro ⟨h1, h2⟩
      refine ⟨?_, ?_, ?_⟩
      · by_cases hx : x = '"'
        · subst hx
          have := h1 [] r rfl
          simpa using this
        · simp [hx]
      · intro pre post hr
        have := h1 (x :: pre) post (by rw [hr]; rfl)
        simpa [List.getLast?_cons_cons] using this
      · simpa [List.getLast?_cons_cons] using h2

/-- The check `strBodyOk` says what the statements say in words. -/
theorem strBodyOk_iff (b : List Char) :
    strBodyOk '"' b = true ↔ quotesEscaped b ∧ ¬ endsWithBackslash b := by
  rw [strBodyOk_spec]
  have hlast : ∀ l : List Char, ('"' :: l).getLast? = some '\\' ↔ ∃ pre, l = pre ++ ['\\'] := by
    intro l
    rcases List.eq_nil_or_concat l with rfl | ⟨pre, c, rfl⟩
    · simp
    · rw [List.concat_eq_append]
      constructor
      · intro h
        have : ('"' :: (pre ++ [c])).getLast? = some c := by
          rw [← List.cons_append, List.getLast?_append]; simp
        rw [this] at h
        injection h with h
        exact ⟨pre, by rw [h]⟩
      · rintro ⟨pre', h⟩
        have hc := List.append_inj' h rfl
        rw [← List.cons_append, List.getLast?_append]
        simp [hc.2]
  constructor
  · rintro ⟨h1, h2⟩
    exact ⟨fun pre post hb => (hlast pre).1 (h1 pre post hb), fun h => h2 ((hlast b).2 h)⟩
  · rintro ⟨h1, h2⟩
    exact ⟨fun pre post hb => (hlast pre).2 (h1 pre post hb), fun h => h2 ((hlast b).1 h)⟩

/-- C11: for every string body in which every double quote directly follows a backslash and
which does not end with a backslash (the empty body included), `parse` of the array text
`["` body `"]` returns an `Array` whose only child is a `String` holding exactly the body, its
backslashes and escaped quotes copied as they stand. -/
theorem parse_string_body (b : List Char) (hq : quotesEscaped b) (he : ¬ endsWithBackslash b)
    (g : State) :
    ∃ s', parse (['[', '"'] ++ b ++ ['"', ']']) g = .ok (some g.heap.length) s' ∧
      deref s'.heap g.heap.length = ⟨.Array, none, [g.heap.length + 1]⟩ ∧
      deref s'.heap (g.heap.length + 1) = ⟨.String b, some g.heap.length, []⟩ := by
  have hb : strBodyOk '"' b = true := (strBodyOk_iff b).2 ⟨hq, he⟩
  have hp := parse_arr [.str b] (by simp [Val.okElems, Val.ok, hb]) g []
  have ht : (Val.arr [.str b]).render ++ [] = ['[', '"'] ++ b ++ ['"', ']'] := by
    simp [Val.render, Val.renderElems]
  rw [ht] at hp
  have key : ∀ s0 : State,
      deref (leaf (.String b) (some s0.heap.length) (leaf .Array none s0)).heap
          s0.heap.length = ⟨.Array, none, [s0.heap.length + 1]⟩ ∧
        deref (leaf (.String b) (some s0.heap.length) (leaf .Array none s0)).heap
          (s0.heap.length + 1) = ⟨.String b, some s0.heap.length, []⟩ := by
    intro s0
    have h1 := leaf_heap_length .Array none s0
    have h2 := leaf_new_cell .Array none s0 (by intro p hp; cases hp)
    refine ⟨?_, ?_⟩
    · rw [leaf_parent_cell _ _ _ (by rw [h1]; exact Nat.lt_succ_self _), h2, h1]
      rfl
    · have := leaf_new_cell (.String b) (some s0.heap.length) (leaf .Array none s0)
        (by intro p hp; injection hp with hp; rw [h1, ← hp]; exact Nat.lt_succ_self _)
      rw [h1] at this
      exact this
  exact ⟨_, hp, (key { g with _j := ['[', '"'] ++ b ++ ['"', ']'], _i := 0 }).1,
    (key { g with _j := ['[', '"'] ++ b ++ ['"', ']'], _i := 0 }).2⟩

/-- Witness for `parse_string_body`: the body `a\"b`, an escaped quote between two letters. -/
theorem parse_string_body_witness :
    ∃ s', parse (['[', '"'] ++ ['a', '\\', '"', 'b'] ++ ['"', ']']) State.init =
        .ok (some 0) s' ∧
      deref s'.heap 0 = ⟨.Array, none, [1]⟩ ∧
      deref s'.heap 1 = ⟨.String ['a', '\\', '"', 'b'], some 0, []⟩ :=
  parse_string_body ['a', '\\', '"', 'b']
    ((strBodyOk_iff _).1 (by decide)).1 ((strBodyOk_iff _).1 (by decide)).2 State.init

/-! ### Literals -/

/-- C12: for each of the literals `null`, `true`, `false` and every run `w` of whitespace
(the empty run included), `parse` of `w` followed by the literal returns a new node, `Null`,
`Boolean(true)` or `Boolean(false)`, with the cursor 4, 4 or 5 characters past `w`; and
`toString` of that node is the literal again. -/
theorem parse_literal (w : List Char) (hw : ∀ x ∈ w, isWhite x = true) (g : State)
    (ord : List (List Char × Nat) → List (List Char × Nat)) (fuel : Nat) :
    (∃ s', parse (w ++ "null".toList) g = .ok (some g.heap.length) s' ∧
      deref s'.heap g.heap.length = ⟨.Null, none, []⟩ ∧ s'._i = w.length + 4 ∧
      Node.toString ord (fuel + 1) s'.heap g.heap.length = some "null".toList) ∧
    (∃ s', parse (w ++ "true".toList) g = .ok (some g.heap.length) s' ∧
      deref s'.heap g.heap.length = ⟨.Boolean true, none, []⟩ ∧ s'._i = w.length + 4 ∧
      Node.toString ord (fuel + 1) s'.heap g.heap.length = some "true".toList) ∧
    (∃ s', parse (w ++ "false".toList) g = .ok (some g.heap.length) s' ∧
      deref s'.heap g.heap.length = ⟨.Boolean false, none, []⟩ ∧ s'._i = w.length + 5 ∧
      Node.toString ord (fuel + 1) s'.heap g.heap.length = some "false".toList) := by
  have cell : ∀ (pl : Payload) (s0 : State),
      deref (leaf pl none s0).heap s0.heap.length = ⟨pl, none, []⟩ :=
    fun pl s0 => leaf_new_cell pl none s0 (by intro p hp; cases hp)
  refine ⟨?_, ?_, ?_⟩
  · refine ⟨{ leaf .Null none { g with _j := w ++ "null".toList, _i := 0 } with
      _i := w.length + 4 }, ?_, cell _ _, rfl, ?_⟩
    · unfold parse
      rw [show 4 * (w ++ "null".toList).length + 4 = (4 * (w ++ "null".toList).length + 3) + 1
        from rfl]
      rw [_parse_dispatch_ws _ none { g with _j := w ++ "null".toList, _i := 0 } [] w
        "ull".toList 'n' rfl rfl hw (by decide)]
      simp only [if_true]
      rw [parseNull_ok _ none w [] (by simp) (by simp)]
      rfl
    · have h := cell .Null { g with _j := w ++ "null".toList, _i := 0 }
      simp only [Node.toString]
      rw [show (deref (leaf Payload.Null none { g with _j := w ++ "null".toList, _i := 0 }).heap
        g.heap.length) = ⟨.Null, none, []⟩ from h]
  · refine ⟨{ leaf (.Boolean true) none { g with _j := w ++ "true".toList, _i := 0 } with
      _i := w.length + 4 }, ?_, cell _ _, rfl, ?_⟩
    · unfold parse
      rw [show 4 * (w ++ "true".toList).length + 4 = (4 * (w ++ "true".toList).length + 3) + 1
        from rfl]
      rw [_parse_dispatch_ws _ none { g with _j := w ++ "true".toList, _i := 0 } [] w
        "rue".toList 't' rfl rfl hw (by decide)]
      simp only [Char.reduceEq, if_false, true_or, if_true]
      rw [parseBoolean_ok _ none w [] true (by simp) (by simp)]
      rfl
    · have h := cell (.Boolean true) { g with _j := w ++ "true".toList, _i := 0 }
      simp only [Node.toString]
      rw [show (deref (leaf (Payload.Boolean true) none
        { g with _j := w ++ "true".toList, _i := 0 }).heap g.heap.length) =
        ⟨.Boolean true, none, []⟩ from h]
      rfl
  · refine ⟨{ leaf (.Boolean false) none { g with _j := w ++ "false".toList, _i := 0 } with
      _i := w.length + 5 }, ?_, cell _ _, rfl, ?_⟩
    · unfold parse
      rw [show 4 * (w ++ "false".toList).length + 4 =
        (4 * (w ++ "false".toList).length + 3) + 1 from rfl]
      rw [_parse_dispatch_ws _ none { g with _j := w ++ "false".toList, _i := 0 } [] w
        "alse".toList 'f' rfl rfl hw (by decide)]
      simp only [Char.reduceEq, if_false, or_true, if_true]
      rw [parseBoolean_ok _ none w [] false (by simp) (by simp)]
      rfl
    · have h := cell (.Boolean false) { g with _j := w ++ "false".toList, _i := 0 }
      simp only [Node.toString]
      rw [show (deref (leaf (Payload.Boolean false) none
        { g with _j := w ++ "false".toList, _i := 0 }).heap g.heap.length) =
        ⟨.Boolean false, none, []⟩ from h]
      rfl

/-- Witness for `parse_literal`: a space, a tab and a line feed before the literal. -/
theorem parse_literal_witness :
    (∃ s', parse ([' ', '\t', '\n'] ++ "null".toList) State.init = .ok (some 0) s' ∧
      deref s'.heap 0 = ⟨.Null, none, []⟩ ∧ s'._i = 3 + 4 ∧
      Node.toString id 1 s'.heap 0 = some "null".toList) ∧
    (∃ s', parse ([' ', '\t', '\n'] ++ "true".toList) State.init = .ok (some 0) s' ∧
      deref s'.heap 0 = ⟨.Boolean true, none, []⟩ ∧ s'._i = 3 + 4 ∧
      Node.toString id 1 s'.heap 0 = some "true".toList) ∧
    (∃ s', parse ([' ', '\t', '\n'] ++ "false".toList) State.init = .ok (some 0) s' ∧
      deref s'.heap 0 = ⟨.Boolean false, none, []⟩ ∧ s'._i = 3 + 5 ∧
      Node.toString id 1 s'.heap 0 = some "false".toList) :=
  parse_literal [' ', '\t', '\n'] (by decide) State.init id 0

/-! ### Unclosed nesting -/

theorem renderCommas_eq (es : List Val) (hne : es ≠ []) :
    Val.renderCommas es = Val.renderElems es ++ [','] := by
  rcases List.eq_nil_or_concat es with rfl | ⟨es', e, rfl⟩
  · exact absurd rfl hne
  · rw [List.concat_eq_append, renderCommas_concat, renderElems_concat]
    simp

theorem renderMembersCommas_concat (ms : List (List Char × Val)) (kv : List Char × Val) :
    Val.renderMembersCommas (ms ++ [kv]) =
      Val.renderMembersCommas ms ++ (['"'] ++ kv.1 ++ ['"', ':'] ++ kv.2.render ++ [',']) := by
  induction ms with
  | nil => simp [Val.renderMembersCommas]
  | cons x xs ih => simp [Val.renderMembersCommas, ih]

theorem renderMembersCommas_eq (ms : List (List Char × Val)) (hne : ms ≠ []) :
    Val.renderMembersCommas ms = Val.renderMembers ms ++ [','] := by
  rcases List.eq_nil_or_concat ms with rfl | ⟨ms', kv, rfl⟩
  · exact absurd rfl hne
  · rw [List.concat_eq_append, renderMembersCommas_concat, renderMembers_concat]
    simp

theorem needMembers_length (ms : List (List Char × Val)) :
    ms.length + 1 ≤ Val.needMembers ms := by
  induction ms with
  | nil => simp [Val.needMembers]
  | cons x xs ih =>
    obtain ⟨k, v⟩ := x
    rw [needMembers_cons]
    simp only [List.length_cons]
    omega

theorem needMembers_bound_commas (ms : List (List Char × Val)) :
    Val.needMembers ms ≤ 3 * (Val.renderMembersCommas ms).length + 1 := by
  induction ms with
  | nil => simp [Val.needMembers]
  | cons x xs ih =>
    obtain ⟨k, v⟩ := x
    have := need_bound v
    rw [needMembers_cons]
    simp only [Val.renderMembersCommas, List.length_append, List.length_cons, List.length_nil]
    omega

/-- The entry point on an array text whose elements are each followed by a comma, the last
comma standing directly before the closing bracket. -/
theorem parse_arr_trailing (es : List Val) (hok : Val.okElems es = true) (g : State) :
    parse ('[' :: (Val.renderCommas es ++ [']'])) g = .ok (some g.heap.length)
      { Val.buildElems es g.heap.length
          (leaf .Array none { g with _j := '[' :: (Val.renderCommas es ++ [']']), _i := 0 }) with
        _i := (Val.renderCommas es).length + 1 } := by
  have hmem := okElems_mem es hok
  have hbnd := needElems_bound_commas es
  have hnl := needElems_length es
  unfold parse
  generalize hT : ('[' :: (Val.renderCommas es ++ [']'])) = text at *
  have hlenT : text.length = (Val.renderCommas es).length + 2 := by
    rw [← hT]; simp
  rw [show 4 * text.length + 4 = (4 * text.length + 2 + 1) + 1 from rfl,
    _parse_dispatch _ none { g with _j := text, _i := 0 } [] (Val.renderCommas es ++ [']']) '['
      (by simp [hT]) rfl (by decide)]
  have hnc : isNumChar '[' = false := by decide
  simp only [Char.reduceEq, if_false, false_or, hnc, Bool.false_eq_true, if_true, _parseArray]
  have hbind := newNode_hPrt .Array none { g with _j := text, _i := 0 }
    (fun o => _ii >>= fun _ =>
      _parseArray.loop (4 * text.length + 2) o >>= fun _ => _iis >>= fun _ => pure o)
  simp only [bind_assoc] at hbind ⊢
  rw [hbind]
  obtain ⟨d, tl, hd⟩ : ∃ d tl, Val.renderCommas es ++ [']'] = d :: tl := by
    cases h : Val.renderCommas es ++ [']'] with
    | nil => simp at h
    | cons d tl => exact ⟨d, tl, rfl⟩
  have hii : _ii (leaf .Array none { g with _j := text, _i := 0 }) =
      .ok () { leaf .Array none { g with _j := text, _i := 0 } with _i := 1 } := by
    have := _ii_at (leaf .Array none { g with _j := text, _i := 0 }) [] tl '[' d
      (by show text = _; rw [← hT, hd]; rfl) rfl
    simpa using this
  have hcom := arrayLoop_commas g.heap.length es (fun x hx => ⟨hmem x hx,
      parseOK_all x (hmem x hx)⟩) (4 * text.length + 2)
    { leaf .Array none { g with _j := text, _i := 0 } with _i := 1 } ['[']
    [']'] (by omega) (by show text = _; rw [← hT]; simp) (by simp) (by simp)
  obtain ⟨f, hfe⟩ : ∃ f, 4 * text.length + 2 - es.length = f + 1 :=
    ⟨4 * text.length + 2 - es.length - 1, by omega⟩
  have hj3 : ({ Val.buildElems es g.heap.length
        { leaf .Array none { g with _j := text, _i := 0 } with _i := 1 } with
      _i := ((['['] : List Char).length : Int) + (Val.renderCommas es).length } : State)._j =
      ('[' :: Val.renderCommas es) ++ [']'] := by
    simp only [buildElems_j]; show text = _; rw [← hT]; simp
  have hi3 : ({ Val.buildElems es g.heap.length
        { leaf .Array none { g with _j := text, _i := 0 } with _i := 1 } with
      _i := ((['['] : List Char).length : Int) + (Val.renderCommas es).length } : State)._i =
      (('[' :: Val.renderCommas es).length : Int) := by
    simp; omega
  have hex := arrayLoop_exit g.heap.length f _ _ _ hj3 hi3
  have hiis := _iis_last _ _ _ hj3 hi3
  simp only [bind_apply, hii, hcom, hfe, hex, hiis, pure_apply]
  simp only [buildElems_seti', leaf_seti]
  congr 2

/-- The entry point on an object text whose members are each followed by a comma. -/
theorem parse_obj_trailing (ms : List (List Char × Val)) (hok : Val.okMembers ms = true)
    (g : State) :
    parse ('{' :: (Val.renderMembersCommas ms ++ ['}'])) g = .ok (some g.heap.length)
      { Val.buildMembers ms g.heap.length
          (leaf (.Object []) none
            { g with _j := '{' :: (Val.renderMembersCommas ms ++ ['}']), _i := 0 }) with
        _i := (Val.renderMembersCommas ms).length + 1 } := by
  have hmem := okMembers_mem ms hok
  have hbnd := needMembers_bound_commas ms
  have hnl := needMembers_length ms
  unfold parse
  generalize hT : ('{' :: (Val.renderMembersCommas ms ++ ['}'])) = text at *
  have hlenT : text.length = (Val.renderMembersCommas ms).length + 2 := by
    rw [← hT]; simp
  rw [show 4 * text.length + 4 = (4 * text.length + 2 + 1) + 1 from rfl,
    _parse_dispatch _ none { g with _j := text, _i := 0 } []
      (Val.renderMembersCommas ms ++ ['}']) '{' (by simp [hT]) rfl (by decide)]
  have hnc : isNumChar '{' = false := by decide
  simp only [Char.reduceEq, if_false, false_or, hnc, Bool.false_eq_true, if_true, _parseObject]
  have hbind := newNode_hPrt (.Object []) none { g with _j := text, _i := 0 }
    (fun o => _ii >>= fun _ =>
      _parseObject.loop (4 * text.length + 2) o >>= fun _ => _iis >>= fun _ => pure o)
  simp only [bind_assoc] at hbind ⊢
  rw [hbind]
  obtain ⟨d, tl, hd⟩ : ∃ d tl, Val.renderMembersCommas ms ++ ['}'] = d :: tl := by
    cases h : Val.renderMembersCommas ms ++ ['}'] with
    | nil => simp at h
    | cons d tl => exact ⟨d, tl, rfl⟩
  have hii : _ii (leaf (.Object []) none { g with _j := text, _i := 0 }) =
      .ok () { leaf (.Object []) none { g with _j := text, _i := 0 } with _i := 1 } := by
    have := _ii_at (leaf (.Object []) none { g with _j := text, _i := 0 }) [] tl '{' d
      (by show text = _; rw [← hT, hd]; rfl) rfl
    simpa using this
  have hcom := objectLoop_commas g.heap.length ms (fun x hx => ⟨(hmem x hx).1, (hmem x hx).2,
      parseOK_all x.2 (hmem x hx).2⟩) (4 * text.length + 2)
    { leaf (.Object []) none { g with _j := text, _i := 0 } with _i := 1 } ['{']
    ['}'] (by omega) (by rw [leaf_heap_length]; exact Nat.lt_succ_self _)
    (by show text = _; rw [← hT]; simp) (by simp) (by simp)
  obtain ⟨f, hfe⟩ : ∃ f, 4 * text.length + 2 - ms.length = f + 1 :=
    ⟨4 * text.length + 2 - ms.length - 1, by omega⟩
  have hj3 : ({ Val.buildMembers ms g.heap.length
        { leaf (.Object []) none { g with _j := text, _i := 0 } with _i := 1 } with
      _i := ((['{'] : List Char).length : Int) + (Val.renderMembersCommas ms).length } :
        State)._j = ('{' :: Val.renderMembersCommas ms) ++ ['}'] := by
    simp only [buildMembers_j]; show text = _; rw [← hT]; simp
  have hi3 : ({ Val.buildMembers ms g.heap.length
        { leaf (.Object []) none { g with _j := text, _i := 0 } with _i := 1 } with
      _i := ((['{'] : List Char).length : Int) + (Val.renderMembersCommas ms).length } :
        State)._i = (('{' :: Val.renderMembersCommas ms).length : Int) := by
    simp; omega
  have hex := objectLoop_exit g.heap.length f _ _ _ hj3 hi3
  have hiis := _iis_last _ _ _ hj3 hi3
  simp only [bind_apply, hii, hcom, hfe, hex, hiis, pure_apply]
  simp only [buildMembers_seti', leaf_seti]
  congr 2

/-- C16: a comma directly before the closing bracket or brace is accepted and ignored. For
every non-empty list of well-formed element values, `parse` of `[e1,...,ek,]` returns an
array with the same tree as `parse` of `[e1,...,ek]`; and for every non-empty list of
well-formed members, `parse` of the object text with a comma before its closing brace returns
an object with the same tree as `parse` of the text without it. -/
theorem parse_trailing_comma (es : List Val) (ms : List (List Char × Val))
    (hes : es ≠ []) (hms : ms ≠ []) (hok1 : Val.okElems es = true)
    (hok2 : Val.okMembers ms = true) (g : State) :
    (∃ s1 s2 T, parse (['['] ++ Val.renderElems es ++ [',', ']']) g =
        .ok (some g.heap.length) s1 ∧
      parse (['['] ++ Val.renderElems es ++ [']']) g = .ok (some g.heap.length) s2 ∧
      view ((Val.arr es).depth + 1) s1.heap g.heap.length = some T ∧
      view ((Val.arr es).depth + 1) s2.heap g.heap.length = some T) ∧
    (∃ s1 s2 T, parse (['{'] ++ Val.renderMembers ms ++ [',', '}']) g =
        .ok (some g.heap.length) s1 ∧
      parse (['{'] ++ Val.renderMembers ms ++ ['}']) g = .ok (some g.heap.length) s2 ∧
      view ((Val.obj ms).depth + 1) s1.heap g.heap.length = some T ∧
      view ((Val.obj ms).depth + 1) s2.heap g.heap.length = some T) := by
  refine ⟨?_, ?_⟩
  · have h1 := parse_arr_trailing es hok1 g
    have h2 := parse_arr es hok1 g []
    have e1 : '[' :: (Val.renderCommas es ++ [']']) =
        ['['] ++ Val.renderElems es ++ [',', ']'] := by
      rw [renderCommas_eq es hes]; simp
    have e2 : (Val.arr es).render ++ [] = ['['] ++ Val.renderElems es ++ [']'] := by
      simp [Val.render]
    rw [e1] at h1
    rw [e2] at h2
    refine ⟨_, _, (Val.arr es).tree, h1, h2, ?_, ?_⟩
    · exact build_view (Val.arr es) none
        { g with _j := ['['] ++ Val.renderElems es ++ [',', ']'], _i := 0 } _ _
        (by intro p hp; cases hp) (fun _ _ _ => by simp only [Val.build])
        (Nat.lt_succ_self _)
    · exact build_view (Val.arr es) none
        { g with _j := ['['] ++ Val.renderElems es ++ [']'], _i := 0 } _ _
        (by intro p hp; cases hp) (fun _ _ _ => rfl) (Nat.lt_succ_self _)
  · have h1 := parse_obj_trailing ms hok2 g
    have h2 := parse_obj ms hok2 g []
    have e1 : '{' :: (Val.renderMembersCommas ms ++ ['}']) =
        ['{'] ++ Val.renderMembers ms ++ [',', '}'] := by
      rw [renderMembersCommas_eq ms hms]; simp
    have e2 : (Val.obj ms).render ++ [] = ['{'] ++ Val.renderMembers ms ++ ['}'] := by
      simp [Val.render]
    rw [e1] at h1
    rw [e2] at h2
    refine ⟨_, _, (Val.obj ms).tree, h1, h2, ?_, ?_⟩
    · exact build_view (Val.obj ms) none
        { g with _j := ['{'] ++ Val.renderMembers ms ++ [',', '}'], _i := 0 } _ _
        (by intro p hp; cases hp) (fun _ _ _ => by simp only [Val.build])
        (Nat.lt_succ_self _)
    · exact build_view (Val.obj ms) none
        { g with _j := ['{'] ++ Val.renderMembers ms ++ ['}'], _i := 0 } _ _
        (by intro p hp; cases hp) (fun _ _ _ => rfl) (Nat.lt_succ_self _)

/-- Witness for `parse_trailing_comma`: the texts `[1,true,]` and `{"a":null,}`. -/
theorem parse_trailing_comma_witness :
    (∃ s1 s2 T, parse "[1,true,]".toList State.init = .ok (some 0) s1 ∧
      parse "[1,true]".toList State.init = .ok (some 0) s2 ∧
      view 2 s1.heap 0 = some T ∧ view 2 s2.heap 0 = some T) ∧
    (∃ s1 s2 T, parse "\x7b\"a\":null,\x7d".toList State.init = .ok (some 0) s1 ∧
      parse "\x7b\"a\":null\x7d".toList State.init = .ok (some 0) s2 ∧
      view 2 s1.heap 0 = some T ∧ view 2 s2.heap 0 = some T) :=
  parse_trailing_comma [.num ['1'], .bool true] [(['a'], .null)] (by simp) (by simp)
    (by decide) (by decide) State.init

/-! ### Strings produced by the parser -/

theorem readBack_of_ok (b : List Char) (hb : strBodyOk '"' b = true) : ReadBack b := by
  intro pre rest s hj hi
  have := parseString_loop b (s._j.length + 1) [] pre rest '"' s (by rw [hj]; simp) hi hb
    (by rw [hj]; simp; omega)
  simpa using this

/-- C18: on any input on which `parse` returns a node, every `String` value and every object
key the parser produced has each of its double quotes directly after a backslash and does not
end with a backslash; so the text `toString` writes for it, the value between two double
quotes, is read back by the string production up to exactly the added closing quote. -/
theorem parsed_strings_wellformed (text : List Char) (g : State) (r : Nat) (s0 : State)
    (hparse : parse text g = .ok (some r) s0) (i : Nat) (hi : g.heap.length ≤ i) :
    (∀ b, (deref s0.heap i).payload = .String b →
      quotesEscaped b ∧ ¬ endsWithBackslash b ∧ ReadBack b) ∧
    (∀ m, (deref s0.heap i).payload = .Object m → ∀ a ∈ m,
      quotesEscaped a.1 ∧ ¬ endsWithBackslash a.1 ∧ ReadBack a.1) := by
  obtain ⟨hI, _, _⟩ := parse_inv text g r s0 hparse
  by_cases hlt : i < s0.heap.length
  · obtain ⟨_, c2⟩ := hI i hi hlt
    refine ⟨fun b hb => ?_, fun m hm a ha => ?_⟩
    · rw [hb] at c2
      exact ⟨((strBodyOk_iff b).1 c2.1).1, ((strBodyOk_iff b).1 c2.1).2, readBack_of_ok b c2.1⟩
    · rw [hm] at c2
      have hk := (c2.2 a ha).1
      exact ⟨((strBodyOk_iff a.1).1 hk).1, ((strBodyOk_iff a.1).1 hk).2, readBack_of_ok a.1 hk⟩
  · have hd : deref s0.heap i = ⟨.Null, none, []⟩ := by
      unfold deref
      rw [List.getD_eq_getElem?_getD, List.getElem?_eq_none (by omega)]
      rfl
    refine ⟨fun b hb => ?_, fun m hm => ?_⟩
    · rw [hd] at hb; cases hb
    · rw [hd] at hm; cases hm

/-- Witness for `parsed_strings_wellformed`: the string `a\"b` parsed from the text
`{"k":"a\"b"}`. -/
theorem parsed_strings_wellformed_witness :
    parse "\x7b\"k\":\"a\\\"b\"\x7d".toList State.init =
      .ok (some 0) ⟨"\x7b\"k\":\"a\\\"b\"\x7d".toList, 11,
        [⟨.Object [(['k'], 2)], none, [2]⟩, ⟨.String ['k'], none, []⟩,
          ⟨.String ['a', '\\', '"', 'b'], some 0, []⟩], 2, [], [1]⟩ ∧
    ((∀ b, (deref [⟨.Object [(['k'], 2)], none, [2]⟩, ⟨.String ['k'], none, []⟩,
          ⟨.String ['a', '\\', '"', 'b'], some 0, []⟩] 2).payload = .String b →
      quotesEscaped b ∧ ¬ endsWithBackslash b ∧ ReadBack b) ∧
    (∀ m, (deref [⟨.Object [(['k'], 2)], none, [2]⟩, ⟨.String ['k'], none, []⟩,
          ⟨.String ['a', '\\', '"', 'b'], some 0, []⟩] 2).payload = .Object m → ∀ a ∈ m,
      quotesEscaped a.1 ∧ ¬ endsWithBackslash a.1 ∧ ReadBack a.1)) :=
  ⟨by decide!,
    parsed_strings_wellformed "\x7b\"k\":\"a\\\"b\"\x7d".toList State.init 0
      ⟨"\x7b\"k\":\"a\\\"b\"\x7d".toList, 11,
        [⟨.Object [(['k'], 2)], none, [2]⟩, ⟨.String ['k'], none, []⟩,
          ⟨.String ['a', '\\', '"', 'b'], some 0, []⟩], 2, [], [1]⟩
      (by decide!) 2 (by decide)⟩

/-! ### Scanner primitives -/

/-- C19: with `throwErr = false` the loop of `_skipWhiteSpaces` runs `_iis()` and then, when
that did not hit the end, `_ii()` as well, so every turn advances two characters. On the
buffer ` ab` with the cursor on the space it stops on `b`, having skipped the non-whitespace
`a`; on a buffer of two spaces it throws `UnexpectedEndOfInput` although it was asked not to.
With `throwErr = true` the same call on ` ab` stops on `a`. -/
theorem skipWhiteSpaces_false_skips :
    _skipWhiteSpaces false ⟨" ab".toList, 0, [], 0, [], []⟩ =
      .ok () ⟨" ab".toList, 2, [], 0, [], []⟩ ∧
    _skipWhiteSpaces false ⟨"  ".toList, 0, [], 0, [], []⟩ =
      .raise (.unexpectedEOF 2) ⟨"  ".toList, 2, [], 0, [], []⟩ ∧
    _skipWhiteSpaces true ⟨" ab".toList, 0, [], 0, [], []⟩ =
      .ok () ⟨" ab".toList, 1, [], 0, [], []⟩ := by
  decide!

/-- C20 (counterexample): the read of the current character, `_c()`, does not fail at the end
of the buffer: on the empty buffer, and with the cursor at the end of `ab`, it returns the
terminator `'\0'` of the `std::string`. -/
theorem peek_current_at_end :
    _c ⟨[], 0, [], 0, [], []⟩ = .ok '\x00' ⟨[], 0, [], 0, [], []⟩ ∧
    _c ⟨"ab".toList, 2, [], 0, [], []⟩ = .ok '\x00' ⟨"ab".toList, 2, [], 0, [], []⟩ := by
  decide!

/-- C20 (amended): for every buffer, cursor and offset, the read with an offset, `_c(int)`,
returns the character at index cursor + offset when that index is at least `0` and less than
the length, and fails with `UnexpectedEndOfInput` otherwise; the read of the current character
without an offset, `_c()`, is not checked: it returns the character under the cursor when the
cursor is in range, and the terminator `'\0'` when the cursor is at the end of the buffer (in
particular on an empty buffer), without failing. -/
theorem peek_spec (s : State) (i : Int) :
    (∀ c, 0 ≤ s._i + i → s._j[(s._i + i).toNat]? = some c → _cAt i s = .ok c s) ∧
    (¬ (0 ≤ s._i + i ∧ s._i + i < s._j.length) →
      _cAt i s = .raise (.unexpectedEOF s._i) s) ∧
    (∀ c, 0 ≤ s._i → s._j[s._i.toNat]? = some c → _c s = .ok c s) ∧
    (s._i = s._j.length → _c s = .ok '\x00' s) := by
  refine ⟨?_, ?_, ?_, ?_⟩
  · intro c h0 hc
    have hlt : (s._i + i).toNat < s._j.length := by
      by_contra hge
      rw [List.getElem?_eq_none (by omega)] at hc
      cases hc
    have hg : geSize (i + s._i) s._j.length = false := by
      simp only [geSize, Bool.or_eq_false_iff, decide_eq_false_iff_not]
      omega
    simp only [_cAt, hg, Bool.false_eq_true, if_false]
    rw [List.getD_eq_getElem?_getD, hc]
    rfl
  · intro h
    have hg : geSize (i + s._i) s._j.length = true := by
      simp only [geSize, Bool.or_eq_true, decide_eq_true_eq]
      omega
    simp only [_cAt, hg, if_true]
    rfl
  · intro c h0 hc
    have hlt : s._i.toNat < s._j.length := by
      by_contra hge
      rw [List.getElem?_eq_none (by omega)] at hc
      cases hc
    have hr : 0 ≤ s._i ∧ s._i ≤ s._j.length := by omega
    simp only [_c, hr, and_self, if_true]
    rw [List.getD_eq_getElem?_getD, hc]
    rfl
  · intro h
    have hr : 0 ≤ s._i ∧ s._i ≤ s._j.length := by omega
    simp only [_c, hr, and_self, if_true]
    rw [List.getD_eq_getElem?_getD, List.getElem?_eq_none (by omega)]
    rfl

/-- Witness for `peek_spec`: the buffer `ab` with the cursor on `b`, and the offset `-1`. -/
theorem peek_spec_witness :
    _cAt (-1) ⟨"ab".toList, 1, [], 0, [], []⟩ = .ok 'a' ⟨"ab".toList, 1, [], 0, [], []⟩ ∧
    _cAt 1 ⟨"ab".toList, 1, [], 0, [], []⟩ =
      .raise (.unexpectedEOF 1) ⟨"ab".toList, 1, [], 0, [], []⟩ ∧
    _c ⟨"ab".toList, 1, [], 0, [], []⟩ = .ok 'b' ⟨"ab".toList, 1, [], 0, [], []⟩ ∧
    _c ⟨"ab".toList, 2, [], 0, [], []⟩ = .ok '\x00' ⟨"ab".toList, 2, [], 0, [], []⟩ :=
  ⟨(peek_spec ⟨"ab".toList, 1, [], 0, [], []⟩ (-1)).1 'a' (by decide) (by decide),
    (peek_spec ⟨"ab".toList, 1, [], 0, [], []⟩ 1).2.1 (by decide),
    (peek_spec ⟨"ab".toList, 1, [], 0, [], []⟩ 0).2.2.1 'b' (by decide) (by decide),
    (peek_spec ⟨"ab".toList, 2, [], 0, [], []⟩ 0).2.2.2 (by decide)⟩

/-! ### `Object::remove` -/

theorem Fine.bind {α β : Type} {j : List Char} {P : α → State → Prop}
    {Q : β → State → Prop} {m : M α} {f : α → M β} {s : State} (h1 : Fine j P (m s))
    (h2 : ∀ a s1, m s = .ok a s1 → s1._j = j → CursorOK s1 → P a s1 → Fine j Q (f a s1)) :
    Fine j Q ((m >>= f) s) := by
  rw [bind_apply]
  cases hm : m s with
  | ok a s1 =>
    rw [hm] at h1
    exact h2 a s1 hm h1.1 h1.2.1 h1.2.2
  | raise e s1 =>
    rw [hm] at h1
    exact h1

theorem Fine.relax {α : Type} {j : List Char} {Q1 Q2 : α → State → Prop} {r : Res α}
    (h : Fine j Q1 r) (hq : ∀ a s, Q1 a s → Q2 a s) : Fine j Q2 r := by
  cases r with
  | ok a s => exact ⟨h.1, h.2.1, hq a s h.2.2⟩
  | raise e s => exact h

theorem CursorOK.of_eq {s s' : State} (h : CursorOK s) (hj : s'._j = s._j)
    (hi : s'._i = s._i) : CursorOK s' := by
  unfold CursorOK at h ⊢
  rw [hj, hi]
  exact h

/-- A throw of anything but the undefined read and `UnexpectedCharacter`, from a state whose
cursor is fine. -/
theorem Fine.raise_of {α : Type} {j : List Char} {Q : α → State → Prop} (e : Exc) (s : State)
    (hj : s._j = j) (hc : CursorOK s) (h1 : e ≠ .undefinedRead)
    (h2 : ∀ c pos, e ≠ .unexpectedChar c pos) :
    Fine j Q (.raise e s : Res α) :=
  ⟨hj, h1, hc.1, hc.2.1, fun c pos he => absurd he (h2 c pos)⟩

theorem _c_run (s : State) (h : CursorOK s) :
    _c s = .ok (s._j.getD s._i.toNat '\x00') s := by
  simp only [_c, h.1, h.2.1, and_self, if_true]

/-- A step that starts with the unchecked read, from a cursor that is fine. -/
theorem Fine.bind_c {β : Type} {j : List Char} {Q : β → State → Prop} {f : Char → M β}
    {s : State} (h : CursorOK s)
    (h2 : ∀ c, c = s._j.getD s._i.toNat '\x00' → Fine j Q (f c s)) :
    Fine j Q ((_c >>= f) s) := by
  rw [bind_apply, _c_run s h]
  exact h2 _ rfl

theorem getD_terminator (s : State) (h : s._i = s._j.length) :
    s._j.getD s._i.toNat '\x00' = '\x00' := by
  rw [List.getD_eq_getElem?_getD, List.getElem?_eq_none (by omega)]
  rfl

theorem cursor_lt_of_char (s : State) (h : CursorOK s)
    (hc : s._j.getD s._i.toNat '\x00' ≠ '\x00') : s._i < s._j.length := by
  rcases lt_or_eq_of_le h.2.1 with h1 | h1
  · exact h1
  · exact absurd (getD_terminator s h1) hc

theorem _ii_fine (s : State) (h : CursorOK s) (hlt : s._i < s._j.length) :
    Fine s._j (fun _ s' => s'._i < s'._j.length) (_ii s) := by
  have h0 := h.1
  simp only [_ii]
  split
  · refine ⟨rfl, by simp [Exc.noConfusion], ?_, ?_, by intro c pos he; cases he⟩
    · show 0 ≤ s._i + 1
      omega
    · show s._i + 1 ≤ s._j.length
      omega
  · rename_i hg
    simp only [geSize, Bool.or_eq_true, decide_eq_true_eq, not_or, not_lt, not_le] at hg
    exact ⟨rfl, ⟨hg.1, le_of_lt hg.2, fun he => by
      have : s._i + 1 = s._j.length := he
      omega⟩, hg.2⟩

theorem _iis_fine (s : State) (h : CursorOK s) (hlt : s._i < s._j.length) :
    Fine s._j (fun _ _ => True) (_iis s) := by
  have h0 := h.1
  simp only [_iis]
  split
  · refine ⟨rfl, ⟨?_, ?_, ?_⟩, trivial⟩
    · show (0 : Int) ≤ (s._j.length : Int) - 1
      omega
    · show (s._j.length : Int) - 1 ≤ s._j.length
      omega
    · intro he
      have : (s._j.length : Int) - 1 = s._j.length := he
      omega
  · rename_i hg
    simp only [geSize, Bool.or_eq_true, decide_eq_true_eq, not_or, not_lt, not_le] at hg
    exact ⟨rfl, ⟨hg.1, le_of_lt hg.2, fun he => by
      have : s._i + 1 = s._j.length := he
      omega⟩, trivial⟩

theorem _cAt_fine (i : Int) (s : State) (h : CursorOK s) :
    Fine s._j (fun c s' => s' = s ∧ c = s._j.getD (s._i + i).toNat '\x00' ∧
      0 ≤ i + s._i ∧ i + s._i < s._j.length) (_cAt i s) := by
  simp only [_cAt]
  split
  · exact Fine.raise_of _ _ rfl h (by simp [Exc.noConfusion]) (by intro c pos he; cases he)
  · rename_i hg
    simp only [geSize, Bool.or_eq_true, decide_eq_true_eq, not_or, not_lt, not_le] at hg
    exact ⟨rfl, h, rfl, rfl, hg.1, hg.2⟩

theorem unexpectedChar_fine {α : Type} (s : State) (h : CursorOK s)
    (Q : α → State → Prop) : Fine s._j Q ((_unexpectedCharErr >>= raise) s) := by
  simp only [_unexpectedCharErr, bind_apply, _c_run s h, raise_apply]
  refine ⟨rfl, by simp [Exc.noConfusion], h.1, h.2.1, ?_⟩
  intro c pos he hp
  injection he with _ he
  exact h.2.2 (by rw [he, hp])

theorem _eq_loop_fine (lit : List Char) : ∀ (i : Int) (s : State), CursorOK s →
    0 ≤ s._i + i →
    Fine s._j (fun b s' => s' = s ∧
      (b = true → ∃ post, s._j.drop (s._i + i).toNat = lit ++ post)) (_eq.loop lit i s) := by
  induction lit with
  | nil =>
    intro i s h _
    exact ⟨rfl, h, rfl, fun _ => ⟨_, rfl⟩⟩
  | cons ch rest ih =>
    intro i s h h0
    rw [_eq.loop]
    apply Fine.bind (_cAt_fine i s h)
    intro c s1 _ _ _ ⟨e1, hc, hr1, hr2⟩
    subst e1
    split
    · exact ⟨rfl, h, rfl, fun hb => by cases hb⟩
    · rename_i hcc
      have hcc' : c = ch := by simpa using hcc
      have := ih (i + 1) s1 h (by omega)
      refine Fine.relax this ?_
      intro b s' ⟨e, hb⟩
      refine ⟨e, fun hbt => ?_⟩
      obtain ⟨post, hp⟩ := hb hbt
      refine ⟨post, ?_⟩
      have hn : (s1._i + (i + 1)).toNat = (s1._i + i).toNat + 1 := by omega
      rw [hn] at hp
      have hlt : (s1._i + i).toNat < s1._j.length := by omega
      rw [List.drop_eq_getElem_cons hlt, hp]
      have hg : s1._j.getD (s1._i + i).toNat '\x00' = s1._j[(s1._i + i).toNat] := by
        rw [List.getD_eq_getElem?_getD, List.getElem?_eq_getElem hlt]
        rfl
      rw [← hg, ← hc, hcc']
      rfl

theorem _eq_fine (lit : List Char) (s : State) (h : CursorOK s) :
    Fine s._j (fun b s' => s' = s ∧
      (b = true → ∃ post, s._j.drop s._i.toNat = lit ++ post)) (_eq lit s) := by
  have := _eq_loop_fine lit 0 s h (by have := h.1; omega)
  simpa [_eq] using this

/-- After a literal is matched, `_i += k` moves the cursor to the end of the literal, which is
the end of the buffer only when the literal ends the text. -/
theorem lit_step (s : State) (h : CursorOK s) (lit post : List Char)
    (hd : s._j.drop s._i.toNat = lit ++ post)
    (hl : lit = "null".toList ∨ lit = "true".toList ∨ lit = "false".toList) :
    CursorOK { s with _i := s._i + lit.length } := by
  have h0 := h.1
  have hlen : s._j.length - s._i.toNat = lit.length + post.length := by
    rw [← List.length_drop, hd, List.length_append]
  have hle : s._i.toNat + lit.length ≤ s._j.length := by
    have := h.2.1
    omega
  refine ⟨?_, ?_, ?_⟩
  · show 0 ≤ s._i + lit.length
    omega
  · show s._i + lit.length ≤ s._j.length
    omega
  · intro he
    have he' : s._i + lit.length = s._j.length := he
    right
    have hp : post = [] := by
      apply List.eq_nil_of_length_eq_zero
      omega
    refine ⟨s._j.take s._i.toNat, lit, ?_, hl⟩
    have := List.take_append_drop s._i.toNat s._j
    rw [hd, hp, List.append_nil] at this
    exact this.symm

theorem skipWhiteSpaces_loop_fine (fuel : Nat) : ∀ (s : State), CursorOK s →
    Fine s._j (fun _ _ => True) (_skipWhiteSpaces.loop true fuel s) := by
  induction fuel with
  | zero =>
    intro s h
    exact Fine.raise_of _ _ rfl h (by simp [Exc.noConfusion]) (by intro c pos he; cases he)
  | succ f ih =>
    intro s h
    simp only [_skipWhiteSpaces.loop, _w, bind_apply, _c_run s h, pure_apply, Bool.not_true,
      Bool.false_eq_true, if_false]
    split
    · rename_i hw
      have hlt : s._i < s._j.length := by
        apply cursor_lt_of_char s h
        intro hz
        rw [hz] at hw
        revert hw
        decide
      have := Fine.bind (Q := fun _ _ => True) (f := fun _ => _skipWhiteSpaces.loop true f)
        (_ii_fine s h hlt) (fun a s1 _ hj hc _ => by
          have := ih s1 hc
          rw [hj] at this
          exact this)
      rw [bind_apply] at this
      exact this
    · exact ⟨rfl, h, trivial⟩

theorem skipWhiteSpaces_fine (s : State) (h : CursorOK s) :
    Fine s._j (fun _ _ => True) (_skipWhiteSpaces true s) :=
  skipWhiteSpaces_loop_fine _ s h

/-- Allocating and attaching a node does not move the cursor. -/
theorem leaf_fine (pl : Payload) (parent : Option Nat) (s : State) (h : CursorOK s) :
    Fine s._j (fun _ _ => True)
      ((newNode pl >>= fun n => _hPrt parent n >>= fun _ => (pure n : M Nat)) s) := by
  simp only [bind_apply, newNode, _hPrt_eq, pure_apply]
  exact ⟨rfl, h.of_eq rfl rfl, trivial⟩

theorem dtor_cursor (fuel : Nat) : ∀ (p : Nat) (s : State),
    match Node.dtor fuel p s with
    | .ok _ s' => s'._j = s._j ∧ s'._i = s._i
    | .raise e s' => s'._j = s._j ∧ s'._i = s._i ∧ e = .outOfFuel := by
  induction fuel with
  | zero => intro p s; simp [Node.dtor, raise]
  | succ f ih =>
    intro p s
    rw [Node.dtor]
    cases hl : (deref s.heap p).children.getLast? with
    | none => simp [hl]
    | some x =>
      simp only [hl]
      have h1 := ih x { s with released := s.released ++ [x] }
      cases hd : Node.dtor f x { s with released := s.released ++ [x] } with
      | raise e s1 =>
        rw [hd] at h1
        simp only
        exact h1
      | ok u s1 =>
        rw [hd] at h1
        simp only
        have h2 := ih p { s1 with heap := s1.heap.modify (fun c => { c with children := c.children.dropLast }) p }
        cases hd2 : Node.dtor f p { s1 with heap := s1.heap.modify (fun c => { c with children := c.children.dropLast }) p } with
        | raise e s2 =>
          rw [hd2] at h2
          exact ⟨h2.1.trans h1.1, h2.2.1.trans h1.2, h2.2.2⟩
        | ok u2 s2 =>
          rw [hd2] at h2
          exact ⟨h2.1.trans h1.1, h2.2.trans h1.2⟩

theorem delete_fine (n : Nat) (s : State) (h : CursorOK s) :
    Fine s._j (fun _ _ => True) (Node.delete n s) := by
  have := dtor_cursor (2 * s.heap.length + 1) n { s with released := s.released ++ [n] }
  unfold Node.delete
  cases hd : Node.dtor (2 * s.heap.length + 1) n { s with released := s.released ++ [n] } with
  | ok u s1 =>
    rw [hd] at this
    exact ⟨this.1, h.of_eq this.1 this.2, trivial⟩
  | raise e s1 =>
    rw [hd] at this
    obtain ⟨hj, hi, he⟩ := this
    subst he
    exact Fine.raise_of _ _ hj (h.of_eq hj hi) (by simp [Exc.noConfusion])
      (by intro c pos he; cases he)

theorem setS_fine (o key val : Nat) (s : State) (h : CursorOK s) :
    Fine s._j (fun _ _ => True) (Object.setS o key val s) := by
  unfold Object.setS
  cases (deref s.heap key).payload <;> exact ⟨rfl, h.of_eq rfl rfl, trivial⟩

theorem parseString_loop_fine (c : Char) (fuel : Nat) : ∀ (val : List Char) (s : State),
    CursorOK s → s._i < s._j.length →
    Fine s._j (fun _ s' => s'._i < s'._j.length) (_parseString.loop c fuel val s) := by
  induction fuel with
  | zero =>
    intro val s h _
    exact Fine.raise_of _ _ rfl h (by simp [Exc.noConfusion]) (by intro c pos he; cases he)
  | succ f ih =>
    intro val s h hlt
    rw [_parseString.loop]
    apply Fine.bind_c h
    intro cur _
    have hgo : Fine s._j (fun _ s' => s' = s)
        ((if cur ≠ c then (pure true : M Bool) else do
          let p ← _cAt (-1)
          pure (p == '\\')) s) := by
      split
      · exact ⟨rfl, h, rfl⟩
      · apply Fine.bind (_cAt_fine (-1) s h)
        intro p s2 _ _ _ ⟨e2, _⟩
        subst e2
        exact ⟨rfl, h, rfl⟩
    apply Fine.bind hgo
    intro go s2 _ _ _ e2
    subst e2
    split
    · apply Fine.bind_c h
      intro ch _
      apply Fine.bind (_ii_fine s2 h hlt)
      intro _ s4 _ hj hc hlt4
      have := ih (val ++ [ch]) s4 hc hlt4
      rw [hj] at this
      exact this
    · exact ⟨rfl, h, hlt⟩

theorem parseString_fine (parent : Option Nat) (s : State) (h : CursorOK s)
    (hlt : s._i < s._j.length) :
    Fine s._j (fun _ _ => True) (_parseString parent s) := by
  rw [_parseString]
  apply Fine.bind_c h
  intro c _
  apply Fine.bind (_ii_fine s h hlt)
  intro _ s2 _ hj2 hc2 hlt2
  apply Fine.bind (P := fun _ s' => s'._i < s'._j.length) (by
    rw [← hj2]
    exact parseString_loop_fine c (s2._j.length + 1) [] s2 hc2 hlt2)
  intro val s3 _ hj3 hc3 hlt3
  apply Fine.bind (P := fun _ _ => True) (by
    have := _ii_fine s3 hc3 hlt3
    rw [hj3] at this
    exact Fine.relax this (fun _ _ _ => trivial))
  intro _ s4 _ hj4 hc4 _
  have := leaf_fine (.String val) parent s4 hc4
  rw [hj4] at this
  exact this

theorem isNumChar_terminator : isNumChar '\x00' = false := by decide

theorem parseNumber_loop_fine (fuel : Nat) : ∀ (str : List Char) (s : State),
    CursorOK s → Fine s._j (fun _ _ => True) (_parseNumber.loop fuel str s) := by
  induction fuel with
  | zero =>
    intro str s h
    exact Fine.raise_of _ _ rfl h (by simp [Exc.noConfusion]) (by intro c pos he; cases he)
  | succ f ih =>
    intro str s h
    rw [_parseNumber.loop]
    apply Fine.bind_c h
    intro cur hcur
    split
    · rename_i hn
      have hlt : s._i < s._j.length := by
        apply cursor_lt_of_char s h
        intro hz
        rw [hcur, hz, isNumChar_terminator] at hn
        cases hn
      apply Fine.bind_c h
      intro ch _
      apply Fine.bind (_ii_fine s h hlt)
      intro _ s4 _ hj hc _
      have := ih (str ++ [ch]) s4 hc
      rw [hj] at this
      exact this
    · exact ⟨rfl, h, trivial⟩

theorem parseNumber_fine (parent : Option Nat) (s : State) (h : CursorOK s) :
    Fine s._j (fun _ _ => True) (_parseNumber parent s) := by
  rw [_parseNumber]
  apply Fine.bind (P := fun _ _ => True) (parseNumber_loop_fine (s._j.length + 1) [] s h)
  intro str s1 _ hj1 hc1 _
  by_cases hq : str.getD (strtod str).2 '\x00' ≠ '\x00'
  · rw [if_pos hq]
    exact Fine.raise_of _ _ hj1 hc1 (by simp [Exc.noConfusion]) (by intro c pos he; cases he)
  · rw [if_neg hq]
    have := leaf_fine (.Number (strtod str).1) parent s1 hc1
    rw [hj1] at this
    exact this

theorem parseNull_fine (parent : Option Nat) (s : State) (h : CursorOK s) :
    Fine s._j (fun _ _ => True) (_parseNull parent s) := by
  rw [_parseNull]
  apply Fine.bind (_eq_fine "null".toList s h)
  intro e s1 _ _ _ ⟨e1, hb⟩
  subst e1
  cases e with
  | false => exact unexpectedChar_fine s1 h _
  | true =>
    obtain ⟨post, hd⟩ := hb rfl
    have hs : CursorOK { s1 with _i := s1._i + 4 } :=
      lit_step s1 h "null".toList post hd (Or.inl rfl)
    simp only [Bool.not_true, Bool.false_eq_true, if_false, bind_apply, addI]
    exact leaf_fine .Null parent { s1 with _i := s1._i + 4 } hs

theorem parseBoolean_fine (parent : Option Nat) (s : State) (h : CursorOK s) :
    Fine s._j (fun _ _ => True) (_parseBoolean parent s) := by
  rw [_parseBoolean]
  apply Fine.bind (_eq_fine "true".toList s h)
  intro t s1 _ _ _ ⟨e1, hb⟩
  subst e1
  have hattach : ∀ (b : Nat) (s2 : State), s2._j = s1._j → CursorOK s2 →
      Fine s1._j (fun _ _ => True)
        ((_hPrt parent b >>= fun _ => (pure b : M Nat)) s2) := by
    intro b s2 hj hc
    simp only [bind_apply, _hPrt_eq, pure_apply]
    exact ⟨hj, hc.of_eq rfl rfl, trivial⟩
  cases t with
  | true =>
    obtain ⟨post, hd⟩ := hb rfl
    have hs : CursorOK { s1 with _i := s1._i + 4 } :=
      lit_step s1 h "true".toList post hd (Or.inr (Or.inl rfl))
    simp only [if_true, bind_apply, addI, newNode, pure_apply]
    exact hattach _ _ rfl (hs.of_eq rfl rfl)
  | false =>
    simp only [Bool.false_eq_true, if_false]
    apply Fine.bind (P := fun _ _ => True)
    · apply Fine.bind (_eq_fine "false".toList s1 h)
      intro f s2 _ _ _ ⟨e2, hb2⟩
      subst e2
      cases f with
      | true =>
        obtain ⟨post, hd⟩ := hb2 rfl
        have hs : CursorOK { s2 with _i := s2._i + 5 } :=
          lit_step s2 h "false".toList post hd (Or.inr (Or.inr rfl))
        simp only [if_true, bind_apply, addI, newNode, pure_apply]
        exact ⟨rfl, hs.of_eq rfl rfl, trivial⟩
      | false =>
        simp only [Bool.false_eq_true, if_false]
        exact unexpectedChar_fine s2 h _
    · intro b s2 _ hj hc _
      exact hattach b s2 hj hc

/-- A container routine is safe when its loop is and stops on a character of the buffer. -/
theorem container_fine (pl : Payload) (loop : Nat → M Unit)
    (ihl : ∀ a s, CursorOK s →
      Fine s._j (fun _ s' => s'._i < s'._j.length) (loop a s))
    (parent : Option Nat) (s : State) (h : CursorOK s) (hlt : s._i < s._j.length) :
    Fine s._j (fun _ _ => True) ((do
      let a ← newNode pl
      _hPrt parent a
      _ii
      loop a
      let _ ← _iis
      pure a : M Nat) s) := by
  have hbind := newNode_hPrt pl parent s (fun a => _ii >>= fun _ =>
    loop a >>= fun _ => _iis >>= fun _ => pure a)
  simp only [bind_assoc] at hbind ⊢
  rw [hbind]
  have hl : CursorOK (leaf pl parent s) := h.of_eq rfl rfl
  apply Fine.bind (P := fun _ s' => s'._i < s'._j.length)
    (_ii_fine (leaf pl parent s) hl hlt)
  intro _ s1 _ hj1 hc1 _
  have hj1' : s1._j = s._j := hj1
  apply Fine.bind (P := fun _ s' => s'._i < s'._j.length)
  · have := ihl s.heap.length s1 hc1
    rw [hj1'] at this
    exact this
  · intro _ s2 _ hj2 hc2 hlt2
    have hj2' : s2._j = s._j := hj2
    apply Fine.bind (P := fun _ _ => True)
    · have := _iis_fine s2 hc2 hlt2
      rw [hj2'] at this
      exact this
    · intro _ s3 _ hj3 hc3 _
      exact ⟨hj3, hc3, trivial⟩

theorem comma_step_fine (c3 : Char) (s : State) (h : CursorOK s)
    (hc : c3 = s._j.getD s._i.toNat '\x00') :
    Fine s._j (fun _ _ => True) ((if c3 = ',' then _ii else pure ()) s) := by
  split
  · rename_i hcm
    have hlt : s._i < s._j.length := by
      apply cursor_lt_of_char s h
      rw [← hc, hcm]
      decide
    exact Fine.relax (_ii_fine s h hlt) (fun _ _ _ => trivial)
  · exact ⟨rfl, h, trivial⟩

theorem lt_of_char_eq (s : State) (h : CursorOK s) (c d : Char)
    (hc : c = s._j.getD s._i.toNat '\x00') (hd : c = d) (hz : d ≠ '\x00') :
    s._i < s._j.length := by
  apply cursor_lt_of_char s h
  rw [← hc, hd]
  exact hz

/-- One turn of the array loop is safe, given that `_parse` and the rest of the loop are. -/
theorem arrayLoop_fine_step (fuel : Nat)
    (ihp : ∀ parent s, CursorOK s → Fine s._j (fun _ _ => True) (_parse fuel parent s))
    (ihl : ∀ a s, CursorOK s →
      Fine s._j (fun _ s' => s'._i < s'._j.length) (_parseArray.loop fuel a s))
    (a : Nat) (s : State) (h : CursorOK s) :
    Fine s._j (fun _ s' => s'._i < s'._j.length) (_parseArray.loop (fuel + 1) a s) := by
  rw [_parseArray.loop]
  apply Fine.bind_c h
  intro c hc
  by_cases hcb : c ≠ ']'
  · rw [if_pos hcb]
    apply Fine.bind (skipWhiteSpaces_fine s h)
    intro _ s1 _ hj1 hc1 _
    apply Fine.bind (P := fun _ _ => True)
    · have := ihp (some a) s1 hc1
      rw [hj1] at this
      exact this
    intro _ s2 _ hj2 hc2 _
    apply Fine.bind (P := fun _ _ => True)
    · have := skipWhiteSpaces_fine s2 hc2
      rw [hj2] at this
      exact this
    intro _ s3 _ hj3 hc3 _
    apply Fine.bind_c hc3
    intro c3 hc3'
    by_cases hbad : c3 ≠ ',' ∧ c3 ≠ ']'
    · rw [if_pos hbad]
      have := unexpectedChar_fine (α := Unit) s3 hc3 (fun _ s' => s'._i < s'._j.length)
      rw [hj3] at this
      exact this
    · rw [if_neg hbad]
      apply Fine.bind (P := fun _ _ => True)
      · have := comma_step_fine c3 s3 hc3 hc3'
        rw [hj3] at this
        exact this
      intro _ s5 _ hj5 hc5 _
      have := ihl a s5 hc5
      rw [hj5] at this
      exact this
  · rw [if_neg hcb]
    have hcc : c = ']' := by simpa using hcb
    exact ⟨rfl, h, lt_of_char_eq s h c ']' hc hcc (by decide)⟩

/-- One turn of the object loop is safe. -/
theorem objectLoop_fine_step (fuel : Nat)
    (ihp : ∀ parent s, CursorOK s → Fine s._j (fun _ _ => True) (_parse fuel parent s))
    (ihl : ∀ o s, CursorOK s →
      Fine s._j (fun _ s' => s'._i < s'._j.length) (_parseObject.loop fuel o s))
    (o : Nat) (s : State) (h : CursorOK s) :
    Fine s._j (fun _ s' => s'._i < s'._j.length) (_parseObject.loop (fuel + 1) o s) := by
  rw [_parseObject.loop]
  apply Fine.bind_c h
  intro c hc
  by_cases hcb : c ≠ '}'
  · rw [if_pos hcb]
    apply Fine.bind (skipWhiteSpaces_fine s h)
    intro _ s1 _ hj1 hc1 _
    apply Fine.bind_c hc1
    intro c1 hc1'
    by_cases hq : c1 ≠ '"'
    · rw [if_pos hq]
      have := unexpectedChar_fine (α := Unit) s1 hc1 (fun _ s' => s'._i < s'._j.length)
      rw [hj1] at this
      exact this
    rw [if_neg hq]
    have hq' : c1 = '"' := by simpa using hq
    apply Fine.bind (P := fun _ _ => True)
    · have := parseString_fine none s1 hc1 (lt_of_char_eq s1 hc1 c1 '"' hc1' hq' (by decide))
      rw [hj1] at this
      exact this
    intro key s2 _ hj2 hc2 _
    apply Fine.bind (P := fun _ _ => True)
    · have := skipWhiteSpaces_fine s2 hc2
      rw [hj2] at this
      exact this
    intro _ s3 _ hj3 hc3 _
    apply Fine.bind_c hc3
    intro c2 hc2'
    by_cases hcol : c2 ≠ ':'
    · rw [if_pos hcol]
      have := unexpectedChar_fine (α := Unit) s3 hc3 (fun _ s' => s'._i < s'._j.length)
      rw [hj3] at this
      exact this
    rw [if_neg hcol]
    have hcol' : c2 = ':' := by simpa using hcol
    apply Fine.bind (P := fun _ _ => True)
    · have := _ii_fine s3 hc3 (lt_of_char_eq s3 hc3 c2 ':' hc2' hcol' (by decide))
      rw [hj3] at this
      exact Fine.relax this (fun _ _ _ => trivial)
    intro _ s4 _ hj4 hc4 _
    apply Fine.bind (P := fun _ _ => True)
    · have := ihp (some o) s4 hc4
      rw [hj4] at this
      exact this
    intro val s5 _ hj5 hc5 _
    apply Fine.bind (P := fun _ _ => True)
    · have := skipWhiteSpaces_fine s5 hc5
      rw [hj5] at this
      exact this
    intro _ s6 _ hj6 hc6 _
    apply Fine.bind_c hc6
    intro c3 hc3'
    by_cases hbad : c3 ≠ ',' ∧ c3 ≠ '}'
    · rw [if_pos hbad]
      have := unexpectedChar_fine (α := Unit) s6 hc6 (fun _ s' => s'._i < s'._j.length)
      rw [hj6] at this
      exact this
    rw [if_neg hbad]
    apply Fine.bind (P := fun _ _ => True)
    · have := comma_step_fine c3 s6 hc6 hc3'
      rw [hj6] at this
      exact this
    intro _ s7 _ hj7 hc7 _
    apply Fine.bind (P := fun _ _ => True)
    · have := setS_fine o key val s7 hc7
      rw [hj7] at this
      exact this
    intro _ s8 _ hj8 hc8 _
    apply Fine.bind (P := fun _ _ => True)
    · have := delete_fine key s8 hc8
      rw [hj8] at this
      exact this
    intro _ s9 _ hj9 hc9 _
    have := ihl o s9 hc9
    rw [hj9] at this
    exact this
  · rw [if_neg hcb]
    have hcc : c = '}' := by simpa using hcb
    exact ⟨rfl, h, lt_of_char_eq s h c '}' hc hcc (by decide)⟩

/-- Every parsing routine is safe on every buffer: from a cursor that is fine it never makes
an undefined read, never moves the cursor out of the buffer and its terminator, and returns
with a cursor that is fine. -/
theorem parse_fine (fuel : Nat) :
    (∀ parent s, CursorOK s → Fine s._j (fun _ _ => True) (_parse fuel parent s)) ∧
    (∀ parent s, CursorOK s → s._i < s._j.length →
      Fine s._j (fun _ _ => True) (_parseArray fuel parent s)) ∧
    (∀ parent s, CursorOK s → s._i < s._j.length →
      Fine s._j (fun _ _ => True) (_parseObject fuel parent s)) ∧
    (∀ a s, CursorOK s →
      Fine s._j (fun _ s' => s'._i < s'._j.length) (_parseArray.loop fuel a s)) ∧
    (∀ o s, CursorOK s →
      Fine s._j (fun _ s' => s'._i < s'._j.length) (_parseObject.loop fuel o s)) := by
  induction fuel with
  | zero =>
    refine ⟨?_, ?_, ?_, ?_, ?_⟩
    · intro a s h
      exact Fine.raise_of _ _ rfl h (by simp [Exc.noConfusion]) (by intro c pos he; cases he)
    · intro a s h _
      exact Fine.raise_of _ _ rfl h (by simp [Exc.noConfusion]) (by intro c pos he; cases he)
    · intro a s h _
      exact Fine.raise_of _ _ rfl h (by simp [Exc.noConfusion]) (by intro c pos he; cases he)
    · intro a s h
      exact Fine.raise_of _ _ rfl h (by simp [Exc.noConfusion]) (by intro c pos he; cases he)
    · intro a s h
      exact Fine.raise_of _ _ rfl h (by simp [Exc.noConfusion]) (by intro c pos he; cases he)
  | succ f ih =>
    obtain ⟨ihp, ihA, ihO, iha, iho⟩ := ih
    refine ⟨?_, ?_, ?_, arrayLoop_fine_step f ihp iha, objectLoop_fine_step f ihp iho⟩
    · intro parent s h
      rw [_parse]
      apply Fine.bind (skipWhiteSpaces_fine s h)
      intro _ s1 _ hj1 hc1 _
      apply Fine.bind_c hc1
      intro c hc
      have tr : ∀ r : Res Nat, Fine s1._j (fun _ _ => True) r →
          Fine s._j (fun _ _ => True) r := by
        intro r hr; rw [hj1] at hr; exact hr
      apply tr
      split
      · exact parseNull_fine parent s1 hc1
      split
      · exact parseBoolean_fine parent s1 hc1
      split
      · exact parseNumber_fine parent s1 hc1
      split
      · rename_i hq
        exact parseString_fine parent s1 hc1 (lt_of_char_eq s1 hc1 c '"' hc hq (by decide))
      split
      · rename_i hq
        exact ihO parent s1 hc1 (lt_of_char_eq s1 hc1 c '{' hc hq (by decide))
      split
      · rename_i hq
        exact ihA parent s1 hc1 (lt_of_char_eq s1 hc1 c '[' hc hq (by decide))
      · exact unexpectedChar_fine s1 hc1 _
    · intro parent s h hlt
      rw [_parseArray]
      exact container_fine .Array (_parseArray.loop f) iha parent s h hlt
    · intro parent s h hlt
      rw [_parseObject]
      exact container_fine (.Object []) (_parseObject.loop f) iho parent s h hlt

/-! ### The loop counters suffice -/

theorem Runs.seq {α β : Type} {P : α → State → Prop} {Q : β → State → Prop} {m : M α}
    {f : α → M β} {s : State} (h1 : Runs P (m s))
    (h2 : ∀ a s1, m s = .ok a s1 → P a s1 → Runs Q (f a s1)) :
    Runs Q ((m >>= f) s) := by
  rw [bind_apply]
  cases hm : m s with
  | ok a s1 =>
    rw [hm] at h1
    exact h2 a s1 hm h1
  | raise e s1 =>
    rw [hm] at h1
    exact h1

theorem Runs.widen {α : Type} {P Q : α → State → Prop} {r : Res α}
    (h : Runs P r) (hq : ∀ a s, P a s → Q a s) : Runs Q r := by
  cases r with
  | ok a s => exact hq a s h
  | raise e s => exact h

theorem Runs.seq_c {β : Type} {Q : β → State → Prop} {f : Char → M β}
    {s : State} (h : CursorOK s)
    (h2 : ∀ c, c = s._j.getD s._i.toNat '\x00' → Runs Q (f c s)) :
    Runs Q ((_c >>= f) s) := by
  rw [bind_apply, _c_run s h]
  exact h2 _ rfl

theorem unexpectedChar_runs {α : Type} (s : State) (Q : α → State → Prop) :
    Runs Q ((_unexpectedCharErr >>= raise) s) := by
  simp only [bind_apply, _unexpectedCharErr, _c]
  by_cases h : 0 ≤ s._i ∧ s._i ≤ s._j.length
  · rw [if_pos h]
    simp [Runs, raise]
  · rw [if_neg h]
    simp [Runs]

theorem _ii_runs (s : State) : Runs (fun _ s' => s'._i = s._i + 1) (_ii s) := by
  simp only [_ii]
  split
  · simp [bind_apply, _unexpectedEOF, raise, Runs]
  · rfl

theorem _iis_runs (s : State) (hlt : s._i < s._j.length) :
    Runs (fun _ s' => s._i ≤ s'._i) (_iis s) := by
  simp only [_iis]
  split
  · rename_i hg
    simp only [geSize, Bool.or_eq_true, decide_eq_true_eq] at hg
    show s._i ≤ (s._j.length : Int) - 1
    omega
  · show s._i ≤ s._i + 1
    omega

theorem _cAt_runs (i : Int) (s : State) : Runs (fun _ s' => s' = s) (_cAt i s) := by
  simp only [_cAt]
  split
  · simp [bind_apply, _unexpectedEOF, raise, Runs]
  · rfl

theorem _eq_loop_runs (lit : List Char) : ∀ (i : Int) (s : State),
    Runs (fun _ s' => s' = s) (_eq.loop lit i s) := by
  induction lit with
  | nil => intro i s; rfl
  | cons ch rest ih =>
    intro i s
    rw [_eq.loop]
    apply Runs.seq (_cAt_runs i s)
    intro c s1 _ e1
    subst e1
    split
    · rfl
    · exact ih _ _

theorem _eq_runs (lit : List Char) (s : State) : Runs (fun _ s' => s' = s) (_eq lit s) :=
  _eq_loop_runs lit 0 s

theorem skipWhiteSpaces_loop_runs (fuel : Nat) : ∀ (s : State), CursorOK s →
    (s._j.length : Int) - s._i < fuel →
    Runs (fun _ s' => s._i ≤ s'._i) (_skipWhiteSpaces.loop true fuel s) := by
  induction fuel with
  | zero =>
    intro s h hf
    have := h.2.1
    omega
  | succ f ih =>
    intro s h hf
    simp only [_skipWhiteSpaces.loop, _w, bind_apply, _c_run s h, pure_apply, Bool.not_true,
      Bool.false_eq_true, if_false]
    split
    · rename_i hw
      have hlt : s._i < s._j.length := by
        apply cursor_lt_of_char s h
        intro hz
        rw [hz] at hw
        revert hw
        decide
      have := Runs.seq (Q := fun _ s' => s._i ≤ s'._i)
        (f := fun _ => _skipWhiteSpaces.loop true f)
        (_ii_runs s) (fun a s1 h1 p1 => by
          have f1 := _ii_fine s h hlt
          rw [h1] at f1
          obtain ⟨j1, C1, _⟩ := f1
          have := ih s1 C1 (by rw [j1, p1]; omega)
          exact this.widen (fun _ s' hq => by rw [p1] at hq; omega))
      rw [bind_apply] at this
      exact this
    · exact le_refl _

theorem skipWhiteSpaces_runs (s : State) (h : CursorOK s) :
    Runs (fun _ s' => s._i ≤ s'._i) (_skipWhiteSpaces true s) :=
  skipWhiteSpaces_loop_runs _ s h (by have := h.1; show _ < ((s._j.length + 1 : Nat) : Int); omega)

theorem leaf_runs (pl : Payload) (parent : Option Nat) (s : State) :
    Runs (fun _ s' => s'._i = s._i)
      ((newNode pl >>= fun n => _hPrt parent n >>= fun _ => (pure n : M Nat)) s) := by
  simp only [bind_apply, newNode, _hPrt_eq, pure_apply]
  rfl

theorem setS_runs (o key val : Nat) (s : State) :
    Runs (fun _ s' => s'._i = s._i) (Object.setS o key val s) := by
  unfold Object.setS
  cases (deref s.heap key).payload <;> rfl

theorem delete_runs (key : Nat) (s : State) (h : (deref s.heap key).children = []) :
    Runs (fun _ s' => s'._i = s._i) (Node.delete key s) := by
  rw [delete_leaf key s h]
  rfl

theorem comma_step_runs (c3 : Char) (s : State) :
    Runs (fun _ s' => s._i ≤ s'._i) ((if c3 = ',' then _ii else pure ()) s) := by
  split
  · exact (_ii_runs s).widen (fun _ s' hq => by rw [hq]; omega)
  · exact le_refl _

theorem parseString_loop_runs (c : Char) (fuel : Nat) : ∀ (val : List Char) (s : State),
    CursorOK s → s._i < s._j.length → (s._j.length : Int) - s._i < fuel →
    Runs (fun _ s' => s._i ≤ s'._i) (_parseString.loop c fuel val s) := by
  induction fuel with
  | zero =>
    intro val s h _ hf
    have := h.2.1
    omega
  | succ f ih =>
    intro val s h hlt hf
    rw [_parseString.loop]
    apply Runs.seq_c h
    intro cur _
    have hgo : Runs (fun _ s' => s' = s)
        ((if cur ≠ c then (pure true : M Bool) else do
          let p ← _cAt (-1)
          pure (p == '\\')) s) := by
      split
      · rfl
      · apply Runs.seq (_cAt_runs (-1) s)
        intro p s2 _ e2
        subst e2
        rfl
    apply Runs.seq hgo
    intro go s2 _ e2
    subst e2
    split
    · apply Runs.seq_c h
      intro ch _
      apply Runs.seq (_ii_runs s2)
      intro _ s4 h4 p4
      have f4 := _ii_fine s2 h hlt
      rw [h4] at f4
      obtain ⟨j4, C4, l4⟩ := f4
      have := ih (val ++ [ch]) s4 C4 l4 (by rw [j4, p4]; omega)
      exact this.widen (fun _ s' hq => by rw [p4] at hq; omega)
    · exact le_refl _

theorem parseString_runs (parent : Option Nat) (s : State) (h : CursorOK s)
    (hlt : s._i < s._j.length) :
    Runs (fun _ s' => s._i + 1 ≤ s'._i) (_parseString parent s) := by
  rw [_parseString]
  apply Runs.seq_c h
  intro c _
  apply Runs.seq (_ii_runs s)
  intro _ s2 h2 p2
  have f2 := _ii_fine s h hlt
  rw [h2] at f2
  obtain ⟨j2, C2, l2⟩ := f2
  apply Runs.seq (P := fun _ s' => s2._i ≤ s'._i)
    (parseString_loop_runs c (s2._j.length + 1) [] s2 C2 l2 (by
      have := C2.1
      show _ < ((s2._j.length + 1 : Nat) : Int)
      omega))
  intro val s3 h3 p3
  apply Runs.seq (_ii_runs s3)
  intro _ s4 _ p4
  exact (leaf_runs (.String val) parent s4).widen (fun _ s' hq => by rw [hq, p4]; omega)

theorem parseNumber_loop_runs (fuel : Nat) : ∀ (str : List Char) (s : State),
    CursorOK s → (s._j.length : Int) - s._i < fuel →
    Runs (fun _ s' => s._i ≤ s'._i ∧
      (isNumChar (s._j.getD s._i.toNat '\x00') = true → s._i + 1 ≤ s'._i))
      (_parseNumber.loop fuel str s) := by
  induction fuel with
  | zero =>
    intro str s h hf
    have := h.2.1
    omega
  | succ f ih =>
    intro str s h hf
    rw [_parseNumber.loop]
    apply Runs.seq_c h
    intro cur hcur
    split
    · rename_i hn
      have hlt : s._i < s._j.length := by
        apply cursor_lt_of_char s h
        intro hz
        rw [hcur, hz, isNumChar_terminator] at hn
        cases hn
      apply Runs.seq_c h
      intro ch _
      apply Runs.seq (_ii_runs s)
      intro _ s4 h4 p4
      have f4 := _ii_fine s h hlt
      rw [h4] at f4
      obtain ⟨j4, C4, _⟩ := f4
      have := ih (str ++ [ch]) s4 C4 (by rw [j4, p4]; omega)
      exact this.widen (fun _ s' hq => by
        have := hq.1
        rw [p4] at this
        exact ⟨by omega, fun _ => by omega⟩)
    · rename_i hn
      refine ⟨le_refl _, fun hc => ?_⟩
      rw [← hcur] at hc
      exact absurd hc hn

theorem parseNumber_runs (parent : Option Nat) (s : State) (h : CursorOK s)
    (hn : isNumChar (s._j.getD s._i.toNat '\x00') = true) :
    Runs (fun _ s' => s._i + 1 ≤ s'._i) (_parseNumber parent s) := by
  rw [_parseNumber]
  apply Runs.seq (parseNumber_loop_runs (s._j.length + 1) [] s h (by
    have := h.1
    show _ < ((s._j.length + 1 : Nat) : Int)
    omega))
  intro str s1 _ p1
  by_cases hq : str.getD (strtod str).2 '\x00' ≠ '\x00'
  · rw [if_pos hq]
    simp [Runs, raise]
  · rw [if_neg hq]
    exact (leaf_runs (.Number (strtod str).1) parent s1).widen (fun _ s' hq => by
      have := p1.2 hn
      rw [hq]
      exact this)

theorem parseNull_runs (parent : Option Nat) (s : State) :
    Runs (fun _ s' => s._i + 1 ≤ s'._i) (_parseNull parent s) := by
  rw [_parseNull]
  apply Runs.seq (_eq_runs "null".toList s)
  intro e s1 _ e1
  subst e1
  cases e with
  | false => exact unexpectedChar_runs s1 _
  | true =>
    simp only [Bool.not_true, Bool.false_eq_true, if_false, bind_apply, addI]
    exact (leaf_runs .Null parent { s1 with _i := s1._i + 4 }).widen (fun _ s' hq => by
      rw [hq]
      show s1._i + 1 ≤ s1._i + 4
      omega)

theorem parseBoolean_runs (parent : Option Nat) (s : State) :
    Runs (fun _ s' => s._i + 1 ≤ s'._i) (_parseBoolean parent s) := by
  rw [_parseBoolean]
  apply Runs.seq (_eq_runs "true".toList s)
  intro t s1 _ e1
  subst e1
  have hattach : ∀ (b : Nat) (s2 : State), s1._i + 1 ≤ s2._i →
      Runs (fun _ s' => s1._i + 1 ≤ s'._i)
        ((_hPrt parent b >>= fun _ => (pure b : M Nat)) s2) := by
    intro b s2 hi
    simp only [bind_apply, _hPrt_eq, pure_apply]
    exact hi
  cases t with
  | true =>
    simp only [if_true, bind_apply, addI, newNode, pure_apply]
    exact hattach _ _ (by show s1._i + 1 ≤ s1._i + 4; omega)
  | false =>
    simp only [Bool.false_eq_true, if_false]
    apply Runs.seq (P := fun _ s' => s1._i + 1 ≤ s'._i)
    · apply Runs.seq (_eq_runs "false".toList s1)
      intro f s2 _ e2
      subst e2
      cases f with
      | true =>
        simp only [if_true, bind_apply, addI, newNode, pure_apply]
        show s2._i + 1 ≤ s2._i + 5
        omega
      | false =>
        simp only [Bool.false_eq_true, if_false]
        exact unexpectedChar_runs s2 _
    · intro b s2 _ hi
      exact hattach b s2 hi




/-- One turn of the array loop does not run out of fuel: the element takes at least one
character, so the rest of the loop has enough fuel left. -/
theorem arrayLoop_runs_step (B fuel : Nat)
    (ihp : ∀ parent s, Ready B parent s →
      4 * ((s._j.length : Int) - s._i) + 1 ≤ fuel →
      Runs (fun _ s' => s._i + 1 ≤ s'._i) (_parse fuel parent s))
    (ihl : ∀ a s, Ready B (some a) s →
      4 * ((s._j.length : Int) - s._i) + 2 ≤ fuel →
      Runs (fun _ s' => s._i ≤ s'._i) (_parseArray.loop fuel a s))
    (a : Nat) (s : State) (hR : Ready B (some a) s)
    (hf : 4 * ((s._j.length : Int) - s._i) + 2 ≤ (fuel + 1 : Nat)) :
    Runs (fun _ s' => s._i ≤ s'._i) (_parseArray.loop (fuel + 1) a s) := by
  obtain ⟨hC, hpar, hB, hI⟩ := hR
  rw [_parseArray.loop]
  apply Runs.seq_c hC
  intro c hc
  by_cases hcb : c ≠ ']'
  · rw [if_pos hcb]
    apply Runs.seq (skipWhiteSpaces_runs s hC)
    intro _ s1 h1 p1
    have f1 := skipWhiteSpaces_fine s hC
    rw [h1] at f1
    obtain ⟨j1, C1, _⟩ := f1
    have e1 := skipWhiteSpaces_heap _ _ _ _ h1
    have k1 : Keep B s s1 := Keep.unchanged B s s1 hI e1
    have l1 : s1._j.length = s._j.length := by rw [j1]
    apply Runs.seq (ihp (some a) s1 ⟨C1, hpar.of_heap e1, by rw [e1]; exact hB, k1.2.2⟩
      (by rw [l1]; push_cast at hf; omega))
    intro n s2 h2 p2
    have f2 := (parse_fine fuel).1 (some a) s1 C1
    rw [h2] at f2
    obtain ⟨j2, C2, _⟩ := f2
    have k2 := (parse_good B fuel).1 _ _ _ _ h2 (hpar.of_heap e1) (by rw [e1]; exact hB)
      k1.2.2
    apply Runs.seq (skipWhiteSpaces_runs s2 C2)
    intro _ s3 h3 p3
    have f3 := skipWhiteSpaces_fine s2 C2
    rw [h3] at f3
    obtain ⟨j3, C3, _⟩ := f3
    have e3 := skipWhiteSpaces_heap _ _ _ _ h3
    apply Runs.seq_c C3
    intro c3 hc3
    by_cases hbad : c3 ≠ ',' ∧ c3 ≠ ']'
    · rw [if_pos hbad]
      exact unexpectedChar_runs s3 _
    · rw [if_neg hbad]
      apply Runs.seq (comma_step_runs c3 s3)
      intro _ s4 h4 p4
      have f4 := comma_step_fine c3 s3 C3 hc3
      rw [h4] at f4
      obtain ⟨j4, C4, _⟩ := f4
      have e4 := comma_step_heap _ _ _ _ h4
      have k4 : Keep B s s4 := Keep.same_heap (k1.comp k2.1) (e4.trans e3)
      have l4 : s4._j.length = s._j.length := by rw [j4, j3, j2, j1]
      exact (ihl a s4 ⟨C4, hpar.keep k4, le_trans hB k4.1, k4.2.2⟩
        (by rw [l4]; push_cast at hf; omega)).widen (fun _ s' hq => by omega)
  · rw [if_neg hcb]
    exact le_refl _

/-- One turn of the object loop does not run out of fuel; the key it deletes is a childless
string, so the destructor has enough fuel as well. -/
theorem objectLoop_runs_step (B fuel : Nat)
    (ihp : ∀ parent s, Ready B parent s →
      4 * ((s._j.length : Int) - s._i) + 1 ≤ fuel →
      Runs (fun _ s' => s._i + 1 ≤ s'._i) (_parse fuel parent s))
    (ihl : ∀ o s, Ready B (some o) s →
      4 * ((s._j.length : Int) - s._i) + 2 ≤ fuel →
      Runs (fun _ s' => s._i ≤ s'._i) (_parseObject.loop fuel o s))
    (o : Nat) (s : State) (hR : Ready B (some o) s)
    (hf : 4 * ((s._j.length : Int) - s._i) + 2 ≤ (fuel + 1 : Nat)) :
    Runs (fun _ s' => s._i ≤ s'._i) (_parseObject.loop (fuel + 1) o s) := by
  obtain ⟨hC, hpar, hB, hI⟩ := hR
  rw [_parseObject.loop]
  apply Runs.seq_c hC
  intro c hc
  by_cases hcb : c ≠ '}'
  · rw [if_pos hcb]
    apply Runs.seq (skipWhiteSpaces_runs s hC)
    intro _ s1 h1 p1
    have f1 := skipWhiteSpaces_fine s hC
    rw [h1] at f1
    obtain ⟨j1, C1, _⟩ := f1
    have e1 := skipWhiteSpaces_heap _ _ _ _ h1
    have k1 : Keep B s s1 := Keep.unchanged B s s1 hI e1
    apply Runs.seq_c C1
    intro c1 hc1
    by_cases hq : c1 ≠ '"'
    · rw [if_pos hq]
      exact unexpectedChar_runs s1 _
    rw [if_neg hq]
    have hq' : c1 = '"' := by simpa using hq
    have hlt1 := lt_of_char_eq s1 C1 c1 '"' hc1 hq' (by decide)
    apply Runs.seq (parseString_runs none s1 C1 hlt1)
    intro key s2 h2 p2
    have f2 := parseString_fine none s1 C1 hlt1
    rw [h2] at f2
    obtain ⟨j2, C2, _⟩ := f2
    have hq1 : _c s1 = .ok '"' s1 := by rw [_c_run s1 C1, ← hc1, hq']
    obtain ⟨⟨k2, key1, key2⟩, key3⟩ := parseString_good B none s1 key s2 h2 hq1
      (by intro p hp; cases hp) k1.2.2
    have hkB : B ≤ key := by rw [key1, e1]; exact hB
    apply Runs.seq (skipWhiteSpaces_runs s2 C2)
    intro _ s3 h3 p3
    have f3 := skipWhiteSpaces_fine s2 C2
    rw [h3] at f3
    obtain ⟨j3, C3, _⟩ := f3
    have e3 := skipWhiteSpaces_heap _ _ _ _ h3
    apply Runs.seq_c C3
    intro c2 hc2
    by_cases hcol : c2 ≠ ':'
    · rw [if_pos hcol]
      exact unexpectedChar_runs s3 _
    rw [if_neg hcol]
    have hcol' : c2 = ':' := by simpa using hcol
    have hlt3 := lt_of_char_eq s3 C3 c2 ':' hc2 hcol' (by decide)
    apply Runs.seq (_ii_runs s3)
    intro _ s4 h4 p4
    have f4 := _ii_fine s3 C3 hlt3
    rw [h4] at f4
    obtain ⟨j4, C4, _⟩ := f4
    have e4 : s4.heap = s3.heap := by rw [_ii_ok _ _ _ h4]
    have k4 : Keep B s s4 := Keep.same_heap (k1.comp k2) (e4.trans e3)
    have l4 : s4._j.length = s._j.length := by rw [j4, j3, j2, j1]
    apply Runs.seq (ihp (some o) s4 ⟨C4, hpar.keep k4, le_trans hB k4.1, k4.2.2⟩
      (by rw [l4]; push_cast at hf; omega))
    intro val s5 h5 p5
    have f5 := (parse_fine fuel).1 (some o) s4 C4
    rw [h5] at f5
    obtain ⟨j5, C5, _⟩ := f5
    obtain ⟨k5, val1, val2⟩ := (parse_good B fuel).1 _ _ _ _ h5 (hpar.keep k4)
      (le_trans hB k4.1) k4.2.2
    apply Runs.seq (skipWhiteSpaces_runs s5 C5)
    intro _ s6 h6 p6
    have f6 := skipWhiteSpaces_fine s5 C5
    rw [h6] at f6
    obtain ⟨j6, C6, _⟩ := f6
    have e6 := skipWhiteSpaces_heap _ _ _ _ h6
    apply Runs.seq_c C6
    intro c3 hc3
    by_cases hbad : c3 ≠ ',' ∧ c3 ≠ '}'
    · rw [if_pos hbad]
      exact unexpectedChar_runs s6 _
    rw [if_neg hbad]
    apply Runs.seq (comma_step_runs c3 s6)
    intro _ s7 h7 p7
    have f7 := comma_step_fine c3 s6 C6 hc3
    rw [h7] at f7
    obtain ⟨j7, C7, _⟩ := f7
    have e7 := comma_step_heap _ _ _ _ h7
    have k7 : Keep B s4 s7 := Keep.same_heap k5 (e7.trans e6)
    have k07 : Keep B s s7 := k4.comp k7
    have hkey4 : key < s4.heap.length := by rw [e4, e3]; exact key2
    have hkey7 : key < s7.heap.length := lt_of_lt_of_le hkey4 k7.1
    apply Runs.seq (setS_runs o key val s7)
    intro _ s8 h8 p8
    have f8 := setS_fine o key val s7 C7
    rw [h8] at f8
    obtain ⟨j8, C8, _⟩ := f8
    have k8 : Keep B s7 s8 := setS_keep B o key val s7 _ s8 h8 k7.2.2
      (by rw [val1]; exact lt_of_lt_of_le (hpar o rfl).1 k4.1)
      (by rw [e7, e6]; exact val2)
      (string_cell B s7.heap key k7.2.2 hkB hkey7).1
    have hty : (deref s8.heap key).type = .string := by
      rw [k8.2.1 key hkey7, k7.2.1 key hkey4, e4, e3]
      exact key3
    have hchild : (deref s8.heap key).children = [] :=
      (string_cell B s8.heap key k8.2.2 hkB (lt_of_lt_of_le hkey7 k8.1)).2 hty
    apply Runs.seq (delete_runs key s8 hchild)
    intro _ s9 h9 p9
    have f9 := delete_fine key s8 C8
    rw [h9] at f9
    obtain ⟨j9, C9, _⟩ := f9
    have e9 := delete_childless key s8 _ s9 h9 hchild
    have k9 : Keep B s s9 := Keep.same_heap (k07.comp k8) e9
    have l9 : s9._j.length = s._j.length := by rw [j9, j8, j7, j6, j5, j4, j3, j2, j1]
    exact (ihl o s9 ⟨C9, hpar.keep k9, le_trans hB k9.1, k9.2.2⟩
      (by rw [l9]; push_cast at hf; omega)).widen (fun _ s' hq => by omega)
  · rw [if_neg hcb]
    exact le_refl _

/-- A container routine does not run out of fuel when its loop does not. -/
theorem container_runs (B F : Nat) (pl : Payload) (hpl : pl = .Array ∨ pl = .Object [])
    (loop : Nat → M Unit)
    (hfine : ∀ a s, CursorOK s →
      Fine s._j (fun _ s' => s'._i < s'._j.length) (loop a s))
    (ihl : ∀ a s, Ready B (some a) s →
      4 * ((s._j.length : Int) - s._i) + 2 ≤ F →
      Runs (fun _ s' => s._i ≤ s'._i) (loop a s))
    (parent : Option Nat) (s : State) (hR : Ready B parent s) (hlt : s._i < s._j.length)
    (hf : 4 * ((s._j.length : Int) - s._i) ≤ (F + 1 : Nat)) :
    Runs (fun _ s' => s._i + 1 ≤ s'._i) ((do
      let a ← newNode pl
      _hPrt parent a
      _ii
      loop a
      let _ ← _iis
      pure a : M Nat) s) := by
  obtain ⟨hC, hpar, hB, hI⟩ := hR
  have hbind := newNode_hPrt pl parent s (fun a => _ii >>= fun _ =>
    loop a >>= fun _ => _iis >>= fun _ => pure a)
  simp only [bind_assoc] at hbind ⊢
  rw [hbind]
  have hl : CursorOK (leaf pl parent s) := hC.of_eq rfl rfl
  have hcell : cellOK (s.heap.length + 1) s.heap.length ⟨pl, parent, []⟩ := by
    rcases hpl with e | e <;> subst e <;> simp [cellOK]
  have k0 : Keep B s (leaf pl parent s) := leaf_keep B pl parent s hpar hI hcell
  apply Runs.seq (_ii_runs (leaf pl parent s))
  intro _ s1 h1 p1
  have f1 := _ii_fine (leaf pl parent s) hl hlt
  rw [h1] at f1
  obtain ⟨j1, C1, _⟩ := f1
  have j1' : s1._j = s._j := j1
  have p1' : s1._i = s._i + 1 := p1
  have e1 : s1.heap = (leaf pl parent s).heap := by rw [_ii_ok _ _ _ h1]
  have k1 : Keep B s s1 := Keep.same_heap k0 e1
  have hlen : s1.heap.length = s.heap.length + 1 := by rw [e1, leaf_heap_length]
  have hty : (deref s1.heap s.heap.length).type ≠ .string := by
    rw [e1, leaf_new_cell pl parent s (fun p hp => (hpar p hp).1)]
    rcases hpl with e | e <;> subst e <;> simp [Node.type]
  have hpar1 : ParentOK (some s.heap.length) s1 := by
    intro p hp
    injection hp with hp
    subst hp
    exact ⟨by rw [hlen]; omega, hty⟩
  apply Runs.seq (ihl s.heap.length s1 ⟨C1, hpar1, le_trans hB k1.1, k1.2.2⟩
    (by rw [j1', p1']; push_cast at hf; omega))
  intro _ s2 h2 p2
  have f2 := hfine s.heap.length s1 C1
  rw [h2] at f2
  obtain ⟨j2, C2, lt2⟩ := f2
  apply Runs.seq (_iis_runs s2 lt2)
  intro _ s3 _ p3
  show s._i + 1 ≤ s3._i
  omega

/-- No parsing routine runs out of fuel when it starts with four units for every character
from the cursor to the end of the buffer (and one or two more); a routine that returns has
moved the cursor forward. -/
theorem parse_runs (B : Nat) (fuel : Nat) :
    (∀ parent s, Ready B parent s →
      4 * ((s._j.length : Int) - s._i) + 1 ≤ fuel →
      Runs (fun _ s' => s._i + 1 ≤ s'._i) (_parse fuel parent s)) ∧
    (∀ parent s, Ready B parent s → s._i < s._j.length →
      4 * ((s._j.length : Int) - s._i) ≤ fuel →
      Runs (fun _ s' => s._i + 1 ≤ s'._i) (_parseArray fuel parent s)) ∧
    (∀ parent s, Ready B parent s → s._i < s._j.length →
      4 * ((s._j.length : Int) - s._i) ≤ fuel →
      Runs (fun _ s' => s._i + 1 ≤ s'._i) (_parseObject fuel parent s)) ∧
    (∀ a s, Ready B (some a) s →
      4 * ((s._j.length : Int) - s._i) + 2 ≤ fuel →
      Runs (fun _ s' => s._i ≤ s'._i) (_parseArray.loop fuel a s)) ∧
    (∀ o s, Ready B (some o) s →
      4 * ((s._j.length : Int) - s._i) + 2 ≤ fuel →
      Runs (fun _ s' => s._i ≤ s'._i) (_parseObject.loop fuel o s)) := by
  induction fuel with
  | zero =>
    refine ⟨?_, ?_, ?_, ?_, ?_⟩
    · intro parent s hR hf
      have := hR.1.2.1
      omega
    · intro parent s hR hlt hf
      omega
    · intro parent s hR hlt hf
      omega
    · intro a s hR hf
      have := hR.1.2.1
      omega
    · intro a s hR hf
      have := hR.1.2.1
      omega
  | succ f ih =>
    obtain ⟨ihp, ihA, ihO, iha, iho⟩ := ih
    refine ⟨?_, ?_, ?_, arrayLoop_runs_step B f ihp iha, objectLoop_runs_step B f ihp iho⟩
    · intro parent s hR hf
      obtain ⟨hC, hpar, hB, hI⟩ := hR
      rw [_parse]
      apply Runs.seq (skipWhiteSpaces_runs s hC)
      intro _ s1 h1 p1
      have f1 := skipWhiteSpaces_fine s hC
      rw [h1] at f1
      obtain ⟨j1, C1, _⟩ := f1
      have e1 := skipWhiteSpaces_heap _ _ _ _ h1
      have hR1 : Ready B parent s1 :=
        ⟨C1, hpar.of_heap e1, by rw [e1]; exact hB, by rw [e1]; exact hI⟩
      have l1 : s1._j.length = s._j.length := by rw [j1]
      apply Runs.seq_c C1
      intro c hc
      have tr : ∀ r : Res Nat, Runs (fun _ s' => s1._i + 1 ≤ s'._i) r →
          Runs (fun _ s' => s._i + 1 ≤ s'._i) r :=
        fun r hr => hr.widen (fun _ s' hq => by omega)
      apply tr
      split
      · exact parseNull_runs parent s1
      split
      · exact parseBoolean_runs parent s1
      split
      · rename_i hn
        rw [hc] at hn
        exact parseNumber_runs parent s1 C1 hn
      split
      · rename_i hq
        exact parseString_runs parent s1 C1 (lt_of_char_eq s1 C1 c '"' hc hq (by decide))
      split
      · rename_i hq
        exact ihO parent s1 hR1 (lt_of_char_eq s1 C1 c '{' hc hq (by decide))
          (by rw [l1]; push_cast at hf; omega)
      split
      · rename_i hq
        exact ihA parent s1 hR1 (lt_of_char_eq s1 C1 c '[' hc hq (by decide))
          (by rw [l1]; push_cast at hf; omega)
      · exact unexpectedChar_runs s1 _
    · intro parent s hR hlt hf
      rw [_parseArray]
      exact container_runs B f .Array (Or.inl rfl) (_parseArray.loop f)
        (parse_fine f).2.2.2.1 iha parent s hR hlt hf
    · intro parent s hR hlt hf
      rw [_parseObject]
      exact container_runs B f (.Object []) (Or.inr rfl) (_parseObject.loop f)
        (parse_fine f).2.2.2.2 iho parent s hR hlt hf

/-- The fuel `parse` starts with is enough on every text: the model never cuts a run short, so
what it returns is what the program returns. -/
theorem parse_total (text : List Char) (g : State) (s' : State) :
    parse text g ≠ .raise .outOfFuel s' := by
  have h0 : CursorOK { g with _j := text, _i := 0 } :=
    ⟨le_refl _, by show (0 : Int) ≤ text.length; omega, fun he => by
      left
      have he' : (0 : Int) = text.length := he
      apply List.eq_nil_of_length_eq_zero
      show text.length = 0
      omega⟩
  have hpar : ParentOK none { g with _j := text, _i := 0 } := by
    intro p hp
    cases hp
  have hI : Inv g.heap.length ({ g with _j := text, _i := 0 } : State).heap := by
    intro i hB hi
    exact absurd hi (by show ¬ i < g.heap.length; omega)
  have hf : 4 * ((({ g with _j := text, _i := 0 } : State)._j.length : Int) -
      ({ g with _j := text, _i := 0 } : State)._i) + 1 ≤ ((4 * text.length + 4 : Nat) : Int) := by
    show 4 * ((text.length : Int) - 0) + 1 ≤ ((4 * text.length + 4 : Nat) : Int)
    push_cast
    omega
  have hr := (parse_runs g.heap.length (4 * text.length + 4)).1 none
    { g with _j := text, _i := 0 } ⟨h0, hpar, le_refl _, hI⟩ hf
  unfold parse
  cases hp : _parse (4 * text.length + 4) none { g with _j := text, _i := 0 } with
  | ok n s =>
    intro h
    cases h
  | raise e s =>
    rw [hp] at hr
    have he : e ≠ .outOfFuel := hr
    simp only
    intro h
    split at h
    · cases h
    · injection h with h1 _
      exact he h1

theorem parse_nil_fails (g : State) :
    _parse (4 * ([] : List Char).length + 4) none { g with _j := [], _i := 0 } =
      .raise (.unexpectedChar '\x00' 0) { g with _j := [], _i := 0 } := by
  rfl

/-- C17: on every input, no unchecked read of the current character is made outside the
buffer and its terminator: `parse` never ends in the undefined read that `_c()` is at a
negative cursor or past the terminator, the run is never cut short by a loop counter of the
model, and in every final state, whether `parse` returns a node or `NULL`, the cursor is
between `0` and the length of the text. The terminator itself is read only on an empty text
or after a literal that ends the text: when `parse` returns a node the cursor is at the length
only if the text ends with a literal, and the `UnexpectedCharacter` error that a read of the
terminator leads to, reported at the position `length(text)`, occurs only for those texts. -/
theorem parse_reads_in_range (text : List Char) (g : State) :
    (∀ s', parse text g ≠ .raise .undefinedRead s') ∧
    (∀ s', parse text g ≠ .raise .outOfFuel s') ∧
    (∀ r s', parse text g = .ok r s' → 0 ≤ s'._i ∧ s'._i ≤ text.length) ∧
    (∀ r s', parse text g = .ok (some r) s' → s'._i = text.length → EndsLit text) ∧
    (∀ s' c, parse text g = .ok none s' →
      s'.cerr.getLast? = some (.unexpectedChar c text.length) →
      text = [] ∨ EndsLit text) := by
  have key : (∀ s', parse text g ≠ .raise .undefinedRead s') ∧
      (∀ r s', parse text g = .ok r s' → 0 ≤ s'._i ∧ s'._i ≤ text.length) ∧
      (∀ r s', parse text g = .ok (some r) s' → s'._i = text.length → EndsLit text) ∧
      (∀ s' c, parse text g = .ok none s' →
        s'.cerr.getLast? = some (.unexpectedChar c text.length) →
        text = [] ∨ EndsLit text) := by
    have h0 : CursorOK { g with _j := text, _i := 0 } :=
      ⟨le_refl _, by show (0 : Int) ≤ text.length; omega, fun he => by
        left
        have he' : (0 : Int) = text.length := he
        apply List.eq_nil_of_length_eq_zero
        show text.length = 0
        omega⟩
    have hf := (parse_fine (4 * text.length + 4)).1 none { g with _j := text, _i := 0 } h0
    unfold parse
    cases hp : _parse (4 * text.length + 4) none { g with _j := text, _i := 0 } with
    | ok n s =>
      rw [hp] at hf
      obtain ⟨hj, hc, _⟩ := hf
      have hj' : s._j = text := hj
      obtain ⟨c1, c2, c3⟩ := hc
      rw [hj'] at c2 c3
      dsimp only
      refine ⟨fun s' he => Res.noConfusion he, ?_, ?_, fun s' c he => ?_⟩
      on_goal 3 =>
        injection he with he _
        cases he
      · intro r s' he
        injection he with _ he
        subst he
        exact ⟨c1, c2⟩
      · intro r s' he hi
        injection he with _ he
        subst he
        rcases c3 hi with h | h
        · subst h
          rw [parse_nil_fails] at hp
          cases hp
        · exact h
    | raise e s =>
      rw [hp] at hf
      obtain ⟨hj, he1, hb1, hb2, he2⟩ := hf
      have hj' : s._j = text := hj
      rw [hj'] at hb2
      simp only
      refine ⟨?_, ?_, ?_, ?_⟩
      · intro s' hs
        split at hs
        · cases hs
        · injection hs with hs _
          exact he1 hs
      · intro r s' hs
        split at hs
        · injection hs with _ hs
          rw [← hs]
          exact ⟨hb1, hb2⟩
        · cases hs
      · intro r s' hs
        split at hs
        · injection hs with hs _
          cases hs
        · cases hs
      · intro s' c hs hl
        split at hs
        · injection hs with _ hs
          rw [← hs] at hl
          simp only [List.getLast?_append, List.getLast?_singleton, Option.or_some,
            Option.some.injEq] at hl
          have := he2 c text.length hl (by rw [hj'])
          rw [hj'] at this
          exact this
        · cases hs
  exact ⟨key.1, parse_total text g, key.2⟩

/-- Witness for `parse_reads_in_range`: on `[null` the terminator is read after the literal
and reported as an unexpected character at position `5`; on ` true` the cursor ends at the
length of the text. -/
theorem parse_reads_in_range_witness :
    parse "[null".toList State.init =
      .ok none ⟨"[null".toList, 5, [⟨.Array, none, [1]⟩, ⟨.Null, some 0, []⟩], 2,
        [.unexpectedChar '\x00' 5], []⟩ ∧
    ("[null".toList = [] ∨ EndsLit "[null".toList) ∧
    parse " true".toList State.init =
      .ok (some 0) ⟨" true".toList, 5, [⟨.Boolean true, none, []⟩], 1, [], []⟩ ∧
    EndsLit " true".toList :=
  ⟨by decide!,
    (parse_reads_in_range "[null".toList State.init).2.2.2.2
      ⟨"[null".toList, 5, [⟨.Array, none, [1]⟩, ⟨.Null, some 0, []⟩], 2,
        [.unexpectedChar '\x00' 5], []⟩ '\x00' (by decide!) (by decide),
    by decide!,
    (parse_reads_in_range " true".toList State.init).2.2.2.1 0
      ⟨" true".toList, 5, [⟨.Boolean true, none, []⟩], 1, [], []⟩ (by decide!) (by decide)⟩

end json
